import Mathlib

/-!
# PreTradeRM: order-check rules and the evaluation engine

A shallow embedding of the risk-gate server's core (`RiskManager.h`,
`OrderCheckRules.cpp`, `DrawDownRule.cpp`, `Common/FramedQueue.h`,
`Common/CallbackManager.h`) together with theorems about it.

Conventions of the embedding.

* `TDateTime` (`std::chrono::system_clock::time_point`) is the integer count of
  nanoseconds since the epoch; durations given in other units in the
  configuration are converted on use, as the `std::chrono` operators do.
* `TPrice`/`TQty` (`double`) are rationals: arithmetic is exact.
* `std::map`/`std::unordered_map` objects that are only searched by key and
  inserted into are functions from the key to `Option`.
* Mutexes are left out: every operation is one atomic step.
* A member function that may throw `CCheckOrderError` returns the object as it is
  when control leaves the call, paired with the exception in flight (if any).
-/

namespace RM
/-! ## Scalar types and events (`RiskManager.h`) -/

abbrev TSymbol := String
abbrev TUserID := String
abbrev TTradeID := String
abbrev TOrderID := String
abbrev TPrice := ℚ
abbrev TQty := ℚ
abbrev TDateTime := Int

/-- The type `enum class TSide : char`; parsing stores whatever character arrives. -/
abbrev TSide := Char
def TSide.Buy : TSide := 'B'
def TSide.Sell : TSide := 'S'

/-- The type `enum class TOrderType : int`; parsing stores whatever integer arrives. -/
abbrev TOrderType := Int
def TOrderType.Market : TOrderType := 0
def TOrderType.Limit : TOrderType := 1

/-- Nanoseconds in one millisecond (`std::chrono::milliseconds` to the clock's duration). -/
def nsPerMs : Int := 1000000
/-- Nanoseconds in one second (`std::chrono::seconds` to the clock's duration). -/
def nsPerSec : Int := 1000000000

structure SQuote where
  m_symbol : TSymbol := ""
  m_price : TPrice := 0
  m_time : TDateTime := 0

structure STrade where
  m_trade_id : TTradeID := ""
  m_user_id : TUserID := ""
  m_symbol : TSymbol := ""
  m_side : TSide := Char.ofNat 0
  m_price : TPrice := 0
  m_qty : TQty := 0
  m_time : TDateTime := 0

structure SOrder where
  m_order_id : TOrderID := ""
  m_user_id : TUserID := ""
  m_type : TOrderType := 0
  m_symbol : TSymbol := ""
  m_side : TSide := Char.ofNat 0
  m_price : TPrice := 0
  m_qty : TQty := 0
  m_time : TDateTime := 0

/-! ## Rejections (`CCheckOrderError`, `COrderCheckRule::RejectOrder`) -/

/-- One value handed to `TS::FormatStr` after the reason text of a rejection. -/
inductive TFormatArg where
  | duration (ns : Int)
  | price (p : TPrice)
  | text (s : String)
  | count (n : Nat)
deriving DecidableEq

/-- The exception `CCheckOrderError`. The C++ object keeps `m_moratorium` (seconds) and the
text `FormatStr(reason, args...)`; here the reason and the arguments are kept apart and
`CCheckOrderError.what` formats them. -/
structure CCheckOrderError where
  m_moratorium : Int
  m_reason : String
  m_args : List TFormatArg
deriving DecidableEq

/-- The text `err.what()`: `TS::FormatStr(reason, args...)`, the values joined by `", "`
(`CommaSpace`). `fmt` is `TS::FormatVal` on one argument (ostream formatting). -/
def CCheckOrderError.what (fmt : TFormatArg → String) (e : CCheckOrderError) : String :=
  ", ".intercalate (e.m_reason :: e.m_args.map fmt)

/-- Configuration `CheckRule::CConfig`: `moratorium` in seconds, default `1min`. -/
structure CheckRule.CConfig where
  moratorium : Int := 60

/-- Base class `COrderCheckRule` (its data member). -/
structure COrderCheckRule where
  m_cfg : CheckRule.CConfig := {}

/-- The call `RejectOrder(order, reason, args...)`: the exception it raises. -/
def COrderCheckRule.RejectOrder (self : COrderCheckRule) (_order : SOrder) (reason : String)
    (args : List TFormatArg) : CCheckOrderError :=
  { m_moratorium := self.m_cfg.moratorium, m_reason := reason, m_args := args }

/-! ## Rule 1: new-order moratorium (`CNewOrderMoratorium`) -/

/-- Configuration `NewOrderMoratorium::CConfig`: `timeout` in milliseconds, default `1s`. -/
structure NewOrderMoratorium.CConfig where
  timeout : Int := 1000

/-- The rule object: `m_investors` maps `(user_id, symbol)` to `CInvestor::m_order_time`. -/
structure CNewOrderMoratorium where
  base : COrderCheckRule := {}
  m_cfg : NewOrderMoratorium.CConfig := {}
  m_investors : TUserID × TSymbol → Option TDateTime := fun _ => none

/-- The member function `CNewOrderMoratorium::CheckOrder`. -/
def CNewOrderMoratorium.CheckOrder (self : CNewOrderMoratorium) (order : SOrder) :
    CNewOrderMoratorium × Option CCheckOrderError :=
  let key := (order.m_user_id, order.m_symbol)
  match self.m_investors key with
  | none =>
    -- Emplace created the entry with m_order_time = order.m_time: new investor
    ({ self with m_investors := Function.update self.m_investors key (some order.m_time) }, none)
  | some m_order_time =>
    if m_order_time > order.m_time then
      (self, none)
    else
      let tm := m_order_time + self.m_cfg.timeout * nsPerMs
      if tm > order.m_time then
        (self, some (self.base.RejectOrder order "NewOrderMoratorium"
          [TFormatArg.duration (tm - order.m_time)]))
      else
        ({ self with m_investors := Function.update self.m_investors key (some order.m_time) },
          none)

/-! ## Moving windows (`Common/FramedQueue.h`) -/

/-- Data members of `CFramedQueue<V>`: the frame (nanoseconds), the number of items eviction
always leaves (`m_rem`, default 1) and the deque of `(timestamp, value)` pairs, front first. -/
structure CFramedQueue (V : Type) where
  m_frame : Int
  m_rem : Nat := 1
  m_items : List (TDateTime × V) := []

namespace CFramedQueue

variable {V A : Type}

/-- The `while` loop of `_EraseExpired`. `EraseItem` is the virtual hook and `a` the data of
the derived class that the hook updates; the result is the deque, that data and `res`. -/
def eraseLoop (EraseItem : TDateTime → V → A → A) (m_frame : Int) (m_rem : Nat)
    (tm : TDateTime) : List (TDateTime × V) → A → Bool → List (TDateTime × V) × A × Bool
  | [], a, res => ([], a, res)
  | item :: rest, a, res =>
    if (item :: rest).length > m_rem then
      if item.1 + m_frame < tm then
        eraseLoop EraseItem m_frame m_rem tm rest (EraseItem item.1 item.2 a) true
      else
        (item :: rest, a, res)
    else
      (item :: rest, a, res)

/-- The member function `_EraseExpired(tm, lock)`. -/
def _EraseExpired (EraseItem : TDateTime → V → A → A) (self : CFramedQueue V) (a : A)
    (tm : TDateTime) : CFramedQueue V × A × Bool :=
  match self.m_items with
  | [] => (self, a, false)
  | front :: _ =>
    if tm ≤ front.1 then
      (self, a, false)
    else
      let r := eraseLoop EraseItem self.m_frame self.m_rem tm self.m_items a false
      ({ self with m_items := r.1 }, r.2.1, r.2.2)

/-- The position `std::upper_bound` finds with the comparison `tm < item.first`, followed by
`insert`: the new pair goes before the first item whose timestamp is greater than `tm` (the
result the standard specifies for a deque ordered by time). -/
def insertUpperBound (tm : TDateTime) (val : V) : List (TDateTime × V) → List (TDateTime × V)
  | [] => [(tm, val)]
  | item :: rest =>
    if tm < item.1 then (tm, val) :: item :: rest
    else item :: insertUpperBound tm val rest

/-- The member function `_PutValue(tm, val, lock)`. -/
def _PutValue (EraseItem : TDateTime → V → A → A) (self : CFramedQueue V) (a : A)
    (tm : TDateTime) (val : V) : CFramedQueue V × A × Bool :=
  match self.m_items with
  | [] => ({ self with m_items := [(tm, val)] }, a, true)
  | front :: rest =>
    let tm1 := front.1
    let tm2 := ((front :: rest).getLast (List.cons_ne_nil front rest)).1
    if tm2 < tm ∨ ¬ (tm < tm2) then
      let r := if tm1 + self.m_frame < tm then _EraseExpired EraseItem self a tm
               else (self, a, false)
      ({ r.1 with m_items := r.1.m_items ++ [(tm, val)] }, r.2.1, true)
    else if tm1 < tm then
      ({ self with m_items := insertUpperBound tm val self.m_items }, a, true)
    else if tm2 < tm + self.m_frame then
      ({ self with m_items := (tm, val) :: self.m_items }, a, true)
    else
      (self, a, false)

end CFramedQueue

/-- Data members of `CMovingSum<V, S>`: the base queue and the running sum `m_sum`. -/
structure CMovingSum (V S : Type) extends CFramedQueue V where
  m_sum : S

namespace CMovingSum

variable {V S : Type}

/-- The override `CMovingSum::EraseItem`: `m_sum -= val`. -/
def EraseItem [HSub S V S] (_tm : TDateTime) (val : V) (m_sum : S) : S := m_sum - val

/-- The member function `CMovingSum::PutValue`. -/
def PutValue [HAdd S V S] [HSub S V S] (self : CMovingSum V S) (tm : TDateTime) (val : V) :
    CMovingSum V S × Bool :=
  let r := CFramedQueue._PutValue EraseItem self.toCFramedQueue self.m_sum tm val
  if r.2.2 = false then
    ({ toCFramedQueue := r.1, m_sum := r.2.1 }, false)
  else
    ({ toCFramedQueue := r.1, m_sum := r.2.1 + val }, true)

/-- The inherited member function `EraseExpired(tm)` on a `CMovingSum` object. -/
def EraseExpired [HSub S V S] (self : CMovingSum V S) (tm : TDateTime) :
    CMovingSum V S × Bool :=
  let r := CFramedQueue._EraseExpired EraseItem self.toCFramedQueue self.m_sum tm
  ({ toCFramedQueue := r.1, m_sum := r.2.1 }, r.2.2)

/-- The member function `CMovingSum::GetAverage(tm)` for `CMovingSum<TPrice>`. -/
def GetAverage (self : CMovingSum TPrice TPrice) (tm : TDateTime) :
    CMovingSum TPrice TPrice × TPrice :=
  let r := CFramedQueue._EraseExpired EraseItem self.toCFramedQueue self.m_sum tm
  let self1 : CMovingSum TPrice TPrice := { toCFramedQueue := r.1, m_sum := r.2.1 }
  (self1, if self1.m_items ≠ [] then self1.m_sum / (self1.m_items.length : TPrice) else 0)

end CMovingSum

/-- The average of the values held in a window, 0 for an empty window. -/
def windowAverage (items : List (TDateTime × TPrice)) : TPrice :=
  if items = [] then 0 else (items.map Prod.snd).sum / (items.length : TPrice)

/-! ## Rule 4: price check (`CPriceCheck`) -/

/-- Configuration `PriceCheck::CConfig`: `timeframe` in seconds (default `3h`) and
`price_dev` (default `5.0 / 100.0`). -/
structure PriceCheck.CConfig where
  timeframe : Int := 10800
  price_dev : TPrice := 5 / 100

/-- The rule object: `m_instrs` maps a symbol to its `CMovingSum<TPrice>` window. -/
structure CPriceCheck where
  base : COrderCheckRule := {}
  m_cfg : PriceCheck.CConfig := {}
  m_instrs : TSymbol → Option (CMovingSum TPrice TPrice) := fun _ => none

namespace CPriceCheck

/-- The member function `GetInstrument(id)`: the window of `id`, created empty with frame
`m_cfg.timeframe` (and the default `rem = 1`) when absent. -/
def GetInstrument (self : CPriceCheck) (id : TSymbol) :
    CPriceCheck × CMovingSum TPrice TPrice :=
  match self.m_instrs id with
  | some instr => (self, instr)
  | none =>
    let instr : CMovingSum TPrice TPrice :=
      { m_frame := self.m_cfg.timeframe * nsPerSec, m_rem := 1, m_items := [], m_sum := 0 }
    ({ self with m_instrs := Function.update self.m_instrs id (some instr) }, instr)

/-- The member function `ProcessQuote(quote)`. -/
def ProcessQuote (self : CPriceCheck) (quote : SQuote) : CPriceCheck :=
  let r := self.GetInstrument quote.m_symbol
  let instr := (r.2.PutValue quote.m_time quote.m_price).1
  { r.1 with m_instrs := Function.update r.1.m_instrs quote.m_symbol (some instr) }

/-- The member function `CPriceCheck::CheckOrder(order)`. -/
def CheckOrder (self : CPriceCheck) (order : SOrder) : CPriceCheck × Option CCheckOrderError :=
  if order.m_type ≠ TOrderType.Limit then
    (self, none)
  else
    match self.m_instrs order.m_symbol with
    | none =>
      (self, some (self.base.RejectOrder order "InstrumentNotFound"
        [TFormatArg.text order.m_symbol]))
    | some instr =>
      let r := instr.GetAverage order.m_time
      let avg := r.2
      let self1 : CPriceCheck :=
        { self with m_instrs := Function.update self.m_instrs order.m_symbol (some r.1) }
      let reject : Bool :=
        if order.m_side = TSide.Buy then
          decide (order.m_price > avg * (1 + self.m_cfg.price_dev))
        else
          decide (-order.m_price < -avg * (1 - self.m_cfg.price_dev))
      if reject then
        (self1, some (self.base.RejectOrder order "PriceCheck" [TFormatArg.price avg]))
      else
        (self1, none)

end CPriceCheck

/-- An event delivered to the price-check rule: a quote or an order to check. -/
inductive TPriceCheckEvent where
  | quote (q : SQuote)
  | order (o : SOrder)

/-- The rule after one event (the outcome of an order check is dropped here). -/
def CPriceCheck.step (self : CPriceCheck) : TPriceCheckEvent → CPriceCheck
  | TPriceCheckEvent.quote q => self.ProcessQuote q
  | TPriceCheckEvent.order o => (self.CheckOrder o).1

/-- The rule after a sequence of events, oldest first. -/
def CPriceCheck.run (self : CPriceCheck) (events : List TPriceCheckEvent) : CPriceCheck :=
  events.foldl CPriceCheck.step self

/-! ## Rule 3: sequence of bad trades (`CSeqBadTrades`), state and order check -/

/-- The virtual hook `CFramedQueue::EraseItem` of the base class: it does nothing. -/
def CFramedQueue.EraseItem {V : Type} (_tm : TDateTime) (_val : V) (u : Unit) : Unit := u

/-- The member function `CFramedQueue::GetSize(tm)` on a plain `CFramedQueue`. -/
def CFramedQueue.GetSize {V : Type} (self : CFramedQueue V) (tm : TDateTime) :
    CFramedQueue V × Nat :=
  let r := CFramedQueue._EraseExpired CFramedQueue.EraseItem self () tm
  (r.1, r.1.m_items.length)

/-- The overload `CMovingSum::GetAverage() const` (no timestamp, no eviction). -/
def CMovingSum.GetAverageConst (self : CMovingSum TPrice TPrice) : TPrice :=
  if self.m_items ≠ [] then self.m_sum / (self.m_items.length : TPrice) else 0

/-- Configuration `SeqBadTrades::CConfig`: `timeframe` in seconds (default `60s`), `cnt`
(default 5). -/
structure SeqBadTrades.CConfig where
  timeframe : Int := 60
  cnt : Nat := 5

/-- The record `CSeqBadTrades::CTradesPair` of one `(symbol, user)`. -/
structure CTradesPair where
  m_side : TSide := TSide.Buy
  m_time : TDateTime := 0
  m_price : CMovingSum TPrice TPrice
  m_price2 : TPrice := 0
  m_bads : CFramedQueue Int

/-- The member function `CTradesPair::_IsBadTrade(price)`. -/
def CTradesPair._IsBadTrade (self : CTradesPair) (price : TPrice) : Bool :=
  if self.m_price2 = 0 ∨ price = 0 then false
  else if self.m_side = TSide.Buy then decide (price > self.m_price2)
  else decide (price < self.m_price2)

/-- The member function `CTradesPair::GetBadTrades(tm)`. -/
def CTradesPair.GetBadTrades (self : CTradesPair) (tm : TDateTime) : CTradesPair × Nat :=
  let r := self.m_bads.GetSize tm
  let n := r.2
  let self1 : CTradesPair := { self with m_bads := r.1 }
  (self1, if self1._IsBadTrade self1.m_price.GetAverageConst then n + 1 else n)

/-- The rule object: `m_trades` maps `(symbol, user_id)` to its `CTradesPair`. -/
structure CSeqBadTrades where
  base : COrderCheckRule := {}
  m_cfg : SeqBadTrades.CConfig := {}
  m_trades : TSymbol × TUserID → Option CTradesPair := fun _ => none

/-- The member function `CSeqBadTrades::CheckOrder(order)`. -/
def CSeqBadTrades.CheckOrder (self : CSeqBadTrades) (order : SOrder) :
    CSeqBadTrades × Option CCheckOrderError :=
  match self.m_trades (order.m_symbol, order.m_user_id) with
  | none => (self, none)
  | some pair =>
    let r := pair.GetBadTrades order.m_time
    let n := r.2
    let self1 : CSeqBadTrades :=
      { self with m_trades :=
          Function.update self.m_trades (order.m_symbol, order.m_user_id) (some r.1) }
    if n > self.m_cfg.cnt then
      (self1, some (self.base.RejectOrder order "SeqBadTrades" [TFormatArg.count n]))
    else
      (self1, none)

/-! ## Rule 2: trailing drawdown (`DrawDownRule.cpp`), state and order check -/

/-- Configuration `DrawDownRule::CConfig`: `pnl_time` in seconds (default `24h`), `drawdown`
(default 100). -/
structure DrawDownRule.CConfig where
  pnl_time : Int := 86400
  drawdown : TPrice := 100

/-- A trade of a position, `CTrade`: the quantity is negative for a sale. -/
structure CTrade where
  m_price : TPrice := 0
  m_qty : TQty := 0

/-- The accumulator `CPositionYield`. -/
structure CPositionYield where
  m_sum : TPrice := 0
  m_qty : TQty := 0

/-- Data members of `CMovingMinMax<V>`: the base queue and `m_items2`, the
`std::map<V, size_t>` of value counts, as its entries in key order. -/
structure CMovingMinMax (V : Type) extends CFramedQueue V where
  m_items2 : List (V × Nat) := []

/-- A position, `CPosition`: `m_price` is the pair `(price, time)` of the latest quote. -/
structure CPosition where
  m_price : TPrice × TDateTime
  m_yield : TPrice := 0
  m_trades : CMovingSum CTrade CPositionYield

/-- An investor of the drawdown rule, `CInvestor` of `DrawDownRule.cpp`. -/
structure CInvestor where
  m_pnl : TPrice := 0
  m_pnl_max : CMovingMinMax TPrice
  m_drawdown : TPrice := 0
  m_time : TDateTime := 0
  m_positions : TSymbol → Option CPosition := fun _ => none

/-- The rule object `CDrawDown`. `m_positions` is the `std::map` from `(symbol, user_id)` to
the investor it points to (named by its user id), as its entries in key order. -/
structure CDrawDown where
  base : COrderCheckRule := {}
  m_cfg : DrawDownRule.CConfig := {}
  m_investors : TUserID → Option CInvestor := fun _ => none
  m_positions : List ((TSymbol × TUserID) × TUserID) := []
  m_prices : TSymbol → Option (TPrice × TDateTime) := fun _ => none

/-- The member function `CDrawDown::CheckOrder(order)`. -/
def CDrawDown.CheckOrder (self : CDrawDown) (order : SOrder) :
    CDrawDown × Option CCheckOrderError :=
  match self.m_investors order.m_user_id with
  | none => (self, none)
  | some inv =>
    if inv.m_drawdown > self.m_cfg.drawdown then
      (self, some (self.base.RejectOrder order "TrailingDrowdown"
        [TFormatArg.price inv.m_drawdown]))
    else
      (self, none)

/-! ## Callback registry (`Common/CallbackManager.h`) -/

/-- The object `CCallback<T>::CWeakRef`: a weak reference to the handler body; `m_sp` is
`none` once the handle was reset. -/
structure CWeakRef (α : Type) where
  m_sp : Option α

/-- The class `CCallbackManager<_TCallback, void>`: `m_items` is the list of weak pointers to
the `CWeakRef` objects of the registered handles, in registration order; an entry is `none`
once its `CWeakRef` was released. -/
structure CCallbackManager (α : Type) where
  m_items : List (Option (CWeakRef α)) := []

namespace CCallbackManager

variable {α σ : Type}

/-- The member function `RegisterCallback`: a handle is created for the handler body `sp`
and its weak reference is put at the back of `m_items`. -/
def RegisterCallback (self : CCallbackManager α) (sp : α) : CCallbackManager α :=
  { m_items := self.m_items ++ [some { m_sp := some sp }] }

/-- The member function `_GetCallbacks(items)`: released entries are removed from `m_items`,
the others are locked and collected in order. -/
def _GetCallbacks (self : CCallbackManager α) : CCallbackManager α × List (CWeakRef α) :=
  ({ m_items := self.m_items.filter Option.isSome }, self.m_items.filterMap id)

/-- The `for` loop of `ForEachCallback2` over the collected items. `call` runs one handler
body on the state `s`; an exception leaves the loop at once. The last component is a ghost
record of the handler bodies that were invoked, in order. -/
def forEachLoop (call : α → σ → σ × Option CCheckOrderError) :
    List (CWeakRef α) → σ → List α → σ × Option CCheckOrderError × List α
  | [], s, calls => (s, none, calls)
  | item :: rest, s, calls =>
    match item.m_sp with
    | none => forEachLoop call rest s calls
    | some sp =>
      match call sp s with
      | (s1, some err) => (s1, some err, calls ++ [sp])
      | (s1, none) => forEachLoop call rest s1 (calls ++ [sp])

end CCallbackManager

/-! ## Evaluation engine (`RiskManager.h`, `RiskManager.cpp`, `main.cpp`) -/

/-- A rule object held by `m_rules` (`std::unique_ptr<COrderCheckRule>` to one of the four
rule classes). -/
inductive CRule where
  | NewOrderMoratorium (r : CNewOrderMoratorium)
  | PriceCheck (r : CPriceCheck)
  | SeqBadTrades (r : CSeqBadTrades)
  | DrawDown (r : CDrawDown)

/-- A handler body registered by a rule: the rule's member function for the event type of
the registry, bound to the rule object, which is named by its position in `m_rules`. -/
structure TCallback where
  rule : Nat
deriving DecidableEq

/-- The smallest time point, `TDateTime::min()`. -/
def TDateTime.min : TDateTime := -9223372036854775808

/-- The engine `CRiskManager`: the rule objects, the per-user record
(`CInvestor::m_moratorium`) and the three registries it derives from. -/
structure CRiskManager where
  m_rules : List (Option CRule) := []
  m_investors : TUserID → Option TDateTime := fun _ => none
  m_quotes : CCallbackManager TCallback := {}
  m_trades : CCallbackManager TCallback := {}
  m_orders : CCallbackManager TCallback := {}

namespace CRiskManager

/-- The member function `CreateRule(rule, cfg)`: the chain of name comparisons of
`RM_CHECK_ORDER_RULES`, each constructing the rule, whose constructor registers its
callbacks; an unknown name gives a null pointer. The new object will sit at the back of
`m_rules`. (`TS::CConfigFile` reads nothing, so every rule starts with its defaults.) -/
def CreateRule (self : CRiskManager) (rule : String) : CRiskManager × Option CRule :=
  let this : TCallback := { rule := self.m_rules.length }
  if rule = "NewOrderMoratorium" then
    ({ self with m_orders := self.m_orders.RegisterCallback this },
      some (CRule.NewOrderMoratorium {}))
  else if rule = "PriceCheck" then
    ({ self with m_quotes := self.m_quotes.RegisterCallback this,
                 m_orders := self.m_orders.RegisterCallback this },
      some (CRule.PriceCheck {}))
  else if rule = "SeqBadTrades" then
    ({ self with m_trades := self.m_trades.RegisterCallback this,
                 m_orders := self.m_orders.RegisterCallback this },
      some (CRule.SeqBadTrades {}))
  else if rule = "DrawDown" then
    ({ self with m_quotes := self.m_quotes.RegisterCallback this,
                 m_trades := self.m_trades.RegisterCallback this,
                 m_orders := self.m_orders.RegisterCallback this },
      some (CRule.DrawDown {}))
  else
    (self, none)

/-- The member function `AddRule(name, cfg)`. -/
def AddRule (self : CRiskManager) (name : String) : CRiskManager :=
  let r := self.CreateRule name
  { r.1 with m_rules := r.1.m_rules ++ [r.2] }

/-- A call of the order handler `cb`: `CheckOrder` of the rule object it is bound to. -/
def invokeOrder (order : SOrder) (cb : TCallback) (self : CRiskManager) :
    CRiskManager × Option CCheckOrderError :=
  match self.m_rules.get? cb.rule with
  | some (some (CRule.NewOrderMoratorium r)) =>
    let x := r.CheckOrder order
    ({ self with m_rules := self.m_rules.set cb.rule (some (CRule.NewOrderMoratorium x.1)) },
      x.2)
  | some (some (CRule.PriceCheck r)) =>
    let x := r.CheckOrder order
    ({ self with m_rules := self.m_rules.set cb.rule (some (CRule.PriceCheck x.1)) }, x.2)
  | some (some (CRule.SeqBadTrades r)) =>
    let x := r.CheckOrder order
    ({ self with m_rules := self.m_rules.set cb.rule (some (CRule.SeqBadTrades x.1)) }, x.2)
  | some (some (CRule.DrawDown r)) =>
    let x := r.CheckOrder order
    ({ self with m_rules := self.m_rules.set cb.rule (some (CRule.DrawDown x.1)) }, x.2)
  | _ => (self, none)

/-- The member function `PutObject<SOrder>(obj)`, that is
`TCallbackManager<SOrder>::ForEachCallback2(obj)`: the engine afterwards, the
`CCheckOrderError` that left the loop (if any) and the ghost record of invoked handlers. -/
def PutObject_SOrder (self : CRiskManager) (order : SOrder) :
    CRiskManager × Option CCheckOrderError × List TCallback :=
  let r := self.m_orders._GetCallbacks
  CCallbackManager.forEachLoop (invokeOrder order) r.2 { self with m_orders := r.1 } []

/-- The member function `GetInvestor(id)`: the record of `id` is created with
`m_moratorium = TDateTime::min()` when absent. -/
def GetInvestor (self : CRiskManager) (id : TUserID) : CRiskManager :=
  match self.m_investors id with
  | some _ => self
  | none => { self with m_investors := Function.update self.m_investors id (some TDateTime.min) }

end CRiskManager

/-- The attribute list `CMessage::TAttrs`. -/
abbrev TAttrs := List (String × String)

/-- A message, `CMessage`. -/
structure CMessage where
  m_attrs : TAttrs

/-- A transport, `CTransport`: the attribute lists passed to `SendMessage`, oldest first. -/
structure CTransport where
  sent : List TAttrs := []

/-- The virtual member function `CTransport::SendMessage(attrs)`. -/
def CTransport.SendMessage (self : CTransport) (attrs : TAttrs) : CTransport :=
  { sent := self.sent ++ [attrs] }

/-- The function `SendReject(trans, order, attrs, reason)`. -/
def SendReject (trans : CTransport) (_order : SOrder) (attrs : TAttrs) (reason : String) :
    CTransport :=
  trans.SendMessage (attrs ++ [("reject", reason)])

/-- The specialization `CRiskManager::ProcessMessage<SOrder>(trans, msg)`. `Parse` is
`Parse<SOrder>` (it relies on `strtod`, `sscanf` and `mktime`), `now` the reading of
`std::chrono::system_clock::now()` in the handler and `fmt` the formatting of one value of
the reason text. -/
def CRiskManager.ProcessMessage_SOrder (Parse : CMessage → SOrder) (now : TDateTime)
    (fmt : TFormatArg → String) (self : CRiskManager) (trans : CTransport) (msg : CMessage) :
    CRiskManager × CTransport :=
  let order := Parse msg
  let rm1 := self.GetInvestor order.m_user_id
  match rm1.PutObject_SOrder order with
  | (rm2, none, _) => (rm2, trans.SendMessage msg.m_attrs)
  | (rm2, some err, _) =>
    ({ rm2 with m_investors := Function.update rm2.m_investors order.m_user_id
                                 (some (now + err.m_moratorium * nsPerSec)) },
      SendReject trans order msg.m_attrs (err.what fmt))

/-- The engine as `main` builds it: the four `AddRule` calls in their order. -/
def mainRiskManager : CRiskManager :=
  ((((({} : CRiskManager).AddRule "NewOrderMoratorium").AddRule "PriceCheck").AddRule
    "SeqBadTrades").AddRule "DrawDown")

/-- The engine of `main` at a later time: the registries as `main` built them, the four
rule objects in the states `a`, `b`, `c`, `d` and the per-user records `inv`. -/
def mainRiskManagerWith (a : CNewOrderMoratorium) (b : CPriceCheck) (c : CSeqBadTrades)
    (d : CDrawDown) (inv : TUserID → Option TDateTime) : CRiskManager :=
  { mainRiskManager with
    m_rules := [some (CRule.NewOrderMoratorium a), some (CRule.PriceCheck b),
                some (CRule.SeqBadTrades c), some (CRule.DrawDown d)]
    m_investors := inv }

/-- Example order: a market buy of `X` by user `U`. -/
def orderMarketUX : SOrder :=
  { m_user_id := "U", m_type := TOrderType.Market, m_symbol := "X", m_side := TSide.Buy,
    m_price := 999, m_time := 5 }

/-- Example order: a limit buy of `Y` at 50 by user `U`. -/
def orderLimitUY : SOrder :=
  { m_user_id := "U", m_type := TOrderType.Limit, m_symbol := "Y", m_side := TSide.Buy,
    m_price := 50, m_time := 5 }

/-- Example state of the moratorium rule: every key has an order recorded at time 0. -/
def moratoriumAt0 : CNewOrderMoratorium :=
  { m_investors := fun _ => some 0 }

/-- Example state of the bad-trades rule: `(X, U)` holds six bad flags at time 0. -/
def seqBadTradesSix : CSeqBadTrades :=
  { m_trades := Function.update (fun _ => none) ("X", "U")
      (some { m_price := { m_frame := 60 * nsPerSec, m_sum := 0 },
              m_bads := { m_frame := 60 * nsPerSec, m_rem := 0,
                          m_items := [(0, 1), (0, 1), (0, 1), (0, 1), (0, 1), (0, 1)] } }) }

/-- Example state of the drawdown rule: investor `U` has drawdown 200. -/
def drawDown200 : CDrawDown :=
  { m_investors := Function.update (fun _ => none) "U"
      (some { m_pnl_max := { m_frame := 86400 * nsPerSec }, m_drawdown := 200 }) }

/-- The running sum of a window equals the sum of the values it holds. -/
def SumOk (w : CMovingSum TPrice TPrice) : Prop :=
  w.m_sum = (w.m_items.map Prod.snd).sum

/-- Every window of the rule satisfies `SumOk`. -/
def CPriceCheck.Inv (s : CPriceCheck) : Prop :=
  ∀ sym w, s.m_instrs sym = some w → SumOk w

/-- The three quotes of the price-deviation scenario: `X` at 100, one hour apart from `t0`. -/
def quotesX100 (t0 : TDateTime) : List TPriceCheckEvent :=
  [TPriceCheckEvent.quote { m_symbol := "X", m_price := 100, m_time := t0 },
   TPriceCheckEvent.quote { m_symbol := "X", m_price := 100, m_time := t0 + 3600 * nsPerSec },
   TPriceCheckEvent.quote { m_symbol := "X", m_price := 100, m_time := t0 + 7200 * nsPerSec }]

/-- The price-check rule with default configuration holding one window, for symbol `X`. -/
def ruleWithX (w : CMovingSum TPrice TPrice) : CPriceCheck :=
  { m_instrs := Function.update (fun _ => none) "X" (some w) }

/-! ## Rule 3: sequence of bad trades, trade ingestion -/

/-- The member function `CFramedQueue::Clear`: every item is handed to the hook `EraseItem`
and popped, front first. The result is the data of the derived class afterwards; the deque
is empty. -/
def CFramedQueue.clearLoop {V A : Type} (EraseItem : TDateTime → V → A → A) :
    List (TDateTime × V) → A → A
  | [], a => a
  | item :: rest, a => clearLoop EraseItem rest (EraseItem item.1 item.2 a)

/-- The member function `Clear()` on a `CMovingSum` object. -/
def CMovingSum.Clear {V S : Type} [HSub S V S] (self : CMovingSum V S) : CMovingSum V S :=
  { self with
    m_items := []
    m_sum := CFramedQueue.clearLoop CMovingSum.EraseItem self.m_items self.m_sum }

/-- The member function `CFramedQueue::PutValue(tm, val)` on a plain `CFramedQueue`. -/
def CFramedQueue.PutValue {V : Type} (self : CFramedQueue V) (tm : TDateTime) (val : V) :
    CFramedQueue V × Bool :=
  let r := CFramedQueue._PutValue CFramedQueue.EraseItem self () tm val
  (r.1, r.2.2)

/-- The member function `CTradesPair::ProcessTrade(trade)`. -/
def CTradesPair.ProcessTrade (self : CTradesPair) (trade : STrade) : CTradesPair :=
  if trade.m_side = self.m_side then
    { self with
      m_time := trade.m_time
      m_price := (self.m_price.PutValue trade.m_time trade.m_price).1 }
  else
    let r := self.m_price.GetAverage trade.m_time
    let price := r.2
    let self1 : CTradesPair := { self with m_price := r.1 }
    let self2 : CTradesPair :=
      if self1._IsBadTrade price then
        { self1 with m_bads := (self1.m_bads.PutValue self1.m_time 1).1 }
      else self1
    let self3 : CTradesPair := { self2 with m_price := self2.m_price.Clear }
    { self3 with
      m_side := trade.m_side
      m_time := trade.m_time
      m_price := (self3.m_price.PutValue trade.m_time trade.m_price).1 }

/-- The constructor `CTradesPair(tm)`: `m_price(tm)` and `m_bads(tm, 0)`. -/
def CTradesPair.new (tm : Int) : CTradesPair :=
  { m_price := { m_frame := tm, m_rem := 1, m_items := [], m_sum := 0 }
    m_bads := { m_frame := tm, m_rem := 0, m_items := [] } }

/-- The member function `CSeqBadTrades::ProcessTrade(trade)`: the record of
`(symbol, user_id)` is created with frame `m_cfg.timeframe` when absent. -/
def CSeqBadTrades.ProcessTrade (self : CSeqBadTrades) (trade : STrade) : CSeqBadTrades :=
  let id := (trade.m_symbol, trade.m_user_id)
  let trades : CTradesPair :=
    match self.m_trades id with
    | some pair => pair
    | none => CTradesPair.new (self.m_cfg.timeframe * nsPerSec)
  { self with m_trades := Function.update self.m_trades id (some (trades.ProcessTrade trade)) }

/-- The rule after a sequence of trades, oldest first. -/
def CSeqBadTrades.run (self : CSeqBadTrades) (trades : List STrade) : CSeqBadTrades :=
  trades.foldl CSeqBadTrades.ProcessTrade self

/-- One lossy pair of user `U` on `X`: Buy at 100 at time `t`, Sell at 95 one second later. -/
def lossyPair (t : TDateTime) : List STrade :=
  [{ m_user_id := "U", m_symbol := "X", m_side := TSide.Buy, m_price := 100, m_qty := 1,
     m_time := t },
   { m_user_id := "U", m_symbol := "X", m_side := TSide.Sell, m_price := 95, m_qty := 1,
     m_time := t + nsPerSec }]

/-- Six consecutive lossy pairs from `t0`, two seconds apart: twelve trades within 12 s. -/
def sixLossyPairs (t0 : TDateTime) : List STrade :=
  lossyPair t0 ++ lossyPair (t0 + 2 * nsPerSec) ++ lossyPair (t0 + 4 * nsPerSec) ++
  lossyPair (t0 + 6 * nsPerSec) ++ lossyPair (t0 + 8 * nsPerSec) ++
  lossyPair (t0 + 10 * nsPerSec)

/-- Every record of the rule has `m_price2 = 0` and no bad flag. -/
def CSeqBadTrades.NoBad (s : CSeqBadTrades) : Prop :=
  ∀ id p, s.m_trades id = some p → p.m_price2 = 0 ∧ p.m_bads.m_items = []

/-- A fresh record with the default frame after one trade Buy at 100 at time `t0`. -/
def pairAfterBuy100 (t0 : TDateTime) : CTradesPair :=
  (CTradesPair.new (60 * nsPerSec)).ProcessTrade
    { m_user_id := "U", m_symbol := "X", m_side := TSide.Buy, m_price := 100, m_qty := 1,
      m_time := t0 }

/-- The constructor `CTrade(const STrade &)`. -/
def CTrade.ofSTrade (src : STrade) : CTrade :=
  { m_price := src.m_price
    m_qty := if src.m_side = TSide.Sell then -src.m_qty else src.m_qty }

/-- The operator `CPositionYield::operator +=(const CTrade &)`. -/
instance CPositionYield.instHAdd : HAdd CPositionYield CTrade CPositionYield where
  hAdd y trade :=
    { m_sum := y.m_sum + trade.m_price * trade.m_qty, m_qty := y.m_qty + trade.m_qty }

/-- The operator `CPositionYield::operator -=(const CTrade &)`. -/
instance CPositionYield.instHSub : HSub CPositionYield CTrade CPositionYield where
  hSub y trade :=
    { m_sum := y.m_sum - trade.m_price * trade.m_qty, m_qty := y.m_qty - trade.m_qty }

/-- The member function `CPositionYield::GetYield(price)`. -/
def CPositionYield.GetYield (self : CPositionYield) (price : TPrice) : TPrice :=
  price * self.m_qty - self.m_sum

/-- The member function `CMovingSum::GetSum(tm)`. -/
def CMovingSum.GetSum {V S : Type} [HSub S V S] (self : CMovingSum V S) (tm : TDateTime) :
    CMovingSum V S × S :=
  let r := CFramedQueue._EraseExpired CMovingSum.EraseItem self.toCFramedQueue self.m_sum tm
  ({ toCFramedQueue := r.1, m_sum := r.2.1 }, r.2.1)

namespace CMovingMinMax

variable {V : Type}

/-- The update of `m_items2` in `CMovingMinMax::PutValue`: `find(val)`, then
`emplace(val, 1)` when absent and `++it->second` otherwise. -/
def countUp [LinearOrder V] (val : V) : List (V × Nat) → List (V × Nat)
  | [] => [(val, 1)]
  | e :: rest =>
    if val < e.1 then (val, 1) :: e :: rest
    else if e.1 < val then e :: countUp val rest
    else (e.1, e.2 + 1) :: rest

/-- The override `CMovingMinMax::EraseItem`: `find(val)`, then `--it->second` and `erase`
when the count reaches 0 (every entry of the map holds a count of at least 1). -/
def EraseItem [LinearOrder V] (_tm : TDateTime) (val : V) : List (V × Nat) → List (V × Nat)
  | [] => []
  | e :: rest =>
    if e.1 = val then
      if e.2 - 1 = 0 then rest else (e.1, e.2 - 1) :: rest
    else e :: EraseItem _tm val rest

/-- The member function `CMovingMinMax::PutValue(tm, val)`. -/
def PutValue [LinearOrder V] (self : CMovingMinMax V) (tm : TDateTime) (val : V) :
    CMovingMinMax V × Bool :=
  let r := CFramedQueue._PutValue EraseItem self.toCFramedQueue self.m_items2 tm val
  if r.2.2 = false then
    ({ toCFramedQueue := r.1, m_items2 := r.2.1 }, false)
  else
    ({ toCFramedQueue := r.1, m_items2 := countUp val r.2.1 }, true)

/-- The member function `CMovingMinMax::GetMax(tm)` for `CMovingMinMax<TPrice>`: the key of
`m_items2.rbegin()`, or `TValue()` when the map is empty. -/
def GetMax (self : CMovingMinMax TPrice) (tm : TDateTime) : CMovingMinMax TPrice × TPrice :=
  let r := CFramedQueue._EraseExpired EraseItem self.toCFramedQueue self.m_items2 tm
  let self1 : CMovingMinMax TPrice := { toCFramedQueue := r.1, m_items2 := r.2.1 }
  (self1, match self1.m_items2.getLast? with
          | none => 0
          | some e => e.1)

end CMovingMinMax

namespace CPosition

/-- The constructor `CPosition(price, dt)`. -/
def new (price : TPrice × TDateTime) (dt : Int) : CPosition :=
  { m_price := price
    m_yield := 0
    m_trades := { m_frame := dt, m_rem := 1, m_items := [], m_sum := {} } }

/-- The member function `CPosition::PutQuote(quote)`. -/
def PutQuote (self : CPosition) (quote : SQuote) : CPosition :=
  if quote.m_time < self.m_price.2 then self
  else { self with m_price := (quote.m_price, quote.m_time) }

/-- The member function `CPosition::PutTrade(trade)`. -/
def PutTrade (self : CPosition) (trade : STrade) : CPosition :=
  { self with m_trades := (self.m_trades.PutValue trade.m_time (CTrade.ofSTrade trade)).1 }

/-- The member function `CPosition::UpdateYield()`. -/
def UpdateYield (self : CPosition) : CPosition :=
  let r := self.m_trades.GetSum self.m_price.2
  { self with m_trades := r.1, m_yield := r.2.GetYield self.m_price.1 }

end CPosition

namespace CInvestor

/-- The constructor `CInvestor(rule, dt)`. -/
def new (dt : Int) : CInvestor :=
  { m_pnl_max := { m_frame := dt, m_rem := 1 } }

/-- The member function `CInvestor::UpdatePnL(pos)`; `pos` is the position stored under the
symbol `id`, as it is when the call is made. -/
def UpdatePnL (self : CInvestor) (id : TSymbol) (pos : CPosition) : CInvestor :=
  let yield := pos.m_yield
  let pos1 := pos.UpdateYield
  let m_pnl := self.m_pnl + (pos1.m_yield - yield)
  let r := self.m_pnl_max.GetMax self.m_time
  let pnl_max := r.2
  { self with
    m_positions := Function.update self.m_positions id (some pos1)
    m_pnl := m_pnl
    m_drawdown := pnl_max - m_pnl
    m_pnl_max := (r.1.PutValue self.m_time m_pnl).1 }

/-- The member function `CInvestor::GetPosition(id)`; `lastPrice` is
`m_rule.GetLastPrice(id)`. -/
def GetPosition (self : CInvestor) (lastPrice : TPrice × TDateTime) (id : TSymbol) :
    CInvestor × CPosition :=
  match self.m_positions id with
  | some pos => (self, pos)
  | none =>
    let pos := CPosition.new lastPrice self.m_pnl_max.m_frame
    ({ self with m_positions := Function.update self.m_positions id (some pos) }, pos)

/-- The member function `CInvestor::PutQuote(quote)`. -/
def PutQuote (self : CInvestor) (quote : SQuote) : CInvestor :=
  match self.m_positions quote.m_symbol with
  | none => self
  | some pos =>
    let self1 : CInvestor :=
      if self.m_time < quote.m_time then { self with m_time := quote.m_time } else self
    self1.UpdatePnL quote.m_symbol (pos.PutQuote quote)

/-- The member function `CInvestor::PutTrade(trade)`; `lastPrice` is
`m_rule.GetLastPrice(trade.m_symbol)`. -/
def PutTrade (self : CInvestor) (lastPrice : TPrice × TDateTime) (trade : STrade) :
    CInvestor :=
  let r := self.GetPosition lastPrice trade.m_symbol
  if r.2.m_price.1 = 0 then r.1
  else r.1.UpdatePnL trade.m_symbol (r.2.PutTrade trade)

end CInvestor

namespace CDrawDown

/-- The order `operator <` of `std::pair<TSymbol, TUserID>`, the key of `m_positions`. -/
def keyLess (a b : TSymbol × TUserID) : Bool :=
  decide (a.1 < b.1) || (!decide (b.1 < a.1) && decide (a.2 < b.2))

/-- The call `Emplace(pos_id, m_positions, ...)` on the ordered map `m_positions`: nothing
changes when the key is present. -/
def emplacePosition (key : TSymbol × TUserID) (p : TUserID) :
    List ((TSymbol × TUserID) × TUserID) → List ((TSymbol × TUserID) × TUserID)
  | [] => [(key, p)]
  | e :: rest =>
    if keyLess key e.1 then (key, p) :: e :: rest
    else if keyLess e.1 key then e :: emplacePosition key p rest
    else e :: rest

/-- The member function `GetLastPrice(symbol)`. -/
def GetLastPrice (self : CDrawDown) (symbol : TSymbol) : TPrice × TDateTime :=
  match self.m_prices symbol with
  | none => (0, 0)
  | some p => p

/-- The member function `UpdateLastPrice(quote)`. -/
def UpdateLastPrice (self : CDrawDown) (quote : SQuote) : CDrawDown × Bool :=
  match self.m_prices quote.m_symbol with
  | none =>
    ({ self with m_prices :=
        Function.update self.m_prices quote.m_symbol (some (quote.m_price, quote.m_time)) },
      true)
  | some p =>
    if quote.m_time < p.2 then (self, false)
    else
      ({ self with m_prices :=
          Function.update self.m_prices quote.m_symbol (some (quote.m_price, quote.m_time)) },
        true)

/-- The member function `GetInvestor(id, symbol)`: the investor of `id` is created when
absent, and `(symbol, id)` is entered into `m_positions`. -/
def GetInvestor (self : CDrawDown) (id : TUserID) (symbol : TSymbol) : CDrawDown × CInvestor :=
  let p : CInvestor :=
    match self.m_investors id with
    | some inv => inv
    | none => CInvestor.new (self.m_cfg.pnl_time * nsPerSec)
  ({ self with
     m_investors := Function.update self.m_investors id (some p)
     m_positions := emplacePosition (symbol, id) id self.m_positions }, p)

/-- The member function `CDrawDown::ProcessTrade(trade)`. -/
def ProcessTrade (self : CDrawDown) (trade : STrade) : CDrawDown :=
  let r := self.GetInvestor trade.m_user_id trade.m_symbol
  let inv := r.2.PutTrade (r.1.GetLastPrice trade.m_symbol) trade
  { r.1 with m_investors := Function.update r.1.m_investors trade.m_user_id (some inv) }

/-- One step of the loop of `ProcessQuote`: `it->second->PutQuote(quote)`. -/
def putQuoteAt (quote : SQuote) (self : CDrawDown) (e : (TSymbol × TUserID) × TUserID) :
    CDrawDown :=
  match self.m_investors e.2 with
  | none => self
  | some inv =>
    { self with m_investors := Function.update self.m_investors e.2 (some (inv.PutQuote quote)) }

/-- The member function `CDrawDown::ProcessQuote(quote)`: after `UpdateLastPrice`, the loop
from `lower_bound((symbol, ""))` over the entries of `m_positions` whose symbol is the
quote's. -/
def ProcessQuote (self : CDrawDown) (quote : SQuote) : CDrawDown :=
  let r := self.UpdateLastPrice quote
  if r.2 = false then r.1
  else
    let start := r.1.m_positions.dropWhile (fun e => keyLess e.1 (quote.m_symbol, ""))
    let hits := start.takeWhile (fun e => decide (e.1.1 = quote.m_symbol))
    hits.foldl (putQuoteAt quote) r.1

end CDrawDown

/-- An event delivered to the drawdown rule: a quote or a trade. -/
inductive TDrawDownEvent where
  | quote (q : SQuote)
  | trade (t : STrade)

/-- The rule after one event. -/
def CDrawDown.step (self : CDrawDown) : TDrawDownEvent → CDrawDown
  | TDrawDownEvent.quote q => self.ProcessQuote q
  | TDrawDownEvent.trade t => self.ProcessTrade t

/-- The rule after a sequence of events, oldest first. -/
def CDrawDown.run (self : CDrawDown) (events : List TDrawDownEvent) : CDrawDown :=
  events.foldl CDrawDown.step self

/-- The drawdown scenario up to the quote at 110: Quote `X` at 100, Trade Buy 10 `X` at 100
by `U`, Quote `X` at 110, at the times `t1`, `t2`, `t3`. -/
def drawDownEvents3 (t1 t2 t3 : TDateTime) : List TDrawDownEvent :=
  [TDrawDownEvent.quote { m_symbol := "X", m_price := 100, m_time := t1 },
   TDrawDownEvent.trade { m_trade_id := "T", m_user_id := "U", m_symbol := "X",
                          m_side := TSide.Buy, m_price := 100, m_qty := 10, m_time := t2 },
   TDrawDownEvent.quote { m_symbol := "X", m_price := 110, m_time := t3 }]

/-- The whole drawdown scenario: `drawDownEvents3` followed by Quote `X` at 90 at `t4`. -/
def drawDownEvents4 (t1 t2 t3 t4 : TDateTime) : List TDrawDownEvent :=
  drawDownEvents3 t1 t2 t3 ++
    [TDrawDownEvent.quote { m_symbol := "X", m_price := 90, m_time := t4 }]

/-- Example state of the drawdown rule: investor `U` has drawdown exactly 100. -/
def drawDown100 : CDrawDown :=
  { m_investors := Function.update (fun _ => none) "U"
      (some { m_pnl_max := { m_frame := 86400 * nsPerSec }, m_drawdown := 100 }) }

/-- The state of the drawdown rule while no quote for `sym` has been stored: `m_prices` has
no entry for `sym` and every position on `sym` carries the last price 0. -/
def CDrawDown.NoQuoteYet (s : CDrawDown) (sym : TSymbol) : Prop :=
  s.m_prices sym = none ∧
  ∀ uid inv pos, s.m_investors uid = some inv → inv.m_positions sym = some pos →
    pos.m_price.1 = 0

/-- Example trade: `U` buys 10 of `X` at 100 at time 2. -/
def tradeBuyUX : STrade :=
  { m_trade_id := "T", m_user_id := "U", m_symbol := "X", m_side := TSide.Buy,
    m_price := 100, m_qty := 10, m_time := 2 }

/-- Example history without a quote for `X`: one quote for `Y` at 50 at time 1. -/
def eventsQuoteY : List TDrawDownEvent :=
  [TDrawDownEvent.quote { m_symbol := "Y", m_price := 50, m_time := 1 }]

/-- The pnl of an investor is the sum of the stored yields of its positions: `S` is the set
of the symbols that have a position. -/
def CInvestor.PnlOk (inv : CInvestor) : Prop :=
  ∃ S : Finset TSymbol, (∀ s, s ∈ S ↔ (inv.m_positions s).isSome = true) ∧
    inv.m_pnl = ∑ s in S, (inv.m_positions s).elim 0 (fun p => p.m_yield)

/-- Every investor of the rule satisfies `CInvestor.PnlOk`. -/
def CDrawDown.PnlOk (s : CDrawDown) : Prop :=
  ∀ uid inv, s.m_investors uid = some inv → inv.PnlOk

/-- Example queue: frame 10, `m_rem` 1, the items `(5, 1)` and `(8, 2)`. -/
def queueFrame10 : CFramedQueue Nat :=
  { m_frame := 10, m_rem := 1, m_items := [(5, 1), (8, 2)] }

/-- Example run: a fresh queue with frame 10 and `m_rem` 1 after `PutValue(5, 1)` and
`PutValue(20, 2)`. -/
def queuePut5Put20 : CFramedQueue Nat :=
  (CFramedQueue.PutValue
    (CFramedQueue.PutValue ({ m_frame := 10, m_rem := 1 } : CFramedQueue Nat) 5 1).1 20 2).1

/-! ## Moving windows: time order and example queues -/

/-- The deque holds its items in time order: timestamps do not decrease front to back. -/
def CFramedQueue.TimeSorted {V : Type} (items : List (TDateTime × V)) : Prop :=
  items.Pairwise (fun a b => a.1 ≤ b.1)

/-- Example queue: frame 10, `m_rem` 1, the items `(5, 1)`, `(8, 2)` and `(12, 3)`. -/
def queueThree : CFramedQueue Nat :=
  { m_frame := 10, m_rem := 1, m_items := [(5, 1), (8, 2), (12, 3)] }

/-- Example queue: frame 2, `m_rem` 1, the items `(5, 1)` and `(8, 2)`. -/
def queueFrame2 : CFramedQueue Nat :=
  { m_frame := 2, m_rem := 1, m_items := [(5, 1), (8, 2)] }

/-- Example running sum over `queueFrame2`: the values 1 and 2, sum 3. -/
def sumFrame2 : CMovingSum TPrice TPrice :=
  { m_frame := 2, m_rem := 1, m_items := [(5, 1), (8, 2)], m_sum := 3 }

/-! ## Moving windows: sequences of operations -/

/-- An operation on a `CMovingSum<TPrice>` object. -/
inductive TMovingSumOp where
  | PutValue (tm : TDateTime) (val : TPrice)
  | EraseExpired (tm : TDateTime)
  | GetAverage (tm : TDateTime)
  | GetSum (tm : TDateTime)
  | Clear

/-- The `CMovingSum<TPrice>` object after one operation. -/
def CMovingSum.step (self : CMovingSum TPrice TPrice) : TMovingSumOp → CMovingSum TPrice TPrice
  | TMovingSumOp.PutValue tm val => (self.PutValue tm val).1
  | TMovingSumOp.EraseExpired tm => (self.EraseExpired tm).1
  | TMovingSumOp.GetAverage tm => (self.GetAverage tm).1
  | TMovingSumOp.GetSum tm => (self.GetSum tm).1
  | TMovingSumOp.Clear => self.Clear

/-- The `CMovingSum<TPrice>` object after a sequence of operations, oldest first. -/
def CMovingSum.run (self : CMovingSum TPrice TPrice) (ops : List TMovingSumOp) :
    CMovingSum TPrice TPrice :=
  ops.foldl CMovingSum.step self

/-- The constructor `CMovingSum(frame, rem)` for `CMovingSum<TPrice>`: an empty deque and
`m_sum = TSum()`. -/
def CMovingSum.new (frame : Int) (rem : Nat) : CMovingSum TPrice TPrice :=
  { m_frame := frame, m_rem := rem, m_items := [], m_sum := 0 }

/-- An operation on a `CMovingSum<CTrade, CPositionYield>` object (the trades of a
position). -/
inductive TTradeSumOp where
  | PutValue (tm : TDateTime) (val : CTrade)
  | EraseExpired (tm : TDateTime)
  | GetSum (tm : TDateTime)
  | Clear

/-- The `CMovingSum<CTrade, CPositionYield>` object after one operation. -/
def CMovingSum.stepTrades (self : CMovingSum CTrade CPositionYield) :
    TTradeSumOp → CMovingSum CTrade CPositionYield
  | TTradeSumOp.PutValue tm val => (self.PutValue tm val).1
  | TTradeSumOp.EraseExpired tm => (self.EraseExpired tm).1
  | TTradeSumOp.GetSum tm => (self.GetSum tm).1
  | TTradeSumOp.Clear => self.Clear

/-- The `CMovingSum<CTrade, CPositionYield>` object after a sequence of operations. -/
def CMovingSum.runTrades (self : CMovingSum CTrade CPositionYield) (ops : List TTradeSumOp) :
    CMovingSum CTrade CPositionYield :=
  ops.foldl CMovingSum.stepTrades self

/-- The `CPositionYield` that adding the trades of `items` one by one to `CPositionYield()`
gives in exact arithmetic: the sum of `price * qty` and the sum of `qty`. -/
def yieldOfTrades (items : List (TDateTime × CTrade)) : CPositionYield :=
  { m_sum := (items.map (fun x => x.2.m_price * x.2.m_qty)).sum
    m_qty := (items.map (fun x => x.2.m_qty)).sum }

/-! ## Moving windows: the running multiset `CMovingMinMax` -/

/-- The member function `CMovingMinMax::GetMin(tm)` for `CMovingMinMax<TPrice>`: the key of
`m_items2.begin()`, or `TValue()` when the map is empty. -/
def CMovingMinMax.GetMin (self : CMovingMinMax TPrice) (tm : TDateTime) :
    CMovingMinMax TPrice × TPrice :=
  let r := CFramedQueue._EraseExpired CMovingMinMax.EraseItem self.toCFramedQueue
    self.m_items2 tm
  let self1 : CMovingMinMax TPrice := { toCFramedQueue := r.1, m_items2 := r.2.1 }
  (self1, match self1.m_items2.head? with
          | none => 0
          | some e => e.1)

/-- The inherited member function `EraseExpired(tm)` on a `CMovingMinMax` object. -/
def CMovingMinMax.EraseExpired {V : Type} [LinearOrder V] (self : CMovingMinMax V)
    (tm : TDateTime) : CMovingMinMax V × Bool :=
  let r := CFramedQueue._EraseExpired CMovingMinMax.EraseItem self.toCFramedQueue
    self.m_items2 tm
  ({ toCFramedQueue := r.1, m_items2 := r.2.1 }, r.2.2)

/-- The inherited member function `Clear()` on a `CMovingMinMax` object. -/
def CMovingMinMax.Clear {V : Type} [LinearOrder V] (self : CMovingMinMax V) :
    CMovingMinMax V :=
  { self with
    m_items := []
    m_items2 := CFramedQueue.clearLoop CMovingMinMax.EraseItem self.m_items self.m_items2 }

/-- An operation on a `CMovingMinMax<TPrice>` object. -/
inductive TMinMaxOp where
  | PutValue (tm : TDateTime) (val : TPrice)
  | EraseExpired (tm : TDateTime)
  | GetMin (tm : TDateTime)
  | GetMax (tm : TDateTime)
  | Clear

/-- The `CMovingMinMax<TPrice>` object after one operation. -/
def CMovingMinMax.step (self : CMovingMinMax TPrice) : TMinMaxOp → CMovingMinMax TPrice
  | TMinMaxOp.PutValue tm val => (self.PutValue tm val).1
  | TMinMaxOp.EraseExpired tm => (self.EraseExpired tm).1
  | TMinMaxOp.GetMin tm => (self.GetMin tm).1
  | TMinMaxOp.GetMax tm => (self.GetMax tm).1
  | TMinMaxOp.Clear => self.Clear

/-- The `CMovingMinMax<TPrice>` object after a sequence of operations, oldest first. -/
def CMovingMinMax.run (self : CMovingMinMax TPrice) (ops : List TMinMaxOp) :
    CMovingMinMax TPrice :=
  ops.foldl CMovingMinMax.step self

/-- The constructor `CMovingMinMax(frame, rem)` for `CMovingMinMax<TPrice>`: an empty deque
and an empty map. -/
def CMovingMinMax.new (frame : Int) (rem : Nat) : CMovingMinMax TPrice :=
  { m_frame := frame, m_rem := rem, m_items := [], m_items2 := [] }

/-- The count stored in the map entries `m` for the value `v`, 0 when there is none. -/
def mapCount {V : Type} [DecidableEq V] (m : List (V × Nat)) (v : V) : Nat :=
  ((m.filter (fun e => decide (e.1 = v))).map Prod.snd).sum

/-- The map `m` is the multiset of the values of `items`: keys strictly increasing, every
count positive, and the count of every value is the number of items that hold it. -/
def MinMaxOk {V : Type} [LinearOrder V] (items : List (TDateTime × V)) (m : List (V × Nat)) :
    Prop :=
  m.Pairwise (fun a b => a.1 < b.1) ∧ (∀ e ∈ m, 0 < e.2) ∧
  ∀ v, mapCount m v = (items.map Prod.snd).count v

/-! ## Messages (`Transport.h`): construction and attribute lookup -/

/-- The constructor `CMessage(TAttrs &&attrs)`: an empty list gets one empty pair; otherwise
the entries after the first are sorted by key with `std::sort` and the comparison
`val1.first < val2.first`. The standard leaves the order among entries of equal key open;
here they keep their order. -/
def CMessage.new (attrs : TAttrs) : CMessage :=
  match attrs with
  | [] => { m_attrs := [("", "")] }
  | tag :: tail => { m_attrs := tag :: tail.insertionSort (fun a b => a.1 ≤ b.1) }

/-- The call `std::lower_bound(first, last, name, comp)` with `comp(item, name) =
item.first < name`, as the offset from `first`: the position of the first item with
`¬ item.first < name`, the result the standard specifies for a range ordered by key. -/
def lowerBoundKey (name : String) : List (String × String) → Nat
  | [] => 0
  | item :: rest => if item.1 < name then lowerBoundKey name rest + 1 else 0

/-- The member function `CMessage::FindAttr(name)`. The iterator returned is given as its
position in `m_attrs` with the entry it points to; `none` is `m_attrs.end()`. -/
def CMessage.FindAttr (self : CMessage) (name : String) : Option (Nat × (String × String)) :=
  let it := 1 + lowerBoundKey name self.m_attrs.tail
  match self.m_attrs.get? it with
  | none => none
  | some item => if name < item.1 then none else some (it, item)

/-- The member function `const std::string &CMessage::GetAttr(name) const`. -/
def CMessage.GetAttr (self : CMessage) (name : String) : String :=
  match self.FindAttr name with
  | some it => it.2.2
  | none => ""

/-- Example attribute list: the tag `Order` with the attributes `user_id` and `symbol`. -/
def attrsOrderUX : TAttrs := [("Order", ""), ("user_id", "U"), ("symbol", "X")]

/-! ## The key=value codec (`Common/Parser.h`, `TransportTCP.h`, `Storage.h`) -/

/-- The byte `'\1'`, the attribute delimiter on the wire. -/
def chSOH : Char := Char.ofNat 1

/-- The byte `'\0'`, the message terminator on the wire. -/
def chNUL : Char := Char.ofNat 0

/-- The byte `'\n'`, the record terminator of the journal. -/
def chLF : Char := Char.ofNat 10

/-- The member-function pointer `m_fn` of `CKeyValueParser`. -/
inductive TParseFn where
  | _ParseKey
  | _ParseValue

/-- Data members of `CKeyValueParser<CMessage::TAttrs, _delim, _fin>`; the template
parameters `_delim` and `_fin` are arguments of the member functions below. A string or a
vector that was the source of `std::move` is empty afterwards. -/
structure CKeyValueParser where
  m_res : TAttrs := []
  m_key_init : Bool := false
  m_key : String := ""
  m_ln : Nat := 0
  m_data : List Char := []
  m_fn : TParseFn := TParseFn._ParseKey

namespace CKeyValueParser

/-- The constant `MaxDataLen`. -/
def MaxDataLen : Nat := 1024 * 1024 * 1024

/-- The scan `for (; p != end; ++p) { if (!stop(*p)) continue; ... break; }` of `_ParseKey`
and `_ParseValue`: the bytes passed over, and the bytes from the one that stopped the scan
on (empty when the scan reached `end`). -/
def scanTo (stop : Char → Bool) : List Char → List Char × List Char
  | [] => ([], [])
  | ch :: rest =>
    if stop ch then ([], ch :: rest)
    else ((scanTo stop rest).1.cons ch, (scanTo stop rest).2)

/-- The member function `StoreAttr(val)`. -/
def StoreAttr (self : CKeyValueParser) (val : String) : CKeyValueParser :=
  if self.m_key_init = false then self
  else { self with m_res := self.m_res ++ [(self.m_key, val)], m_key := "", m_key_init := false }

/-- The member function `_ParseKey(data, end)`: the parser afterwards and the bytes from
the returned pointer `p` on. `GetItemString(buf, data, p)` is `buf` followed by the bytes
passed over. -/
def _ParseKey (delim fin : Char) (self : CKeyValueParser) (data : List Char) :
    CKeyValueParser × List Char :=
  match scanTo (fun ch => ch = '=' || ch = delim || ch = fin) data with
  | (_, []) => (self, [])
  | (item, ch :: rest) =>
    let self1 : CKeyValueParser :=
      { self with
        m_data := []
        m_key_init := (ch = '=' || ch ≠ chNUL)
        m_key := String.mk (self.m_data ++ item) }
    if ch = '=' then ({ self1 with m_fn := TParseFn._ParseValue }, ch :: rest)
    else (self1.StoreAttr "", ch :: rest)

/-- The member function `_ParseValue(data, end)`. -/
def _ParseValue (delim fin : Char) (self : CKeyValueParser) (data : List Char) :
    CKeyValueParser × List Char :=
  match scanTo (fun ch => ch = delim || ch = fin) data with
  | (_, []) => (self, [])
  | (item, ch :: rest) =>
    let self1 : CKeyValueParser := { self with m_data := [] }
    ({ self1.StoreAttr (String.mk (self.m_data ++ item)) with m_fn := TParseFn._ParseKey },
      ch :: rest)

/-- The `for` loop of `DoParse`: `data` is the bytes from `p` (equal to the variable `data`
at the head of every iteration) to `end`, `out` the attribute lists passed to `func` so
far. The loop runs at most once per byte; `fuel` bounds the number of iterations. -/
def parseLoop (delim fin : Char) :
    Nat → CKeyValueParser → List Char → List TAttrs → CKeyValueParser × List Char × List TAttrs
  | 0, self, data, out => (self, data, out)
  | fuel + 1, self, data, out =>
    match data with
    | [] => (self, [], out)
    | _ :: _ =>
      let r := match self.m_fn with
        | TParseFn._ParseKey => _ParseKey delim fin self data
        | TParseFn._ParseValue => _ParseValue delim fin self data
      match r.2 with
      | [] => (r.1, data, out)
      | ch :: rest =>
        if ch = fin then
          parseLoop delim fin fuel
            { r.1 with m_res := [], m_ln := 0, m_fn := TParseFn._ParseKey } rest
            (out ++ [r.1.m_res])
        else
          parseLoop delim fin fuel r.1 rest out

/-- The member function `DoParse(data, sz, func)`: the parser afterwards, the attribute
lists passed to `func`, oldest first, and the error raised, if any. -/
def DoParse (delim fin : Char) (self : CKeyValueParser) (data : List Char) :
    CKeyValueParser × List TAttrs × Option String :=
  let r := parseLoop delim fin data.length self data []
  match r.2.1 with
  | [] => (r.1, r.2.2, none)
  | b :: bs =>
    let m_ln := r.1.m_ln + (b :: bs).length
    if m_ln > MaxDataLen then ({ r.1 with m_ln := m_ln }, r.2.2, some "Message too long")
    else ({ r.1 with m_ln := m_ln, m_data := r.1.m_data ++ b :: bs }, r.2.2, none)

end CKeyValueParser

/-- The bytes `CClientPeer::SendMessage(attrs)` sends: nothing for an empty list; otherwise
the key of the first entry and `'\1'`, then `key=value` and `'\1'` for every other entry,
and the `'\0'` that `CSocketConnection::Send(stm)` appends. -/
def CClientPeer.SendMessage (attrs : TAttrs) : List Char :=
  match attrs with
  | [] => []
  | tag :: rest =>
    tag.1.data ++ [chSOH] ++
      (rest.map (fun a => a.1.data ++ ['='] ++ a.2.data ++ [chSOH])).flatten ++ [chNUL]

/-- The bytes `CStorage::SaveObject<T>(obj, out)` writes for an object with the name `name`
whose fields, with their formatted values, are `fields`: the name, `|name=value` for every
field, and the newline of `std::endl`. -/
def CStorage.SaveObject (name : String) (fields : TAttrs) : List Char :=
  name.data ++ (fields.map (fun a => ['|'] ++ a.1.data ++ ['='] ++ a.2.data)).flatten ++ [chLF]

/-- Example attribute list: the tag `Order` and one attribute whose key holds `=`. -/
def attrsKeyWithEq : TAttrs := [("Order", ""), ("a=b", "c")]

/-- Example attribute list: one entry, the tag `Order` with the value `x`. -/
def attrsTagWithValue : TAttrs := [("Order", "x")]

/-! ## Sequences of orders and events on single rules -/

/-- The moratorium rule after a sequence of `CheckOrder` calls, oldest first, with the
outcome of each call (`none`: accepted, `some e`: rejected with `e`). -/
def CNewOrderMoratorium.run (self : CNewOrderMoratorium) :
    List SOrder → CNewOrderMoratorium × List (Option CCheckOrderError)
  | [] => (self, [])
  | o :: rest =>
    let r := self.CheckOrder o
    let r2 := CNewOrderMoratorium.run r.1 rest
    (r2.1, r.2 :: r2.2)

/-- An event that reaches a `CSeqBadTrades` rule object: a trade or an order check. -/
inductive TSeqBadTradesEvent where
  | trade (t : STrade)
  | order (o : SOrder)

/-- The rule object after one event. -/
def CSeqBadTrades.step (self : CSeqBadTrades) : TSeqBadTradesEvent → CSeqBadTrades
  | TSeqBadTradesEvent.trade t => self.ProcessTrade t
  | TSeqBadTradesEvent.order o => (self.CheckOrder o).1

/-- The rule object after a sequence of events, oldest first. -/
def CSeqBadTrades.runEvents (self : CSeqBadTrades) (events : List TSeqBadTradesEvent) :
    CSeqBadTrades :=
  events.foldl CSeqBadTrades.step self

/-- An operation on a plain `CFramedQueue<V>` object. -/
inductive TQueueOp (V : Type) where
  | PutValue (tm : TDateTime) (val : V)
  | EraseExpired (tm : TDateTime)
  | GetSize (tm : TDateTime)
  | Clear

/-- The member function `CFramedQueue::EraseExpired(tm)` on a plain `CFramedQueue`. -/
def CFramedQueue.EraseExpired {V : Type} (self : CFramedQueue V) (tm : TDateTime) :
    CFramedQueue V × Bool :=
  let r := CFramedQueue._EraseExpired CFramedQueue.EraseItem self () tm
  (r.1, r.2.2)

/-- The member function `CFramedQueue::Clear()` on a plain `CFramedQueue`: the hook does
nothing, every item is popped. -/
def CFramedQueue.Clear {V : Type} (self : CFramedQueue V) : CFramedQueue V :=
  { self with m_items := [] }

/-- The plain `CFramedQueue<V>` object after one operation. -/
def CFramedQueue.step {V : Type} (self : CFramedQueue V) : TQueueOp V → CFramedQueue V
  | TQueueOp.PutValue tm val => (self.PutValue tm val).1
  | TQueueOp.EraseExpired tm => (self.EraseExpired tm).1
  | TQueueOp.GetSize tm => (self.GetSize tm).1
  | TQueueOp.Clear => self.Clear

/-- The plain `CFramedQueue<V>` object after a sequence of operations, oldest first. -/
def CFramedQueue.run {V : Type} (self : CFramedQueue V) (ops : List (TQueueOp V)) :
    CFramedQueue V :=
  ops.foldl CFramedQueue.step self

/-- Example order: user `U` on `X` at time 5 (inside the moratorium of `moratoriumAt0`). -/
def orderUXAt5 : SOrder := { m_user_id := "U", m_symbol := "X", m_time := 5 }

/-- Example order: user `U` on `X` at 1 s, the deadline of `moratoriumAt0`. -/
def orderUXAt1s : SOrder := { m_user_id := "U", m_symbol := "X", m_time := 1000000000 }

/-! ## Rule 2: trailing drawdown, the positions of reachable states -/

/-- The value `yield_at(tm, mark = last_price)` of a position: the last price times the sum
of the signed quantities, less the sum of `price * signed qty`, over the trades that remain
in the window of the position after eviction at `tm`. -/
def CPosition.yield_at (self : CPosition) (tm : TDateTime) : TPrice :=
  let items := (self.m_trades.EraseExpired tm).1.m_items
  self.m_price.1 * (items.map (fun x => x.2.m_qty)).sum
    - (items.map (fun x => x.2.m_price * x.2.m_qty)).sum

/-- A position in good order with respect to `lastTime`, the time of the last price the
rule holds for its symbol: the accumulator of its trades is the sum over the trades in the
window, and the time of its own last price is not later than `lastTime`, or than the epoch
when `lastTime` is before the epoch. -/
def CPosition.Ok (lastTime : TDateTime) (pos : CPosition) : Prop :=
  pos.m_trades.m_sum = yieldOfTrades pos.m_trades.m_items ∧ pos.m_price.2 ≤ max lastTime 0

/-- Every position of every investor of the rule is in good order with respect to the last
price of its symbol. -/
def CDrawDown.PosOk (s : CDrawDown) : Prop :=
  ∀ uid inv sym pos, s.m_investors uid = some inv → inv.m_positions sym = some pos →
    pos.Ok (s.GetLastPrice sym).2

/-- Three days, in nanoseconds. -/
def threeDays : TDateTime := 259200 * nsPerSec

/-- Example history of user `U`: Quote `X` at 100 at time 1, Buy 1 `X` at 90 at time 2, Buy
1 `Y` at 50 at time 3 (no quote for `Y` yet) and Quote `Y` at 50 three days after the
epoch. -/
def eventsTwoSymbols : List TDrawDownEvent :=
  [TDrawDownEvent.quote { m_symbol := "X", m_price := 100, m_time := 1 },
   TDrawDownEvent.trade { m_trade_id := "T1", m_user_id := "U", m_symbol := "X",
                          m_side := TSide.Buy, m_price := 90, m_qty := 1, m_time := 2 },
   TDrawDownEvent.trade { m_trade_id := "T2", m_user_id := "U", m_symbol := "Y",
                          m_side := TSide.Buy, m_price := 50, m_qty := 1, m_time := 3 },
   TDrawDownEvent.quote { m_symbol := "Y", m_price := 50, m_time := threeDays }]

/-- Example trade: `U` buys 1 of `X` at 90, one nanosecond after three days. -/
def tradeBuyUXLate : STrade :=
  { m_trade_id := "T3", m_user_id := "U", m_symbol := "X", m_side := TSide.Buy,
    m_price := 90, m_qty := 1, m_time := threeDays + 1 }

/-- Example history: user `U` buys `X` before any quote for `X`. -/
def eventsTradeNoQuote : List TDrawDownEvent :=
  [TDrawDownEvent.trade tradeBuyUX]

/-- Example quote: `X` at 100 with a time 5 ns before the epoch. -/
def quoteXBeforeEpoch : SQuote := { m_symbol := "X", m_price := 100, m_time := -5 }

/-- Example quote: `X` at 105 at time 2. -/
def quoteX105At2 : SQuote := { m_symbol := "X", m_price := 105, m_time := 2 }

/-- The position of `U` in `X` after `drawDownEvents3` at the times 1, 2, 3. -/
def positionAfterEvents3 : CPosition :=
  { m_price := (110, 3), m_yield := 100,
    m_trades := { m_frame := 86400 * nsPerSec, m_rem := 1,
                  m_items := [(2, { m_price := 100, m_qty := 10 })],
                  m_sum := { m_sum := 1000, m_qty := 10 } } }

/-- The investor `U` after `drawDownEvents3` at the times 1, 2, 3. -/
def investorAfterEvents3 : CInvestor :=
  { m_pnl := 100,
    m_pnl_max := { m_frame := 86400 * nsPerSec, m_rem := 1,
                   m_items := [(0, 0), (max 0 3, 100)],
                   m_items2 := [(0, 1), (100, 1)] },
    m_drawdown := -100,
    m_time := max 0 3,
    m_positions := Function.update (fun _ => none) "X" (some positionAfterEvents3) }

/-! ## Evaluation engine: exceptions other than rejections -/

/-- An exception that leaves an order handler: a rejection (`CCheckOrderError`, raised by
`RejectOrder`) or any other exception, kept by its `what()` text. -/
inductive TException where
  | CCheckOrderError (err : CCheckOrderError)
  | other (what : String)
deriving DecidableEq

/-- The `for` loop of `ForEachCallback2` with handler bodies that may raise any exception:
the loop has no `try` block, so the first exception leaves it at once. The last component
is a ghost record of the handler bodies that were invoked, in order. -/
def CCallbackManager.forEachLoopEx {α σ : Type} (call : α → σ → σ × Option TException) :
    List (CWeakRef α) → σ → List α → σ × Option TException × List α
  | [], s, calls => (s, none, calls)
  | item :: rest, s, calls =>
    match item.m_sp with
    | none => forEachLoopEx call rest s calls
    | some sp =>
      match call sp s with
      | (s1, some ex) => (s1, some ex, calls ++ [sp])
      | (s1, none) => forEachLoopEx call rest s1 (calls ++ [sp])

/-- The member function `PutObject<SOrder>(obj)` with order handlers `call` that may raise
any exception. -/
def CRiskManager.PutObjectWith (call : TCallback → CRiskManager → CRiskManager × Option TException)
    (self : CRiskManager) : CRiskManager × Option TException × List TCallback :=
  let r := self.m_orders._GetCallbacks
  CCallbackManager.forEachLoopEx call r.2 { self with m_orders := r.1 } []

/-- The specialization `CRiskManager::ProcessMessage<SOrder>(trans, msg)` with order
handlers `call` that may raise any exception: the `try` block has the single handler
`catch (const CCheckOrderError &)`, every other exception leaves the function. The last
component is the exception that leaves `ProcessMessage`, if any. -/
def CRiskManager.ProcessMessageWith (Parse : CMessage → SOrder) (now : TDateTime)
    (fmt : TFormatArg → String)
    (call : SOrder → TCallback → CRiskManager → CRiskManager × Option TException)
    (self : CRiskManager) (trans : CTransport) (msg : CMessage) :
    CRiskManager × CTransport × Option TException :=
  let order := Parse msg
  let rm1 := self.GetInvestor order.m_user_id
  match rm1.PutObjectWith (call order) with
  | (rm2, none, _) => (rm2, trans.SendMessage msg.m_attrs, none)
  | (rm2, some (TException.CCheckOrderError err), _) =>
    ({ rm2 with m_investors := Function.update rm2.m_investors order.m_user_id
                                 (some (now + err.m_moratorium * nsPerSec)) },
      SendReject trans order msg.m_attrs (err.what fmt), none)
  | (rm2, some (TException.other what), _) => (rm2, trans, some (TException.other what))

/-- The order handlers of the four rules as handlers that may raise any exception: they
raise `CCheckOrderError` only. -/
def CRiskManager.invokeOrderEx (order : SOrder) (cb : TCallback) (self : CRiskManager) :
    CRiskManager × Option TException :=
  ((CRiskManager.invokeOrder order cb self).1,
    (CRiskManager.invokeOrder order cb self).2.map TException.CCheckOrderError)

/-- Example handlers: the handler of the second rule raises `std::bad_alloc`, the others
are the order checks of the rules. -/
def invokeOrderBadAlloc (order : SOrder) (cb : TCallback) (self : CRiskManager) :
    CRiskManager × Option TException :=
  if cb.rule = 1 then (self, some (TException.other "std::bad_alloc"))
  else CRiskManager.invokeOrderEx order cb self

/-! ## Callback registry: handles, registrations and drops -/

/-- A handle `CCallback<T>` as `RegisterCallback` returns it. `id` stands for the identity of
the handle object (every registration creates a new one; the `id` is the number of
registrations made before it) and `body` for the handler it owns. -/
structure CCallback (β : Type) where
  id : Nat
  body : β

/-- The effect on the registry of `CCallback::reset()`, which the destructor also runs, on
the handle with identity `id`: its `CWeakRef` is reset and released, so the weak pointer
kept in `m_items` is expired. -/
def CCallbackManager.resetCallback {β : Type} (self : CCallbackManager (CCallback β))
    (id : Nat) : CCallbackManager (CCallback β) :=
  { m_items := self.m_items.map (fun e =>
      match e with
      | none => none
      | some w =>
        match w.m_sp with
        | none => some w
        | some h => if h.id = id then none else some w) }

/-- An operation of the owner of a registry: a registration of a new handler, the drop (or
`reset`) of the handle with the given identity, or a fan-out. -/
inductive TCallbackOp (β : Type) where
  | Register (body : β)
  | Reset (id : Nat)
  | ForEach

/-- The registry and the number of registrations made so far, after one operation; a
fan-out leaves the registry as `_GetCallbacks` pruned it. -/
def CCallbackManager.step {β : Type} (st : CCallbackManager (CCallback β) × Nat) :
    TCallbackOp β → CCallbackManager (CCallback β) × Nat
  | TCallbackOp.Register body => (st.1.RegisterCallback { id := st.2, body := body }, st.2 + 1)
  | TCallbackOp.Reset id => (st.1.resetCallback id, st.2)
  | TCallbackOp.ForEach => (st.1._GetCallbacks.1, st.2)

/-- The registry after a sequence of operations on a new registry, oldest first. -/
def CCallbackManager.run {β : Type} (ops : List (TCallbackOp β)) :
    CCallbackManager (CCallback β) × Nat :=
  ops.foldl CCallbackManager.step ({}, 0)

/-- The handles that are alive after one more operation, in registration order: a
registration adds its new handle at the end, a drop removes the handle, a fan-out changes
nothing. -/
def liveStep {β : Type} (st : List (CCallback β) × Nat) :
    TCallbackOp β → List (CCallback β) × Nat
  | TCallbackOp.Register body => (st.1 ++ [{ id := st.2, body := body }], st.2 + 1)
  | TCallbackOp.Reset id => (st.1.filter (fun h => !decide (h.id = id)), st.2)
  | TCallbackOp.ForEach => st

/-- The handles that are alive after a sequence of operations, in registration order. -/
def liveHandles {β : Type} (ops : List (TCallbackOp β)) : List (CCallback β) :=
  (ops.foldl liveStep ([], 0)).1

/-- Example operations: three registrations, the drop of the second handle, a fan-out and a
fourth registration. -/
def callbackOpsExample : List (TCallbackOp String) :=
  [TCallbackOp.Register "a", TCallbackOp.Register "b", TCallbackOp.Register "c",
   TCallbackOp.Reset 1, TCallbackOp.ForEach, TCallbackOp.Register "d"]

/-! ## The key=value codec: input that arrives in chunks -/

/-- The call `(this->*m_fn)(p, end)` in the loop of `DoParse`. -/
def CKeyValueParser.callFn (delim fin : Char) (self : CKeyValueParser) (data : List Char) :
    CKeyValueParser × List Char :=
  match self.m_fn with
  | TParseFn._ParseKey => CKeyValueParser._ParseKey delim fin self data
  | TParseFn._ParseValue => CKeyValueParser._ParseValue delim fin self data

/-- Successive calls of `DoParse` on one parser, one per chunk, oldest first: the parser
afterwards, the attribute lists passed to `func` by all the calls, and the error raised, if
any; an error ends the feeding. -/
def CKeyValueParser.DoParseChunks (delim fin : Char) :
    CKeyValueParser → List (List Char) → CKeyValueParser × List TAttrs × Option String
  | self, [] => (self, [], none)
  | self, chunk :: rest =>
    match CKeyValueParser.DoParse delim fin self chunk with
    | (self1, out1, some err) => (self1, out1, some err)
    | (self1, out1, none) =>
      let r := DoParseChunks delim fin self1 rest
      (r.1, out1 ++ r.2.1, r.2.2)

end RM

namespace RM

/-! ## Theorems: the evaluation engine -/

theorem forEachLoop_reject {α σ : Type} (call : α → σ → σ × Option CCheckOrderError)
    (item : CWeakRef α) (rest : List (CWeakRef α)) (s : σ) (calls : List α) (sp : α)
    (e : CCheckOrderError) (hsp : item.m_sp = some sp) (he : (call sp s).2 = some e) :
    CCallbackManager.forEachLoop call (item :: rest) s calls =
      ((call sp s).1, some e, calls ++ [sp]) := by
  rcases hc : call sp s with ⟨s1, r⟩
  rw [hc] at he
  simp only [] at he
  subst he
  simp [CCallbackManager.forEachLoop, hsp, hc]

theorem forEachLoop_accept {α σ : Type} (call : α → σ → σ × Option CCheckOrderError)
    (item : CWeakRef α) (rest : List (CWeakRef α)) (s : σ) (calls : List α) (sp : α)
    (hsp : item.m_sp = some sp) (he : (call sp s).2 = none) :
    CCallbackManager.forEachLoop call (item :: rest) s calls =
      CCallbackManager.forEachLoop call rest (call sp s).1 (calls ++ [sp]) := by
  rcases hc : call sp s with ⟨s1, r⟩
  rw [hc] at he
  simp only [] at he
  subst he
  simp [CCallbackManager.forEachLoop, hsp, hc]

theorem mainRiskManager_orders :
    mainRiskManager.m_orders.m_items =
      [some { m_sp := some { rule := 0 } }, some { m_sp := some { rule := 1 } },
       some { m_sp := some { rule := 2 } }, some { m_sp := some { rule := 3 } }] := by
  simp [mainRiskManager, CRiskManager.AddRule, CRiskManager.CreateRule,
    CCallbackManager.RegisterCallback]

theorem PutObject_main (a : CNewOrderMoratorium) (b : CPriceCheck) (c : CSeqBadTrades)
    (d : CDrawDown) (inv : TUserID → Option TDateTime) (o : SOrder) :
    (mainRiskManagerWith a b c d inv).PutObject_SOrder o =
      CCallbackManager.forEachLoop (CRiskManager.invokeOrder o)
        [{ m_sp := some { rule := 0 } }, { m_sp := some { rule := 1 } },
         { m_sp := some { rule := 2 } }, { m_sp := some { rule := 3 } }]
        (mainRiskManagerWith a b c d inv) [] := by
  have h : (mainRiskManagerWith a b c d inv).m_orders.m_items =
      [some { m_sp := some { rule := 0 } }, some { m_sp := some { rule := 1 } },
       some { m_sp := some { rule := 2 } }, some { m_sp := some { rule := 3 } }] :=
    mainRiskManager_orders
  have h1 : (mainRiskManagerWith a b c d inv).m_orders._GetCallbacks =
      ((mainRiskManagerWith a b c d inv).m_orders,
        [{ m_sp := some { rule := 0 } }, { m_sp := some { rule := 1 } },
         { m_sp := some { rule := 2 } }, { m_sp := some { rule := 3 } }]) := by
    rcases hm : (mainRiskManagerWith a b c d inv).m_orders with ⟨items⟩
    rw [hm] at h
    simp only [] at h
    subst h
    simp [CCallbackManager._GetCallbacks]
  simp only [CRiskManager.PutObject_SOrder, h1]

theorem invokeOrder_main (a : CNewOrderMoratorium) (b : CPriceCheck) (c : CSeqBadTrades)
    (d : CDrawDown) (inv : TUserID → Option TDateTime) (o : SOrder) :
    CRiskManager.invokeOrder o { rule := 0 } (mainRiskManagerWith a b c d inv) =
      (mainRiskManagerWith (a.CheckOrder o).1 b c d inv, (a.CheckOrder o).2) ∧
    CRiskManager.invokeOrder o { rule := 1 } (mainRiskManagerWith a b c d inv) =
      (mainRiskManagerWith a (b.CheckOrder o).1 c d inv, (b.CheckOrder o).2) ∧
    CRiskManager.invokeOrder o { rule := 2 } (mainRiskManagerWith a b c d inv) =
      (mainRiskManagerWith a b (c.CheckOrder o).1 d inv, (c.CheckOrder o).2) ∧
    CRiskManager.invokeOrder o { rule := 3 } (mainRiskManagerWith a b c d inv) =
      (mainRiskManagerWith a b c (d.CheckOrder o).1 inv, (d.CheckOrder o).2) :=
  ⟨rfl, rfl, rfl, rfl⟩

theorem mainRiskManager_rules :
    mainRiskManager.m_rules =
      [some (CRule.NewOrderMoratorium {}), some (CRule.PriceCheck {}),
       some (CRule.SeqBadTrades {}), some (CRule.DrawDown {})] := by
  simp [mainRiskManager, CRiskManager.AddRule, CRiskManager.CreateRule]

theorem PutObject_main_first_reject :
    ∀ (a : CNewOrderMoratorium) (b : CPriceCheck) (c : CSeqBadTrades) (d : CDrawDown)
      (inv : TUserID → Option TDateTime) (o : SOrder),
      (∀ e, (a.CheckOrder o).2 = some e →
        (mainRiskManagerWith a b c d inv).PutObject_SOrder o =
          (mainRiskManagerWith (a.CheckOrder o).1 b c d inv, some e, [{ rule := 0 }])) ∧
      ((a.CheckOrder o).2 = none → ∀ e, (b.CheckOrder o).2 = some e →
        (mainRiskManagerWith a b c d inv).PutObject_SOrder o =
          (mainRiskManagerWith (a.CheckOrder o).1 (b.CheckOrder o).1 c d inv, some e,
            [{ rule := 0 }, { rule := 1 }])) ∧
      ((a.CheckOrder o).2 = none → (b.CheckOrder o).2 = none →
        ∀ e, (c.CheckOrder o).2 = some e →
        (mainRiskManagerWith a b c d inv).PutObject_SOrder o =
          (mainRiskManagerWith (a.CheckOrder o).1 (b.CheckOrder o).1 (c.CheckOrder o).1 d inv,
            some e, [{ rule := 0 }, { rule := 1 }, { rule := 2 }])) ∧
      ((a.CheckOrder o).2 = none → (b.CheckOrder o).2 = none → (c.CheckOrder o).2 = none →
        ∀ e, (d.CheckOrder o).2 = some e →
        (mainRiskManagerWith a b c d inv).PutObject_SOrder o =
          (mainRiskManagerWith (a.CheckOrder o).1 (b.CheckOrder o).1 (c.CheckOrder o).1
              (d.CheckOrder o).1 inv,
            some e, [{ rule := 0 }, { rule := 1 }, { rule := 2 }, { rule := 3 }])) ∧
      ((a.CheckOrder o).2 = none → (b.CheckOrder o).2 = none → (c.CheckOrder o).2 = none →
        (d.CheckOrder o).2 = none →
        (mainRiskManagerWith a b c d inv).PutObject_SOrder o =
          (mainRiskManagerWith (a.CheckOrder o).1 (b.CheckOrder o).1 (c.CheckOrder o).1
              (d.CheckOrder o).1 inv,
            none, [{ rule := 0 }, { rule := 1 }, { rule := 2 }, { rule := 3 }])) := by
  intro a b c d inv o
  have i0 := fun a b c d => (invokeOrder_main a b c d inv o).1
  have i1 := fun a b c d => (invokeOrder_main a b c d inv o).2.1
  have i2 := fun a b c d => (invokeOrder_main a b c d inv o).2.2.1
  have i3 := fun a b c d => (invokeOrder_main a b c d inv o).2.2.2
  refine ⟨?_, ?_, ?_, ?_, ?_⟩
  · intro e ha
    rw [PutObject_main, forEachLoop_reject _ _ _ _ _ (TCallback.mk 0) e rfl (by rw [i0]; exact ha),
      i0]
    rfl
  · intro ha e hb
    rw [PutObject_main, forEachLoop_accept _ _ _ _ _ (TCallback.mk 0) rfl (by rw [i0]; exact ha),
      i0,
      forEachLoop_reject _ _ _ _ _ (TCallback.mk 1) e rfl (by rw [i1]; exact hb), i1]
    rfl
  · intro ha hb e hc
    rw [PutObject_main, forEachLoop_accept _ _ _ _ _ (TCallback.mk 0) rfl (by rw [i0]; exact ha),
      i0,
      forEachLoop_accept _ _ _ _ _ (TCallback.mk 1) rfl (by rw [i1]; exact hb), i1,
      forEachLoop_reject _ _ _ _ _ (TCallback.mk 2) e rfl (by rw [i2]; exact hc), i2]
    rfl
  · intro ha hb hc e hd
    rw [PutObject_main, forEachLoop_accept _ _ _ _ _ (TCallback.mk 0) rfl (by rw [i0]; exact ha),
      i0,
      forEachLoop_accept _ _ _ _ _ (TCallback.mk 1) rfl (by rw [i1]; exact hb), i1,
      forEachLoop_accept _ _ _ _ _ (TCallback.mk 2) rfl (by rw [i2]; exact hc), i2,
      forEachLoop_reject _ _ _ _ _ (TCallback.mk 3) e rfl (by rw [i3]; exact hd), i3]
    rfl
  · intro ha hb hc hd
    rw [PutObject_main, forEachLoop_accept _ _ _ _ _ (TCallback.mk 0) rfl (by rw [i0]; exact ha),
      i0,
      forEachLoop_accept _ _ _ _ _ (TCallback.mk 1) rfl (by rw [i1]; exact hb), i1,
      forEachLoop_accept _ _ _ _ _ (TCallback.mk 2) rfl (by rw [i2]; exact hc), i2,
      forEachLoop_accept _ _ _ _ _ (TCallback.mk 3) rfl (by rw [i3]; exact hd), i3]
    rfl


/-- C2: `main` constructs the rules in the order NewOrderMoratorium, PriceCheck,
SeqBadTrades, DrawDown and the order handlers are registered, all live, in that order. For
every state of the four rule objects and every order, the handlers run in that order and
stop at the first rejection: the exception that leaves `PutObject` is the one of the first
rule whose check rejects, exactly the rules up to that one have been invoked, and the
objects of the later rules are untouched; when no rule rejects, all four were invoked. -/
theorem C2_order_checks_in_construction_order_stop_at_first_reject :
    mainRiskManager.m_rules =
      [some (CRule.NewOrderMoratorium {}), some (CRule.PriceCheck {}),
       some (CRule.SeqBadTrades {}), some (CRule.DrawDown {})] ∧
    mainRiskManager.m_orders.m_items =
      [some { m_sp := some { rule := 0 } }, some { m_sp := some { rule := 1 } },
       some { m_sp := some { rule := 2 } }, some { m_sp := some { rule := 3 } }] ∧
    ∀ (a : CNewOrderMoratorium) (b : CPriceCheck) (c : CSeqBadTrades) (d : CDrawDown)
      (inv : TUserID → Option TDateTime) (o : SOrder),
      (∀ e, (a.CheckOrder o).2 = some e →
        (mainRiskManagerWith a b c d inv).PutObject_SOrder o =
          (mainRiskManagerWith (a.CheckOrder o).1 b c d inv, some e, [{ rule := 0 }])) ∧
      ((a.CheckOrder o).2 = none → ∀ e, (b.CheckOrder o).2 = some e →
        (mainRiskManagerWith a b c d inv).PutObject_SOrder o =
          (mainRiskManagerWith (a.CheckOrder o).1 (b.CheckOrder o).1 c d inv, some e,
            [{ rule := 0 }, { rule := 1 }])) ∧
      ((a.CheckOrder o).2 = none → (b.CheckOrder o).2 = none →
        ∀ e, (c.CheckOrder o).2 = some e →
        (mainRiskManagerWith a b c d inv).PutObject_SOrder o =
          (mainRiskManagerWith (a.CheckOrder o).1 (b.CheckOrder o).1 (c.CheckOrder o).1 d inv,
            some e, [{ rule := 0 }, { rule := 1 }, { rule := 2 }])) ∧
      ((a.CheckOrder o).2 = none → (b.CheckOrder o).2 = none → (c.CheckOrder o).2 = none →
        ∀ e, (d.CheckOrder o).2 = some e →
        (mainRiskManagerWith a b c d inv).PutObject_SOrder o =
          (mainRiskManagerWith (a.CheckOrder o).1 (b.CheckOrder o).1 (c.CheckOrder o).1
              (d.CheckOrder o).1 inv,
            some e, [{ rule := 0 }, { rule := 1 }, { rule := 2 }, { rule := 3 }])) ∧
      ((a.CheckOrder o).2 = none → (b.CheckOrder o).2 = none → (c.CheckOrder o).2 = none →
        (d.CheckOrder o).2 = none →
        (mainRiskManagerWith a b c d inv).PutObject_SOrder o =
          (mainRiskManagerWith (a.CheckOrder o).1 (b.CheckOrder o).1 (c.CheckOrder o).1
              (d.CheckOrder o).1 inv,
            none, [{ rule := 0 }, { rule := 1 }, { rule := 2 }, { rule := 3 }])) :=
  ⟨mainRiskManager_rules, mainRiskManager_orders, PutObject_main_first_reject⟩

/-- C1: `ProcessMessage<SOrder>` sends exactly one response per order message. When no order
check rejects (no `CCheckOrderError` leaves `PutObject`), the response is the message's
attribute list unchanged; when a check rejects with error `e`, the response is the attribute
list with the one entry `("reject", e.what())` appended as its last attribute. -/
theorem C1_order_response_echo_or_reject (Parse : CMessage → SOrder) (now : TDateTime)
    (fmt : TFormatArg → String) (rm : CRiskManager) (trans : CTransport) (msg : CMessage) :
    (((rm.GetInvestor (Parse msg).m_user_id).PutObject_SOrder (Parse msg)).2.1 = none →
      (rm.ProcessMessage_SOrder Parse now fmt trans msg).2.sent =
        trans.sent ++ [msg.m_attrs]) ∧
    (∀ e, ((rm.GetInvestor (Parse msg).m_user_id).PutObject_SOrder (Parse msg)).2.1 = some e →
      (rm.ProcessMessage_SOrder Parse now fmt trans msg).2.sent =
        trans.sent ++ [msg.m_attrs ++ [("reject", e.what fmt)]] ∧
      (msg.m_attrs ++ [("reject", e.what fmt)]).getLast? = some ("reject", e.what fmt)) := by
  constructor
  · intro h
    rcases hp : (rm.GetInvestor (Parse msg).m_user_id).PutObject_SOrder (Parse msg) with
      ⟨rm2, thrown, calls⟩
    rw [hp] at h
    simp only [] at h
    subst h
    simp [CRiskManager.ProcessMessage_SOrder, hp, CTransport.SendMessage]
  · intro e h
    rcases hp : (rm.GetInvestor (Parse msg).m_user_id).PutObject_SOrder (Parse msg) with
      ⟨rm2, thrown, calls⟩
    rw [hp] at h
    simp only [] at h
    subst h
    simp [CRiskManager.ProcessMessage_SOrder, hp, CTransport.SendMessage, SendReject]

theorem mainRiskManager_GetInvestor (id : TUserID) :
    mainRiskManager.GetInvestor id =
      mainRiskManagerWith {} {} {} {} (Function.update (fun _ => none) id (some TDateTime.min)) :=
  rfl

theorem CheckOrder_examples :
    (({} : CNewOrderMoratorium).CheckOrder orderMarketUX).2 = none ∧
    (({} : CPriceCheck).CheckOrder orderMarketUX).2 = none ∧
    (({} : CSeqBadTrades).CheckOrder orderMarketUX).2 = none ∧
    (({} : CDrawDown).CheckOrder orderMarketUX).2 = none ∧
    (({} : CNewOrderMoratorium).CheckOrder orderLimitUY).2 = none ∧
    (({} : CPriceCheck).CheckOrder orderLimitUY).2 =
      some { m_moratorium := 60, m_reason := "InstrumentNotFound",
             m_args := [TFormatArg.text "Y"] } ∧
    (moratoriumAt0.CheckOrder orderMarketUX).2 =
      some { m_moratorium := 60, m_reason := "NewOrderMoratorium",
             m_args := [TFormatArg.duration 999999995] } ∧
    (seqBadTradesSix.CheckOrder orderMarketUX).2 =
      some { m_moratorium := 60, m_reason := "SeqBadTrades", m_args := [TFormatArg.count 6] } ∧
    (drawDown200.CheckOrder orderMarketUX).2 =
      some { m_moratorium := 60, m_reason := "TrailingDrowdown",
             m_args := [TFormatArg.price 200] } := by
  refine ⟨rfl, rfl, rfl, rfl, rfl, rfl, rfl, ?_, ?_⟩
  · simp [CSeqBadTrades.CheckOrder, seqBadTradesSix, orderMarketUX, CTradesPair.GetBadTrades,
      CFramedQueue.GetSize, CFramedQueue._EraseExpired, CFramedQueue.eraseLoop,
      CTradesPair._IsBadTrade, CMovingSum.GetAverageConst, COrderCheckRule.RejectOrder,
      nsPerSec]
  · norm_num [CDrawDown.CheckOrder, drawDown200, orderMarketUX, COrderCheckRule.RejectOrder]

/-- Witness for C1 on the engine of `main`: a market order (accepted by all four rules) is
echoed, a limit order on a symbol without quotes is answered with the reject attribute. -/
theorem C1_order_response_echo_or_reject_witness :
    ((mainRiskManager.ProcessMessage_SOrder (fun _ => orderMarketUX) 0 (fun _ => "") {}
        { m_attrs := [("Order", ""), ("user_id", "U")] }).2.sent =
      ({} : CTransport).sent ++ [[("Order", ""), ("user_id", "U")]]) ∧
    ((mainRiskManager.ProcessMessage_SOrder (fun _ => orderLimitUY) 0 (fun _ => "") {}
        { m_attrs := [("Order", ""), ("user_id", "U")] }).2.sent =
      ({} : CTransport).sent ++ [[("Order", ""), ("user_id", "U")] ++
        [("reject", CCheckOrderError.what (fun _ => "")
          { m_moratorium := 60, m_reason := "InstrumentNotFound",
            m_args := [TFormatArg.text "Y"] })]] ∧
      ([("Order", ""), ("user_id", "U")] ++
        [("reject", CCheckOrderError.what (fun _ => "")
          { m_moratorium := 60, m_reason := "InstrumentNotFound",
            m_args := [TFormatArg.text "Y"] })]).getLast? =
        some ("reject", CCheckOrderError.what (fun _ => "")
          { m_moratorium := 60, m_reason := "InstrumentNotFound",
            m_args := [TFormatArg.text "Y"] })) :=
  ⟨(C1_order_response_echo_or_reject (fun _ => orderMarketUX) 0 (fun _ => "") mainRiskManager {}
      { m_attrs := [("Order", ""), ("user_id", "U")] }).1
      (by
        show ((mainRiskManager.GetInvestor "U").PutObject_SOrder orderMarketUX).2.1 = none
        rw [mainRiskManager_GetInvestor,
          (PutObject_main_first_reject {} {} {} {} _ orderMarketUX).2.2.2.2
            CheckOrder_examples.1 CheckOrder_examples.2.1 CheckOrder_examples.2.2.1
            CheckOrder_examples.2.2.2.1]),
   (C1_order_response_echo_or_reject (fun _ => orderLimitUY) 0 (fun _ => "") mainRiskManager {}
      { m_attrs := [("Order", ""), ("user_id", "U")] }).2
      { m_moratorium := 60, m_reason := "InstrumentNotFound", m_args := [TFormatArg.text "Y"] }
      (by
        show ((mainRiskManager.GetInvestor "U").PutObject_SOrder orderLimitUY).2.1 = some _
        rw [mainRiskManager_GetInvestor,
          (PutObject_main_first_reject {} {} {} {} _ orderLimitUY).2.1
            CheckOrder_examples.2.2.2.2.1 _ CheckOrder_examples.2.2.2.2.2.1])⟩

/-- Witness for C2: one instance of each case on the engine of `main`. -/
theorem C2_order_checks_in_construction_order_stop_at_first_reject_witness :
    ((mainRiskManagerWith moratoriumAt0 {} {} {} (fun _ => none)).PutObject_SOrder orderMarketUX =
      (mainRiskManagerWith (moratoriumAt0.CheckOrder orderMarketUX).1 {} {} {} (fun _ => none),
        some { m_moratorium := 60, m_reason := "NewOrderMoratorium",
               m_args := [TFormatArg.duration 999999995] },
        [{ rule := 0 }])) ∧
    ((mainRiskManagerWith {} {} {} {} (fun _ => none)).PutObject_SOrder orderLimitUY =
      (mainRiskManagerWith (({} : CNewOrderMoratorium).CheckOrder orderLimitUY).1
          (({} : CPriceCheck).CheckOrder orderLimitUY).1 {} {} (fun _ => none),
        some { m_moratorium := 60, m_reason := "InstrumentNotFound",
               m_args := [TFormatArg.text "Y"] },
        [{ rule := 0 }, { rule := 1 }])) ∧
    ((mainRiskManagerWith {} {} seqBadTradesSix {} (fun _ => none)).PutObject_SOrder
        orderMarketUX =
      (mainRiskManagerWith (({} : CNewOrderMoratorium).CheckOrder orderMarketUX).1
          (({} : CPriceCheck).CheckOrder orderMarketUX).1
          (seqBadTradesSix.CheckOrder orderMarketUX).1 {} (fun _ => none),
        some { m_moratorium := 60, m_reason := "SeqBadTrades",
               m_args := [TFormatArg.count 6] },
        [{ rule := 0 }, { rule := 1 }, { rule := 2 }])) ∧
    ((mainRiskManagerWith {} {} {} drawDown200 (fun _ => none)).PutObject_SOrder orderMarketUX =
      (mainRiskManagerWith (({} : CNewOrderMoratorium).CheckOrder orderMarketUX).1
          (({} : CPriceCheck).CheckOrder orderMarketUX).1
          (({} : CSeqBadTrades).CheckOrder orderMarketUX).1
          (drawDown200.CheckOrder orderMarketUX).1 (fun _ => none),
        some { m_moratorium := 60, m_reason := "TrailingDrowdown",
               m_args := [TFormatArg.price 200] },
        [{ rule := 0 }, { rule := 1 }, { rule := 2 }, { rule := 3 }])) ∧
    ((mainRiskManagerWith {} {} {} {} (fun _ => none)).PutObject_SOrder orderMarketUX =
      (mainRiskManagerWith (({} : CNewOrderMoratorium).CheckOrder orderMarketUX).1
          (({} : CPriceCheck).CheckOrder orderMarketUX).1
          (({} : CSeqBadTrades).CheckOrder orderMarketUX).1
          (({} : CDrawDown).CheckOrder orderMarketUX).1 (fun _ => none),
        none, [{ rule := 0 }, { rule := 1 }, { rule := 2 }, { rule := 3 }])) :=
  ⟨(C2_order_checks_in_construction_order_stop_at_first_reject.2.2
      moratoriumAt0 {} {} {} (fun _ => none) orderMarketUX).1 _
      CheckOrder_examples.2.2.2.2.2.2.1,
   (C2_order_checks_in_construction_order_stop_at_first_reject.2.2
      {} {} {} {} (fun _ => none) orderLimitUY).2.1
      CheckOrder_examples.2.2.2.2.1 _ CheckOrder_examples.2.2.2.2.2.1,
   (C2_order_checks_in_construction_order_stop_at_first_reject.2.2
      {} {} seqBadTradesSix {} (fun _ => none) orderMarketUX).2.2.1
      CheckOrder_examples.1 CheckOrder_examples.2.1 _ CheckOrder_examples.2.2.2.2.2.2.2.1,
   (C2_order_checks_in_construction_order_stop_at_first_reject.2.2
      {} {} {} drawDown200 (fun _ => none) orderMarketUX).2.2.2.1
      CheckOrder_examples.1 CheckOrder_examples.2.1 CheckOrder_examples.2.2.1 _
      CheckOrder_examples.2.2.2.2.2.2.2.2,
   (C2_order_checks_in_construction_order_stop_at_first_reject.2.2
      {} {} {} {} (fun _ => none) orderMarketUX).2.2.2.2
      CheckOrder_examples.1 CheckOrder_examples.2.1 CheckOrder_examples.2.2.1
      CheckOrder_examples.2.2.2.1⟩

/-! ## Theorems: new-order moratorium -/

/-- C3: for an order whose key has a recorded time `last <= o.time`, the moratorium check
rejects exactly when `last + timeout > o.time`, and the rejection has reason
`NewOrderMoratorium` and carries the duration `last + timeout - o.time`; with the default
1 s timeout, an order B that arrives 500 ms after a first (accepted) order A of the same user
and symbol is rejected with value 500 ms. -/
theorem C3_moratorium_rejects_iff_before_deadline :
    (∀ (self : CNewOrderMoratorium) (o : SOrder) (last : TDateTime),
      self.m_investors (o.m_user_id, o.m_symbol) = some last → last ≤ o.m_time →
        (((self.CheckOrder o).2.isSome ↔ last + self.m_cfg.timeout * nsPerMs > o.m_time) ∧
         ∀ e, (self.CheckOrder o).2 = some e →
           e.m_reason = "NewOrderMoratorium" ∧
           e.m_args = [TFormatArg.duration (last + self.m_cfg.timeout * nsPerMs - o.m_time)])) ∧
    (∀ (a b : SOrder), b.m_user_id = a.m_user_id → b.m_symbol = a.m_symbol →
      b.m_time = a.m_time + 500 * nsPerMs →
        (({} : CNewOrderMoratorium).CheckOrder a).2 = none ∧
        ((({} : CNewOrderMoratorium).CheckOrder a).1.CheckOrder b).2 =
          some { m_moratorium := 60, m_reason := "NewOrderMoratorium",
                 m_args := [TFormatArg.duration (500 * nsPerMs)] }) := by
  refine ⟨?_, ?_⟩
  · intro self o last hkey hle
    have hng : ¬ last > o.m_time := not_lt.mpr hle
    by_cases hd : last + self.m_cfg.timeout * nsPerMs > o.m_time
    · simp [CNewOrderMoratorium.CheckOrder, hkey, hng, hd, COrderCheckRule.RejectOrder]
    · simp [CNewOrderMoratorium.CheckOrder, hkey, hng, hd]
  · intro a b hu hs ht
    simp [CNewOrderMoratorium.CheckOrder, hu, hs, ht, COrderCheckRule.RejectOrder, nsPerMs]

/-- Witness for C3: a record at time 0, default timeout, order at 500 ms. -/
theorem C3_moratorium_rejects_iff_before_deadline_witness :
    ((({ m_investors := fun _ => some 0 } : CNewOrderMoratorium).CheckOrder
        { m_time := 500000000 }).2.isSome ↔ (0 : Int) + 1000 * nsPerMs > 500000000) ∧
    ∀ e, (({ m_investors := fun _ => some 0 } : CNewOrderMoratorium).CheckOrder
        { m_time := 500000000 }).2 = some e →
      e.m_reason = "NewOrderMoratorium" ∧
      e.m_args = [TFormatArg.duration (0 + 1000 * nsPerMs - 500000000)] :=
  C3_moratorium_rejects_iff_before_deadline.1
    { m_investors := fun _ => some 0 } { m_time := 500000000 } 0 rfl (by decide)

/-- C4: when the key has no entry, or has an entry `last` with `last <= o.time` and
`last + timeout <= o.time`, the moratorium check accepts and afterwards the recorded
last order time of `(o.user_id, o.symbol)` is `o.time`. -/
theorem C4_moratorium_accept_records_order_time (self : CNewOrderMoratorium) (o : SOrder)
    (h : self.m_investors (o.m_user_id, o.m_symbol) = none ∨
      ∃ last, self.m_investors (o.m_user_id, o.m_symbol) = some last ∧ last ≤ o.m_time ∧
        last + self.m_cfg.timeout * nsPerMs ≤ o.m_time) :
    (self.CheckOrder o).2 = none ∧
    (self.CheckOrder o).1.m_investors (o.m_user_id, o.m_symbol) = some o.m_time := by
  rcases h with hnone | ⟨last, hkey, hle, hdl⟩
  · simp [CNewOrderMoratorium.CheckOrder, hnone]
  · have hng : ¬ last > o.m_time := not_lt.mpr hle
    have hnd : ¬ last + self.m_cfg.timeout * nsPerMs > o.m_time := not_lt.mpr hdl
    simp [CNewOrderMoratorium.CheckOrder, hkey, hng, hnd]

/-- Witness for C4: a fresh rule (no entry for any key). -/
theorem C4_moratorium_accept_records_order_time_witness :
    (({} : CNewOrderMoratorium).CheckOrder { m_user_id := "U", m_symbol := "X", m_time := 7 }).2
      = none ∧
    (({} : CNewOrderMoratorium).CheckOrder
      { m_user_id := "U", m_symbol := "X", m_time := 7 }).1.m_investors ("U", "X") = some 7 :=
  C4_moratorium_accept_records_order_time {}
    { m_user_id := "U", m_symbol := "X", m_time := 7 } (Or.inl rfl)

/-- C5: when the key has an entry whose time is strictly later than `o.time` (out-of-order
arrival), the moratorium check accepts and leaves the rule object, hence the whole map,
unchanged. -/
theorem C5_moratorium_out_of_order_unchanged (self : CNewOrderMoratorium) (o : SOrder)
    (last : TDateTime) (hkey : self.m_investors (o.m_user_id, o.m_symbol) = some last)
    (hlate : last > o.m_time) :
    (self.CheckOrder o).2 = none ∧ (self.CheckOrder o).1 = self ∧
    (self.CheckOrder o).1.m_investors = self.m_investors := by
  simp [CNewOrderMoratorium.CheckOrder, hkey, hlate]

/-- Witness for C5: every key recorded at time 10, order at time 3. -/
theorem C5_moratorium_out_of_order_unchanged_witness :
    (({ m_investors := fun _ => some 10 } : CNewOrderMoratorium).CheckOrder { m_time := 3 }).2
      = none ∧
    (({ m_investors := fun _ => some 10 } : CNewOrderMoratorium).CheckOrder { m_time := 3 }).1
      = { m_investors := fun _ => some 10 } ∧
    (({ m_investors := fun _ => some 10 } : CNewOrderMoratorium).CheckOrder
      { m_time := 3 }).1.m_investors = fun _ => some 10 :=
  C5_moratorium_out_of_order_unchanged { m_investors := fun _ => some 10 } { m_time := 3 } 10
    rfl (by decide)

/-! ## Lemmas: the running sum of a `CMovingSum<TPrice>` -/

theorem eraseLoop_sum (m_frame : Int) (m_rem : Nat) (tm : TDateTime) :
    ∀ (items : List (TDateTime × TPrice)) (a : TPrice) (res : Bool),
      a = (items.map Prod.snd).sum →
      (CFramedQueue.eraseLoop CMovingSum.EraseItem m_frame m_rem tm items a res).2.1 =
        ((CFramedQueue.eraseLoop CMovingSum.EraseItem m_frame m_rem tm items a res).1.map
          Prod.snd).sum := by
  intro items
  induction items with
  | nil => intro a res h; simpa [CFramedQueue.eraseLoop] using h
  | cons item rest ih =>
    intro a res h
    unfold CFramedQueue.eraseLoop
    split_ifs with h1 h2
    · apply ih
      simp [CMovingSum.EraseItem, h]
    · simpa using h
    · simpa using h

theorem _EraseExpired_sum (q : CFramedQueue TPrice) (a : TPrice) (tm : TDateTime)
    (h : a = (q.m_items.map Prod.snd).sum) :
    (CFramedQueue._EraseExpired CMovingSum.EraseItem q a tm).2.1 =
      ((CFramedQueue._EraseExpired CMovingSum.EraseItem q a tm).1.m_items.map Prod.snd).sum := by
  unfold CFramedQueue._EraseExpired
  split
  · next hnil => simpa [hnil] using h
  · next front tl hcons =>
    split_ifs with h1
    · simpa [hcons] using h
    · simpa [hcons] using eraseLoop_sum q.m_frame q.m_rem tm q.m_items a false h

theorem insertUpperBound_sum (tm : TDateTime) (val : TPrice) :
    ∀ items : List (TDateTime × TPrice),
      ((CFramedQueue.insertUpperBound tm val items).map Prod.snd).sum =
        (items.map Prod.snd).sum + val := by
  intro items
  induction items with
  | nil => simp [CFramedQueue.insertUpperBound]
  | cons item rest ih =>
    unfold CFramedQueue.insertUpperBound
    split_ifs with h1
    · simp; ring
    · simp [ih]; ring

theorem _PutValue_sum (q : CFramedQueue TPrice) (a : TPrice) (tm : TDateTime) (val : TPrice)
    (h : a = (q.m_items.map Prod.snd).sum) :
    (CFramedQueue._PutValue CMovingSum.EraseItem q a tm val).2.1 +
        (if (CFramedQueue._PutValue CMovingSum.EraseItem q a tm val).2.2 = true then val else 0) =
      ((CFramedQueue._PutValue CMovingSum.EraseItem q a tm val).1.m_items.map Prod.snd).sum := by
  obtain ⟨fr, rem, items⟩ := q
  cases items with
  | nil => simp at h; simp [CFramedQueue._PutValue, h]
  | cons front tl =>
    simp only [] at h
    by_cases h1 : ((front :: tl).getLast (List.cons_ne_nil front tl)).1 < tm ∨
        ¬ (tm < ((front :: tl).getLast (List.cons_ne_nil front tl)).1)
    · by_cases h2 : front.1 + fr < tm
      · have := _EraseExpired_sum ⟨fr, rem, front :: tl⟩ a tm h
        simp only [CFramedQueue._PutValue, h1, h2, if_true, List.map_append, List.sum_append]
        simp [this]
      · simp only [CFramedQueue._PutValue, h1, h2, if_true, if_false]
        simp [h, add_assoc]
    · by_cases h3 : front.1 < tm
      · simp only [CFramedQueue._PutValue, h1, h3, if_true, if_false]
        simp [insertUpperBound_sum, h]
      · by_cases h4 : ((front :: tl).getLast (List.cons_ne_nil front tl)).1 < tm + fr
        · simp only [CFramedQueue._PutValue, h1, h3, h4, if_true, if_false]
          simp [h]; ring
        · simp only [CFramedQueue._PutValue, h1, h3, h4, if_false]
          simp [h]

theorem PutValue_sumOk (w : CMovingSum TPrice TPrice) (tm : TDateTime) (val : TPrice)
    (h : SumOk w) : SumOk (w.PutValue tm val).1 := by
  unfold SumOk at h ⊢
  have hs := _PutValue_sum w.toCFramedQueue w.m_sum tm val h
  simp only [CMovingSum.PutValue]
  cases h1 : (CFramedQueue._PutValue CMovingSum.EraseItem w.toCFramedQueue w.m_sum tm val).2.2
  · simpa [h1] using hs
  · simpa [h1] using hs

theorem EraseExpired_sumOk (w : CMovingSum TPrice TPrice) (tm : TDateTime) (h : SumOk w) :
    SumOk (w.EraseExpired tm).1 :=
  _EraseExpired_sum w.toCFramedQueue w.m_sum tm h

theorem GetAverage_fst (w : CMovingSum TPrice TPrice) (tm : TDateTime) :
    (w.GetAverage tm).1 = (w.EraseExpired tm).1 := rfl

theorem GetAverage_snd (w : CMovingSum TPrice TPrice) (tm : TDateTime) (h : SumOk w) :
    (w.GetAverage tm).2 = windowAverage (w.EraseExpired tm).1.m_items := by
  have hs : SumOk (w.EraseExpired tm).1 := EraseExpired_sumOk w tm h
  unfold SumOk at hs
  simp only [CMovingSum.GetAverage, windowAverage, CMovingSum.EraseExpired] at hs ⊢
  by_cases h1 : (CFramedQueue._EraseExpired CMovingSum.EraseItem w.toCFramedQueue w.m_sum
      tm).1.m_items = []
  · simp [h1]
  · simp [h1, hs]

theorem CPriceCheck.ProcessQuote_inv (s : CPriceCheck) (q : SQuote) (h : s.Inv) :
    (s.ProcessQuote q).Inv := by
  intro sym w hw
  by_cases hs : sym = q.m_symbol
  · rw [hs] at hw
    cases hq : s.m_instrs q.m_symbol with
    | none =>
      simp [CPriceCheck.ProcessQuote, CPriceCheck.GetInstrument, hq] at hw
      rw [← hw]
      exact PutValue_sumOk _ _ _ (by simp [SumOk])
    | some w0 =>
      simp [CPriceCheck.ProcessQuote, CPriceCheck.GetInstrument, hq] at hw
      rw [← hw]
      exact PutValue_sumOk _ _ _ (h _ w0 hq)
  · cases hq : s.m_instrs q.m_symbol with
    | none =>
      simp [CPriceCheck.ProcessQuote, CPriceCheck.GetInstrument, hq,
        Function.update_noteq hs] at hw
      exact h sym w hw
    | some w0 =>
      simp [CPriceCheck.ProcessQuote, CPriceCheck.GetInstrument, hq,
        Function.update_noteq hs] at hw
      exact h sym w hw

theorem CPriceCheck.CheckOrder_inv (s : CPriceCheck) (o : SOrder) (h : s.Inv) :
    (s.CheckOrder o).1.Inv := by
  have key : ∀ w0, s.m_instrs o.m_symbol = some w0 → ∀ sym w,
      Function.update s.m_instrs o.m_symbol (some (w0.GetAverage o.m_time).1) sym = some w →
        SumOk w := by
    intro w0 hq sym w hw
    by_cases hs : sym = o.m_symbol
    · rw [hs] at hw
      simp at hw
      rw [← hw, GetAverage_fst]
      exact EraseExpired_sumOk _ _ (h _ w0 hq)
    · simp [Function.update_noteq hs] at hw
      exact h sym w hw
  intro sym w hw
  unfold CPriceCheck.CheckOrder at hw
  by_cases h1 : o.m_type = TOrderType.Limit
  · cases hq : s.m_instrs o.m_symbol with
    | none =>
      simp [h1, hq] at hw
      exact h sym w hw
    | some w0 =>
      simp only [h1, hq, ne_eq, not_true_eq_false, if_false] at hw
      split_ifs at hw <;> exact key w0 hq sym w hw
  · simp [h1] at hw
    exact h sym w hw

theorem CPriceCheck.run_inv (events : List TPriceCheckEvent) :
    ∀ s : CPriceCheck, s.Inv → (s.run events).Inv := by
  induction events with
  | nil => intro s h; exact h
  | cons ev rest ih =>
    intro s h
    have hstep : (s.step ev).Inv := by
      cases ev with
      | quote q => exact CPriceCheck.ProcessQuote_inv s q h
      | order o => exact CPriceCheck.CheckOrder_inv s o h
    exact ih _ hstep

theorem CPriceCheck.fresh_inv (b : COrderCheckRule) (cfg : PriceCheck.CConfig) :
    CPriceCheck.Inv { base := b, m_cfg := cfg } := by
  intro sym w hw
  simp at hw

theorem CPriceCheck.run_cfg (events : List TPriceCheckEvent) :
    ∀ s : CPriceCheck, (s.run events).m_cfg = s.m_cfg ∧ (s.run events).base = s.base := by
  induction events with
  | nil => intro s; exact ⟨rfl, rfl⟩
  | cons ev rest ih =>
    intro s
    have hstep : (s.step ev).m_cfg = s.m_cfg ∧ (s.step ev).base = s.base := by
      cases ev with
      | quote q =>
        simp only [CPriceCheck.step, CPriceCheck.ProcessQuote, CPriceCheck.GetInstrument]
        split <;> exact ⟨rfl, rfl⟩
      | order o =>
        simp only [CPriceCheck.step, CPriceCheck.CheckOrder]
        cases s.m_instrs o.m_symbol <;> (simp only []; split_ifs <;> exact ⟨rfl, rfl⟩)
    have := ih (s.step ev)
    simp only [CPriceCheck.run, List.foldl_cons] at this ⊢
    rw [this.1, this.2]
    exact hstep

/-- The outcome of the price check for a limit order on a symbol that has a window. -/
theorem CPriceCheck.CheckOrder_limit (s : CPriceCheck) (o : SOrder)
    (w : CMovingSum TPrice TPrice) (h1 : o.m_type = TOrderType.Limit)
    (hq : s.m_instrs o.m_symbol = some w) :
    (s.CheckOrder o).2 =
      if (if o.m_side = TSide.Buy then
            decide (o.m_price > (w.GetAverage o.m_time).2 * (1 + s.m_cfg.price_dev))
          else decide (-o.m_price < -(w.GetAverage o.m_time).2 * (1 - s.m_cfg.price_dev))) = true
      then some (s.base.RejectOrder o "PriceCheck" [TFormatArg.price (w.GetAverage o.m_time).2])
      else none := by
  simp only [CPriceCheck.CheckOrder, h1, hq, ne_eq, not_true_eq_false, if_false]
  split_ifs <;> rfl

theorem ProcessQuote_ruleWithX_append (w : CMovingSum TPrice TPrice) (front : TDateTime × TPrice)
    (tl : List (TDateTime × TPrice)) (t : TDateTime) (p : TPrice)
    (hitems : w.m_items = front :: tl)
    (hback : ((front :: tl).getLast (List.cons_ne_nil front tl)).1 ≤ t)
    (hfr : ¬ front.1 + w.m_frame < t) :
    (ruleWithX w).ProcessQuote { m_symbol := "X", m_price := p, m_time := t } =
      ruleWithX { w with m_items := w.m_items ++ [(t, p)], m_sum := w.m_sum + p } := by
  obtain ⟨⟨fr, rem, items⟩, sum⟩ := w
  simp only [] at hitems hfr
  subst hitems
  have h1 : ((front :: tl).getLast (List.cons_ne_nil front tl)).1 < t ∨
      ¬ (t < ((front :: tl).getLast (List.cons_ne_nil front tl)).1) := Or.inr (not_lt.mpr hback)
  simp only [ruleWithX, CPriceCheck.ProcessQuote, CPriceCheck.GetInstrument,
    Function.update_same, CMovingSum.PutValue, CFramedQueue._PutValue, h1, hfr, if_true,
    if_false, Function.update_idem]
  simp

theorem run_quotesX100 (t0 : TDateTime) :
    CPriceCheck.run {} (quotesX100 t0) =
      ruleWithX { m_frame := 10800 * nsPerSec, m_rem := 1,
                  m_items := [(t0, 100), (t0 + 3600 * nsPerSec, 100),
                              (t0 + 7200 * nsPerSec, 100)],
                  m_sum := 0 + 100 + 100 + 100 } := by
  have e1 : CPriceCheck.ProcessQuote {} { m_symbol := "X", m_price := 100, m_time := t0 } =
      ruleWithX { m_frame := 10800 * nsPerSec, m_rem := 1, m_items := [(t0, 100)],
                  m_sum := 0 + 100 } := by
    simp [ruleWithX, CPriceCheck.ProcessQuote, CPriceCheck.GetInstrument, CMovingSum.PutValue,
      CFramedQueue._PutValue]
  simp only [CPriceCheck.run, quotesX100, List.foldl, CPriceCheck.step, e1]
  rw [ProcessQuote_ruleWithX_append _ (t0, 100) [] _ _ rfl (by simp [nsPerSec])
    (by simp [nsPerSec])]
  rw [ProcessQuote_ruleWithX_append _ (t0, 100) [(t0 + 3600 * nsPerSec, 100)] _ _ rfl
    (by simp [nsPerSec]) (by simp [nsPerSec])]
  rfl

theorem GetAverage_X100 (t0 t : TDateTime) :
    (({ m_frame := 10800 * nsPerSec, m_rem := 1,
        m_items := [(t0, 100), (t0 + 3600 * nsPerSec, 100), (t0 + 7200 * nsPerSec, 100)],
        m_sum := 0 + 100 + 100 + 100 } : CMovingSum TPrice TPrice).GetAverage t).2 = 100 := by
  simp only [CMovingSum.GetAverage, CFramedQueue._EraseExpired, CFramedQueue.eraseLoop,
    CMovingSum.EraseItem]
  split_ifs <;> simp_all <;> norm_num

/-! ## Theorems: price check -/

theorem CPriceCheck.run_average (b : COrderCheckRule) (cfg : PriceCheck.CConfig)
    (events : List TPriceCheckEvent) (sym : TSymbol) (w : CMovingSum TPrice TPrice)
    (t : TDateTime)
    (hq : (CPriceCheck.run { base := b, m_cfg := cfg } events).m_instrs sym = some w) :
    (w.GetAverage t).2 = windowAverage (w.EraseExpired t).1.m_items :=
  GetAverage_snd w t
    (CPriceCheck.run_inv events _ (CPriceCheck.fresh_inv b cfg) sym w hq)

theorem CPriceCheck.run_no_quote (events : List TPriceCheckEvent) (sym : TSymbol) :
    ∀ s : CPriceCheck, s.m_instrs sym = none →
      (∀ q, TPriceCheckEvent.quote q ∈ events → q.m_symbol ≠ sym) →
      (s.run events).m_instrs sym = none := by
  induction events with
  | nil => intro s h _; exact h
  | cons ev rest ih =>
    intro s h hq
    have hstep : (s.step ev).m_instrs sym = none := by
      cases ev with
      | quote q =>
        have hne : sym ≠ q.m_symbol := fun hs => hq q (List.mem_cons_self _ _) hs.symm
        cases hx : s.m_instrs q.m_symbol <;>
          simp [CPriceCheck.step, CPriceCheck.ProcessQuote, CPriceCheck.GetInstrument, hx,
            Function.update_noteq hne, h]
      | order o =>
        by_cases h1 : o.m_type = TOrderType.Limit
        · cases hx : s.m_instrs o.m_symbol with
          | none => simp [CPriceCheck.step, CPriceCheck.CheckOrder, h1, hx, h]
          | some w0 =>
            have hne : sym ≠ o.m_symbol := by
              intro hs
              rw [hs, hx] at h
              exact Option.noConfusion h
            simp only [CPriceCheck.step, CPriceCheck.CheckOrder, h1, hx, ne_eq,
              not_true_eq_false, if_false]
            split_ifs <;> simp [Function.update_noteq hne, h]
        · simp [CPriceCheck.step, CPriceCheck.CheckOrder, h1, h]
    exact ih _ hstep (fun q hmem => hq q (List.mem_cons_of_mem _ hmem))

/-- For a limit order whose side is not Buy, on a symbol that has a window, in a state
reached from construction: the check rejects exactly when `price > avg * (1 - price_dev)`. -/
theorem CPriceCheck.CheckOrder_not_buy (b : COrderCheckRule) (cfg : PriceCheck.CConfig)
    (events : List TPriceCheckEvent) (o : SOrder) (w : CMovingSum TPrice TPrice)
    (h1 : o.m_type = TOrderType.Limit) (h2 : o.m_side ≠ TSide.Buy)
    (hq : (CPriceCheck.run { base := b, m_cfg := cfg } events).m_instrs o.m_symbol = some w) :
    ((CPriceCheck.run { base := b, m_cfg := cfg } events).CheckOrder o).2 =
      if o.m_price > windowAverage (w.EraseExpired o.m_time).1.m_items * (1 - cfg.price_dev)
      then some { m_moratorium := b.m_cfg.moratorium, m_reason := "PriceCheck",
                  m_args := [TFormatArg.price (windowAverage (w.EraseExpired o.m_time).1.m_items)] }
      else none := by
  have havg := CPriceCheck.run_average b cfg events o.m_symbol w o.m_time hq
  have hcfg := CPriceCheck.run_cfg events { base := b, m_cfg := cfg }
  rw [CPriceCheck.CheckOrder_limit _ o w h1 hq, havg, hcfg.1, hcfg.2]
  have hiff : (-o.m_price <
        -windowAverage (w.EraseExpired o.m_time).1.m_items * (1 - cfg.price_dev)) ↔
      o.m_price > windowAverage (w.EraseExpired o.m_time).1.m_items * (1 - cfg.price_dev) := by
    constructor <;> intro h <;> linarith
  simp only [h2, if_false, COrderCheckRule.RejectOrder, decide_eq_true_eq, hiff]

/-- C7 (behaviour of the code at the failing inputs): after quotes 100, 100, 100 with the
default deviation 0.05 (so `avg * (1 - price_dev) = 95`), a limit sell at 100, which is not
below 95, is rejected with reason `PriceCheck`, and a limit sell at 90, which is below 95,
is accepted. -/
theorem C7_price_check_limit_sell_in_code (t0 t : TDateTime) :
    ((CPriceCheck.run {} (quotesX100 t0)).CheckOrder
        { m_type := TOrderType.Limit, m_symbol := "X", m_side := TSide.Sell, m_price := 100,
          m_time := t }).2 =
      some { m_moratorium := 60, m_reason := "PriceCheck", m_args := [TFormatArg.price 100] } ∧
    ((CPriceCheck.run {} (quotesX100 t0)).CheckOrder
        { m_type := TOrderType.Limit, m_symbol := "X", m_side := TSide.Sell, m_price := 90,
          m_time := t }).2 = none := by
  have hq : ∀ w, (ruleWithX w).m_instrs "X" = some w := by
    intro w
    simp [ruleWithX]
  have hside : ¬ (TSide.Sell = TSide.Buy) := by decide
  rw [run_quotesX100]
  constructor
  · rw [CPriceCheck.CheckOrder_limit _ _ _ rfl (hq _), GetAverage_X100]
    norm_num [ruleWithX, COrderCheckRule.RejectOrder, hside]
  · rw [CPriceCheck.CheckOrder_limit _ _ _ rfl (hq _), GetAverage_X100]
    norm_num [ruleWithX, hside]

/-- C8 (counterexample): after the single quote `X` at price 0 the window average is 0, and
the limit sell `X` at price 1 (which is `>= 0`) is rejected with reason `PriceCheck`. -/
theorem C8_sell_at_zero_average_counterexample :
    windowAverage
      ((({ m_frame := 10800 * nsPerSec, m_rem := 1, m_items := [(0, 0)], m_sum := 0 + 0 } :
        CMovingSum TPrice TPrice).EraseExpired 0).1.m_items) = 0 ∧
    (CPriceCheck.run {} [TPriceCheckEvent.quote { m_symbol := "X", m_price := 0, m_time := 0 }]
      ).m_instrs "X" =
      some { m_frame := 10800 * nsPerSec, m_rem := 1, m_items := [(0, 0)], m_sum := 0 + 0 } ∧
    (0 : TPrice) ≤ 1 ∧
    ((CPriceCheck.run {} [TPriceCheckEvent.quote { m_symbol := "X", m_price := 0, m_time := 0 }]
      ).CheckOrder
        { m_type := TOrderType.Limit, m_symbol := "X", m_side := TSide.Sell, m_price := 1,
          m_time := 0 }).2 =
      some { m_moratorium := 60, m_reason := "PriceCheck", m_args := [TFormatArg.price 0] } := by
  have hq : (CPriceCheck.run {}
      [TPriceCheckEvent.quote { m_symbol := "X", m_price := 0, m_time := 0 }]).m_instrs "X" =
      some { m_frame := 10800 * nsPerSec, m_rem := 1, m_items := [(0, 0)], m_sum := 0 + 0 } := by
    simp [CPriceCheck.run, CPriceCheck.step, CPriceCheck.ProcessQuote,
      CPriceCheck.GetInstrument, CMovingSum.PutValue, CFramedQueue._PutValue]
  have havg : windowAverage
      ((({ m_frame := 10800 * nsPerSec, m_rem := 1, m_items := [(0, 0)], m_sum := 0 + 0 } :
        CMovingSum TPrice TPrice).EraseExpired 0).1.m_items) = 0 := by
    simp [windowAverage, CMovingSum.EraseExpired, CFramedQueue._EraseExpired]
  have hside : (TSide.Sell : TSide) ≠ TSide.Buy := by decide
  refine ⟨havg, hq, by norm_num, ?_⟩
  rw [CPriceCheck.CheckOrder_not_buy {} {} _ _ _ rfl hside hq, havg]
  norm_num

/-- C8 (amended): for a limit sell order on a symbol whose window average after eviction at
`o.time` is 0, in every state the rule reaches from its construction, the price check
rejects exactly when `o.price > 0`, and the rejection has reason `PriceCheck` and carries
the average 0; in particular a sell at price 0 is not rejected. -/
theorem C8_sell_at_zero_average_rejects_iff_positive (b : COrderCheckRule)
    (cfg : PriceCheck.CConfig) (events : List TPriceCheckEvent) (o : SOrder)
    (w : CMovingSum TPrice TPrice)
    (h1 : o.m_type = TOrderType.Limit) (h2 : o.m_side = TSide.Sell)
    (hq : (CPriceCheck.run { base := b, m_cfg := cfg } events).m_instrs o.m_symbol = some w)
    (havg : windowAverage (w.EraseExpired o.m_time).1.m_items = 0) :
    (((CPriceCheck.run { base := b, m_cfg := cfg } events).CheckOrder o).2.isSome ↔
        o.m_price > 0) ∧
    ∀ e, ((CPriceCheck.run { base := b, m_cfg := cfg } events).CheckOrder o).2 = some e →
      e.m_reason = "PriceCheck" ∧ e.m_args = [TFormatArg.price 0] := by
  have hside : o.m_side ≠ TSide.Buy := by
    rw [h2]
    decide
  rw [CPriceCheck.CheckOrder_not_buy b cfg events o w h1 hside hq, havg]
  by_cases hp : o.m_price > 0
  · simp [hp]
  · simp [hp]

/-- Witness for the amended C8: one quote `X` at price 0, limit sell `X` at price 1. -/
theorem C8_sell_at_zero_average_rejects_iff_positive_witness :
    (((CPriceCheck.run { base := {}, m_cfg := {} }
          [TPriceCheckEvent.quote { m_symbol := "X", m_price := 0, m_time := 0 }]).CheckOrder
        { m_type := TOrderType.Limit, m_symbol := "X", m_side := TSide.Sell, m_price := 1,
          m_time := 0 }).2.isSome ↔ (1 : TPrice) > 0) ∧
    ∀ e, ((CPriceCheck.run { base := {}, m_cfg := {} }
          [TPriceCheckEvent.quote { m_symbol := "X", m_price := 0, m_time := 0 }]).CheckOrder
        { m_type := TOrderType.Limit, m_symbol := "X", m_side := TSide.Sell, m_price := 1,
          m_time := 0 }).2 = some e →
      e.m_reason = "PriceCheck" ∧ e.m_args = [TFormatArg.price 0] :=
  C8_sell_at_zero_average_rejects_iff_positive {} {}
    [TPriceCheckEvent.quote { m_symbol := "X", m_price := 0, m_time := 0 }]
    { m_type := TOrderType.Limit, m_symbol := "X", m_side := TSide.Sell, m_price := 1,
      m_time := 0 }
    { m_frame := 10800 * nsPerSec, m_rem := 1, m_items := [(0, 0)], m_sum := 0 + 0 }
    rfl rfl
    (by simp [CPriceCheck.run, CPriceCheck.step, CPriceCheck.ProcessQuote,
          CPriceCheck.GetInstrument, CMovingSum.PutValue, CFramedQueue._PutValue])
    (by simp [windowAverage, CMovingSum.EraseExpired, CFramedQueue._EraseExpired])

/-- C9: for every order of kind Market, whatever its symbol, side and price and whatever the
rule's state (also when the symbol has no window), the price check accepts and leaves the
rule object unchanged. -/
theorem C9_price_check_market_bypass (self : CPriceCheck) (o : SOrder)
    (h : o.m_type = TOrderType.Market) :
    (self.CheckOrder o).2 = none ∧ (self.CheckOrder o).1 = self := by
  have hne : o.m_type ≠ TOrderType.Limit := by
    rw [h]
    decide
  simp [CPriceCheck.CheckOrder, hne]

/-- Witness for C9: a fresh rule (no window at all), market buy `X` at 999. -/
theorem C9_price_check_market_bypass_witness :
    (({} : CPriceCheck).CheckOrder
      { m_type := TOrderType.Market, m_symbol := "X", m_side := TSide.Buy, m_price := 999 }).2
        = none ∧
    (({} : CPriceCheck).CheckOrder
      { m_type := TOrderType.Market, m_symbol := "X", m_side := TSide.Buy, m_price := 999 }).1
        = {} :=
  C9_price_check_market_bypass {}
    { m_type := TOrderType.Market, m_symbol := "X", m_side := TSide.Buy, m_price := 999 } rfl

/-- C10: in every state the rule reaches from its construction by events none of which is a
quote for `o.symbol`, a limit order on `o.symbol` is rejected with reason
`InstrumentNotFound` (carrying the symbol), whatever its side and price; so after quotes for
`X` only, a limit buy `Y` at 50 is rejected with `InstrumentNotFound`. -/
theorem C10_price_check_instrument_not_found :
    (∀ (b : COrderCheckRule) (cfg : PriceCheck.CConfig) (events : List TPriceCheckEvent)
        (o : SOrder),
      o.m_type = TOrderType.Limit →
      (∀ q, TPriceCheckEvent.quote q ∈ events → q.m_symbol ≠ o.m_symbol) →
      ((CPriceCheck.run { base := b, m_cfg := cfg } events).CheckOrder o).2 =
        some { m_moratorium := b.m_cfg.moratorium, m_reason := "InstrumentNotFound",
               m_args := [TFormatArg.text o.m_symbol] }) ∧
    (∀ t0 t : TDateTime,
      ((CPriceCheck.run {} (quotesX100 t0)).CheckOrder
          { m_type := TOrderType.Limit, m_symbol := "Y", m_side := TSide.Buy, m_price := 50,
            m_time := t }).2 =
        some { m_moratorium := 60, m_reason := "InstrumentNotFound",
               m_args := [TFormatArg.text "Y"] }) := by
  have gen : ∀ (b : COrderCheckRule) (cfg : PriceCheck.CConfig)
      (events : List TPriceCheckEvent) (o : SOrder),
      o.m_type = TOrderType.Limit →
      (∀ q, TPriceCheckEvent.quote q ∈ events → q.m_symbol ≠ o.m_symbol) →
      ((CPriceCheck.run { base := b, m_cfg := cfg } events).CheckOrder o).2 =
        some { m_moratorium := b.m_cfg.moratorium, m_reason := "InstrumentNotFound",
               m_args := [TFormatArg.text o.m_symbol] } := by
    intro b cfg events o h1 hq
    have hnone := CPriceCheck.run_no_quote events o.m_symbol { base := b, m_cfg := cfg } rfl hq
    have hcfg := CPriceCheck.run_cfg events { base := b, m_cfg := cfg }
    simp [CPriceCheck.CheckOrder, h1, hnone, hcfg.2, COrderCheckRule.RejectOrder]
  refine ⟨gen, ?_⟩
  intro t0 t
  refine gen {} {} (quotesX100 t0) _ rfl ?_
  intro q hmem
  simp only [quotesX100, List.mem_cons, List.mem_singleton, TPriceCheckEvent.quote.injEq,
    List.not_mem_nil, or_false] at hmem
  rcases hmem with h | h | h <;> (rw [h]; simp)

/-- Witness for C10: a fresh rule (no event at all), limit buy `Y` at 50. -/
theorem C10_price_check_instrument_not_found_witness :
    ((CPriceCheck.run { base := {}, m_cfg := {} } []).CheckOrder
        { m_type := TOrderType.Limit, m_symbol := "Y", m_side := TSide.Buy, m_price := 50 }).2 =
      some { m_moratorium := 60, m_reason := "InstrumentNotFound",
             m_args := [TFormatArg.text "Y"] } :=
  C10_price_check_instrument_not_found.1 {} {} []
    { m_type := TOrderType.Limit, m_symbol := "Y", m_side := TSide.Buy, m_price := 50 } rfl
    (fun _ hmem => absurd hmem (List.not_mem_nil _))

/-! ## Theorems: sequence of bad trades -/

theorem CTradesPair._IsBadTrade_price2_zero (p : CTradesPair) (price : TPrice)
    (h : p.m_price2 = 0) : p._IsBadTrade price = false := by
  simp [CTradesPair._IsBadTrade, h]

/-- `ProcessTrade` never writes `m_price2`. -/
theorem CTradesPair.ProcessTrade_price2 (p : CTradesPair) (trade : STrade) :
    (p.ProcessTrade trade).m_price2 = p.m_price2 := by
  unfold CTradesPair.ProcessTrade
  split_ifs with h1
  · rfl
  · simp only []
    split_ifs <;> rfl

theorem CTradesPair.ProcessTrade_bads (p : CTradesPair) (trade : STrade)
    (h : p.m_price2 = 0) : (p.ProcessTrade trade).m_bads = p.m_bads := by
  unfold CTradesPair.ProcessTrade
  split_ifs with h1
  · rfl
  · simp [CTradesPair._IsBadTrade, h]

/-- A trade on the other side closes the run: afterwards the run holds exactly the new
trade, and side and time are the new trade's. -/
theorem CTradesPair.ProcessTrade_other_side (p : CTradesPair) (trade : STrade)
    (h : trade.m_side ≠ p.m_side) :
    (p.ProcessTrade trade).m_price.m_items = [(trade.m_time, trade.m_price)] ∧
    (p.ProcessTrade trade).m_side = trade.m_side ∧
    (p.ProcessTrade trade).m_time = trade.m_time := by
  unfold CTradesPair.ProcessTrade
  simp only [h, if_false]
  split_ifs <;>
    simp [CMovingSum.PutValue, CMovingSum.Clear, CFramedQueue._PutValue]

theorem CSeqBadTrades.ProcessTrade_noBad (s : CSeqBadTrades) (trade : STrade)
    (h : s.NoBad) : (s.ProcessTrade trade).NoBad := by
  intro id p hp
  unfold CSeqBadTrades.ProcessTrade at hp
  by_cases hid : id = (trade.m_symbol, trade.m_user_id)
  · rw [hid] at hp
    simp only [Function.update_same, Option.some.injEq] at hp
    rw [← hp]
    cases hq : s.m_trades (trade.m_symbol, trade.m_user_id) with
    | none =>
      simp only []
      exact ⟨by rw [CTradesPair.ProcessTrade_price2]; rfl,
        by rw [CTradesPair.ProcessTrade_bads _ _ rfl]; rfl⟩
    | some p0 =>
      simp only []
      have h0 := h _ p0 hq
      exact ⟨by rw [CTradesPair.ProcessTrade_price2]; exact h0.1,
        by rw [CTradesPair.ProcessTrade_bads _ _ h0.1]; exact h0.2⟩
  · simp only [Function.update_noteq hid] at hp
    exact h id p hp

theorem CSeqBadTrades.run_noBad (trades : List STrade) :
    ∀ s : CSeqBadTrades, s.NoBad → (s.run trades).NoBad := by
  induction trades with
  | nil => intro s h; exact h
  | cons tr rest ih =>
    intro s h
    exact ih _ (CSeqBadTrades.ProcessTrade_noBad s tr h)

theorem CSeqBadTrades.run_seq_cfg (trades : List STrade) :
    ∀ s : CSeqBadTrades, (s.run trades).m_cfg = s.m_cfg := by
  induction trades with
  | nil => intro s; rfl
  | cons tr rest ih =>
    intro s
    exact ih (s.ProcessTrade tr)

/-- In a state where every record has `m_price2 = 0` and no bad flag, the check accepts. -/
theorem CSeqBadTrades.CheckOrder_noBad (s : CSeqBadTrades) (o : SOrder) (h : s.NoBad) :
    (s.CheckOrder o).2 = none := by
  unfold CSeqBadTrades.CheckOrder
  cases hq : s.m_trades (o.m_symbol, o.m_user_id) with
  | none => rfl
  | some p =>
    have h0 := h _ p hq
    have hn : (p.GetBadTrades o.m_time).2 = 0 := by
      simp [CTradesPair.GetBadTrades, CFramedQueue.GetSize, CFramedQueue._EraseExpired, h0.2,
        CTradesPair._IsBadTrade, h0.1]
    simp [hn]

/-- C11 (behaviour of the code at the failing input): starting from a fresh SeqBadTrades
rule with defaults, after six consecutive lossy pairs (Buy at 100, Sell at 95) of user `U`
on `X`, twelve trades within 12 s, the record of `(X, U)` has `m_price2 = 0` and no bad
flag, and an order of `U` on `X` at any time is accepted, not rejected. -/
theorem C11_six_lossy_pairs_order_accepted_in_code (t0 t : TDateTime) :
    ((CSeqBadTrades.run {} (sixLossyPairs t0)).m_trades ("X", "U")).map
        (fun p => (p.m_price2, p.m_bads.m_items)) = some (0, []) ∧
    ((CSeqBadTrades.run {} (sixLossyPairs t0)).CheckOrder
        { m_user_id := "U", m_symbol := "X", m_time := t }).2 = none := by
  have hfresh : CSeqBadTrades.NoBad {} := by
    intro id p hp
    simp at hp
  have hinv := CSeqBadTrades.run_noBad (sixLossyPairs t0) {} hfresh
  refine ⟨?_, CSeqBadTrades.CheckOrder_noBad _ _ hinv⟩
  have hsome : ((CSeqBadTrades.run {} (sixLossyPairs t0)).m_trades ("X", "U")).isSome = true := by
    simp [CSeqBadTrades.run, sixLossyPairs, lossyPair, CSeqBadTrades.ProcessTrade]
  cases hq : (CSeqBadTrades.run {} (sixLossyPairs t0)).m_trades ("X", "U") with
  | none =>
    rw [hq] at hsome
    exact absurd hsome (by simp)
  | some p =>
    have h0 := hinv _ p hq
    simp [h0.1, h0.2]

/-- C12 (behaviour of the code at the failing input): `ProcessTrade` never writes
`m_price2`. On a fresh record, after Buy at 100 at `t0` the open run is the Buy run with
average 100; the Sell at 95 one second later closes it, and afterwards `m_price2` is still
0, not 100, while the run holds exactly the new trade and side and time are the new
trade's. -/
theorem C12_closing_trade_does_not_store_average_in_code (t0 : TDateTime) :
    (∀ (p : CTradesPair) (trade : STrade), (p.ProcessTrade trade).m_price2 = p.m_price2) ∧
    (pairAfterBuy100 t0).m_side = TSide.Buy ∧
    (pairAfterBuy100 t0).m_price.m_items = [(t0, 100)] ∧
    ((pairAfterBuy100 t0).m_price.GetAverage (t0 + nsPerSec)).2 = 100 ∧
    ((pairAfterBuy100 t0).ProcessTrade
        { m_user_id := "U", m_symbol := "X", m_side := TSide.Sell, m_price := 95, m_qty := 1,
          m_time := t0 + nsPerSec }).m_price2 = 0 ∧
    ((pairAfterBuy100 t0).ProcessTrade
        { m_user_id := "U", m_symbol := "X", m_side := TSide.Sell, m_price := 95, m_qty := 1,
          m_time := t0 + nsPerSec }).m_price.m_items = [(t0 + nsPerSec, 95)] ∧
    ((pairAfterBuy100 t0).ProcessTrade
        { m_user_id := "U", m_symbol := "X", m_side := TSide.Sell, m_price := 95, m_qty := 1,
          m_time := t0 + nsPerSec }).m_side = TSide.Sell ∧
    ((pairAfterBuy100 t0).ProcessTrade
        { m_user_id := "U", m_symbol := "X", m_side := TSide.Sell, m_price := 95, m_qty := 1,
          m_time := t0 + nsPerSec }).m_time = t0 + nsPerSec := by
  have h1 : pairAfterBuy100 t0 =
      { m_side := TSide.Buy, m_time := t0,
        m_price := { m_frame := 60 * nsPerSec, m_rem := 1, m_items := [(t0, 100)],
                     m_sum := 0 + 100 },
        m_price2 := 0,
        m_bads := { m_frame := 60 * nsPerSec, m_rem := 0, m_items := [] } } := by
    simp [pairAfterBuy100, CTradesPair.new, CTradesPair.ProcessTrade, CMovingSum.PutValue,
      CFramedQueue._PutValue]
  have hside : (TSide.Sell : TSide) ≠ TSide.Buy := by decide
  have hother := CTradesPair.ProcessTrade_other_side (pairAfterBuy100 t0)
    { m_user_id := "U", m_symbol := "X", m_side := TSide.Sell, m_price := 95, m_qty := 1,
      m_time := t0 + nsPerSec } (by rw [h1]; exact hside)
  refine ⟨CTradesPair.ProcessTrade_price2, by rw [h1], by rw [h1], ?_, ?_, hother.1,
    hother.2.1, hother.2.2⟩
  · rw [h1]
    simp [CMovingSum.GetAverage, CFramedQueue._EraseExpired, CFramedQueue.eraseLoop, nsPerSec]
  · rw [CTradesPair.ProcessTrade_price2, h1]

/-- Eviction does nothing on a deque that holds at most `m_rem` items. -/
theorem _EraseExpired_of_length_le {V A : Type} (EraseItem : TDateTime → V → A → A)
    (q : CFramedQueue V) (a : A) (tm : TDateTime) (h : q.m_items.length ≤ q.m_rem) :
    CFramedQueue._EraseExpired EraseItem q a tm = (q, a, false) := by
  obtain ⟨fr, rem, items⟩ := q
  cases items with
  | nil => rfl
  | cons front tl =>
    simp only [] at h
    have hn : ¬ (front :: tl).length > rem := Nat.not_lt.mpr h
    simp only [CFramedQueue._EraseExpired, CFramedQueue.eraseLoop, hn, if_false]
    split_ifs <;> rfl

theorem CPositionYield.hAdd_def (y : CPositionYield) (t : CTrade) :
    y + t = { m_sum := y.m_sum + t.m_price * t.m_qty, m_qty := y.m_qty + t.m_qty } := rfl

theorem CPositionYield.hSub_def (y : CPositionYield) (t : CTrade) :
    y - t = { m_sum := y.m_sum - t.m_price * t.m_qty, m_qty := y.m_qty - t.m_qty } := rfl

theorem run_drawDownEvents1 (t1 : TDateTime) :
    CDrawDown.ProcessQuote {} { m_symbol := "X", m_price := 100, m_time := t1 } =
      { m_prices := Function.update (fun _ => none) "X" (some (100, t1)) } := by
  simp [CDrawDown.ProcessQuote, CDrawDown.UpdateLastPrice]

theorem run_drawDownEvents2 (t1 t2 : TDateTime) :
    CDrawDown.ProcessTrade
        { m_prices := Function.update (fun _ => none) "X" (some (100, t1)) }
        { m_trade_id := "T", m_user_id := "U", m_symbol := "X", m_side := TSide.Buy,
          m_price := 100, m_qty := 10, m_time := t2 } =
      { m_investors := Function.update (fun _ => none) "U"
          (some { m_pnl := 0,
                  m_pnl_max := { m_frame := 86400 * nsPerSec, m_rem := 1, m_items := [(0, 0)],
                                 m_items2 := [(0, 1)] },
                  m_drawdown := 0,
                  m_time := 0,
                  m_positions := Function.update (fun _ => none) "X"
                    (some { m_price := (100, t1), m_yield := 0,
                            m_trades := { m_frame := 86400 * nsPerSec, m_rem := 1,
                                          m_items := [(t2, { m_price := 100, m_qty := 10 })],
                                          m_sum := { m_sum := 1000, m_qty := 10 } } }) }),
        m_positions := [(("X", "U"), "U")],
        m_prices := Function.update (fun _ => none) "X" (some (100, t1)) } := by
  have hside : ¬ ((TSide.Buy : TSide) = TSide.Sell) := by decide
  simp [CDrawDown.ProcessTrade, CDrawDown.GetInvestor, CDrawDown.GetLastPrice,
    CDrawDown.emplacePosition, CInvestor.new, CInvestor.PutTrade, CInvestor.GetPosition,
    CPosition.new, CPosition.PutTrade, CTrade.ofSTrade, hside, CMovingSum.PutValue,
    CFramedQueue._PutValue, CInvestor.UpdatePnL, CPosition.UpdateYield, CMovingSum.GetSum,
    _EraseExpired_of_length_le, CMovingMinMax.GetMax, CMovingMinMax.PutValue,
    CMovingMinMax.countUp, CPositionYield.GetYield, CPositionYield.hAdd_def]
  norm_num

theorem keyLess_XU : CDrawDown.keyLess (("X", "U") : TSymbol × TUserID) ("X", "") = false := by
  simp [CDrawDown.keyLess]

theorem run_drawDownEvents3 (t1 t2 t3 : TDateTime) (h12 : t1 < t2) (h23 : t2 < t3) :
    CDrawDown.run {} (drawDownEvents3 t1 t2 t3) =
      { m_investors := Function.update (fun _ => none) "U"
          (some { m_pnl := 100,
                  m_pnl_max := { m_frame := 86400 * nsPerSec, m_rem := 1,
                                 m_items := [(0, 0), (max 0 t3, 100)],
                                 m_items2 := [(0, 1), (100, 1)] },
                  m_drawdown := -100,
                  m_time := max 0 t3,
                  m_positions := Function.update (fun _ => none) "X"
                    (some { m_price := (110, t3), m_yield := 100,
                            m_trades := { m_frame := 86400 * nsPerSec, m_rem := 1,
                                          m_items := [(t2, { m_price := 100, m_qty := 10 })],
                                          m_sum := { m_sum := 1000, m_qty := 10 } } }) }),
        m_positions := [(("X", "U"), "U")],
        m_prices := Function.update (fun _ => none) "X" (some (110, t3)) } := by
  have h13 : ¬ t3 < t1 := not_lt.mpr (le_of_lt (lt_trans h12 h23))
  simp only [CDrawDown.run, drawDownEvents3, List.foldl, CDrawDown.step, run_drawDownEvents1,
    run_drawDownEvents2]
  by_cases h3 : (0 : Int) < t3
  · have hm : max 0 t3 = t3 := max_eq_right (le_of_lt h3)
    rw [hm]
    simp [CDrawDown.ProcessQuote, CDrawDown.UpdateLastPrice, h13, keyLess_XU,
      CDrawDown.putQuoteAt, CInvestor.PutQuote, h3, CPosition.PutQuote, CInvestor.UpdatePnL,
      CPosition.UpdateYield, CMovingSum.GetSum, _EraseExpired_of_length_le,
      CMovingMinMax.GetMax, CMovingMinMax.PutValue, CFramedQueue._PutValue,
      CMovingMinMax.countUp, CPositionYield.GetYield]
    norm_num
  · have hm : max 0 t3 = 0 := max_eq_left (not_lt.mp h3)
    rw [hm]
    simp [CDrawDown.ProcessQuote, CDrawDown.UpdateLastPrice, h13, keyLess_XU,
      CDrawDown.putQuoteAt, CInvestor.PutQuote, h3, CPosition.PutQuote, CInvestor.UpdatePnL,
      CPosition.UpdateYield, CMovingSum.GetSum, _EraseExpired_of_length_le,
      CMovingMinMax.GetMax, CMovingMinMax.PutValue, CFramedQueue._PutValue,
      CMovingMinMax.countUp, CPositionYield.GetYield]
    norm_num

theorem run_drawDownEvents4 (t1 t2 t3 t4 : TDateTime) (h12 : t1 < t2) (h23 : t2 < t3)
    (h34 : t3 < t4) :
    ((CDrawDown.run {} (drawDownEvents4 t1 t2 t3 t4)).m_investors "U").map
        (fun i => (i.m_pnl, i.m_drawdown)) = some (-100, 200) := by
  have h43 : ¬ t4 < t3 := not_lt.mpr (le_of_lt h34)
  have hrun : CDrawDown.run {} (drawDownEvents4 t1 t2 t3 t4) =
      (CDrawDown.run {} (drawDownEvents3 t1 t2 t3)).ProcessQuote
        { m_symbol := "X", m_price := 90, m_time := t4 } := by
    simp [CDrawDown.run, drawDownEvents4, CDrawDown.step]
  rw [hrun, run_drawDownEvents3 t1 t2 t3 h12 h23]
  simp only [CDrawDown.ProcessQuote, CDrawDown.UpdateLastPrice, Function.update_same, h43,
    if_false, List.dropWhile, keyLess_XU, List.takeWhile, decide_True, List.foldl,
    CDrawDown.putQuoteAt, Bool.true_eq_false, Option.map_some', Option.some.injEq]
  simp only [CInvestor.PutQuote, Function.update_same, CPosition.PutQuote, h43,
    if_false, CInvestor.UpdatePnL, CPosition.UpdateYield, CMovingSum.GetSum,
    CPositionYield.GetYield]
  rw [_EraseExpired_of_length_le _ _ _ _ (by simp)]
  by_cases hm : max 0 t3 < t4
  · simp only [hm, if_true]
    by_cases h40 : t4 ≤ 0
    · simp [CMovingMinMax.GetMax, CFramedQueue._EraseExpired, h40]
      norm_num
    · by_cases hev : 86400 * nsPerSec < t4
      · simp [CMovingMinMax.GetMax, CFramedQueue._EraseExpired, CFramedQueue.eraseLoop, h40,
          hev, CMovingMinMax.EraseItem]
        norm_num
      · simp [CMovingMinMax.GetMax, CFramedQueue._EraseExpired, CFramedQueue.eraseLoop, h40,
          hev]
        norm_num
  · have h0 : max 0 t3 = 0 := by
      rcases le_total 0 t3 with h | h
      · exact absurd (by rw [max_eq_right h]; exact h34) hm
      · exact max_eq_left h
    simp only [hm, if_false]
    rw [h0]
    simp [CMovingMinMax.GetMax, CFramedQueue._EraseExpired]
    norm_num

theorem CDrawDown.foldl_putQuoteAt_cfg (quote : SQuote)
    (hits : List ((TSymbol × TUserID) × TUserID)) :
    ∀ s : CDrawDown, (hits.foldl (CDrawDown.putQuoteAt quote) s).m_cfg = s.m_cfg ∧
      (hits.foldl (CDrawDown.putQuoteAt quote) s).base = s.base ∧
      (hits.foldl (CDrawDown.putQuoteAt quote) s).m_prices = s.m_prices ∧
      (hits.foldl (CDrawDown.putQuoteAt quote) s).m_positions = s.m_positions := by
  induction hits with
  | nil => intro s; exact ⟨rfl, rfl, rfl, rfl⟩
  | cons e rest ih =>
    intro s
    have hstep : (CDrawDown.putQuoteAt quote s e).m_cfg = s.m_cfg ∧
        (CDrawDown.putQuoteAt quote s e).base = s.base ∧
        (CDrawDown.putQuoteAt quote s e).m_prices = s.m_prices ∧
        (CDrawDown.putQuoteAt quote s e).m_positions = s.m_positions := by
      unfold CDrawDown.putQuoteAt
      cases s.m_investors e.2 <;> exact ⟨rfl, rfl, rfl, rfl⟩
    have h := ih (CDrawDown.putQuoteAt quote s e)
    simp only [List.foldl_cons]
    exact ⟨h.1.trans hstep.1, h.2.1.trans hstep.2.1, h.2.2.1.trans hstep.2.2.1,
      h.2.2.2.trans hstep.2.2.2⟩

theorem CDrawDown.step_cfg (s : CDrawDown) (ev : TDrawDownEvent) :
    (s.step ev).m_cfg = s.m_cfg ∧ (s.step ev).base = s.base := by
  cases ev with
  | quote q =>
    simp only [CDrawDown.step, CDrawDown.ProcessQuote]
    have hu : (s.UpdateLastPrice q).1.m_cfg = s.m_cfg ∧ (s.UpdateLastPrice q).1.base = s.base := by
      unfold CDrawDown.UpdateLastPrice
      cases s.m_prices q.m_symbol with
      | none => exact ⟨rfl, rfl⟩
      | some p =>
        simp only []
        split_ifs <;> exact ⟨rfl, rfl⟩
    split_ifs
    · exact hu
    · have h := CDrawDown.foldl_putQuoteAt_cfg q
        (List.takeWhile (fun e => decide (e.1.1 = q.m_symbol))
          (List.dropWhile (fun e => CDrawDown.keyLess e.1 (q.m_symbol, ""))
            (s.UpdateLastPrice q).1.m_positions)) (s.UpdateLastPrice q).1
      exact ⟨h.1.trans hu.1, h.2.1.trans hu.2⟩
  | trade t => exact ⟨rfl, rfl⟩

theorem CDrawDown.run_dd_cfg (events : List TDrawDownEvent) :
    ∀ s : CDrawDown, (s.run events).m_cfg = s.m_cfg ∧ (s.run events).base = s.base := by
  induction events with
  | nil => intro s; exact ⟨rfl, rfl⟩
  | cons ev rest ih =>
    intro s
    have h := ih (s.step ev)
    have hs := CDrawDown.step_cfg s ev
    simp only [CDrawDown.run, List.foldl_cons] at h ⊢
    exact ⟨h.1.trans hs.1, h.2.trans hs.2⟩

/-! ## Theorems: trailing drawdown -/

/-- C14: starting from a fresh DrawDown rule with defaults, after Quote `X` at 100, Trade
Buy 10 `X` at 100 by `U`, Quote `X` at 110 and Quote `X` at 90, at increasing times,
investor `U` has pnl -100 and drawdown 200, and every following order of `U` is rejected by
`CDrawDown::CheckOrder`, the rejection carrying the drawdown 200. -/
theorem C14_drawdown_scenario (t1 t2 t3 t4 : TDateTime) (o : SOrder)
    (h12 : t1 < t2) (h23 : t2 < t3) (h34 : t3 < t4) (hu : o.m_user_id = "U") :
    ((CDrawDown.run {} (drawDownEvents4 t1 t2 t3 t4)).m_investors "U").map
        (fun i => (i.m_pnl, i.m_drawdown)) = some (-100, 200) ∧
    ∃ e, ((CDrawDown.run {} (drawDownEvents4 t1 t2 t3 t4)).CheckOrder o).2 = some e ∧
      e.m_args = [TFormatArg.price 200] := by
  have hf := run_drawDownEvents4 t1 t2 t3 t4 h12 h23 h34
  refine ⟨hf, ?_⟩
  have hcfg := (CDrawDown.run_dd_cfg (drawDownEvents4 t1 t2 t3 t4) {}).1
  cases hq : (CDrawDown.run {} (drawDownEvents4 t1 t2 t3 t4)).m_investors "U" with
  | none =>
    rw [hq] at hf
    exact absurd hf (by simp)
  | some inv =>
    rw [hq] at hf
    simp only [Option.map_some', Option.some.injEq, Prod.mk.injEq] at hf
    have hd : inv.m_drawdown > (100 : TPrice) := by
      rw [hf.2]
      norm_num
    refine ⟨(CDrawDown.run {} (drawDownEvents4 t1 t2 t3 t4)).base.RejectOrder o
      "TrailingDrowdown" [TFormatArg.price inv.m_drawdown], ?_, ?_⟩
    · simp only [CDrawDown.CheckOrder, hu, hq, hcfg]
      rw [if_pos hd]
    · simp [COrderCheckRule.RejectOrder, hf.2]

/-- Witness for C14: the scenario at the times 1, 2, 3, 4 with the order `orderMarketUX`. -/
theorem C14_drawdown_scenario_witness :
    ((CDrawDown.run {} (drawDownEvents4 1 2 3 4)).m_investors "U").map
        (fun i => (i.m_pnl, i.m_drawdown)) = some (-100, 200) ∧
    ∃ e, ((CDrawDown.run {} (drawDownEvents4 1 2 3 4)).CheckOrder orderMarketUX).2 = some e ∧
      e.m_args = [TFormatArg.price 200] :=
  C14_drawdown_scenario 1 2 3 4 orderMarketUX (by decide) (by decide) (by decide) rfl

/-- C15: `CDrawDown::CheckOrder` rejects exactly when an investor record exists for
`o.user_id` and its stored drawdown is strictly greater than the threshold; an order of a
user without a record is accepted, and so is an order when the drawdown equals the
threshold; in every case the rule object is left unchanged. -/
theorem C15_drawdown_check_rejects_iff_above_threshold (self : CDrawDown) (o : SOrder) :
    ((self.CheckOrder o).2.isSome ↔
      ∃ inv, self.m_investors o.m_user_id = some inv ∧ inv.m_drawdown > self.m_cfg.drawdown) ∧
    (self.m_investors o.m_user_id = none → (self.CheckOrder o).2 = none) ∧
    (∀ inv, self.m_investors o.m_user_id = some inv →
      inv.m_drawdown = self.m_cfg.drawdown → (self.CheckOrder o).2 = none) ∧
    (self.CheckOrder o).1 = self := by
  unfold CDrawDown.CheckOrder
  cases hq : self.m_investors o.m_user_id with
  | none => simp
  | some inv =>
    by_cases hd : inv.m_drawdown > self.m_cfg.drawdown
    · simp only []
      rw [if_pos hd]
      refine ⟨⟨fun _ => ⟨inv, rfl, hd⟩, fun _ => rfl⟩, fun h => Option.noConfusion h, ?_, rfl⟩
      intro inv1 h1 h2
      simp only [Option.some.injEq] at h1
      rw [← h1] at h2
      rw [h2] at hd
      exact absurd hd (lt_irrefl _)
    · simp [hd]

/-- Witness for C15: investor `U` with drawdown 200 is rejected, a fresh rule (no record)
accepts, and investor `U` with drawdown exactly 100 is accepted. -/
theorem C15_drawdown_check_rejects_iff_above_threshold_witness :
    (drawDown200.CheckOrder orderMarketUX).2.isSome = true ∧
    (({} : CDrawDown).CheckOrder orderMarketUX).2 = none ∧
    (drawDown100.CheckOrder orderMarketUX).2 = none ∧
    (drawDown200.CheckOrder orderMarketUX).1 = drawDown200 :=
  ⟨(C15_drawdown_check_rejects_iff_above_threshold drawDown200 orderMarketUX).1.mpr
      ⟨{ m_pnl_max := { m_frame := 86400 * nsPerSec }, m_drawdown := 200 },
        by simp [drawDown200, orderMarketUX], by norm_num [drawDown200]⟩,
   (C15_drawdown_check_rejects_iff_above_threshold {} orderMarketUX).2.1 rfl,
   (C15_drawdown_check_rejects_iff_above_threshold drawDown100 orderMarketUX).2.2.1
      { m_pnl_max := { m_frame := 86400 * nsPerSec }, m_drawdown := 100 }
      (by simp [drawDown100, orderMarketUX]) rfl,
   (C15_drawdown_check_rejects_iff_above_threshold drawDown200 orderMarketUX).2.2.2⟩

/-- C16 (behaviour of the code at the failing input): on the engine of `main` whose DrawDown
rule went through the drawdown scenario (times 1, 2, 3, 4), the order `orderMarketUX` of
user `U` is rejected by the drawdown rule, and the text placed in the response's reject
attribute is `TrailingDrowdown`, then `", "`, then the formatted drawdown 200: the reason
name at its start is `TrailingDrowdown`, which is not `TrailingDrawdown`. -/
theorem C16_drawdown_reject_text_in_code (now : TDateTime) (fmt : TFormatArg → String) :
    ((mainRiskManagerWith {} {} {} (CDrawDown.run {} (drawDownEvents4 1 2 3 4))
        (fun _ => none)).ProcessMessage_SOrder (fun _ => orderMarketUX) now fmt {}
        { m_attrs := [("Order", ""), ("user_id", "U")] }).2.sent =
      [[("Order", ""), ("user_id", "U"),
        ("reject", "TrailingDrowdown" ++ ", " ++ fmt (TFormatArg.price 200))]] ∧
    "TrailingDrowdown" ≠ "TrailingDrawdown" := by
  refine ⟨?_, by decide⟩
  have hf := run_drawDownEvents4 1 2 3 4 (by decide) (by decide) (by decide)
  have hcfg := CDrawDown.run_dd_cfg (drawDownEvents4 1 2 3 4) {}
  cases hq : (CDrawDown.run {} (drawDownEvents4 1 2 3 4)).m_investors "U" with
  | none =>
    rw [hq] at hf
    exact absurd hf (by simp)
  | some inv =>
    rw [hq] at hf
    simp only [Option.map_some', Option.some.injEq, Prod.mk.injEq] at hf
    have hd : inv.m_drawdown > (100 : TPrice) := by
      rw [hf.2]
      norm_num
    have hcheck : ((CDrawDown.run {} (drawDownEvents4 1 2 3 4)).CheckOrder orderMarketUX).2 =
        some { m_moratorium := 60, m_reason := "TrailingDrowdown",
               m_args := [TFormatArg.price 200] } := by
      have hu : orderMarketUX.m_user_id = "U" := rfl
      simp only [CDrawDown.CheckOrder, hu, hq, hcfg.1, hcfg.2]
      rw [if_pos hd]
      simp [COrderCheckRule.RejectOrder, hf.2]
    have hput := (PutObject_main_first_reject {} {} {}
      (CDrawDown.run {} (drawDownEvents4 1 2 3 4))
      (Function.update (fun _ => none) "U" (some TDateTime.min)) orderMarketUX).2.2.2.1
      CheckOrder_examples.1 CheckOrder_examples.2.1 CheckOrder_examples.2.2.1 _ hcheck
    have hget : (mainRiskManagerWith {} {} {} (CDrawDown.run {} (drawDownEvents4 1 2 3 4))
        (fun _ => none)).GetInvestor "U" =
        mainRiskManagerWith {} {} {} (CDrawDown.run {} (drawDownEvents4 1 2 3 4))
          (Function.update (fun _ => none) "U" (some TDateTime.min)) := rfl
    have hu : orderMarketUX.m_user_id = "U" := rfl
    simp only [CRiskManager.ProcessMessage_SOrder, hu, hget, hput, SendReject,
      CTransport.SendMessage, CCheckOrderError.what]
    rfl

/-- C17 (behaviour of the code at the failing input): starting from a fresh DrawDown rule,
after Quote `X` at 100, Trade Buy 10 `X` at 100 by `U` and Quote `X` at 110 (times 1, 2, 3),
investor `U` has pnl 100 and the stored drawdown is -100, which is negative. -/
theorem C17_drawdown_negative_in_code :
    ((CDrawDown.run {} (drawDownEvents3 1 2 3)).m_investors "U").map
        (fun i => (i.m_pnl, i.m_drawdown)) = some (100, -100) ∧
    (-100 : TPrice) < 0 := by
  refine ⟨?_, by norm_num⟩
  rw [run_drawDownEvents3 1 2 3 (by decide) (by decide)]
  simp

/-! ## Lemmas: trades before the first quote -/

theorem CInvestor.UpdatePnL_positions_ne (self : CInvestor) (id id2 : TSymbol)
    (pos : CPosition) (h : id2 ≠ id) :
    (self.UpdatePnL id pos).m_positions id2 = self.m_positions id2 := by
  simp [CInvestor.UpdatePnL, Function.update_noteq h]

theorem CInvestor.PutQuote_positions_ne (self : CInvestor) (q : SQuote) (sym : TSymbol)
    (h : sym ≠ q.m_symbol) :
    (self.PutQuote q).m_positions sym = self.m_positions sym := by
  unfold CInvestor.PutQuote
  cases hp : self.m_positions q.m_symbol with
  | none => rfl
  | some pos =>
    simp only []
    rw [CInvestor.UpdatePnL_positions_ne _ _ _ _ h]
    split_ifs <;> rfl

theorem CInvestor.PutTrade_positions_ne (self : CInvestor) (lastPrice : TPrice × TDateTime)
    (trade : STrade) (sym : TSymbol) (h : sym ≠ trade.m_symbol) :
    (self.PutTrade lastPrice trade).m_positions sym = self.m_positions sym := by
  have hg : (self.GetPosition lastPrice trade.m_symbol).1.m_positions sym
      = self.m_positions sym := by
    unfold CInvestor.GetPosition
    cases hp : self.m_positions trade.m_symbol with
    | none => simp [Function.update_noteq h]
    | some pos => rfl
  unfold CInvestor.PutTrade
  simp only []
  split_ifs
  · exact hg
  · rw [CInvestor.UpdatePnL_positions_ne _ _ _ _ h]; exact hg

/-- A trade met by a position whose last price is 0 leaves the investor as `GetPosition`
left it. -/
theorem CInvestor.PutTrade_price_zero (self : CInvestor) (lastPrice : TPrice × TDateTime)
    (trade : STrade) (h : (self.GetPosition lastPrice trade.m_symbol).2.m_price.1 = 0) :
    self.PutTrade lastPrice trade = (self.GetPosition lastPrice trade.m_symbol).1 := by
  unfold CInvestor.PutTrade
  simp only []
  rw [if_pos h]

theorem CDrawDown.foldl_putQuoteAt_prices (quote : SQuote)
    (hits : List ((TSymbol × TUserID) × TUserID)) (s : CDrawDown) :
    (hits.foldl (CDrawDown.putQuoteAt quote) s).m_prices = s.m_prices := by
  induction hits generalizing s with
  | nil => rfl
  | cons e rest ih =>
    rw [List.foldl_cons, ih]
    unfold CDrawDown.putQuoteAt
    cases s.m_investors e.2 <;> rfl

theorem CDrawDown.foldl_putQuoteAt_positions (quote : SQuote) (sym : TSymbol)
    (h : sym ≠ quote.m_symbol) (P : CPosition → Prop)
    (hits : List ((TSymbol × TUserID) × TUserID)) (s : CDrawDown)
    (hs : ∀ uid inv pos, s.m_investors uid = some inv → inv.m_positions sym = some pos → P pos) :
    ∀ uid inv pos, (hits.foldl (CDrawDown.putQuoteAt quote) s).m_investors uid = some inv →
      inv.m_positions sym = some pos → P pos := by
  induction hits generalizing s with
  | nil => exact hs
  | cons e rest ih =>
    rw [List.foldl_cons]
    apply ih
    intro uid inv pos h1 h2
    unfold CDrawDown.putQuoteAt at h1
    cases he : s.m_investors e.2 with
    | none => rw [he] at h1; exact hs uid inv pos h1 h2
    | some inv0 =>
      rw [he] at h1
      simp only [] at h1
      by_cases hu : uid = e.2
      · subst hu
        rw [Function.update_same] at h1
        have h3 : inv = inv0.PutQuote quote := (Option.some.inj h1).symm
        rw [h3, CInvestor.PutQuote_positions_ne _ _ _ h] at h2
        exact hs _ inv0 pos he h2
      · rw [Function.update_noteq hu] at h1
        exact hs uid inv pos h1 h2

theorem CDrawDown.ProcessQuote_noQuoteYet (s : CDrawDown) (q : SQuote) (sym : TSymbol)
    (h : sym ≠ q.m_symbol) (hs : s.NoQuoteYet sym) : (s.ProcessQuote q).NoQuoteYet sym := by
  have hu1 : (s.UpdateLastPrice q).1.m_investors = s.m_investors := by
    unfold CDrawDown.UpdateLastPrice
    cases s.m_prices q.m_symbol with
    | none => rfl
    | some p => simp only []; split_ifs <;> rfl
  have hu2 : (s.UpdateLastPrice q).1.m_prices sym = none := by
    unfold CDrawDown.UpdateLastPrice
    cases s.m_prices q.m_symbol with
    | none => simp [Function.update_noteq h, hs.1]
    | some p =>
      simp only []
      split_ifs
      · exact hs.1
      · simp [Function.update_noteq h, hs.1]
  unfold CDrawDown.ProcessQuote
  simp only []
  split_ifs
  · exact ⟨hu2, by rw [hu1]; exact hs.2⟩
  · refine ⟨by rw [CDrawDown.foldl_putQuoteAt_prices]; exact hu2, ?_⟩
    apply CDrawDown.foldl_putQuoteAt_positions q sym h (fun pos => pos.m_price.1 = 0)
    rw [hu1]; exact hs.2

theorem CInvestor.GetPosition_noQuoteYet (self : CInvestor) (sym : TSymbol)
    (tm : TDateTime)
    (hs : ∀ pos, self.m_positions sym = some pos → pos.m_price.1 = 0) :
    (self.GetPosition (0, tm) sym).2.m_price.1 = 0 ∧
    ∀ pos, (self.GetPosition (0, tm) sym).1.m_positions sym = some pos → pos.m_price.1 = 0 := by
  unfold CInvestor.GetPosition
  cases hp : self.m_positions sym with
  | none =>
    refine ⟨rfl, ?_⟩
    intro pos h1
    simp only [Function.update_same] at h1
    rw [← Option.some.inj h1]; rfl
  | some pos0 =>
    exact ⟨hs pos0 hp, fun pos h1 => hs pos h1⟩

theorem CDrawDown.GetInvestor_positions (s : CDrawDown) (uid : TUserID) (tsym sym : TSymbol)
    (hs : s.NoQuoteYet sym) :
    ∀ pos, (s.GetInvestor uid tsym).2.m_positions sym = some pos → pos.m_price.1 = 0 := by
  intro pos h1
  unfold CDrawDown.GetInvestor at h1
  cases hi : s.m_investors uid with
  | none => rw [hi] at h1; simp [CInvestor.new] at h1
  | some inv => rw [hi] at h1; exact hs.2 uid inv pos hi h1

theorem CDrawDown.GetInvestor_lastPrice (s : CDrawDown) (uid : TUserID) (sym : TSymbol)
    (hs : s.NoQuoteYet sym) : (s.GetInvestor uid sym).1.GetLastPrice sym = (0, 0) := by
  unfold CDrawDown.GetLastPrice CDrawDown.GetInvestor
  simp only []
  rw [hs.1]

theorem CDrawDown.ProcessTrade_noQuoteYet (s : CDrawDown) (trade : STrade) (sym : TSymbol)
    (hs : s.NoQuoteYet sym) : (s.ProcessTrade trade).NoQuoteYet sym := by
  refine ⟨hs.1, ?_⟩
  intro uid inv pos h1 h2
  unfold CDrawDown.ProcessTrade at h1
  simp only [] at h1
  by_cases hu : uid = trade.m_user_id
  · subst hu
    rw [Function.update_same] at h1
    have h3 := (Option.some.inj h1).symm
    by_cases hsym : sym = trade.m_symbol
    · subst hsym
      rw [CDrawDown.GetInvestor_lastPrice s _ _ hs] at h3
      have hg := CInvestor.GetPosition_noQuoteYet (s.GetInvestor trade.m_user_id trade.m_symbol).2
        trade.m_symbol 0 (CDrawDown.GetInvestor_positions s _ _ _ hs)
      rw [CInvestor.PutTrade_price_zero _ _ _ hg.1] at h3
      rw [h3] at h2
      exact hg.2 pos h2
    · rw [h3, CInvestor.PutTrade_positions_ne _ _ _ _ hsym] at h2
      exact CDrawDown.GetInvestor_positions s _ _ _ hs pos h2
  · rw [Function.update_noteq hu] at h1
    have h4 : (s.GetInvestor trade.m_user_id trade.m_symbol).1.m_investors uid
        = s.m_investors uid := by
      unfold CDrawDown.GetInvestor
      simp only []
      rw [Function.update_noteq hu]
    rw [h4] at h1
    exact hs.2 uid inv pos h1 h2

theorem CDrawDown.run_noQuoteYet (events : List TDrawDownEvent) (sym : TSymbol)
    (hq : ∀ q, TDrawDownEvent.quote q ∈ events → q.m_symbol ≠ sym) :
    ∀ s : CDrawDown, s.NoQuoteYet sym → (s.run events).NoQuoteYet sym := by
  induction events with
  | nil => intro s hs; exact hs
  | cons ev rest ih =>
    intro s hs
    unfold CDrawDown.run
    rw [List.foldl_cons]
    apply ih (fun q hm => hq q (List.mem_cons_of_mem _ hm))
    cases ev with
    | quote q =>
      exact CDrawDown.ProcessQuote_noQuoteYet s q sym
        (fun h => hq q (List.mem_cons_self _ _) h.symm) hs
    | trade t => exact CDrawDown.ProcessTrade_noQuoteYet s t sym hs

theorem CDrawDown.fresh_noQuoteYet (sym : TSymbol) : ({} : CDrawDown).NoQuoteYet sym :=
  ⟨rfl, fun _ _ _ h _ => Option.noConfusion h⟩

/-! ## Theorems: trailing drawdown, trades before the first quote -/

theorem CInvestor.PutTrade_price_zero_frame (self : CInvestor)
    (lastPrice : TPrice × TDateTime) (trade : STrade)
    (h : (self.GetPosition lastPrice trade.m_symbol).2.m_price.1 = 0) :
    (self.PutTrade lastPrice trade).m_pnl = self.m_pnl ∧
    (self.PutTrade lastPrice trade).m_drawdown = self.m_drawdown ∧
    (self.PutTrade lastPrice trade).m_pnl_max = self.m_pnl_max ∧
    (self.PutTrade lastPrice trade).m_time = self.m_time ∧
    (∀ id, id ≠ trade.m_symbol →
      (self.PutTrade lastPrice trade).m_positions id = self.m_positions id) ∧
    ∃ pos1, (self.PutTrade lastPrice trade).m_positions trade.m_symbol = some pos1 ∧
      pos1.m_yield = (self.m_positions trade.m_symbol).elim 0 (fun p => p.m_yield) ∧
      pos1.m_trades.m_items
        = (self.m_positions trade.m_symbol).elim [] (fun p => p.m_trades.m_items) ∧
      pos1.m_trades.m_sum
        = (self.m_positions trade.m_symbol).elim {} (fun p => p.m_trades.m_sum) := by
  rw [CInvestor.PutTrade_price_zero self lastPrice trade h]
  unfold CInvestor.GetPosition
  cases hp : self.m_positions trade.m_symbol with
  | none =>
    refine ⟨rfl, rfl, rfl, rfl, fun id hid => ?_, CPosition.new lastPrice self.m_pnl_max.m_frame,
      ?_, rfl, rfl, rfl⟩
    · simp [Function.update_noteq hid]
    · simp
  | some pos => exact ⟨rfl, rfl, rfl, rfl, fun _ _ => rfl, pos, hp, rfl, rfl, rfl⟩

theorem CDrawDown.run_noQuote_price_zero (events : List TDrawDownEvent) (trade : STrade)
    (hq : ∀ q, TDrawDownEvent.quote q ∈ events → q.m_symbol ≠ trade.m_symbol) :
    (((CDrawDown.run {} events).GetInvestor trade.m_user_id trade.m_symbol).2.GetPosition
      (((CDrawDown.run {} events).GetInvestor trade.m_user_id
        trade.m_symbol).1.GetLastPrice trade.m_symbol) trade.m_symbol).2.m_price.1 = 0 := by
  have hs := CDrawDown.run_noQuoteYet events trade.m_symbol hq {}
    (CDrawDown.fresh_noQuoteYet _)
  rw [CDrawDown.GetInvestor_lastPrice _ _ _ hs]
  exact (CInvestor.GetPosition_noQuoteYet _ _ 0
    (CDrawDown.GetInvestor_positions _ _ _ _ hs)).1

/-- C18: a trade met by a position whose last price is 0 leaves the investor's pnl, drawdown,
window of pnl highs and time as they were, leaves every other position as it was, and leaves
the position of the trade's symbol with the yield and the trade window it had (yield 0 and
an empty window when the position is created by this trade). In every state reached from
the fresh rule by events that hold no quote for the trade's symbol the position's last
price is 0, and `ProcessTrade` leaves the investor of the trade's user with the pnl,
drawdown and pnl highs it had (those of a fresh investor when it is created by this
trade), and leaves every other investor as it was. -/
theorem C18_trade_before_first_quote_is_ignored (trade : STrade) :
    (∀ (self : CInvestor) (lastPrice : TPrice × TDateTime),
      (self.GetPosition lastPrice trade.m_symbol).2.m_price.1 = 0 →
      (self.PutTrade lastPrice trade).m_pnl = self.m_pnl ∧
      (self.PutTrade lastPrice trade).m_drawdown = self.m_drawdown ∧
      (self.PutTrade lastPrice trade).m_pnl_max = self.m_pnl_max ∧
      (self.PutTrade lastPrice trade).m_time = self.m_time ∧
      (∀ id, id ≠ trade.m_symbol →
        (self.PutTrade lastPrice trade).m_positions id = self.m_positions id) ∧
      ∃ pos1, (self.PutTrade lastPrice trade).m_positions trade.m_symbol = some pos1 ∧
        pos1.m_yield = (self.m_positions trade.m_symbol).elim 0 (fun p => p.m_yield) ∧
        pos1.m_trades.m_items
          = (self.m_positions trade.m_symbol).elim [] (fun p => p.m_trades.m_items) ∧
        pos1.m_trades.m_sum
          = (self.m_positions trade.m_symbol).elim {} (fun p => p.m_trades.m_sum)) ∧
    (∀ events : List TDrawDownEvent,
      (∀ q, TDrawDownEvent.quote q ∈ events → q.m_symbol ≠ trade.m_symbol) →
      (((CDrawDown.run {} events).GetInvestor trade.m_user_id trade.m_symbol).2.GetPosition
        (((CDrawDown.run {} events).GetInvestor trade.m_user_id
          trade.m_symbol).1.GetLastPrice trade.m_symbol) trade.m_symbol).2.m_price.1 = 0 ∧
      (∀ uid, uid ≠ trade.m_user_id →
        ((CDrawDown.run {} events).ProcessTrade trade).m_investors uid
          = (CDrawDown.run {} events).m_investors uid) ∧
      ∃ inv1, ((CDrawDown.run {} events).ProcessTrade trade).m_investors trade.m_user_id
          = some inv1 ∧
        inv1.m_pnl = ((CDrawDown.run {} events).m_investors trade.m_user_id).elim 0
          (fun i => i.m_pnl) ∧
        inv1.m_drawdown = ((CDrawDown.run {} events).m_investors trade.m_user_id).elim 0
          (fun i => i.m_drawdown) ∧
        inv1.m_pnl_max = ((CDrawDown.run {} events).m_investors trade.m_user_id).elim
          { m_frame := 86400 * nsPerSec, m_rem := 1, m_items := [], m_items2 := [] }
          (fun i => i.m_pnl_max) ∧
        ∃ pos1, inv1.m_positions trade.m_symbol = some pos1 ∧
          pos1.m_yield = (((CDrawDown.run {} events).m_investors trade.m_user_id).bind
            (fun i => i.m_positions trade.m_symbol)).elim 0 (fun p => p.m_yield) ∧
          pos1.m_trades.m_items = (((CDrawDown.run {} events).m_investors trade.m_user_id).bind
            (fun i => i.m_positions trade.m_symbol)).elim [] (fun p => p.m_trades.m_items)) := by
  refine ⟨fun self lastPrice h => CInvestor.PutTrade_price_zero_frame self lastPrice trade h,
    ?_⟩
  intro events hq
  have hprice := CDrawDown.run_noQuote_price_zero events trade hq
  have hcfg := CDrawDown.run_dd_cfg events
  obtain ⟨h1, h2, h3, _, _, pos1, h5, h6, h7, _⟩ :=
    CInvestor.PutTrade_price_zero_frame _ _ trade hprice
  refine ⟨hprice, fun uid hu => ?_,
    ((CDrawDown.run {} events).GetInvestor trade.m_user_id trade.m_symbol).2.PutTrade
      (((CDrawDown.run {} events).GetInvestor trade.m_user_id
        trade.m_symbol).1.GetLastPrice trade.m_symbol) trade, ?_, ?_⟩
  · unfold CDrawDown.ProcessTrade CDrawDown.GetInvestor
    simp only []
    rw [Function.update_noteq hu, Function.update_noteq hu]
  · unfold CDrawDown.ProcessTrade
    simp only []
    rw [Function.update_same]
  · rw [h1, h2, h3]
    unfold CDrawDown.GetInvestor at h5 h6 h7 ⊢
    simp only [] at h5 h6 h7 ⊢
    cases hi : (CDrawDown.run {} events).m_investors trade.m_user_id with
    | none =>
      rw [hi] at h5 h6 h7
      refine ⟨rfl, rfl, ?_, pos1, h5, h6, h7⟩
      simp [CInvestor.new, (hcfg {}).1]
    | some inv =>
      rw [hi] at h5 h6 h7
      exact ⟨rfl, rfl, rfl, pos1, h5, h6, h7⟩

/-- Witness for C18: a fresh investor receives the trade Buy 10 `X` at 100 while the last
price of `X` is 0, and the rule receives it after a single quote for `Y`. -/
theorem C18_trade_before_first_quote_is_ignored_witness :
    ((CInvestor.new (86400 * nsPerSec)).GetPosition (0, 0) tradeBuyUX.m_symbol).2.m_price.1 = 0 ∧
    ((CInvestor.new (86400 * nsPerSec)).PutTrade (0, 0) tradeBuyUX).m_pnl = 0 ∧
    ((CInvestor.new (86400 * nsPerSec)).PutTrade (0, 0) tradeBuyUX).m_drawdown = 0 ∧
    (∀ q, TDrawDownEvent.quote q ∈ eventsQuoteY → q.m_symbol ≠ tradeBuyUX.m_symbol) ∧
    ∃ inv1, ((CDrawDown.run {} eventsQuoteY).ProcessTrade tradeBuyUX).m_investors "U"
        = some inv1 ∧ inv1.m_pnl = 0 ∧ inv1.m_drawdown = 0 ∧
      ∃ pos1, inv1.m_positions "X" = some pos1 ∧ pos1.m_yield = 0 ∧
        pos1.m_trades.m_items = [] := by
  have hq : ∀ q, TDrawDownEvent.quote q ∈ eventsQuoteY → q.m_symbol ≠ tradeBuyUX.m_symbol := by
    intro q h
    simp only [eventsQuoteY, List.mem_singleton, TDrawDownEvent.quote.injEq] at h
    rw [h]
    simp [tradeBuyUX]
  have hA := (C18_trade_before_first_quote_is_ignored tradeBuyUX).1
    (CInvestor.new (86400 * nsPerSec)) (0, 0) rfl
  obtain ⟨_, _, inv1, h1, h2, h3, _, pos1, h5, h6, h7⟩ :=
    (C18_trade_before_first_quote_is_ignored tradeBuyUX).2 eventsQuoteY hq
  have hn : (CDrawDown.run {} eventsQuoteY).m_investors "U" = none := by
    simp [CDrawDown.run, eventsQuoteY, CDrawDown.step, CDrawDown.ProcessQuote,
      CDrawDown.UpdateLastPrice]
  have hu : tradeBuyUX.m_user_id = "U" := rfl
  have hx : tradeBuyUX.m_symbol = "X" := rfl
  rw [hu, hn] at h2 h3
  rw [hu, hx, hn] at h6 h7
  rw [hu] at h1
  rw [hx] at h5
  exact ⟨rfl, hA.1, hA.2.1, hq, inv1, h1, h2, h3, pos1, h5, h6, h7⟩

/-! ## Lemmas: pnl and the stored yields -/

theorem CInvestor.new_pnlOk (dt : Int) : (CInvestor.new dt).PnlOk :=
  ⟨∅, fun s => by simp [CInvestor.new], by simp [CInvestor.new]⟩

theorem CInvestor.GetPosition_pnlOk (self : CInvestor) (lastPrice : TPrice × TDateTime)
    (id : TSymbol) (h : self.PnlOk) :
    (self.GetPosition lastPrice id).1.PnlOk ∧
    (self.GetPosition lastPrice id).1.m_positions id = some (self.GetPosition lastPrice id).2 := by
  unfold CInvestor.GetPosition
  cases hp : self.m_positions id with
  | some pos => exact ⟨h, hp⟩
  | none =>
    refine ⟨?_, by simp⟩
    obtain ⟨S, hS, hsum⟩ := h
    have hid : id ∉ S := by rw [hS, hp]; simp
    refine ⟨insert id S, fun s => ?_, ?_⟩
    · by_cases hs : s = id
      · subst hs; simp
      · simp [Function.update_noteq hs, hs, hS]
    · simp only []
      rw [Finset.sum_insert hid, Function.update_same, hsum]
      have hc : ∀ s ∈ S, (Function.update self.m_positions id
          (some (CPosition.new lastPrice self.m_pnl_max.m_frame)) s).elim 0
            (fun p => p.m_yield) = (self.m_positions s).elim 0 (fun p => p.m_yield) := by
        intro s hs
        have hne : s ≠ id := fun he => hid (he ▸ hs)
        rw [Function.update_noteq hne]
      rw [Finset.sum_congr rfl hc]
      simp [CPosition.new]

theorem CInvestor.UpdatePnL_pnlOk (self : CInvestor) (id : TSymbol) (pos pos0 : CPosition)
    (h : self.PnlOk) (h0 : self.m_positions id = some pos0) (hy : pos.m_yield = pos0.m_yield) :
    (self.UpdatePnL id pos).PnlOk := by
  obtain ⟨S, hS, hsum⟩ := h
  have hid : id ∈ S := by rw [hS, h0]; rfl
  refine ⟨S, fun s => ?_, ?_⟩
  · by_cases hs : s = id
    · subst hs; simp [CInvestor.UpdatePnL, hid]
    · simp [CInvestor.UpdatePnL, Function.update_noteq hs, hS]
  · simp only [CInvestor.UpdatePnL]
    rw [← Finset.add_sum_erase S _ hid, Function.update_same, hsum,
      ← Finset.add_sum_erase S _ hid, h0]
    have hc : ∀ s ∈ S.erase id, (Function.update self.m_positions id
        (some pos.UpdateYield) s).elim 0 (fun p => p.m_yield)
          = (self.m_positions s).elim 0 (fun p => p.m_yield) := by
      intro s hs
      rw [Function.update_noteq (Finset.ne_of_mem_erase hs)]
    rw [Finset.sum_congr rfl hc]
    simp only [Option.elim_some]
    rw [hy]
    ring

theorem CInvestor.PutQuote_pnlOk (self : CInvestor) (q : SQuote) (h : self.PnlOk) :
    (self.PutQuote q).PnlOk := by
  unfold CInvestor.PutQuote
  cases hp : self.m_positions q.m_symbol with
  | none => exact h
  | some pos =>
    simp only []
    have hy : (pos.PutQuote q).m_yield = pos.m_yield := by
      unfold CPosition.PutQuote; split_ifs <;> rfl
    split_ifs
    · exact CInvestor.UpdatePnL_pnlOk _ _ _ pos h hp hy
    · exact CInvestor.UpdatePnL_pnlOk _ _ _ pos h hp hy

theorem CInvestor.PutTrade_pnlOk (self : CInvestor) (lastPrice : TPrice × TDateTime)
    (trade : STrade) (h : self.PnlOk) : (self.PutTrade lastPrice trade).PnlOk := by
  have hg := CInvestor.GetPosition_pnlOk self lastPrice trade.m_symbol h
  unfold CInvestor.PutTrade
  simp only []
  split_ifs
  · exact hg.1
  · exact CInvestor.UpdatePnL_pnlOk _ _ _ _ hg.1 hg.2 rfl

theorem CDrawDown.foldl_putQuoteAt_pnlOk (quote : SQuote)
    (hits : List ((TSymbol × TUserID) × TUserID)) :
    ∀ s : CDrawDown, s.PnlOk → (hits.foldl (CDrawDown.putQuoteAt quote) s).PnlOk := by
  induction hits with
  | nil => intro s hs; exact hs
  | cons e rest ih =>
    intro s hs
    rw [List.foldl_cons]
    apply ih
    unfold CDrawDown.putQuoteAt
    cases he : s.m_investors e.2 with
    | none => exact hs
    | some inv0 =>
      intro uid inv h1
      simp only [] at h1
      by_cases hu : uid = e.2
      · subst hu
        rw [Function.update_same] at h1
        rw [← Option.some.inj h1]
        exact CInvestor.PutQuote_pnlOk _ _ (hs _ inv0 he)
      · rw [Function.update_noteq hu] at h1
        exact hs uid inv h1

theorem CDrawDown.ProcessQuote_pnlOk (s : CDrawDown) (q : SQuote) (hs : s.PnlOk) :
    (s.ProcessQuote q).PnlOk := by
  have hu1 : (s.UpdateLastPrice q).1.PnlOk := by
    unfold CDrawDown.UpdateLastPrice
    cases s.m_prices q.m_symbol with
    | none => exact hs
    | some p => simp only []; split_ifs <;> exact hs
  unfold CDrawDown.ProcessQuote
  simp only []
  split_ifs
  · exact hu1
  · exact CDrawDown.foldl_putQuoteAt_pnlOk q _ _ hu1

theorem CDrawDown.ProcessTrade_pnlOk (s : CDrawDown) (trade : STrade) (hs : s.PnlOk) :
    (s.ProcessTrade trade).PnlOk := by
  intro uid inv h1
  unfold CDrawDown.ProcessTrade at h1
  simp only [] at h1
  by_cases hu : uid = trade.m_user_id
  · subst hu
    rw [Function.update_same] at h1
    rw [← Option.some.inj h1]
    apply CInvestor.PutTrade_pnlOk
    unfold CDrawDown.GetInvestor
    simp only []
    cases hi : s.m_investors trade.m_user_id with
    | none => exact CInvestor.new_pnlOk _
    | some inv0 => exact hs _ inv0 hi
  · rw [Function.update_noteq hu] at h1
    unfold CDrawDown.GetInvestor at h1
    simp only [] at h1
    rw [Function.update_noteq hu] at h1
    exact hs uid inv h1

theorem CDrawDown.run_pnlOk (events : List TDrawDownEvent) :
    ∀ s : CDrawDown, s.PnlOk → (s.run events).PnlOk := by
  induction events with
  | nil => intro s hs; exact hs
  | cons ev rest ih =>
    intro s hs
    unfold CDrawDown.run
    rw [List.foldl_cons]
    apply ih
    cases ev with
    | quote q => exact CDrawDown.ProcessQuote_pnlOk s q hs
    | trade t => exact CDrawDown.ProcessTrade_pnlOk s t hs

/-! ## Theorems: trailing drawdown, pnl and the stored yields -/

/-- C19: in every state reached from the fresh rule by a sequence of quotes and trades, the
pnl of every investor equals the sum, over the symbols for which the investor holds a
position, of the stored yields of those positions (exact arithmetic). -/
theorem C19_pnl_is_sum_of_position_yields (events : List TDrawDownEvent) (uid : TUserID)
    (inv : CInvestor) (h : (CDrawDown.run {} events).m_investors uid = some inv) :
    ∃ S : Finset TSymbol, (∀ s, s ∈ S ↔ (inv.m_positions s).isSome = true) ∧
      inv.m_pnl = ∑ s in S, (inv.m_positions s).elim 0 (fun p => p.m_yield) :=
  CDrawDown.run_pnlOk events {} (fun _ _ h0 => Option.noConfusion h0) uid inv h

/-- Witness for C19: after Quote `X` at 100, Trade Buy 10 `X` at 100 by `U` and Quote `X`
at 110 the investor `U` holds the single position `X` with yield 100, and its pnl is 100. -/
theorem C19_pnl_is_sum_of_position_yields_witness :
    ∃ inv, (CDrawDown.run {} (drawDownEvents3 1 2 3)).m_investors "U" = some inv ∧
      inv.m_pnl = 100 ∧
      (inv.m_positions "X").elim 0 (fun p => p.m_yield) = 100 ∧
      ∃ S : Finset TSymbol, (∀ s, s ∈ S ↔ (inv.m_positions s).isSome = true) ∧
        inv.m_pnl = ∑ s in S, (inv.m_positions s).elim 0 (fun p => p.m_yield) := by
  have hrun := run_drawDownEvents3 1 2 3 (by decide) (by decide)
  have hinv : (CDrawDown.run {} (drawDownEvents3 1 2 3)).m_investors "U" =
      some { m_pnl := 100,
             m_pnl_max := { m_frame := 86400 * nsPerSec, m_rem := 1,
                            m_items := [(0, 0), (max 0 3, 100)],
                            m_items2 := [(0, 1), (100, 1)] },
             m_drawdown := -100,
             m_time := max 0 3,
             m_positions := Function.update (fun _ => none) "X"
               (some { m_price := (110, 3), m_yield := 100,
                       m_trades := { m_frame := 86400 * nsPerSec, m_rem := 1,
                                     m_items := [(2, { m_price := 100, m_qty := 10 })],
                                     m_sum := { m_sum := 1000, m_qty := 10 } } }) } := by
    rw [hrun]; simp
  exact ⟨_, hinv, rfl, by simp,
    C19_pnl_is_sum_of_position_yields (drawDownEvents3 1 2 3) "U" _ hinv⟩

/-! ## Theorems: the bound kept by a framed queue -/

theorem eraseLoop_bound {V A : Type} (EraseItem : TDateTime → V → A → A) (m_frame : Int)
    (m_rem : Nat) (tm : TDateTime) :
    ∀ (items : List (TDateTime × V)) (a : A) (res : Bool),
      (CFramedQueue.eraseLoop EraseItem m_frame m_rem tm items a res).1.length ≤ m_rem ∨
      ∃ front, (CFramedQueue.eraseLoop EraseItem m_frame m_rem tm items a res).1.head?
          = some front ∧ tm ≤ front.1 + m_frame := by
  intro items
  induction items with
  | nil => intro a res; left; simp [CFramedQueue.eraseLoop]
  | cons item rest ih =>
    intro a res
    unfold CFramedQueue.eraseLoop
    split_ifs with h1 h2
    · exact ih _ _
    · right; exact ⟨item, rfl, not_lt.mp h2⟩
    · left; exact Nat.not_lt.mp h1

theorem _EraseExpired_bound {V A : Type} (EraseItem : TDateTime → V → A → A)
    (self : CFramedQueue V) (a : A) (tm : TDateTime) (hf : 0 ≤ self.m_frame) :
    (CFramedQueue._EraseExpired EraseItem self a tm).1.m_frame = self.m_frame ∧
    (CFramedQueue._EraseExpired EraseItem self a tm).1.m_rem = self.m_rem ∧
    ((CFramedQueue._EraseExpired EraseItem self a tm).1.m_items.length ≤ self.m_rem ∨
      ∃ front, (CFramedQueue._EraseExpired EraseItem self a tm).1.m_items.head? = some front ∧
        tm ≤ front.1 + self.m_frame) := by
  obtain ⟨fr, rem, items⟩ := self
  cases items with
  | nil => exact ⟨rfl, rfl, Or.inl (Nat.zero_le _)⟩
  | cons front tl =>
    simp only [CFramedQueue._EraseExpired]
    split_ifs with h
    · exact ⟨rfl, rfl, Or.inr ⟨front, rfl, le_trans h (le_add_of_nonneg_right hf)⟩⟩
    · exact ⟨rfl, rfl, eraseLoop_bound EraseItem fr rem tm _ _ _⟩

/-- C20 (counterexample): on a queue with frame 10 that always leaves 1 item, after
`PutValue(5, _)` and `PutValue(20, _)` both values were accepted and the queue holds both
items: its size 2 exceeds `m_rem` and its front item has `t_front + frame < 20`, the
largest timestamp passed so far (the eviction of `_PutValue` runs before the new item is
appended). -/
theorem C20_framed_queue_bound_counterexample :
    (CFramedQueue.PutValue ({ m_frame := 10, m_rem := 1 } : CFramedQueue Nat) 5 1).2 = true ∧
    (CFramedQueue.PutValue
      (CFramedQueue.PutValue ({ m_frame := 10, m_rem := 1 } : CFramedQueue Nat) 5 1).1
      20 2).2 = true ∧
    queuePut5Put20.m_items = [(5, 1), (20, 2)] ∧
    queuePut5Put20.m_rem < queuePut5Put20.m_items.length ∧
    ∀ front, queuePut5Put20.m_items.head? = some front →
      front.1 + queuePut5Put20.m_frame < 20 := by
  refine ⟨by decide, by decide, by decide, by decide, ?_⟩
  intro front h
  have h5 : queuePut5Put20.m_items.head? = some (5, 1) := by decide
  rw [h5] at h
  rw [← Option.some.inj h]
  decide

/-- C20 (amended): for a frame that is not negative, any hook and any state of the queue,
right after `_EraseExpired(tm)` either at most `m_rem` items are left or the front item has
`t_front + frame ≥ tm`; and right after `_PutValue(tm, val)` on an empty queue or with
`tm ≥ t_back` the value is accepted and either at most `m_rem + 1` items are held or the
front item has `t_front + frame ≥ tm`. Neither operation changes the frame or `m_rem`. -/
theorem C20_framed_queue_bound_after_operation {V A : Type}
    (EraseItem : TDateTime → V → A → A) (self : CFramedQueue V) (a : A) (tm : TDateTime)
    (val : V) (hf : 0 ≤ self.m_frame) :
    ((CFramedQueue._EraseExpired EraseItem self a tm).1.m_frame = self.m_frame ∧
     (CFramedQueue._EraseExpired EraseItem self a tm).1.m_rem = self.m_rem ∧
     ((CFramedQueue._EraseExpired EraseItem self a tm).1.m_items.length ≤ self.m_rem ∨
      ∃ front, (CFramedQueue._EraseExpired EraseItem self a tm).1.m_items.head? = some front ∧
        tm ≤ front.1 + self.m_frame)) ∧
    ((self.m_items = [] ∨ ∃ back, self.m_items.getLast? = some back ∧ back.1 ≤ tm) →
     (CFramedQueue._PutValue EraseItem self a tm val).2.2 = true ∧
     (CFramedQueue._PutValue EraseItem self a tm val).1.m_frame = self.m_frame ∧
     (CFramedQueue._PutValue EraseItem self a tm val).1.m_rem = self.m_rem ∧
     ((CFramedQueue._PutValue EraseItem self a tm val).1.m_items.length ≤ self.m_rem + 1 ∨
      ∃ front, (CFramedQueue._PutValue EraseItem self a tm val).1.m_items.head? = some front ∧
        tm ≤ front.1 + self.m_frame)) := by
  refine ⟨_EraseExpired_bound EraseItem self a tm hf, ?_⟩
  intro hb
  have hE := _EraseExpired_bound EraseItem self a tm hf
  cases hi : self.m_items with
  | nil =>
    simp only [CFramedQueue._PutValue, hi]
    exact ⟨trivial, trivial, trivial, Or.inr ⟨(tm, val), rfl, le_add_of_nonneg_right hf⟩⟩
  | cons front rest =>
    rw [hi] at hb
    obtain ⟨back, hback, hle⟩ := hb.resolve_left (List.cons_ne_nil _ _)
    rw [List.getLast?_eq_getLast _ (List.cons_ne_nil front rest)] at hback
    have hcond : ((front :: rest).getLast (List.cons_ne_nil front rest)).1 < tm ∨
        ¬ tm < ((front :: rest).getLast (List.cons_ne_nil front rest)).1 := by
      right
      rw [Option.some.inj hback]
      exact not_lt.mpr hle
    simp only [CFramedQueue._PutValue, hi]
    rw [if_pos hcond]
    split_ifs with hexp
    · obtain ⟨h1, h2, h3⟩ := hE
      refine ⟨rfl, h1, h2, ?_⟩
      rcases h3 with h3 | ⟨fr, hfr, hfr2⟩
      · left
        simp only [List.length_append, List.length_singleton]
        exact Nat.succ_le_succ h3
      · right
        refine ⟨fr, ?_, hfr2⟩
        cases hq : (CFramedQueue._EraseExpired EraseItem self a tm).1.m_items with
        | nil => rw [hq] at hfr; exact Option.noConfusion hfr
        | cons x xs => rw [hq] at hfr; exact hfr
    · refine ⟨rfl, rfl, rfl, Or.inr ⟨front, ?_, not_lt.mp hexp⟩⟩
      rw [hi]; rfl

/-- Witness for C20: the queue with frame 10, `m_rem` 1 and the items at 5 and 8 is read,
and is given a value, at time 20: the read leaves the one item at 8, and the insertion
leaves the items at 8 and 20, which is `m_rem + 1` items with `8 + 10 < 20`. -/
theorem C20_framed_queue_bound_after_operation_witness :
    (0 : Int) ≤ queueFrame10.m_frame ∧
    (∃ back, queueFrame10.m_items.getLast? = some back ∧ back.1 ≤ 20) ∧
    (CFramedQueue._EraseExpired CFramedQueue.EraseItem queueFrame10 () 20).1.m_items
      = [(8, 2)] ∧
    (CFramedQueue._PutValue CFramedQueue.EraseItem queueFrame10 () 20 3).1.m_items
      = [(8, 2), (20, 3)] ∧
    ((CFramedQueue._EraseExpired CFramedQueue.EraseItem queueFrame10 () 20).1.m_items.length
        ≤ queueFrame10.m_rem ∨
      ∃ front, (CFramedQueue._EraseExpired CFramedQueue.EraseItem queueFrame10 ()
        20).1.m_items.head? = some front ∧ 20 ≤ front.1 + queueFrame10.m_frame) ∧
    ((CFramedQueue._PutValue CFramedQueue.EraseItem queueFrame10 () 20 3).1.m_items.length
        ≤ queueFrame10.m_rem + 1 ∨
      ∃ front, (CFramedQueue._PutValue CFramedQueue.EraseItem queueFrame10 ()
        20 3).1.m_items.head? = some front ∧ 20 ≤ front.1 + queueFrame10.m_frame) :=
  ⟨by decide, ⟨(8, 2), rfl, by decide⟩, by decide, by decide,
    (C20_framed_queue_bound_after_operation CFramedQueue.EraseItem queueFrame10 () 20 3
      (by decide)).1.2.2,
    ((C20_framed_queue_bound_after_operation CFramedQueue.EraseItem queueFrame10 () 20 3
      (by decide)).2 (Or.inr ⟨(8, 2), rfl, by decide⟩)).2.2.2⟩

/-! ## Lemmas: the deque of a framed queue -/

theorem eraseLoop_suffix {V A : Type} (EraseItem : TDateTime → V → A → A) (m_frame : Int)
    (m_rem : Nat) (tm : TDateTime) :
    ∀ (items : List (TDateTime × V)) (a : A) (res : Bool),
      ∃ removed, items = removed ++
          (CFramedQueue.eraseLoop EraseItem m_frame m_rem tm items a res).1 ∧
        (∀ x ∈ removed, x.1 + m_frame < tm) ∧
        ((CFramedQueue.eraseLoop EraseItem m_frame m_rem tm items a res).2.2 =
          (res || !removed.isEmpty)) ∧
        min items.length m_rem ≤
          (CFramedQueue.eraseLoop EraseItem m_frame m_rem tm items a res).1.length := by
  intro items
  induction items with
  | nil => intro a res; exact ⟨[], by simp [CFramedQueue.eraseLoop]⟩
  | cons item rest ih =>
    intro a res
    unfold CFramedQueue.eraseLoop
    split_ifs with h1 h2
    · obtain ⟨removed, e1, e2, e3, e4⟩ := ih (EraseItem item.1 item.2 a) true
      refine ⟨item :: removed, ?_, ?_, ?_, ?_⟩
      · rw [List.cons_append, ← e1]
      · intro x hx
        rcases List.mem_cons.mp hx with hx | hx
        · rw [hx]; exact h2
        · exact e2 x hx
      · rw [e3]; simp
      · have hlen : m_rem ≤ rest.length := by
          simp only [List.length_cons] at h1
          omega
        rw [min_eq_right hlen] at e4
        exact le_trans (min_le_right _ _) e4
    · exact ⟨[], by simp⟩
    · exact ⟨[], by simp⟩

/-- What `_EraseExpired(tm)` does to the deque: it removes a prefix `removed` whose items
all have `t + frame < tm`, reports `true` exactly when the prefix is not empty, and leaves
at least `min(size, m_rem)` items; frame and `m_rem` are unchanged. -/
theorem _EraseExpired_suffix {V A : Type} (EraseItem : TDateTime → V → A → A)
    (self : CFramedQueue V) (a : A) (tm : TDateTime) :
    (CFramedQueue._EraseExpired EraseItem self a tm).1.m_frame = self.m_frame ∧
    (CFramedQueue._EraseExpired EraseItem self a tm).1.m_rem = self.m_rem ∧
    ∃ removed, self.m_items = removed ++
        (CFramedQueue._EraseExpired EraseItem self a tm).1.m_items ∧
      (∀ x ∈ removed, x.1 + self.m_frame < tm) ∧
      ((CFramedQueue._EraseExpired EraseItem self a tm).2.2 = true ↔ removed ≠ []) ∧
      min self.m_items.length self.m_rem ≤
        (CFramedQueue._EraseExpired EraseItem self a tm).1.m_items.length := by
  obtain ⟨fr, rem, items⟩ := self
  cases items with
  | nil => exact ⟨rfl, rfl, [], by simp [CFramedQueue._EraseExpired]⟩
  | cons front tl =>
    simp only [CFramedQueue._EraseExpired]
    split_ifs with h
    · exact ⟨rfl, rfl, [], by simp⟩
    · obtain ⟨removed, e1, e2, e3, e4⟩ :=
        eraseLoop_suffix EraseItem fr rem tm (front :: tl) a false
      exact ⟨rfl, rfl, removed, e1, e2, by rw [e3]; cases removed <;> simp, e4⟩

theorem insertUpperBound_split {V : Type} (tm : TDateTime) (val : V) :
    ∀ items : List (TDateTime × V),
      ∃ l1 l2, items = l1 ++ l2 ∧
        CFramedQueue.insertUpperBound tm val items = l1 ++ (tm, val) :: l2 ∧
        (∀ x ∈ l1, x.1 ≤ tm) ∧ (∀ y, l2.head? = some y → tm < y.1) := by
  intro items
  induction items with
  | nil => exact ⟨[], [], rfl, rfl, by simp, by simp⟩
  | cons item rest ih =>
    unfold CFramedQueue.insertUpperBound
    split_ifs with h
    · refine ⟨[], item :: rest, rfl, rfl, by simp, ?_⟩
      intro y hy
      simp only [List.head?_cons, Option.some.injEq] at hy
      rw [← hy]; exact h
    · obtain ⟨l1, l2, e1, e2, e3, e4⟩ := ih
      refine ⟨item :: l1, l2, by rw [e1]; rfl, by rw [e2]; rfl, ?_, e4⟩
      intro x hx
      rcases List.mem_cons.mp hx with hx | hx
      · rw [hx]; exact not_lt.mp h
      · exact e3 x hx

theorem timeSorted_head_le {V : Type} (front : TDateTime × V) (rest : List (TDateTime × V))
    (hs : CFramedQueue.TimeSorted (front :: rest)) :
    ∀ x ∈ front :: rest, front.1 ≤ x.1 := by
  intro x hx
  rcases List.mem_cons.mp hx with hx | hx
  · rw [hx]
  · exact List.rel_of_pairwise_cons hs hx

theorem timeSorted_le_getLast {V : Type} :
    ∀ (items : List (TDateTime × V)) (hne : items ≠ []),
      CFramedQueue.TimeSorted items → ∀ x ∈ items, x.1 ≤ (items.getLast hne).1 := by
  intro items
  induction items with
  | nil => intro hne; exact absurd rfl hne
  | cons item rest ih =>
    intro hne hs x hx
    cases rest with
    | nil =>
      simp only [List.mem_singleton] at hx
      rw [hx]; simp
    | cons r rs =>
      rw [List.getLast_cons (List.cons_ne_nil r rs)]
      rcases List.mem_cons.mp hx with hx | hx
      · rw [hx]
        have h1 : item.1 ≤ r.1 := List.rel_of_pairwise_cons hs (List.mem_cons_self _ _)
        exact le_trans h1 (ih (List.cons_ne_nil r rs) (List.Pairwise.of_cons hs) r
          (List.mem_cons_self _ _))
      · exact ih (List.cons_ne_nil r rs) (List.Pairwise.of_cons hs) x hx

theorem _EraseExpired_timeSorted {V A : Type} (EraseItem : TDateTime → V → A → A)
    (self : CFramedQueue V) (a : A) (tm : TDateTime)
    (hs : CFramedQueue.TimeSorted self.m_items) :
    CFramedQueue.TimeSorted (CFramedQueue._EraseExpired EraseItem self a tm).1.m_items := by
  obtain ⟨_, _, removed, e1, _⟩ := _EraseExpired_suffix EraseItem self a tm
  unfold CFramedQueue.TimeSorted at hs ⊢
  rw [e1] at hs
  exact (List.pairwise_append.mp hs).2.1

theorem insertUpperBound_timeSorted {V : Type} (tm : TDateTime) (val : V)
    (items : List (TDateTime × V)) (hs : CFramedQueue.TimeSorted items) :
    CFramedQueue.TimeSorted (CFramedQueue.insertUpperBound tm val items) := by
  obtain ⟨l1, l2, e1, e2, e3, e4⟩ := insertUpperBound_split tm val items
  unfold CFramedQueue.TimeSorted at hs ⊢
  rw [e1] at hs
  rw [e2]
  obtain ⟨h1, h2, h3⟩ := List.pairwise_append.mp hs
  have hl2 : ∀ y ∈ l2, tm ≤ y.1 := by
    intro y hy
    cases l2 with
    | nil => exact absurd hy (List.not_mem_nil _)
    | cons z zs =>
      have hz : tm < z.1 := e4 z rfl
      exact le_trans (le_of_lt hz) (timeSorted_head_le z zs h2 y hy)
  refine List.pairwise_append.mpr ⟨h1, List.pairwise_cons.mpr ⟨hl2, h2⟩, ?_⟩
  intro x hx y hy
  rcases List.mem_cons.mp hy with hy | hy
  · rw [hy]; exact e3 x hx
  · exact h3 x hx y hy

/-- Every branch of `_PutValue` keeps the deque in time order. -/
theorem _PutValue_timeSorted {V A : Type} (EraseItem : TDateTime → V → A → A)
    (self : CFramedQueue V) (a : A) (tm : TDateTime) (val : V)
    (hs : CFramedQueue.TimeSorted self.m_items) :
    CFramedQueue.TimeSorted (CFramedQueue._PutValue EraseItem self a tm val).1.m_items := by
  cases hi : self.m_items with
  | nil =>
    simp only [CFramedQueue._PutValue, hi]
    exact List.pairwise_singleton _ _
  | cons front rest =>
    have hs1 : CFramedQueue.TimeSorted (front :: rest) := hi ▸ hs
    have hlast := timeSorted_le_getLast (front :: rest) (List.cons_ne_nil _ _) hs1
    simp only [CFramedQueue._PutValue, hi]
    split_ifs with h1 h2 h3 h4
    · -- eviction, then append
      obtain ⟨_, _, removed, e1, _⟩ := _EraseExpired_suffix EraseItem self a tm
      have hle : ((front :: rest).getLast (List.cons_ne_nil front rest)).1 ≤ tm := by
        rcases h1 with h | h
        · exact le_of_lt h
        · exact not_lt.mp h
      have hk := _EraseExpired_timeSorted EraseItem self a tm hs
      unfold CFramedQueue.TimeSorted at hk ⊢
      refine List.pairwise_append.mpr ⟨hk, List.pairwise_singleton _ _, ?_⟩
      intro x hx y hy
      rw [List.mem_singleton.mp hy]
      have hx1 : x ∈ front :: rest := by
        rw [← hi, e1]; exact List.mem_append_right _ hx
      exact le_trans (hlast x hx1) hle
    · have hle : ((front :: rest).getLast (List.cons_ne_nil front rest)).1 ≤ tm := by
        rcases h1 with h | h
        · exact le_of_lt h
        · exact not_lt.mp h
      unfold CFramedQueue.TimeSorted
      rw [hi]
      refine List.pairwise_append.mpr ⟨hs1, List.pairwise_singleton _ _, ?_⟩
      intro x hx y hy
      rw [List.mem_singleton.mp hy]
      exact le_trans (hlast x hx) hle
    · exact insertUpperBound_timeSorted tm val _ hs1
    · refine List.pairwise_cons.mpr ⟨?_, hs1⟩
      intro y hy
      exact le_trans (not_lt.mp h3) (timeSorted_head_le front rest hs1 y hy)
    · exact hs

theorem insertUpperBound_getLast {V : Type} (tm : TDateTime) (val : V) :
    ∀ (items : List (TDateTime × V)) (back : TDateTime × V),
      items.getLast? = some back → tm < back.1 →
      (CFramedQueue.insertUpperBound tm val items).getLast? = some back := by
  intro items back hb hlt
  obtain ⟨l1, l2, e1, e2, e3, _⟩ := insertUpperBound_split tm val items
  have hl2 : l2 ≠ [] := by
    intro h
    rw [h, List.append_nil] at e1
    have hm : back ∈ l1 := by
      rw [← e1]; exact List.mem_of_mem_getLast? hb
    exact absurd hlt (not_lt.mpr (e3 back hm))
  rw [e2, List.getLast?_append_cons]
  rw [e1, List.getLast?_append_of_ne_nil _ hl2] at hb
  cases l2 with
  | nil => exact absurd rfl hl2
  | cons y ys => rw [List.getLast?_cons_cons]; exact hb

/-- The branch of `_PutValue` taken on a non-empty deque when `tm` is not before the back
item: eviction at `tm` if the front item is expired, then `emplace_back`. -/
theorem _PutValue_append {V A : Type} (EraseItem : TDateTime → V → A → A)
    (self : CFramedQueue V) (a : A) (tm : TDateTime) (val : V) (back : TDateTime × V)
    (hback : self.m_items.getLast? = some back) (hle : back.1 ≤ tm) :
    (CFramedQueue._PutValue EraseItem self a tm val).2.2 = true ∧
    ∃ removed kept, self.m_items = removed ++ kept ∧
      (CFramedQueue._PutValue EraseItem self a tm val).1.m_items = kept ++ [(tm, val)] ∧
      ∀ x ∈ removed, x.1 + self.m_frame < tm := by
  cases hi : self.m_items with
  | nil => rw [hi] at hback; exact Option.noConfusion hback
  | cons front rest =>
    rw [hi, List.getLast?_eq_getLast _ (List.cons_ne_nil front rest)] at hback
    have hcond : ((front :: rest).getLast (List.cons_ne_nil front rest)).1 < tm ∨
        ¬ tm < ((front :: rest).getLast (List.cons_ne_nil front rest)).1 := by
      right
      rw [Option.some.inj hback]
      exact not_lt.mpr hle
    simp only [CFramedQueue._PutValue, hi]
    rw [if_pos hcond]
    split_ifs with hexp
    · obtain ⟨_, _, removed, e1, e2, _⟩ := _EraseExpired_suffix EraseItem self a tm
      exact ⟨rfl, removed, _, hi ▸ e1, rfl, e2⟩
    · exact ⟨rfl, [], front :: rest, rfl, by rw [hi], by simp⟩

/-- The branches of `_PutValue` taken on a non-empty deque when `tm` is before the back
item. -/
theorem _PutValue_before_back {V A : Type} (EraseItem : TDateTime → V → A → A)
    (self : CFramedQueue V) (a : A) (tm : TDateTime) (val : V) (front back : TDateTime × V)
    (hfront : self.m_items.head? = some front) (hback : self.m_items.getLast? = some back)
    (hlt : tm < back.1) :
    CFramedQueue._PutValue EraseItem self a tm val =
      if front.1 < tm then
        ({ self with m_items := CFramedQueue.insertUpperBound tm val self.m_items }, a, true)
      else if back.1 < tm + self.m_frame then
        ({ self with m_items := (tm, val) :: self.m_items }, a, true)
      else (self, a, false) := by
  cases hi : self.m_items with
  | nil => rw [hi] at hback; exact Option.noConfusion hback
  | cons fr rest =>
    rw [hi, List.getLast?_eq_getLast _ (List.cons_ne_nil fr rest)] at hback
    rw [hi] at hfront
    have hf : fr = front := Option.some.inj hfront
    have hb : (fr :: rest).getLast (List.cons_ne_nil fr rest) = back := Option.some.inj hback
    have hcond : ¬ (((fr :: rest).getLast (List.cons_ne_nil fr rest)).1 < tm ∨
        ¬ tm < ((fr :: rest).getLast (List.cons_ne_nil fr rest)).1) := by
      rw [hb]
      intro h
      rcases h with h | h
      · exact absurd hlt (not_lt.mpr (le_of_lt h))
      · exact h hlt
    simp only [CFramedQueue._PutValue, hi]
    rw [if_neg hcond, hb, hf]

/-! ## Theorems: insertion into a framed queue -/

/-- C21: on a non-empty deque, `_PutValue(tm, val)` with `tm` not before the back item's
timestamp (equal included) is accepted, `(tm, val)` is the last item afterwards, and the
deque is the items kept by the eviction (a suffix of the previous deque, every removed item
having `t + frame < tm`) followed by `(tm, val)`: the new item stands after every existing
item, those with the same timestamp included. -/
theorem C21_put_at_or_after_back_appends {V A : Type} (EraseItem : TDateTime → V → A → A)
    (self : CFramedQueue V) (a : A) (tm : TDateTime) (val : V) (back : TDateTime × V)
    (hback : self.m_items.getLast? = some back) (hle : back.1 ≤ tm) :
    (CFramedQueue._PutValue EraseItem self a tm val).2.2 = true ∧
    (CFramedQueue._PutValue EraseItem self a tm val).1.m_items.getLast? = some (tm, val) ∧
    ∃ removed kept, self.m_items = removed ++ kept ∧
      (CFramedQueue._PutValue EraseItem self a tm val).1.m_items = kept ++ [(tm, val)] ∧
      ∀ x ∈ removed, x.1 + self.m_frame < tm := by
  obtain ⟨h1, removed, kept, e1, e2, e3⟩ :=
    _PutValue_append EraseItem self a tm val back hback hle
  exact ⟨h1, by rw [e2, List.getLast?_concat], removed, kept, e1, e2, e3⟩

/-- Witness for C21: the queue with the items at 5, 8 and 12 is given a value at time 12,
the timestamp of its back item. -/
theorem C21_put_at_or_after_back_appends_witness :
    queueThree.m_items.getLast? = some (12, 3) ∧
    (queueThree.PutValue 12 4).2 = true ∧
    (queueThree.PutValue 12 4).1.m_items = [(5, 1), (8, 2), (12, 3), (12, 4)] ∧
    (CFramedQueue._PutValue CFramedQueue.EraseItem queueThree () 12 4).1.m_items.getLast?
      = some (12, 4) :=
  ⟨rfl, by decide, by decide,
    (C21_put_at_or_after_back_appends CFramedQueue.EraseItem queueThree () 12 4 (12, 3) rfl
      (by decide)).2.1⟩

/-- C22 (counterexample): with frame 10 and the items at 5 and 8, `PutValue(5, 3)`, whose
timestamp equals the front item's, puts `(5, 3)` at the front, before the item `(5, 1)` of
the same timestamp, not at the upper-bound position after it; with frame 2 the same call
returns `false` and leaves the deque as it was. -/
theorem C22_put_at_front_timestamp_counterexample :
    queueFrame10.m_items = [(5, 1), (8, 2)] ∧
    (queueFrame10.PutValue 5 3).1.m_items = [(5, 3), (5, 1), (8, 2)] ∧
    CFramedQueue.insertUpperBound 5 3 queueFrame10.m_items = [(5, 1), (5, 3), (8, 2)] ∧
    queueFrame2.m_items = [(5, 1), (8, 2)] ∧
    queueFrame2.PutValue 5 3 = (queueFrame2, false) :=
  ⟨by decide, by decide, by decide, by decide, rfl⟩

/-- C22 (amended): on a non-empty deque with front item `front` and back item `back`, for
`tm < back.1`: when `front.1 < tm`, `_PutValue(tm, val)` is accepted, changes nothing but
the deque, and the deque becomes `l1 ++ (tm, val) :: l2` where `l1 ++ l2` is the previous
deque, every item of `l1` has a timestamp `≤ tm` and the first item of `l2` (every item of
`l2` when the deque is in time order) has a timestamp `> tm`; when `tm = front.1`, the item
is put at the front if `back.1 < tm + frame`, and otherwise the call returns `false` and
changes nothing. -/
theorem C22_put_strictly_inside_inserts_at_upper_bound {V A : Type}
    (EraseItem : TDateTime → V → A → A) (self : CFramedQueue V) (a : A) (tm : TDateTime)
    (val : V) (front back : TDateTime × V) (hfront : self.m_items.head? = some front)
    (hback : self.m_items.getLast? = some back) (hlt : tm < back.1) :
    (front.1 < tm →
      (CFramedQueue._PutValue EraseItem self a tm val).2.2 = true ∧
      (CFramedQueue._PutValue EraseItem self a tm val).2.1 = a ∧
      (CFramedQueue._PutValue EraseItem self a tm val).1.m_frame = self.m_frame ∧
      (CFramedQueue._PutValue EraseItem self a tm val).1.m_rem = self.m_rem ∧
      ∃ l1 l2, self.m_items = l1 ++ l2 ∧
        (CFramedQueue._PutValue EraseItem self a tm val).1.m_items = l1 ++ (tm, val) :: l2 ∧
        l1 ≠ [] ∧ l2 ≠ [] ∧
        (∀ x ∈ l1, x.1 ≤ tm) ∧ (∀ y, l2.head? = some y → tm < y.1) ∧
        (CFramedQueue.TimeSorted self.m_items → ∀ y ∈ l2, tm < y.1)) ∧
    (tm = front.1 → back.1 < tm + self.m_frame →
      CFramedQueue._PutValue EraseItem self a tm val =
        ({ self with m_items := (tm, val) :: self.m_items }, a, true)) ∧
    (tm = front.1 → ¬ back.1 < tm + self.m_frame →
      CFramedQueue._PutValue EraseItem self a tm val = (self, a, false)) := by
  have hput := _PutValue_before_back EraseItem self a tm val front back hfront hback hlt
  refine ⟨fun h => ?_, fun h1 h2 => ?_, fun h1 h2 => ?_⟩
  · rw [hput, if_pos h]
    obtain ⟨l1, l2, e1, e2, e3, e4⟩ := insertUpperBound_split tm val self.m_items
    have hl2 : l2 ≠ [] := by
      intro hn
      rw [hn, List.append_nil] at e1
      have hm : back ∈ l1 := by
        rw [← e1]; exact List.mem_of_mem_getLast? hback
      exact absurd hlt (not_lt.mpr (e3 back hm))
    have hl1 : l1 ≠ [] := by
      intro hn
      rw [hn, List.nil_append] at e1
      rw [e1] at hfront
      exact absurd h (not_lt.mpr (le_of_lt (e4 front hfront)))
    refine ⟨rfl, rfl, rfl, rfl, l1, l2, e1, e2, hl1, hl2, e3, e4, ?_⟩
    intro hs y hy
    unfold CFramedQueue.TimeSorted at hs
    rw [e1] at hs
    cases l2 with
    | nil => exact absurd hy (List.not_mem_nil _)
    | cons z zs =>
      exact lt_of_lt_of_le (e4 z rfl)
        (timeSorted_head_le z zs (List.pairwise_append.mp hs).2.1 y hy)
  · rw [hput, if_neg (not_lt.mpr (le_of_eq h1)), if_pos h2]
  · rw [hput, if_neg (not_lt.mpr (le_of_eq h1)), if_neg h2]

/-- Witness for C22: the queue with the items at 5, 8 and 12 is given a value at time 8,
strictly between its front and back timestamps; the new item goes after the item at 8. -/
theorem C22_put_strictly_inside_inserts_at_upper_bound_witness :
    queueThree.m_items.head? = some (5, 1) ∧ queueThree.m_items.getLast? = some (12, 3) ∧
    (queueThree.PutValue 8 4).1.m_items = [(5, 1), (8, 2), (8, 4), (12, 3)] ∧
    (CFramedQueue._PutValue CFramedQueue.EraseItem queueThree () 8 4).2.2 = true ∧
    (queueFrame10.PutValue 5 3).1.m_items = (5, 3) :: queueFrame10.m_items :=
  ⟨rfl, rfl, by decide,
    ((C22_put_strictly_inside_inserts_at_upper_bound CFramedQueue.EraseItem queueThree () 8 4
      (5, 1) (12, 3) rfl rfl (by decide)).1 (by decide)).1,
    by decide⟩

/-- C23: on a non-empty deque whose front timestamp is not after its back timestamp, for
`tm` before the front item: if `back.1 < tm + frame`, `_PutValue(tm, val)` is accepted and
`(tm, val)` becomes the first item, nothing else changing; otherwise the call returns
`false` and the queue and the data of the derived class are unchanged, so that
`CMovingSum::PutValue` and `CMovingMinMax::PutValue` return `false` with the object
unchanged. With a frame that is not negative every `tm < front.1 - frame` is rejected. -/
theorem C23_put_before_front_prepends_or_rejects {V A : Type}
    (EraseItem : TDateTime → V → A → A) (self : CFramedQueue V) (a : A) (tm : TDateTime)
    (val : V) (front back : TDateTime × V) (hfront : self.m_items.head? = some front)
    (hback : self.m_items.getLast? = some back) (hfb : front.1 ≤ back.1) :
    (tm < front.1 → back.1 < tm + self.m_frame →
      CFramedQueue._PutValue EraseItem self a tm val =
        ({ self with m_items := (tm, val) :: self.m_items }, a, true)) ∧
    (tm < front.1 → ¬ back.1 < tm + self.m_frame →
      CFramedQueue._PutValue EraseItem self a tm val = (self, a, false)) ∧
    (0 ≤ self.m_frame → tm < front.1 - self.m_frame →
      CFramedQueue._PutValue EraseItem self a tm val = (self, a, false)) ∧
    (∀ (S : Type) [HAdd S V S] [HSub S V S] (w : CMovingSum V S), w.toCFramedQueue = self →
      tm < front.1 → ¬ back.1 < tm + self.m_frame → w.PutValue tm val = (w, false)) ∧
    (∀ [LinearOrder V] (w : CMovingMinMax V), w.toCFramedQueue = self →
      tm < front.1 → ¬ back.1 < tm + self.m_frame → w.PutValue tm val = (w, false)) := by
  have hput : tm < front.1 → ∀ (B : Type) (E : TDateTime → V → B → B) (b : B),
      CFramedQueue._PutValue E self b tm val =
        if back.1 < tm + self.m_frame then
          ({ self with m_items := (tm, val) :: self.m_items }, b, true)
        else (self, b, false) := by
    intro h B E b
    rw [_PutValue_before_back E self b tm val front back hfront hback (lt_of_lt_of_le h hfb),
      if_neg (not_lt.mpr (le_of_lt h))]
  refine ⟨fun h1 h2 => ?_, fun h1 h2 => ?_, fun h0 h1 => ?_, ?_, ?_⟩
  · rw [hput h1, if_pos h2]
  · rw [hput h1, if_neg h2]
  · have h2 : tm < front.1 := lt_of_lt_of_le h1 (sub_le_self _ h0)
    have h3 : ¬ back.1 < tm + self.m_frame :=
      not_lt.mpr (le_trans (le_of_lt (lt_sub_iff_add_lt.mp h1)) hfb)
    rw [hput h2, if_neg h3]
  · intro S _ _ w hw h1 h2
    unfold CMovingSum.PutValue
    simp only []
    rw [hw, hput h1, if_neg h2]
    simp only [if_true]
    rw [← hw]
  · intro _ w hw h1 h2
    unfold CMovingMinMax.PutValue
    simp only []
    rw [hw, hput h1, if_neg h2]
    simp only [if_true]
    rw [← hw]

/-- Witness for C23: with the items at 5 and 8, a value at time 4 is put at the front when
the frame is 10 (`8 < 4 + 10`) and is rejected when the frame is 2 (`8 ≥ 4 + 2`), where a
value at time 2, older than `5 - 2`, is rejected too and the running sum stays as it was. -/
theorem C23_put_before_front_prepends_or_rejects_witness :
    queueFrame10.m_items.head? = some (5, 1) ∧ queueFrame10.m_items.getLast? = some (8, 2) ∧
    queueFrame10.PutValue 4 3 =
      ({ queueFrame10 with m_items := (4, 3) :: queueFrame10.m_items }, true) ∧
    CFramedQueue._PutValue CFramedQueue.EraseItem queueFrame2 () 4 3 = (queueFrame2, (), false) ∧
    CFramedQueue._PutValue CFramedQueue.EraseItem queueFrame2 () 2 3 = (queueFrame2, (), false) ∧
    sumFrame2.PutValue 4 7 = (sumFrame2, false) :=
  ⟨rfl, rfl, rfl,
    (C23_put_before_front_prepends_or_rejects CFramedQueue.EraseItem queueFrame2 () 4 3
      (5, 1) (8, 2) rfl rfl (by decide)).2.1 (by decide) (by decide),
    (C23_put_before_front_prepends_or_rejects CFramedQueue.EraseItem queueFrame2 () 2 3
      (5, 1) (8, 2) rfl rfl (by decide)).2.2.1 (by decide) (by decide),
    (C23_put_before_front_prepends_or_rejects CMovingSum.EraseItem sumFrame2.toCFramedQueue
      sumFrame2.m_sum 4 7 (5, 1) (8, 2) rfl rfl (by decide)).2.2.2.1 TPrice sumFrame2 rfl
      (by decide) (by decide)⟩

/-! ## Theorems: eviction from a framed queue -/

/-- C24: `_EraseExpired(tm)` removes a prefix of the deque, every removed item has
`t + frame < tm` strictly, so no removed item has the timestamp `tm - frame`, and the call
returns `true` exactly when at least one item was removed. -/
theorem C24_erase_expired_strict_and_reports_removal {V A : Type}
    (EraseItem : TDateTime → V → A → A) (self : CFramedQueue V) (a : A) (tm : TDateTime) :
    ∃ removed, self.m_items = removed ++
        (CFramedQueue._EraseExpired EraseItem self a tm).1.m_items ∧
      (∀ x ∈ removed, x.1 + self.m_frame < tm) ∧
      (∀ x ∈ removed, x.1 ≠ tm - self.m_frame) ∧
      ((CFramedQueue._EraseExpired EraseItem self a tm).2.2 = true ↔ removed ≠ []) ∧
      ((CFramedQueue._EraseExpired EraseItem self a tm).2.2 = true ↔
        (CFramedQueue._EraseExpired EraseItem self a tm).1.m_items.length
          < self.m_items.length) := by
  obtain ⟨_, _, removed, e1, e2, e3, _⟩ := _EraseExpired_suffix EraseItem self a tm
  refine ⟨removed, e1, e2, ?_, e3, ?_⟩
  · intro x hx he
    have h := e2 x hx
    rw [he] at h
    simp at h
  · rw [e3]
    have hlen := congrArg List.length e1
    rw [List.length_append] at hlen
    constructor
    · intro hne
      have : 0 < removed.length := List.length_pos.mpr hne
      omega
    · intro hlt hnil
      rw [hnil] at hlen
      simp at hlen
      omega

/-- C25: `_EraseExpired(tm)` leaves at least `min(size, m_rem)` items, the items left are a
suffix of the deque, which on a deque in time order are the most recently timestamped
items, and with `m_rem ≥ 1` the back item of a non-empty deque is kept. `_PutValue` never
leaves the deque empty: afterwards the back item is the new item when `tm` is not before
the previous back timestamp, and the previous back item otherwise. -/
theorem C25_erase_expired_keeps_latest_items {V A : Type}
    (EraseItem : TDateTime → V → A → A) (self : CFramedQueue V) (a : A) (tm : TDateTime)
    (val : V) :
    min self.m_items.length self.m_rem ≤
      (CFramedQueue._EraseExpired EraseItem self a tm).1.m_items.length ∧
    (∃ removed, self.m_items = removed ++
        (CFramedQueue._EraseExpired EraseItem self a tm).1.m_items ∧
      (CFramedQueue.TimeSorted self.m_items → ∀ x ∈ removed,
        ∀ y ∈ (CFramedQueue._EraseExpired EraseItem self a tm).1.m_items, x.1 ≤ y.1)) ∧
    (1 ≤ self.m_rem → self.m_items ≠ [] →
      (CFramedQueue._EraseExpired EraseItem self a tm).1.m_items.getLast?
        = self.m_items.getLast?) ∧
    (CFramedQueue._PutValue EraseItem self a tm val).1.m_items ≠ [] ∧
    (∀ back, self.m_items.getLast? = some back →
      (CFramedQueue._PutValue EraseItem self a tm val).1.m_items.getLast?
        = some (if back.1 ≤ tm then (tm, val) else back)) := by
  obtain ⟨_, _, removed, e1, _, _, e4⟩ := _EraseExpired_suffix EraseItem self a tm
  have hput_ne : (CFramedQueue._PutValue EraseItem self a tm val).1.m_items ≠ [] := by
    cases hi : self.m_items with
    | nil => simp [CFramedQueue._PutValue, hi]
    | cons front rest =>
      simp only [CFramedQueue._PutValue, hi]
      split_ifs
      · simp
      · simp
      · obtain ⟨l1, l2, _, e2, _⟩ := insertUpperBound_split tm val (front :: rest)
        rw [e2]; simp
      · simp
      · rw [hi]; simp
  refine ⟨e4, ⟨removed, e1, ?_⟩, ?_, hput_ne, ?_⟩
  · intro hs x hx y hy
    unfold CFramedQueue.TimeSorted at hs
    rw [e1] at hs
    exact (List.pairwise_append.mp hs).2.2 x hx y hy
  · intro hrem hne
    have hlen : 1 ≤ (CFramedQueue._EraseExpired EraseItem self a tm).1.m_items.length := by
      have h1 : 1 ≤ self.m_items.length := List.length_pos.mpr hne
      exact le_trans (le_min h1 hrem) e4
    have hk : (CFramedQueue._EraseExpired EraseItem self a tm).1.m_items ≠ [] :=
      List.length_pos.mp hlen
    conv_rhs => rw [e1]
    rw [List.getLast?_append_of_ne_nil _ hk]
  · intro back hback
    by_cases hle : back.1 ≤ tm
    · obtain ⟨_, _, kept, _, e2, _⟩ := _PutValue_append EraseItem self a tm val back hback hle
      rw [if_pos hle, e2, List.getLast?_concat]
    · rw [if_neg hle]
      have hlt : tm < back.1 := not_le.mp hle
      cases hi : self.m_items with
      | nil => rw [hi] at hback; exact Option.noConfusion hback
      | cons front rest =>
        have hfront : self.m_items.head? = some front := by rw [hi]; rfl
        rw [_PutValue_before_back EraseItem self a tm val front back hfront hback hlt]
        split_ifs
        · exact insertUpperBound_getLast tm val _ back hback hlt
        · simp only []
          rw [hi] at hback
          rw [hi, List.getLast?_cons_cons]; exact hback
        · exact hback

/-- Witness for C25: on the queue with frame 10, `m_rem` 1 and the items at 5 and 8, every
item is expired at time 100 and the read leaves the one item at 8, the back item. -/
theorem C25_erase_expired_keeps_latest_items_witness :
    (1 : Nat) ≤ queueFrame10.m_rem ∧ queueFrame10.m_items ≠ [] ∧
    (CFramedQueue._EraseExpired CFramedQueue.EraseItem queueFrame10 () 100).1.m_items
      = [(8, 2)] ∧
    (CFramedQueue._EraseExpired CFramedQueue.EraseItem queueFrame10 () 100).1.m_items.getLast?
      = queueFrame10.m_items.getLast? ∧
    (CFramedQueue._PutValue CFramedQueue.EraseItem queueFrame10 () 100 3).1.m_items.getLast?
      = some (if ((8, 2) : TDateTime × Nat).1 ≤ 100 then (100, 3) else (8, 2)) :=
  ⟨by decide, by decide, by decide,
    (C25_erase_expired_keeps_latest_items CFramedQueue.EraseItem queueFrame10 () 100 3).2.2.1
      (by decide) (by decide),
    (C25_erase_expired_keeps_latest_items CFramedQueue.EraseItem queueFrame10 () 100
      3).2.2.2.2 (8, 2) rfl⟩

/-! ## Lemmas: the data of the derived class after eviction and insertion -/

theorem eraseLoop_data {V A : Type} (EraseItem : TDateTime → V → A → A) (m_frame : Int)
    (m_rem : Nat) (tm : TDateTime) :
    ∀ (items : List (TDateTime × V)) (a : A) (res : Bool),
      ∃ removed, items = removed ++
          (CFramedQueue.eraseLoop EraseItem m_frame m_rem tm items a res).1 ∧
        (CFramedQueue.eraseLoop EraseItem m_frame m_rem tm items a res).2.1 =
          CFramedQueue.clearLoop EraseItem removed a := by
  intro items
  induction items with
  | nil => intro a res; exact ⟨[], rfl, rfl⟩
  | cons item rest ih =>
    intro a res
    unfold CFramedQueue.eraseLoop
    split_ifs with h1 h2
    · obtain ⟨removed, e1, e2⟩ := ih (EraseItem item.1 item.2 a) true
      exact ⟨item :: removed, by rw [List.cons_append, ← e1], by rw [e2]; rfl⟩
    · exact ⟨[], rfl, rfl⟩
    · exact ⟨[], rfl, rfl⟩

/-- The deque and the data of the derived class after `_EraseExpired(tm)`: a prefix
`removed` is gone and the hook was called on each of its items, front first. -/
theorem _EraseExpired_data {V A : Type} (EraseItem : TDateTime → V → A → A)
    (self : CFramedQueue V) (a : A) (tm : TDateTime) :
    ∃ removed, self.m_items = removed ++
        (CFramedQueue._EraseExpired EraseItem self a tm).1.m_items ∧
      (CFramedQueue._EraseExpired EraseItem self a tm).2.1 =
        CFramedQueue.clearLoop EraseItem removed a := by
  obtain ⟨fr, rem, items⟩ := self
  cases items with
  | nil => exact ⟨[], rfl, rfl⟩
  | cons front tl =>
    simp only [CFramedQueue._EraseExpired]
    split_ifs with h
    · exact ⟨[], rfl, rfl⟩
    · exact eraseLoop_data EraseItem fr rem tm (front :: tl) a false

/-- The deque and the data of the derived class after `_PutValue(tm, val)`: a prefix
`removed` is gone, the hook was called on each of its items, and the item was put
somewhere into what was left (`l1 ++ l2`) when the call returns `true`. -/
theorem _PutValue_data {V A : Type} (EraseItem : TDateTime → V → A → A)
    (self : CFramedQueue V) (a : A) (tm : TDateTime) (val : V) :
    ∃ removed l1 l2, self.m_items = removed ++ (l1 ++ l2) ∧
      (CFramedQueue._PutValue EraseItem self a tm val).2.1 =
        CFramedQueue.clearLoop EraseItem removed a ∧
      (((CFramedQueue._PutValue EraseItem self a tm val).2.2 = true ∧
        (CFramedQueue._PutValue EraseItem self a tm val).1.m_items = l1 ++ (tm, val) :: l2) ∨
       ((CFramedQueue._PutValue EraseItem self a tm val).2.2 = false ∧
        (CFramedQueue._PutValue EraseItem self a tm val).1.m_items = l1 ++ l2)) := by
  cases hi : self.m_items with
  | nil =>
    refine ⟨[], [], [], rfl, ?_, Or.inl ?_⟩ <;>
      simp [CFramedQueue._PutValue, hi, CFramedQueue.clearLoop]
  | cons front rest =>
    simp only [CFramedQueue._PutValue, hi]
    split_ifs with h1 h2 h3 h4
    · obtain ⟨removed, e1, e2⟩ := _EraseExpired_data EraseItem self a tm
      refine ⟨removed, (CFramedQueue._EraseExpired EraseItem self a tm).1.m_items, [], ?_, e2,
        Or.inl ⟨rfl, rfl⟩⟩
      rw [List.append_nil, ← hi]; exact e1
    · exact ⟨[], front :: rest, [], by simp, rfl, Or.inl ⟨rfl, by simp [hi]⟩⟩
    · obtain ⟨l1, l2, e1, e2, _⟩ := insertUpperBound_split tm val (front :: rest)
      exact ⟨[], l1, l2, by simpa using e1, rfl, Or.inl ⟨rfl, e2⟩⟩
    · exact ⟨[], [], front :: rest, by simp, rfl, Or.inl ⟨rfl, by simp⟩⟩
    · exact ⟨[], [], front :: rest, by simp, rfl, Or.inr ⟨rfl, by simp [hi]⟩⟩

theorem yieldOfTrades_insert (l1 l2 : List (TDateTime × CTrade)) (x : TDateTime × CTrade) :
    yieldOfTrades (l1 ++ x :: l2) = yieldOfTrades (l1 ++ l2) + x.2 := by
  simp only [yieldOfTrades, CPositionYield.hAdd_def, List.map_append, List.map_cons,
    List.sum_append, List.sum_cons, CPositionYield.mk.injEq]
  constructor <;> ring

theorem clearLoop_yield :
    ∀ (removed rest : List (TDateTime × CTrade)),
      CFramedQueue.clearLoop CMovingSum.EraseItem removed (yieldOfTrades (removed ++ rest))
        = yieldOfTrades rest := by
  intro removed
  induction removed with
  | nil => intro rest; rfl
  | cons item tl ih =>
    intro rest
    have h : CMovingSum.EraseItem item.1 item.2 (yieldOfTrades ((item :: tl) ++ rest))
        = yieldOfTrades (tl ++ rest) := by
      simp only [CMovingSum.EraseItem, yieldOfTrades, CPositionYield.hSub_def,
        List.cons_append, List.map_cons, List.sum_cons, CPositionYield.mk.injEq]
      constructor <;> ring
    simp only [CFramedQueue.clearLoop]
    rw [h, ih]

theorem CMovingSum.stepTrades_yield (w : CMovingSum CTrade CPositionYield) (op : TTradeSumOp)
    (h : w.m_sum = yieldOfTrades w.m_items) :
    (w.stepTrades op).m_sum = yieldOfTrades (w.stepTrades op).m_items := by
  have herase : ∀ tm, (CFramedQueue._EraseExpired CMovingSum.EraseItem w.toCFramedQueue
      w.m_sum tm).2.1 = yieldOfTrades (CFramedQueue._EraseExpired CMovingSum.EraseItem
        w.toCFramedQueue w.m_sum tm).1.m_items := by
    intro tm
    obtain ⟨removed, e1, e2⟩ :=
      _EraseExpired_data CMovingSum.EraseItem w.toCFramedQueue w.m_sum tm
    have e1a : w.m_items = removed ++ (CFramedQueue._EraseExpired CMovingSum.EraseItem
        w.toCFramedQueue w.m_sum tm).1.m_items := e1
    have hc := clearLoop_yield removed (CFramedQueue._EraseExpired CMovingSum.EraseItem
      w.toCFramedQueue w.m_sum tm).1.m_items
    rw [← e1a, ← h] at hc
    rw [e2, hc]
  cases op with
  | PutValue tm val =>
    obtain ⟨removed, l1, l2, e1, e2, e3⟩ :=
      _PutValue_data CMovingSum.EraseItem w.toCFramedQueue w.m_sum tm val
    have e1a : w.m_items = removed ++ (l1 ++ l2) := e1
    have hd : (CFramedQueue._PutValue CMovingSum.EraseItem w.toCFramedQueue w.m_sum tm
        val).2.1 = yieldOfTrades (l1 ++ l2) := by
      have hc := clearLoop_yield removed (l1 ++ l2)
      rw [← e1a, ← h] at hc
      rw [e2, hc]
    simp only [CMovingSum.stepTrades, CMovingSum.PutValue]
    rcases e3 with ⟨hb, e3⟩ | ⟨hb, e3⟩
    · rw [hb]
      simp only [Bool.true_eq_false, if_false]
      rw [hd, e3]
      exact (yieldOfTrades_insert l1 l2 (tm, val)).symm
    · rw [hb]
      simp only [if_true]
      rw [hd, e3]
  | EraseExpired tm => exact herase tm
  | GetSum tm => exact herase tm
  | Clear =>
    simp only [CMovingSum.stepTrades, CMovingSum.Clear]
    have := clearLoop_yield w.m_items []
    rw [List.append_nil] at this
    rw [h, this]

theorem CMovingSum.runTrades_yield (ops : List TTradeSumOp) :
    ∀ w : CMovingSum CTrade CPositionYield, w.m_sum = yieldOfTrades w.m_items →
      (w.runTrades ops).m_sum = yieldOfTrades (w.runTrades ops).m_items := by
  induction ops with
  | nil => intro w h; exact h
  | cons op rest ih =>
    intro w h
    unfold CMovingSum.runTrades
    rw [List.foldl_cons]
    exact ih _ (CMovingSum.stepTrades_yield w op h)

/-! ## Theorems: the running sum over sequences of operations -/

theorem clearLoop_sum :
    ∀ (items : List (TDateTime × TPrice)) (a : TPrice),
      CFramedQueue.clearLoop CMovingSum.EraseItem items a = a - (items.map Prod.snd).sum := by
  intro items
  induction items with
  | nil => intro a; simp [CFramedQueue.clearLoop]
  | cons item rest ih =>
    intro a
    simp only [CFramedQueue.clearLoop, ih, CMovingSum.EraseItem, List.map_cons, List.sum_cons]
    ring

theorem Clear_sumOk (w : CMovingSum TPrice TPrice) (h : SumOk w) : SumOk w.Clear := by
  unfold SumOk at h ⊢
  simp [CMovingSum.Clear, clearLoop_sum, h]

theorem CMovingSum.step_sumOk (w : CMovingSum TPrice TPrice) (op : TMovingSumOp)
    (h : SumOk w) : SumOk (w.step op) := by
  cases op with
  | PutValue tm val => exact PutValue_sumOk w tm val h
  | EraseExpired tm => exact EraseExpired_sumOk w tm h
  | GetAverage tm => exact EraseExpired_sumOk w tm h
  | GetSum tm => exact EraseExpired_sumOk w tm h
  | Clear => exact Clear_sumOk w h

theorem CMovingSum.run_sumOk (ops : List TMovingSumOp) :
    ∀ w : CMovingSum TPrice TPrice, SumOk w → SumOk (w.run ops) := by
  induction ops with
  | nil => intro w h; exact h
  | cons op rest ih =>
    intro w h
    unfold CMovingSum.run
    rw [List.foldl_cons]
    exact ih _ (CMovingSum.step_sumOk w op h)

/-- C26: for every `CMovingSum<TPrice>` object, constructed with any frame and `m_rem` and
taken through any sequence of `PutValue`, `EraseExpired`, `GetAverage(t)`, `GetSum(t)` and
`Clear` (prices as exact rationals), the stored sum equals the sum of the values of the
items in the deque; `GetSum(t)` returns the sum of the values left after eviction at `t`,
and `GetAverage(t)` returns that sum divided by the number of items left, 0 when none is
left. For the `CMovingSum<CTrade, CPositionYield>` of a position, after any sequence of
`PutValue`, `EraseExpired`, `GetSum(t)` and `Clear` the stored `CPositionYield` holds the
sum of `price * qty` and the sum of `qty` of the trades in the deque. -/
theorem C26_moving_sum_is_sum_of_items (frame : Int) (rem : Nat) (ops : List TMovingSumOp)
    (tradeOps : List TTradeSumOp) (t : TDateTime) :
    ((CMovingSum.new frame rem).run ops).m_sum
      = (((CMovingSum.new frame rem).run ops).m_items.map Prod.snd).sum ∧
    (((CMovingSum.new frame rem).run ops).GetSum t).1
      = (((CMovingSum.new frame rem).run ops).EraseExpired t).1 ∧
    (((CMovingSum.new frame rem).run ops).GetAverage t).1
      = (((CMovingSum.new frame rem).run ops).EraseExpired t).1 ∧
    (((CMovingSum.new frame rem).run ops).GetSum t).2
      = ((((CMovingSum.new frame rem).run ops).EraseExpired t).1.m_items.map Prod.snd).sum ∧
    (((CMovingSum.new frame rem).run ops).GetAverage t).2
      = (if (((CMovingSum.new frame rem).run ops).EraseExpired t).1.m_items = [] then 0
         else ((((CMovingSum.new frame rem).run ops).EraseExpired t).1.m_items.map
                Prod.snd).sum
              / ((((CMovingSum.new frame rem).run ops).EraseExpired t).1.m_items.length
                  : TPrice)) ∧
    ((CPosition.new (0, 0) frame).m_trades.runTrades tradeOps).m_sum
      = { m_sum := (((CPosition.new (0, 0) frame).m_trades.runTrades tradeOps).m_items.map
            (fun x => x.2.m_price * x.2.m_qty)).sum
          m_qty := (((CPosition.new (0, 0) frame).m_trades.runTrades tradeOps).m_items.map
            (fun x => x.2.m_qty)).sum } := by
  have h0 : SumOk (CMovingSum.new frame rem) := by simp [SumOk, CMovingSum.new]
  have h := CMovingSum.run_sumOk ops _ h0
  refine ⟨h, rfl, rfl, EraseExpired_sumOk _ t h, ?_,
    CMovingSum.runTrades_yield tradeOps _ (by simp [CPosition.new, yieldOfTrades])⟩
  have ha := GetAverage_snd _ t h
  unfold windowAverage at ha
  exact ha

/-! ## Lemmas: the value counts of a `CMovingMinMax` -/

theorem mapCount_cons {V : Type} [DecidableEq V] (e : V × Nat) (m : List (V × Nat)) (v : V) :
    mapCount (e :: m) v = (if e.1 = v then e.2 else 0) + mapCount m v := by
  unfold mapCount
  by_cases h : e.1 = v
  · simp [List.filter_cons, h]
  · simp [List.filter_cons, h]

theorem countUp_mapCount {V : Type} [LinearOrder V] (val : V) :
    ∀ (m : List (V × Nat)) (u : V),
      mapCount (CMovingMinMax.countUp val m) u = mapCount m u + (if u = val then 1 else 0) := by
  intro m
  induction m with
  | nil =>
    intro u
    simp only [CMovingMinMax.countUp, mapCount_cons]
    by_cases h : val = u
    · simp [h, mapCount]
    · have h2 : ¬ u = val := fun e => h e.symm
      simp [h, h2, mapCount]
  | cons e rest ih =>
    intro u
    by_cases h1 : val < e.1
    · have hd : CMovingMinMax.countUp val (e :: rest) = (val, 1) :: e :: rest := by
        simp [CMovingMinMax.countUp, h1]
      rw [hd, mapCount_cons (val, 1)]
      by_cases hu : u = val
      · simp [hu]; omega
      · have hu2 : ¬ val = u := fun h => hu h.symm
        simp [hu, hu2]
    · by_cases h2 : e.1 < val
      · have hd : CMovingMinMax.countUp val (e :: rest) = e :: CMovingMinMax.countUp val rest := by
          simp [CMovingMinMax.countUp, h1, h2]
        rw [hd, mapCount_cons, mapCount_cons, ih]
        omega
      · have he : e.1 = val := le_antisymm (not_lt.mp h1) (not_lt.mp h2)
        have hd : CMovingMinMax.countUp val (e :: rest) = (e.1, e.2 + 1) :: rest := by
          simp [CMovingMinMax.countUp, h1, h2]
        rw [hd, mapCount_cons, mapCount_cons]
        by_cases hu : u = val
        · simp [hu, he]; omega
        · have hu2 : ¬ e.1 = u := fun h => hu (h.symm.trans he)
          simp [hu, hu2]

theorem countUp_keys {V : Type} [LinearOrder V] (val : V) :
    ∀ (m : List (V × Nat)), ∀ e ∈ CMovingMinMax.countUp val m,
      0 < e.2 ∧ (e.1 = val ∨ ∃ x ∈ m, x.1 = e.1 ∧ (0 < x.2 → 0 < e.2)) ∨
      (e ∈ m) := by
  intro m
  induction m with
  | nil =>
    intro e he
    simp only [CMovingMinMax.countUp, List.mem_singleton] at he
    left; rw [he]; exact ⟨Nat.one_pos, Or.inl rfl⟩
  | cons x rest ih =>
    intro e he
    unfold CMovingMinMax.countUp at he
    split_ifs at he with h1 h2
    · rcases List.mem_cons.mp he with h | h
      · left; rw [h]; exact ⟨Nat.one_pos, Or.inl rfl⟩
      · right; exact h
    · rcases List.mem_cons.mp he with h | h
      · right; rw [h]; exact List.mem_cons_self _ _
      · rcases ih e h with ⟨hp, h3 | ⟨y, hy, hy2⟩⟩ | h3
        · left; exact ⟨hp, Or.inl h3⟩
        · left; exact ⟨hp, Or.inr ⟨y, List.mem_cons_of_mem _ hy, hy2⟩⟩
        · right; exact List.mem_cons_of_mem _ h3
    · rcases List.mem_cons.mp he with h | h
      · left; rw [h]
        exact ⟨Nat.succ_pos _, Or.inl (le_antisymm (not_lt.mp h1) (not_lt.mp h2))⟩
      · right; exact List.mem_cons_of_mem _ h

theorem countUp_pos {V : Type} [LinearOrder V] (val : V) (m : List (V × Nat))
    (hp : ∀ e ∈ m, 0 < e.2) : ∀ e ∈ CMovingMinMax.countUp val m, 0 < e.2 := by
  intro e he
  rcases countUp_keys val m e he with ⟨h, _⟩ | h
  · exact h
  · exact hp e h

theorem countUp_sorted {V : Type} [LinearOrder V] (val : V) :
    ∀ (m : List (V × Nat)), m.Pairwise (fun a b => a.1 < b.1) →
      (CMovingMinMax.countUp val m).Pairwise (fun a b => a.1 < b.1) := by
  intro m
  induction m with
  | nil => intro _; exact List.pairwise_singleton _ _
  | cons x rest ih =>
    intro hs
    have hx : ∀ {y : V × Nat}, y ∈ rest → x.1 < y.1 := fun hy => List.rel_of_pairwise_cons hs hy
    have hr := List.Pairwise.of_cons hs
    unfold CMovingMinMax.countUp
    split_ifs with h1 h2
    · refine List.pairwise_cons.mpr ⟨?_, hs⟩
      intro y hy
      rcases List.mem_cons.mp hy with h | h
      · rw [h]; exact h1
      · exact lt_trans h1 (hx h)
    · refine List.pairwise_cons.mpr ⟨?_, ih hr⟩
      intro y hy
      rcases countUp_keys val rest y hy with ⟨_, h3 | ⟨z, hz, hz2, _⟩⟩ | h3
      · rw [h3]; exact h2
      · rw [← hz2]; exact hx hz
      · exact hx h3
    · refine List.pairwise_cons.mpr ⟨fun y hy => hx hy, hr⟩

theorem EraseItem_mapCount {V : Type} [LinearOrder V] (tm : TDateTime) (val : V) :
    ∀ (m : List (V × Nat)), (∀ e ∈ m, 0 < e.2) → ∀ u : V,
      mapCount (CMovingMinMax.EraseItem tm val m) u
        = mapCount m u - (if u = val then 1 else 0) := by
  intro m
  induction m with
  | nil => intro _ u; simp [CMovingMinMax.EraseItem, mapCount]
  | cons e rest ih =>
    intro hp u
    have hpe : 0 < e.2 := hp e (List.mem_cons_self _ _)
    have hpr : ∀ x ∈ rest, 0 < x.2 := fun x hx => hp x (List.mem_cons_of_mem _ hx)
    by_cases h1 : e.1 = val
    · by_cases h2 : e.2 - 1 = 0
      · have hd : CMovingMinMax.EraseItem tm val (e :: rest) = rest := by
          simp [CMovingMinMax.EraseItem, h1, h2]
        rw [hd, mapCount_cons]
        by_cases hu : u = val
        · simp [hu, h1]; omega
        · have hu2 : ¬ e.1 = u := fun h => hu (h.symm.trans h1)
          simp [hu, hu2]
      · have hd : CMovingMinMax.EraseItem tm val (e :: rest) = (e.1, e.2 - 1) :: rest := by
          simp [CMovingMinMax.EraseItem, h1, h2]
        rw [hd, mapCount_cons, mapCount_cons]
        by_cases hu : u = val
        · simp [hu, h1]; omega
        · have hu2 : ¬ e.1 = u := fun h => hu (h.symm.trans h1)
          simp [hu, hu2]
    · have hd : CMovingMinMax.EraseItem tm val (e :: rest)
          = e :: CMovingMinMax.EraseItem tm val rest := by
        simp [CMovingMinMax.EraseItem, h1]
      rw [hd, mapCount_cons, mapCount_cons, ih hpr]
      by_cases hu : u = val
      · have hu2 : ¬ e.1 = val := h1
        rw [hu]
        simp [hu2]
      · simp [hu]

theorem EraseItem_mem {V : Type} [LinearOrder V] (tm : TDateTime) (val : V) :
    ∀ (m : List (V × Nat)), (∀ e ∈ m, 0 < e.2) →
      ∀ e ∈ CMovingMinMax.EraseItem tm val m, 0 < e.2 ∧ ∃ x ∈ m, x.1 = e.1 := by
  intro m
  induction m with
  | nil => intro _ e he; simp [CMovingMinMax.EraseItem] at he
  | cons x rest ih =>
    intro hp e he
    have hpr : ∀ y ∈ rest, 0 < y.2 := fun y hy => hp y (List.mem_cons_of_mem _ hy)
    unfold CMovingMinMax.EraseItem at he
    split_ifs at he with h1 h2
    · exact ⟨hpr e he, e, List.mem_cons_of_mem _ he, rfl⟩
    · rcases List.mem_cons.mp he with h | h
      · rw [h]
        exact ⟨Nat.pos_of_ne_zero h2, x, List.mem_cons_self _ _, rfl⟩
      · exact ⟨hpr e h, e, List.mem_cons_of_mem _ h, rfl⟩
    · rcases List.mem_cons.mp he with h | h
      · rw [h]; exact ⟨hp x (List.mem_cons_self _ _), x, List.mem_cons_self _ _, rfl⟩
      · obtain ⟨h3, y, hy, hy2⟩ := ih hpr e h
        exact ⟨h3, y, List.mem_cons_of_mem _ hy, hy2⟩

theorem EraseItem_sorted {V : Type} [LinearOrder V] (tm : TDateTime) (val : V) :
    ∀ (m : List (V × Nat)), (∀ e ∈ m, 0 < e.2) → m.Pairwise (fun a b => a.1 < b.1) →
      (CMovingMinMax.EraseItem tm val m).Pairwise (fun a b => a.1 < b.1) := by
  intro m
  induction m with
  | nil => intro _ _; simp [CMovingMinMax.EraseItem]
  | cons x rest ih =>
    intro hp hs
    have hx : ∀ {y : V × Nat}, y ∈ rest → x.1 < y.1 := fun hy => List.rel_of_pairwise_cons hs hy
    have hr := List.Pairwise.of_cons hs
    have hpr : ∀ y ∈ rest, 0 < y.2 := fun y hy => hp y (List.mem_cons_of_mem _ hy)
    unfold CMovingMinMax.EraseItem
    split_ifs with h1 h2
    · exact hr
    · exact List.pairwise_cons.mpr ⟨fun y hy => hx hy, hr⟩
    · refine List.pairwise_cons.mpr ⟨?_, ih hpr hr⟩
      intro y hy
      obtain ⟨_, z, hz, hz2⟩ := EraseItem_mem tm val rest hpr y hy
      rw [← hz2]; exact hx hz

theorem MinMaxOk_erase {V : Type} [LinearOrder V] (item : TDateTime × V)
    (rest : List (TDateTime × V)) (m : List (V × Nat)) (h : MinMaxOk (item :: rest) m) :
    MinMaxOk rest (CMovingMinMax.EraseItem item.1 item.2 m) := by
  obtain ⟨h1, h2, h3⟩ := h
  refine ⟨EraseItem_sorted _ _ m h2 h1, fun e he => (EraseItem_mem _ _ m h2 e he).1, ?_⟩
  intro v
  rw [EraseItem_mapCount _ _ m h2, h3, List.map_cons, List.count_cons]
  by_cases hv : v = item.2
  · simp [hv]
  · have hv2 : ¬ item.2 = v := fun h => hv h.symm
    simp [hv, hv2]

theorem MinMaxOk_clearLoop {V : Type} [LinearOrder V] :
    ∀ (removed rest : List (TDateTime × V)) (m : List (V × Nat)),
      MinMaxOk (removed ++ rest) m →
      MinMaxOk rest (CFramedQueue.clearLoop CMovingMinMax.EraseItem removed m) := by
  intro removed
  induction removed with
  | nil => intro rest m h; exact h
  | cons item tl ih =>
    intro rest m h
    simp only [CFramedQueue.clearLoop]
    exact ih rest _ (MinMaxOk_erase item (tl ++ rest) m h)

theorem MinMaxOk_insert {V : Type} [LinearOrder V] (l1 l2 : List (TDateTime × V))
    (x : TDateTime × V) (m : List (V × Nat)) (h : MinMaxOk (l1 ++ l2) m) :
    MinMaxOk (l1 ++ x :: l2) (CMovingMinMax.countUp x.2 m) := by
  obtain ⟨h1, h2, h3⟩ := h
  refine ⟨countUp_sorted _ m h1, countUp_pos _ m h2, ?_⟩
  intro v
  rw [countUp_mapCount, h3]
  simp only [List.map_append, List.map_cons, List.count_append, List.count_cons]
  by_cases hv : v = x.2
  · simp [hv]; omega
  · have hv2 : ¬ x.2 = v := fun h => hv h.symm
    simp [hv, hv2]

theorem CMovingMinMax.erase_ok (w : CMovingMinMax TPrice) (tm : TDateTime)
    (h : MinMaxOk w.m_items w.m_items2) :
    MinMaxOk (w.EraseExpired tm).1.m_items (w.EraseExpired tm).1.m_items2 := by
  obtain ⟨removed, e1, e2⟩ :=
    _EraseExpired_data CMovingMinMax.EraseItem w.toCFramedQueue w.m_items2 tm
  have e1a : w.m_items = removed ++ (CFramedQueue._EraseExpired CMovingMinMax.EraseItem
      w.toCFramedQueue w.m_items2 tm).1.m_items := e1
  rw [e1a] at h
  have hc := MinMaxOk_clearLoop removed _ _ h
  rw [← e2] at hc
  exact hc

theorem CMovingMinMax.step_ok (w : CMovingMinMax TPrice) (op : TMinMaxOp)
    (h : MinMaxOk w.m_items w.m_items2) :
    MinMaxOk (w.step op).m_items (w.step op).m_items2 := by
  cases op with
  | PutValue tm val =>
    obtain ⟨removed, l1, l2, e1, e2, e3⟩ :=
      _PutValue_data CMovingMinMax.EraseItem w.toCFramedQueue w.m_items2 tm val
    have e1a : w.m_items = removed ++ (l1 ++ l2) := e1
    rw [e1a] at h
    have hc := MinMaxOk_clearLoop removed _ _ h
    rw [← e2] at hc
    simp only [CMovingMinMax.step, CMovingMinMax.PutValue]
    rcases e3 with ⟨hb, e3⟩ | ⟨hb, e3⟩
    · rw [hb]
      simp only [Bool.true_eq_false, if_false]
      rw [e3]
      exact MinMaxOk_insert l1 l2 (tm, val) _ hc
    · rw [hb]
      simp only [if_true]
      rw [e3]
      exact hc
  | EraseExpired tm => exact CMovingMinMax.erase_ok w tm h
  | GetMin tm => exact CMovingMinMax.erase_ok w tm h
  | GetMax tm => exact CMovingMinMax.erase_ok w tm h
  | Clear =>
    simp only [CMovingMinMax.step, CMovingMinMax.Clear]
    have hc := MinMaxOk_clearLoop w.m_items [] w.m_items2 (by rw [List.append_nil]; exact h)
    exact hc

theorem CMovingMinMax.run_ok (ops : List TMinMaxOp) :
    ∀ w : CMovingMinMax TPrice, MinMaxOk w.m_items w.m_items2 →
      MinMaxOk (w.run ops).m_items (w.run ops).m_items2 := by
  induction ops with
  | nil => intro w h; exact h
  | cons op rest ih =>
    intro w h
    unfold CMovingMinMax.run
    rw [List.foldl_cons]
    exact ih _ (CMovingMinMax.step_ok w op h)

theorem mapCount_of_mem {V : Type} [LinearOrder V] :
    ∀ (m : List (V × Nat)), m.Pairwise (fun a b => a.1 < b.1) →
      ∀ e ∈ m, mapCount m e.1 = e.2 := by
  intro m
  induction m with
  | nil => intro _ e he; exact absurd he (List.not_mem_nil _)
  | cons x rest ih =>
    intro hs e he
    have hx : ∀ {y : V × Nat}, y ∈ rest → x.1 < y.1 := fun hy => List.rel_of_pairwise_cons hs hy
    have hr := List.Pairwise.of_cons hs
    rw [mapCount_cons]
    rcases List.mem_cons.mp he with h | h
    · rw [h]
      have h0 : mapCount rest x.1 = 0 := by
        unfold mapCount
        have hf : rest.filter (fun e => decide (e.1 = x.1)) = [] := by
          rw [List.filter_eq_nil_iff]
          intro y hy
          simp only [decide_eq_true_eq]
          exact ne_of_gt (hx hy)
        rw [hf]; rfl
      simp [h0]
    · have hne : ¬ x.1 = e.1 := ne_of_lt (hx h)
      simp [hne, ih hr e h]

theorem mapCount_pos_mem {V : Type} [LinearOrder V] (m : List (V × Nat)) (v : V)
    (h : 0 < mapCount m v) : ∃ e ∈ m, e.1 = v := by
  unfold mapCount at h
  cases hf : m.filter (fun e => decide (e.1 = v)) with
  | nil => rw [hf] at h; simp at h
  | cons y ys =>
    have hy : y ∈ m.filter (fun e => decide (e.1 = v)) := by rw [hf]; exact List.mem_cons_self _ _
    rw [List.mem_filter] at hy
    exact ⟨y, hy.1, by simpa using hy.2⟩

/-- What `MinMaxOk` says entry by entry: every stored count is positive and is the number
of items holding the key, and every value held has an entry. -/
theorem MinMaxOk_entries {V : Type} [LinearOrder V] (items : List (TDateTime × V))
    (m : List (V × Nat)) (h : MinMaxOk items m) :
    (∀ e ∈ m, 0 < e.2 ∧ e.2 = (items.map Prod.snd).count e.1 ∧ e.1 ∈ items.map Prod.snd) ∧
    (∀ v ∈ items.map Prod.snd, ∃ e ∈ m, e.1 = v) := by
  obtain ⟨h1, h2, h3⟩ := h
  constructor
  · intro e he
    have hc : e.2 = (items.map Prod.snd).count e.1 := by
      rw [← h3, mapCount_of_mem m h1 e he]
    refine ⟨h2 e he, hc, ?_⟩
    have hp := h2 e he
    rw [hc] at hp
    exact List.count_pos_iff.mp hp
  · intro v hv
    apply mapCount_pos_mem
    rw [h3]
    exact List.count_pos_iff.mpr hv

theorem keys_le_getLast {V : Type} [LinearOrder V] :
    ∀ (m : List (V × Nat)), m.Pairwise (fun a b => a.1 < b.1) →
      ∀ last, m.getLast? = some last → ∀ e ∈ m, e.1 ≤ last.1 := by
  intro m
  induction m with
  | nil => intro _ last hl; exact Option.noConfusion hl
  | cons x rest ih =>
    intro hs last hl e he
    have hx : ∀ {y : V × Nat}, y ∈ rest → x.1 < y.1 := fun hy => List.rel_of_pairwise_cons hs hy
    cases rest with
    | nil =>
      simp only [List.getLast?_singleton, Option.some.injEq] at hl
      simp only [List.mem_singleton] at he
      rw [he, hl]
    | cons r rs =>
      rw [List.getLast?_cons_cons] at hl
      have hlm : last ∈ r :: rs := List.mem_of_mem_getLast? hl
      rcases List.mem_cons.mp he with h | h
      · rw [h]; exact le_of_lt (hx hlm)
      · exact ih (List.Pairwise.of_cons hs) last hl e h

/-! ## Theorems: the running multiset over sequences of operations -/

/-- C27: for every `CMovingMinMax<TPrice>` object `w`, constructed with any frame and
`m_rem` and taken through any sequence of `PutValue`, `EraseExpired`, `GetMin(t)`,
`GetMax(t)` and `Clear`, the map `m_items2` has strictly increasing keys, every stored count
is positive and equals the number of items of the deque that hold the key, and every value
held in the deque has an entry; `GetMin(t)` and `GetMax(t)` leave the object that
`EraseExpired(t)` leaves, and when the deque is not empty after that eviction they return a
value held in it that is, respectively, not above and not below any value held in it. -/
theorem C27_min_max_map_is_multiset_of_items (frame : Int) (rem : Nat)
    (ops : List TMinMaxOp) (t : TDateTime) (w : CMovingMinMax TPrice)
    (hw : w = (CMovingMinMax.new frame rem).run ops) :
    w.m_items2.Pairwise (fun a b => a.1 < b.1) ∧
    (∀ e ∈ w.m_items2, 0 < e.2 ∧ e.2 = (w.m_items.map Prod.snd).count e.1) ∧
    (∀ v ∈ w.m_items.map Prod.snd, ∃ e ∈ w.m_items2, e.1 = v) ∧
    (w.GetMin t).1 = (w.EraseExpired t).1 ∧ (w.GetMax t).1 = (w.EraseExpired t).1 ∧
    ((w.EraseExpired t).1.m_items ≠ [] →
      (w.GetMin t).2 ∈ (w.EraseExpired t).1.m_items.map Prod.snd ∧
      (∀ v ∈ (w.EraseExpired t).1.m_items.map Prod.snd, (w.GetMin t).2 ≤ v) ∧
      (w.GetMax t).2 ∈ (w.EraseExpired t).1.m_items.map Prod.snd ∧
      (∀ v ∈ (w.EraseExpired t).1.m_items.map Prod.snd, v ≤ (w.GetMax t).2)) := by
  have h0 : MinMaxOk (CMovingMinMax.new frame rem).m_items
      (CMovingMinMax.new frame rem).m_items2 :=
    ⟨List.Pairwise.nil, fun e he => absurd he (List.not_mem_nil _), fun v => rfl⟩
  have hok : MinMaxOk w.m_items w.m_items2 := by
    rw [hw]; exact CMovingMinMax.run_ok ops _ h0
  have hent := MinMaxOk_entries _ _ hok
  have hok1 := CMovingMinMax.erase_ok w t hok
  have hent1 := MinMaxOk_entries _ _ hok1
  refine ⟨hok.1, fun e he => ⟨(hent.1 e he).1, (hent.1 e he).2.1⟩, hent.2, rfl, rfl, ?_⟩
  intro hne
  -- the map is not empty either
  obtain ⟨x, xs, hx⟩ := List.exists_cons_of_ne_nil hne
  have hxm : x.2 ∈ (w.EraseExpired t).1.m_items.map Prod.snd := by
    rw [hx]; simp
  obtain ⟨e0, he0, _⟩ := hent1.2 x.2 hxm
  have hm : (w.EraseExpired t).1.m_items2 ≠ [] := List.ne_nil_of_mem he0
  obtain ⟨f, fs, hf⟩ := List.exists_cons_of_ne_nil hm
  have hlast := List.getLast?_eq_getLast _ hm
  have hmin : (w.GetMin t).2 = f.1 := by
    show (match (w.EraseExpired t).1.m_items2.head? with
          | none => (0 : TPrice)
          | some e => e.1) = f.1
    rw [hf]
    rfl
  have hmax : (w.GetMax t).2 = ((w.EraseExpired t).1.m_items2.getLast hm).1 := by
    show (match (w.EraseExpired t).1.m_items2.getLast? with
          | none => (0 : TPrice)
          | some e => e.1) = _
    rw [hlast]
  have hfm : f ∈ (w.EraseExpired t).1.m_items2 := by rw [hf]; exact List.mem_cons_self _ _
  have hlm : (w.EraseExpired t).1.m_items2.getLast hm ∈ (w.EraseExpired t).1.m_items2 :=
    List.getLast_mem hm
  refine ⟨?_, ?_, ?_, ?_⟩
  · rw [hmin]; exact (hent1.1 f hfm).2.2
  · intro v hv
    obtain ⟨e, he, hev⟩ := hent1.2 v hv
    rw [hmin, ← hev]
    rw [hf] at he hok1
    rcases List.mem_cons.mp he with h | h
    · rw [h]
    · exact le_of_lt (List.rel_of_pairwise_cons hok1.1 h)
  · rw [hmax]; exact (hent1.1 _ hlm).2.2
  · intro v hv
    obtain ⟨e, he, hev⟩ := hent1.2 v hv
    rw [hmax, ← hev]
    exact keys_le_getLast _ hok1.1 _ hlast e he

/-- Witness for C27: a window with frame 10 and `m_rem` 1 that received the value 5 at time
1 is read at time 1. -/
theorem C27_min_max_map_is_multiset_of_items_witness :
    ((CMovingMinMax.new 10 1).run [TMinMaxOp.PutValue 1 5]).m_items = [(1, 5)] ∧
    ((CMovingMinMax.new 10 1).run [TMinMaxOp.PutValue 1 5]).m_items2 = [(5, 1)] ∧
    ((((CMovingMinMax.new 10 1).run [TMinMaxOp.PutValue 1 5]).EraseExpired 1).1.m_items
      ≠ []) ∧
    (((CMovingMinMax.new 10 1).run [TMinMaxOp.PutValue 1 5]).GetMax 1).2 ∈
      (((CMovingMinMax.new 10 1).run [TMinMaxOp.PutValue 1 5]).EraseExpired 1).1.m_items.map
        Prod.snd := by
  have h1 : ((CMovingMinMax.new 10 1).run [TMinMaxOp.PutValue 1 5]) =
      { m_frame := 10, m_rem := 1, m_items := [(1, 5)], m_items2 := [(5, 1)] } := by
    simp [CMovingMinMax.run, CMovingMinMax.step, CMovingMinMax.new, CMovingMinMax.PutValue,
      CFramedQueue._PutValue, CMovingMinMax.countUp]
  have h2 : (((CMovingMinMax.new 10 1).run [TMinMaxOp.PutValue 1 5]).EraseExpired 1).1.m_items
      ≠ [] := by
    rw [h1]
    simp [CMovingMinMax.EraseExpired, CFramedQueue._EraseExpired]
  exact ⟨by rw [h1], by rw [h1], h2,
    ((C27_min_max_map_is_multiset_of_items 10 1 [TMinMaxOp.PutValue 1 5] 1 _ rfl).2.2.2.2.2
      h2).2.2.1⟩

/-! ## Theorems: messages -/

theorem lowerBoundKey_not_lt (name : String) :
    ∀ (l : List (String × String)) (e : String × String),
      l.get? (lowerBoundKey name l) = some e → ¬ e.1 < name := by
  intro l
  induction l with
  | nil => intro e h; simp [lowerBoundKey] at h
  | cons item rest ih =>
    intro e h
    unfold lowerBoundKey at h
    split_ifs at h with h1
    · rw [List.get?_cons_succ] at h
      exact ih e h
    · simp only [List.get?_cons_zero, Option.some.injEq] at h
      rw [← h]; exact h1

theorem lowerBoundKey_mem (name : String) :
    ∀ (l : List (String × String)) (e : String × String),
      l.get? (lowerBoundKey name l) = some e → e ∈ l := by
  intro l e h
  exact List.get?_mem h

theorem lowerBoundKey_finds (name : String) :
    ∀ (l : List (String × String)), l.Pairwise (fun a b => a.1 ≤ b.1) →
      ∀ x ∈ l, x.1 = name →
        ∃ e, l.get? (lowerBoundKey name l) = some e ∧ e.1 = name := by
  intro l
  induction l with
  | nil => intro _ x hx; exact absurd hx (List.not_mem_nil _)
  | cons item rest ih =>
    intro hs x hx hname
    unfold lowerBoundKey
    split_ifs with h1
    · rw [List.get?_cons_succ]
      rcases List.mem_cons.mp hx with h | h
      · rw [h] at hname
        rw [hname] at h1
        exact absurd h1 (lt_irrefl _)
      · exact ih (List.Pairwise.of_cons hs) x h hname
    · refine ⟨item, rfl, ?_⟩
      have hle : item.1 ≤ name := by
        rcases List.mem_cons.mp hx with h | h
        · rw [← hname, h]
        · rw [← hname]; exact List.rel_of_pairwise_cons hs h
      exact le_antisymm hle (not_lt.mp h1)

theorem CMessage.new_cons (tag : String × String) (tail : TAttrs) :
    (CMessage.new (tag :: tail)).m_attrs.head? = some tag ∧
    ((CMessage.new (tag :: tail)).m_attrs.tail).Perm tail ∧
    ((CMessage.new (tag :: tail)).m_attrs.tail).Pairwise (fun a b => a.1 ≤ b.1) := by
  haveI : IsTotal (String × String) (fun a b => a.1 ≤ b.1) := ⟨fun a b => le_total a.1 b.1⟩
  haveI : IsTrans (String × String) (fun a b => a.1 ≤ b.1) :=
    ⟨fun a b c h1 h2 => le_trans h1 h2⟩
  exact ⟨rfl, List.perm_insertionSort _ tail, List.sorted_insertionSort _ tail⟩

/-- C28: constructing a `CMessage` from a non-empty attribute list keeps the first entry
(the kind tag) at position 0, and the entries after it are a permutation of the entries
after the first of the input, in non-decreasing key order. -/
theorem C28_message_keeps_tag_and_sorts_tail (attrs : TAttrs) (hne : attrs ≠ []) :
    (CMessage.new attrs).m_attrs.head? = attrs.head? ∧
    (CMessage.new attrs).m_attrs.length = attrs.length ∧
    ((CMessage.new attrs).m_attrs.tail).Perm attrs.tail ∧
    ((CMessage.new attrs).m_attrs.tail).Pairwise (fun a b => a.1 ≤ b.1) := by
  cases attrs with
  | nil => exact absurd rfl hne
  | cons tag tail =>
    obtain ⟨h1, h2, h3⟩ := CMessage.new_cons tag tail
    refine ⟨h1, ?_, h2, h3⟩
    have hl := h2.length_eq
    have hm : (CMessage.new (tag :: tail)).m_attrs
        = tag :: (CMessage.new (tag :: tail)).m_attrs.tail := rfl
    rw [hm, List.length_cons, hl, List.length_cons]

/-- Witness for C28: the message built from the tag `Order` and the attributes `user_id`
and `symbol`. -/
theorem C28_message_keeps_tag_and_sorts_tail_witness :
    attrsOrderUX ≠ [] ∧
    (CMessage.new attrsOrderUX).m_attrs.head? = some ("Order", "") ∧
    ((CMessage.new attrsOrderUX).m_attrs.tail).Perm [("user_id", "U"), ("symbol", "X")] ∧
    ((CMessage.new attrsOrderUX).m_attrs.tail).Pairwise (fun a b => a.1 ≤ b.1) :=
  ⟨by decide,
    (C28_message_keeps_tag_and_sorts_tail attrsOrderUX (by decide)).1,
    (C28_message_keeps_tag_and_sorts_tail attrsOrderUX (by decide)).2.2.1,
    (C28_message_keeps_tag_and_sorts_tail attrsOrderUX (by decide)).2.2.2⟩

/-- C29: for the message `m` constructed from any attribute list and every name,
`FindAttr(name)` returns an entry exactly when some entry of the input other than the first
has the key `name`; the entry returned never stands at position 0, has the key `name`, is
one of the entries after the first, and `GetAttr(name)` is its value; when no entry other
than the first has the key, `FindAttr` returns `end()` and `GetAttr(name)` is the empty
string, whatever the key of the first entry is. -/
theorem C29_find_attr_searches_tail_only (attrs : TAttrs) (name : String) :
    ((∃ it, (CMessage.new attrs).FindAttr name = some it) ↔
      ∃ e ∈ attrs.tail, e.1 = name) ∧
    (∀ i e, (CMessage.new attrs).FindAttr name = some (i, e) →
      1 ≤ i ∧ (CMessage.new attrs).m_attrs.get? i = some e ∧ e.1 = name ∧ e ∈ attrs.tail ∧
      (CMessage.new attrs).GetAttr name = e.2) ∧
    ((∀ e ∈ attrs.tail, e.1 ≠ name) →
      (CMessage.new attrs).FindAttr name = none ∧ (CMessage.new attrs).GetAttr name = "") := by
  -- the entries after the first: a sorted permutation of the input's
  have htail : ∃ tag tl, (CMessage.new attrs).m_attrs = tag :: tl ∧ tl.Perm attrs.tail ∧
      tl.Pairwise (fun a b => a.1 ≤ b.1) := by
    cases attrs with
    | nil => exact ⟨("", ""), [], rfl, List.Perm.refl _, List.Pairwise.nil⟩
    | cons tag tail =>
      obtain ⟨_, h2, h3⟩ := CMessage.new_cons tag tail
      exact ⟨tag, _, rfl, h2, h3⟩
  obtain ⟨tag, tl, hm, hperm, hsorted⟩ := htail
  have hfind : (CMessage.new attrs).FindAttr name =
      match tl.get? (lowerBoundKey name tl) with
      | none => none
      | some item => if name < item.1 then none else some (1 + lowerBoundKey name tl, item) := by
    unfold CMessage.FindAttr
    simp only [hm, List.tail_cons]
    rw [Nat.add_comm 1, List.get?_cons_succ]
  have hfwd : ∀ i e, (CMessage.new attrs).FindAttr name = some (i, e) →
      1 ≤ i ∧ (CMessage.new attrs).m_attrs.get? i = some e ∧ e.1 = name ∧ e ∈ attrs.tail := by
    intro i e h
    rw [hfind] at h
    cases hg : tl.get? (lowerBoundKey name tl) with
    | none => rw [hg] at h; exact Option.noConfusion h
    | some item =>
      rw [hg] at h
      simp only [] at h
      split_ifs at h with h1
      simp only [Option.some.injEq, Prod.mk.injEq] at h
      obtain ⟨hi, he⟩ := h
      subst hi; subst he
      refine ⟨Nat.le_add_right 1 _, ?_, ?_, ?_⟩
      · rw [hm, Nat.add_comm 1, List.get?_cons_succ]; exact hg
      · exact le_antisymm (not_lt.mp h1) (not_lt.mp (lowerBoundKey_not_lt name tl item hg))
      · exact hperm.subset (lowerBoundKey_mem name tl item hg)
  have hbwd : (∃ e ∈ attrs.tail, e.1 = name) →
      ∃ it, (CMessage.new attrs).FindAttr name = some it := by
    rintro ⟨x, hx, hname⟩
    obtain ⟨e, he, hen⟩ := lowerBoundKey_finds name tl hsorted x (hperm.symm.subset hx) hname
    refine ⟨(1 + lowerBoundKey name tl, e), ?_⟩
    rw [hfind, he]
    simp only []
    rw [if_neg (by rw [hen]; exact lt_irrefl _)]
  refine ⟨⟨?_, hbwd⟩, ?_, ?_⟩
  · rintro ⟨⟨i, e⟩, h⟩
    obtain ⟨_, _, h3, h4⟩ := hfwd i e h
    exact ⟨e, h4, h3⟩
  · intro i e h
    obtain ⟨h1, h2, h3, h4⟩ := hfwd i e h
    refine ⟨h1, h2, h3, h4, ?_⟩
    unfold CMessage.GetAttr
    rw [h]
  · intro hno
    have hnone : (CMessage.new attrs).FindAttr name = none := by
      cases hf : (CMessage.new attrs).FindAttr name with
      | none => rfl
      | some it =>
        obtain ⟨_, _, h3, h4⟩ := hfwd it.1 it.2 hf
        exact absurd h3 (hno _ h4)
    refine ⟨hnone, ?_⟩
    unfold CMessage.GetAttr
    rw [hnone]

/-- Witness for C29: in the message built from the tag `Order` and the attributes `user_id`
and `symbol`, the name `symbol` is found and the name `Order`, the key of the tag, is
not. -/
theorem C29_find_attr_searches_tail_only_witness :
    (∃ it, (CMessage.new attrsOrderUX).FindAttr "symbol" = some it) ∧
    (CMessage.new attrsOrderUX).FindAttr "Order" = none ∧
    (CMessage.new attrsOrderUX).GetAttr "Order" = "" :=
  ⟨(C29_find_attr_searches_tail_only attrsOrderUX "symbol").1.mpr
      ⟨("symbol", "X"), by simp [attrsOrderUX], rfl⟩,
    ((C29_find_attr_searches_tail_only attrsOrderUX "Order").2.2
      (by simp [attrsOrderUX])).1,
    ((C29_find_attr_searches_tail_only attrsOrderUX "Order").2.2
      (by simp [attrsOrderUX])).2⟩

/-! ## Lemmas: the key=value parser -/

theorem scanTo_append (stop : Char → Bool) (ch : Char) (rest : List Char) (hch : stop ch = true) :
    ∀ item : List Char, (∀ c ∈ item, stop c = false) →
      CKeyValueParser.scanTo stop (item ++ ch :: rest) = (item, ch :: rest) := by
  intro item
  induction item with
  | nil => intro _; simp [CKeyValueParser.scanTo, hch]
  | cons c cs ih =>
    intro h
    have hc : stop c = false := h c (List.mem_cons_self _ _)
    have hcs := ih (fun x hx => h x (List.mem_cons_of_mem _ hx))
    simp [CKeyValueParser.scanTo, hc, hcs]

theorem _ParseKey_eq (delim fin : Char) (S : CKeyValueParser) (k rest : List Char)
    (hk : ∀ c ∈ k, c ≠ '=' ∧ c ≠ delim ∧ c ≠ fin) :
    CKeyValueParser._ParseKey delim fin S (k ++ '=' :: rest) =
      ({ S with m_data := [], m_key_init := true, m_key := String.mk (S.m_data ++ k),
                m_fn := TParseFn._ParseValue }, '=' :: rest) := by
  have hs := scanTo_append (fun ch => ch = '=' || ch = delim || ch = fin) '=' rest (by simp) k
    (by intro c hc; obtain ⟨h1, h2, h3⟩ := hk c hc; simp [h1, h2, h3])
  simp [CKeyValueParser._ParseKey, hs]

theorem _ParseKey_sep (delim fin : Char) (S : CKeyValueParser) (k rest : List Char) (ch : Char)
    (hk : ∀ c ∈ k, c ≠ '=' ∧ c ≠ delim ∧ c ≠ fin) (hch : ch = delim ∨ ch = fin)
    (hne : ch ≠ '=') :
    CKeyValueParser._ParseKey delim fin S (k ++ ch :: rest) =
      (CKeyValueParser.StoreAttr
        { S with m_data := [], m_key_init := decide (ch ≠ chNUL),
                 m_key := String.mk (S.m_data ++ k) } "", ch :: rest) := by
  have hs := scanTo_append (fun ch => ch = '=' || ch = delim || ch = fin) ch rest
    (by rcases hch with h | h <;> simp [h]) k
    (by intro c hc; obtain ⟨h1, h2, h3⟩ := hk c hc; simp [h1, h2, h3])
  simp [CKeyValueParser._ParseKey, hs, hne]

theorem _ParseValue_sep (delim fin : Char) (S : CKeyValueParser) (v rest : List Char)
    (ch : Char) (hv : ∀ c ∈ v, c ≠ delim ∧ c ≠ fin) (hch : ch = delim ∨ ch = fin) :
    CKeyValueParser._ParseValue delim fin S (v ++ ch :: rest) =
      ({ CKeyValueParser.StoreAttr { S with m_data := [] } (String.mk (S.m_data ++ v)) with
           m_fn := TParseFn._ParseKey }, ch :: rest) := by
  have hs := scanTo_append (fun ch => ch = delim || ch = fin) ch rest
    (by rcases hch with h | h <;> simp [h]) v
    (by intro c hc; obtain ⟨h1, h2⟩ := hv c hc; simp [h1, h2])
  simp [CKeyValueParser._ParseValue, hs]

/-- One iteration of the loop of `DoParse` in which the scan stops at the byte `ch`. -/
theorem parseLoop_iter (delim fin : Char) (n : Nat) (S S1 : CKeyValueParser)
    (data rest : List Char) (ch : Char) (out : List TAttrs) (hne : data ≠ [])
    (hr : (match S.m_fn with
           | TParseFn._ParseKey => CKeyValueParser._ParseKey delim fin S data
           | TParseFn._ParseValue => CKeyValueParser._ParseValue delim fin S data)
          = (S1, ch :: rest)) :
    CKeyValueParser.parseLoop delim fin (n + 1) S data out =
      if ch = fin then
        CKeyValueParser.parseLoop delim fin n
          { S1 with m_res := [], m_ln := 0, m_fn := TParseFn._ParseKey } rest (out ++ [S1.m_res])
      else CKeyValueParser.parseLoop delim fin n S1 rest out := by
  cases data with
  | nil => exact absurd rfl hne
  | cons c cs =>
    simp only [CKeyValueParser.parseLoop]
    rw [hr]

/-- The iteration that reads the first item of a record, `tag`, up to a delimiter or the
terminator. -/
theorem parseLoop_tag (delim fin : Char) (n : Nat) (tag rest : List Char) (ch : Char)
    (out : List TAttrs) (hk : ∀ c ∈ tag, c ≠ '=' ∧ c ≠ delim ∧ c ≠ fin)
    (hch : ch = delim ∨ ch = fin) (hne : ch ≠ '=') (hnul : ch ≠ chNUL) :
    CKeyValueParser.parseLoop delim fin (n + 1) {} (tag ++ ch :: rest) out =
      if ch = fin then
        CKeyValueParser.parseLoop delim fin n {} rest (out ++ [[(String.mk tag, "")]])
      else
        CKeyValueParser.parseLoop delim fin n { m_res := [(String.mk tag, "")] } rest out := by
  have hr := _ParseKey_sep delim fin {} tag rest ch hk hch hne
  rw [parseLoop_iter delim fin n {} _ (tag ++ ch :: rest) rest ch out (by simp) hr]
  simp [CKeyValueParser.StoreAttr, hnul]

/-- The two iterations that read `key=value` up to a delimiter or the terminator. -/
theorem parseLoop_field (delim fin : Char) (n : Nat) (res : TAttrs) (k v rest : List Char)
    (ch : Char) (out : List TAttrs) (hf : fin ≠ '=')
    (hk : ∀ c ∈ k, c ≠ '=' ∧ c ≠ delim ∧ c ≠ fin) (hv : ∀ c ∈ v, c ≠ delim ∧ c ≠ fin)
    (hch : ch = delim ∨ ch = fin) :
    CKeyValueParser.parseLoop delim fin (n + 2) { m_res := res }
        (k ++ '=' :: (v ++ ch :: rest)) out =
      if ch = fin then
        CKeyValueParser.parseLoop delim fin n {} rest
          (out ++ [res ++ [(String.mk k, String.mk v)]])
      else
        CKeyValueParser.parseLoop delim fin n
          { m_res := res ++ [(String.mk k, String.mk v)] } rest out := by
  have hr1 := _ParseKey_eq delim fin { m_res := res } k (v ++ ch :: rest) hk
  rw [parseLoop_iter delim fin (n + 1) { m_res := res } _ (k ++ '=' :: (v ++ ch :: rest))
    (v ++ ch :: rest) '=' out (by simp) hr1]
  rw [if_neg (fun h => hf h.symm)]
  have hr2 := _ParseValue_sep delim fin
    { m_res := res, m_data := [], m_key_init := true, m_key := String.mk ([] ++ k),
      m_fn := TParseFn._ParseValue } v rest ch hv hch
  rw [parseLoop_iter delim fin n _ _ (v ++ ch :: rest) rest ch out (by simp) hr2]
  simp [CKeyValueParser.StoreAttr]

theorem scanTo_length (stop : Char → Bool) :
    ∀ data : List Char, (CKeyValueParser.scanTo stop data).2.length ≤ data.length := by
  intro data
  induction data with
  | nil => simp [CKeyValueParser.scanTo]
  | cons c cs ih =>
    unfold CKeyValueParser.scanTo
    split_ifs
    · exact le_refl _
    · exact le_trans ih (Nat.le_succ _)

theorem parseFn_length (delim fin : Char) (S : CKeyValueParser) (data : List Char) :
    (match S.m_fn with
     | TParseFn._ParseKey => CKeyValueParser._ParseKey delim fin S data
     | TParseFn._ParseValue => CKeyValueParser._ParseValue delim fin S data).2.length
      ≤ data.length := by
  cases hfn : S.m_fn with
  | _ParseKey =>
    simp only []
    have h := scanTo_length (fun ch => ch = '=' || ch = delim || ch = fin) data
    unfold CKeyValueParser._ParseKey
    cases hs : CKeyValueParser.scanTo (fun ch => ch = '=' || ch = delim || ch = fin) data with
    | mk item r =>
      rw [hs] at h
      cases r with
      | nil => simp
      | cons ch rest =>
        simp only []
        split_ifs <;> exact h
  | _ParseValue =>
    simp only []
    have h := scanTo_length (fun ch => ch = delim || ch = fin) data
    unfold CKeyValueParser._ParseValue
    cases hs : CKeyValueParser.scanTo (fun ch => ch = delim || ch = fin) data with
    | mk item r =>
      rw [hs] at h
      cases r with
      | nil => simp
      | cons ch rest => exact h

theorem parseLoop_nil (delim fin : Char) (n : Nat) (S : CKeyValueParser) (out : List TAttrs) :
    CKeyValueParser.parseLoop delim fin n S [] out = (S, [], out) := by
  cases n <;> rfl

/-- The loop of `DoParse` never stops for lack of fuel when the fuel is at least the number
of bytes: every greater fuel gives the same result. -/
theorem parseLoop_fuel (delim fin : Char) :
    ∀ (fuel : Nat) (data : List Char), data.length ≤ fuel →
      ∀ (S : CKeyValueParser) (out : List TAttrs),
        CKeyValueParser.parseLoop delim fin fuel S data out =
          CKeyValueParser.parseLoop delim fin data.length S data out := by
  intro fuel
  induction fuel using Nat.strong_induction_on with
  | _ fuel ih =>
    intro data hlen S out
    cases data with
    | nil => rw [parseLoop_nil, List.length_nil]; rfl
    | cons c cs =>
      cases fuel with
      | zero => simp at hlen
      | succ f =>
        have hl := parseFn_length delim fin S (c :: cs)
        simp only [List.length_cons, CKeyValueParser.parseLoop]
        cases hr : (match S.m_fn with
            | TParseFn._ParseKey => CKeyValueParser._ParseKey delim fin S (c :: cs)
            | TParseFn._ParseValue => CKeyValueParser._ParseValue delim fin S (c :: cs)) with
        | mk S1 r =>
          rw [hr] at hl
          cases r with
          | nil => rfl
          | cons ch rest =>
            simp only [List.length_cons] at hl hlen
            have h1 : rest.length ≤ f := by omega
            have h2 : rest.length ≤ cs.length := by omega
            simp only []
            split_ifs
            · rw [ih f (Nat.lt_succ_self _) rest h1]
              by_cases h3 : cs.length = f
              · rw [h3, ih f (Nat.lt_succ_self _) rest h1]
              · rw [ih cs.length (by omega) rest h2]
            · rw [ih f (Nat.lt_succ_self _) rest h1]
              by_cases h3 : cs.length = f
              · rw [h3, ih f (Nat.lt_succ_self _) rest h1]
              · rw [ih cs.length (by omega) rest h2]

/-- The parser on what `CClientPeer::SendMessage` sends after the first entry. -/
theorem parseLoop_wire_fields :
    ∀ (fields res : TAttrs) (out : List TAttrs) (n : Nat),
      (∀ a ∈ fields, (∀ c ∈ a.1.data, c ≠ '=' ∧ c ≠ chSOH ∧ c ≠ chNUL) ∧
        (∀ c ∈ a.2.data, c ≠ chSOH ∧ c ≠ chNUL)) →
      2 * fields.length + 1 ≤ n →
      CKeyValueParser.parseLoop chSOH chNUL n { m_res := res }
          ((fields.map (fun a => a.1.data ++ ['='] ++ a.2.data ++ [chSOH])).flatten ++ [chNUL])
          out
        = ({}, [], out ++ [res ++ fields]) := by
  intro fields
  induction fields with
  | nil =>
    intro res out n _ hn
    obtain ⟨m, rfl⟩ : ∃ m, n = m + 1 := ⟨n - 1, by omega⟩
    have hr := _ParseKey_sep chSOH chNUL { m_res := res } [] [] chNUL (by simp)
      (Or.inr rfl) (by decide)
    simp only [List.map_nil, List.flatten_nil, List.nil_append]
    rw [parseLoop_iter chSOH chNUL m { m_res := res } _ [chNUL] [] chNUL out (by simp) hr]
    simp [parseLoop_nil, CKeyValueParser.StoreAttr]
  | cons a fs ih =>
    intro res out n hok hn
    obtain ⟨m, rfl⟩ : ∃ m, n = m + 2 := ⟨n - 2, by simp only [List.length_cons] at hn; omega⟩
    have ha := hok a (List.mem_cons_self _ _)
    have hd : (((a :: fs).map (fun a => a.1.data ++ ['='] ++ a.2.data ++ [chSOH])).flatten
        ++ [chNUL]) = a.1.data ++ '=' :: (a.2.data ++ chSOH ::
          ((fs.map (fun a => a.1.data ++ ['='] ++ a.2.data ++ [chSOH])).flatten ++ [chNUL])) := by
      simp
    rw [hd, parseLoop_field chSOH chNUL m res a.1.data a.2.data _ chSOH out (by decide)
      ha.1 ha.2 (Or.inl rfl)]
    rw [if_neg (by decide)]
    rw [ih (res ++ [(String.mk a.1.data, String.mk a.2.data)]) out m
      (fun b hb => hok b (List.mem_cons_of_mem _ hb))
      (by simp only [List.length_cons] at hn; omega)]
    simp

/-- The parser on what `CStorage::SaveObject` writes after the `|` of the first field. -/
theorem parseLoop_journal_fields :
    ∀ (fs : TAttrs) (a : String × String) (res : TAttrs) (out : List TAttrs) (n : Nat),
      (∀ b ∈ a :: fs, (∀ c ∈ b.1.data, c ≠ '=' ∧ c ≠ '|' ∧ c ≠ chLF) ∧
        (∀ c ∈ b.2.data, c ≠ '|' ∧ c ≠ chLF)) →
      2 * fs.length + 2 ≤ n →
      CKeyValueParser.parseLoop '|' chLF n { m_res := res }
          (a.1.data ++ '=' :: (a.2.data ++
            ((fs.map (fun b => ['|'] ++ b.1.data ++ ['='] ++ b.2.data)).flatten ++ [chLF])))
          out
        = ({}, [], out ++ [res ++ a :: fs]) := by
  intro fs
  induction fs with
  | nil =>
    intro a res out n hok hn
    obtain ⟨m, rfl⟩ : ∃ m, n = m + 2 := ⟨n - 2, by omega⟩
    have ha := hok a (List.mem_cons_self _ _)
    simp only [List.map_nil, List.flatten_nil, List.nil_append]
    rw [parseLoop_field '|' chLF m res a.1.data a.2.data [] chLF out (by decide)
      ha.1 ha.2 (Or.inr rfl)]
    rw [if_pos rfl, parseLoop_nil]
  | cons b gs ih =>
    intro a res out n hok hn
    obtain ⟨m, rfl⟩ : ∃ m, n = m + 2 := ⟨n - 2, by omega⟩
    have ha := hok a (List.mem_cons_self _ _)
    have hd : (a.2.data ++ (((b :: gs).map
        (fun b => ['|'] ++ b.1.data ++ ['='] ++ b.2.data)).flatten ++ [chLF]))
        = a.2.data ++ '|' :: (b.1.data ++ '=' :: (b.2.data ++
          ((gs.map (fun b => ['|'] ++ b.1.data ++ ['='] ++ b.2.data)).flatten ++ [chLF]))) := by
      simp
    rw [hd, parseLoop_field '|' chLF m res a.1.data a.2.data _ '|' out (by decide)
      ha.1 ha.2 (Or.inl rfl)]
    rw [if_neg (by decide)]
    rw [ih b (res ++ [(String.mk a.1.data, String.mk a.2.data)]) out m
      (fun x hx => hok x (List.mem_cons_of_mem _ hx))
      (by simp only [List.length_cons] at hn; omega)]
    simp

theorem DoParse_wire (tag : String) (fields : TAttrs)
    (htag : ∀ c ∈ tag.data, c ≠ '=' ∧ c ≠ chSOH ∧ c ≠ chNUL)
    (hok : ∀ a ∈ fields, (∀ c ∈ a.1.data, c ≠ '=' ∧ c ≠ chSOH ∧ c ≠ chNUL) ∧
      (∀ c ∈ a.2.data, c ≠ chSOH ∧ c ≠ chNUL)) :
    CKeyValueParser.DoParse chSOH chNUL {} (CClientPeer.SendMessage ((tag, "") :: fields))
      = ({}, [(tag, "") :: fields], none) := by
  have hd : CClientPeer.SendMessage ((tag, "") :: fields) = tag.data ++ chSOH ::
      ((fields.map (fun a => a.1.data ++ ['='] ++ a.2.data ++ [chSOH])).flatten ++ [chNUL]) := by
    simp [CClientPeer.SendMessage]
  have hloop : CKeyValueParser.parseLoop chSOH chNUL
      (CClientPeer.SendMessage ((tag, "") :: fields)).length {}
      (CClientPeer.SendMessage ((tag, "") :: fields)) []
        = ({}, [], [(tag, "") :: fields]) := by
    rw [← parseLoop_fuel chSOH chNUL
      ((CClientPeer.SendMessage ((tag, "") :: fields)).length + (2 * fields.length + 1) + 1)
      _ (by omega)]
    rw [hd, parseLoop_tag chSOH chNUL _ tag.data _ chSOH [] htag (Or.inl rfl) (by decide)
      (by decide)]
    rw [if_neg (by decide)]
    rw [parseLoop_wire_fields fields _ [] _ hok (by omega)]
    simp
  unfold CKeyValueParser.DoParse
  simp only []
  rw [hloop]

theorem DoParse_journal (name : String) (fields : TAttrs)
    (hname : ∀ c ∈ name.data, c ≠ '=' ∧ c ≠ '|' ∧ c ≠ chLF)
    (hok : ∀ a ∈ fields, (∀ c ∈ a.1.data, c ≠ '=' ∧ c ≠ '|' ∧ c ≠ chLF) ∧
      (∀ c ∈ a.2.data, c ≠ '|' ∧ c ≠ chLF)) :
    CKeyValueParser.DoParse '|' chLF {} (CStorage.SaveObject name fields)
      = ({}, [(name, "") :: fields], none) := by
  have hloop : CKeyValueParser.parseLoop '|' chLF (CStorage.SaveObject name fields).length {}
      (CStorage.SaveObject name fields) [] = ({}, [], [(name, "") :: fields]) := by
    rw [← parseLoop_fuel '|' chLF
      ((CStorage.SaveObject name fields).length + (2 * fields.length + 2) + 1) _ (by omega)]
    cases fields with
    | nil =>
      have hd : CStorage.SaveObject name [] = name.data ++ chLF :: [] := by
        simp [CStorage.SaveObject]
      rw [hd, parseLoop_tag '|' chLF _ name.data _ chLF [] hname (Or.inr rfl) (by decide)
        (by decide)]
      rw [if_pos rfl, parseLoop_nil]
      simp
    | cons a fs =>
      have hd : CStorage.SaveObject name (a :: fs) = name.data ++ '|' ::
          (a.1.data ++ '=' :: (a.2.data ++
            ((fs.map (fun b => ['|'] ++ b.1.data ++ ['='] ++ b.2.data)).flatten ++ [chLF]))) := by
        simp [CStorage.SaveObject]
      rw [hd, parseLoop_tag '|' chLF _ name.data _ '|' [] hname (Or.inl rfl) (by decide)
        (by decide)]
      rw [if_neg (by decide)]
      rw [parseLoop_journal_fields fs a _ [] _ hok (by simp only [List.length_cons]; omega)]
      simp
  unfold CKeyValueParser.DoParse
  simp only []
  rw [hloop]

/-! ## Theorems: the key=value codec -/

/-- C30 (counterexample): the attribute list `Order`, `a=b` = `c` has no `'\1'` and no
`'\0'` in any value, and decoding what `SendMessage` sends for it gives `Order`, `a` =
`b=c`; the list with the one entry `Order` = `x` comes back as `Order` with an empty value;
and decoding the journal record written for the object `Order` with the field `a=b` = `c`
gives `Order`, `a` = `b=c`. -/
theorem C30_codec_round_trip_counterexample :
    (∀ a ∈ attrsKeyWithEq, ∀ c ∈ a.2.data, c ≠ chSOH ∧ c ≠ chNUL) ∧
    (CKeyValueParser.DoParse chSOH chNUL {} (CClientPeer.SendMessage attrsKeyWithEq)).2.1
      = [[("Order", ""), ("a", "b=c")]] ∧
    [[("Order", ""), ("a", "b=c")]] ≠ [attrsKeyWithEq] ∧
    (∀ a ∈ attrsTagWithValue, ∀ c ∈ a.2.data, c ≠ chSOH ∧ c ≠ chNUL) ∧
    (CKeyValueParser.DoParse chSOH chNUL {} (CClientPeer.SendMessage attrsTagWithValue)).2.1
      = [[("Order", "")]] ∧
    [[("Order", "")]] ≠ [attrsTagWithValue] ∧
    (∀ a ∈ attrsKeyWithEq, ∀ c ∈ a.2.data, c ≠ '|' ∧ c ≠ chLF) ∧
    (CKeyValueParser.DoParse '|' chLF {}
      (CStorage.SaveObject "Order" [("a=b", "c")])).2.1 = [[("Order", ""), ("a", "b=c")]] := by
  refine ⟨by decide, by decide, by decide, by decide, by decide, by decide, by decide,
    by decide⟩

/-- C30 (amended): for an attribute list whose first entry is `tag` with an empty value and
whose other entries are `fields`, when `tag` and the keys hold none of `=`, the delimiter
and the terminator and the values hold neither the delimiter nor the terminator, a fresh
parser given in one piece what the encoder wrote passes exactly one attribute list to its
callback, the list itself, raises no error and is left with nothing pending. This holds for
the wire (`'\1'`, `'\0'`, encoder `CClientPeer::SendMessage`) and for the journal (`|`,
newline, encoder `CStorage::SaveObject` for the object name `tag` and the fields
`fields`). -/
theorem C30_codec_round_trip (tag : String) (fields : TAttrs) :
    ((∀ c ∈ tag.data, c ≠ '=' ∧ c ≠ chSOH ∧ c ≠ chNUL) →
     (∀ a ∈ fields, (∀ c ∈ a.1.data, c ≠ '=' ∧ c ≠ chSOH ∧ c ≠ chNUL) ∧
        (∀ c ∈ a.2.data, c ≠ chSOH ∧ c ≠ chNUL)) →
     (CKeyValueParser.DoParse chSOH chNUL {}
        (CClientPeer.SendMessage ((tag, "") :: fields))).2 = ([(tag, "") :: fields], none) ∧
     (CKeyValueParser.DoParse chSOH chNUL {}
        (CClientPeer.SendMessage ((tag, "") :: fields))).1.m_res = [] ∧
     (CKeyValueParser.DoParse chSOH chNUL {}
        (CClientPeer.SendMessage ((tag, "") :: fields))).1.m_data = [] ∧
     (CKeyValueParser.DoParse chSOH chNUL {}
        (CClientPeer.SendMessage ((tag, "") :: fields))).1.m_fn = TParseFn._ParseKey) ∧
    ((∀ c ∈ tag.data, c ≠ '=' ∧ c ≠ '|' ∧ c ≠ chLF) →
     (∀ a ∈ fields, (∀ c ∈ a.1.data, c ≠ '=' ∧ c ≠ '|' ∧ c ≠ chLF) ∧
        (∀ c ∈ a.2.data, c ≠ '|' ∧ c ≠ chLF)) →
     (CKeyValueParser.DoParse '|' chLF {} (CStorage.SaveObject tag fields)).2
        = ([(tag, "") :: fields], none) ∧
     (CKeyValueParser.DoParse '|' chLF {} (CStorage.SaveObject tag fields)).1.m_res = [] ∧
     (CKeyValueParser.DoParse '|' chLF {} (CStorage.SaveObject tag fields)).1.m_data = [] ∧
     (CKeyValueParser.DoParse '|' chLF {} (CStorage.SaveObject tag fields)).1.m_fn
        = TParseFn._ParseKey) := by
  constructor
  · intro htag hok
    rw [DoParse_wire tag fields htag hok]
    exact ⟨rfl, rfl, rfl, rfl⟩
  · intro htag hok
    rw [DoParse_journal tag fields htag hok]
    exact ⟨rfl, rfl, rfl, rfl⟩

/-- Witness for C30: the attribute list `Order`, `user_id` = `U`, `symbol` = `X` on the wire
and in the journal. -/
theorem C30_codec_round_trip_witness :
    (CKeyValueParser.DoParse chSOH chNUL {}
      (CClientPeer.SendMessage [("Order", ""), ("user_id", "U"), ("symbol", "X")])).2
        = ([[("Order", ""), ("user_id", "U"), ("symbol", "X")]], none) ∧
    (CKeyValueParser.DoParse '|' chLF {}
      (CStorage.SaveObject "Order" [("user_id", "U"), ("symbol", "X")])).2
        = ([[("Order", ""), ("user_id", "U"), ("symbol", "X")]], none) :=
  ⟨((C30_codec_round_trip "Order" [("user_id", "U"), ("symbol", "X")]).1 (by decide)
      (by decide)).1,
    ((C30_codec_round_trip "Order" [("user_id", "U"), ("symbol", "X")]).2 (by decide)
      (by decide)).1⟩

/-! ## Theorems: rejected orders and the moratorium map -/

theorem CNewOrderMoratorium.CheckOrder_reject_unchanged (self : CNewOrderMoratorium)
    (o : SOrder) (e : CCheckOrderError) (h : (self.CheckOrder o).2 = some e) :
    (self.CheckOrder o).1 = self := by
  cases hk : self.m_investors (o.m_user_id, o.m_symbol) with
  | none => simp [CNewOrderMoratorium.CheckOrder, hk] at h
  | some last =>
    by_cases h1 : last > o.m_time
    · simp [CNewOrderMoratorium.CheckOrder, hk, h1]
    · by_cases h2 : last + self.m_cfg.timeout * nsPerMs > o.m_time
      · simp [CNewOrderMoratorium.CheckOrder, hk, h1, h2]
      · simp [CNewOrderMoratorium.CheckOrder, hk, h1, h2] at h

theorem CNewOrderMoratorium.run_all_rejected (orders : List SOrder) :
    ∀ self : CNewOrderMoratorium, (∀ r ∈ (self.run orders).2, r.isSome = true) →
      (self.run orders).1 = self := by
  induction orders with
  | nil => intro self _; rfl
  | cons o rest ih =>
    intro self h
    simp only [CNewOrderMoratorium.run] at h ⊢
    have h1 : (self.CheckOrder o).2.isSome = true := h _ (List.mem_cons_self _ _)
    obtain ⟨e, he⟩ := Option.isSome_iff_exists.mp h1
    have hs := CNewOrderMoratorium.CheckOrder_reject_unchanged self o e he
    rw [hs] at h ⊢
    exact ih self (fun r hr => h r (List.mem_cons_of_mem _ hr))

theorem CNewOrderMoratorium.CheckOrder_after_deadline (self : CNewOrderMoratorium)
    (o : SOrder) (last : TDateTime)
    (hkey : self.m_investors (o.m_user_id, o.m_symbol) = some last)
    (hdl : last + self.m_cfg.timeout * nsPerMs ≤ o.m_time) :
    (self.CheckOrder o).2 = none := by
  have hnd : ¬ last + self.m_cfg.timeout * nsPerMs > o.m_time := not_lt.mpr hdl
  by_cases hlate : last > o.m_time
  · simp [CNewOrderMoratorium.CheckOrder, hkey, hlate]
  · simp [CNewOrderMoratorium.CheckOrder, hkey, hlate, hnd]

theorem CNewOrderMoratorium.CheckOrder_inside_deadline (self : CNewOrderMoratorium)
    (o : SOrder) (last : TDateTime)
    (hkey : self.m_investors (o.m_user_id, o.m_symbol) = some last) (hle : last ≤ o.m_time)
    (hd : last + self.m_cfg.timeout * nsPerMs > o.m_time) :
    (self.CheckOrder o).2.isSome = true := by
  have hng : ¬ last > o.m_time := not_lt.mpr hle
  simp [CNewOrderMoratorium.CheckOrder, hkey, hng, hd]

/-- C37: when `CNewOrderMoratorium::CheckOrder` rejects an order, the rule object, hence
the whole moratorium map, is left as it was. So after any stream of orders each of which
was rejected the rule is in the state it started from, the recorded time of every key keeps
its value `last`, and an order of a key at or after `last + timeout` is accepted. -/
theorem C37_moratorium_rejection_leaves_map_unchanged (self : CNewOrderMoratorium)
    (orders : List SOrder) (hrej : ∀ r ∈ (self.run orders).2, r.isSome = true) :
    (∀ o e, (self.CheckOrder o).2 = some e →
      (self.CheckOrder o).1 = self ∧
      (self.CheckOrder o).1.m_investors = self.m_investors) ∧
    (self.run orders).1 = self ∧
    (self.run orders).1.m_investors = self.m_investors ∧
    ∀ (o : SOrder) (last : TDateTime),
      self.m_investors (o.m_user_id, o.m_symbol) = some last →
      last + self.m_cfg.timeout * nsPerMs ≤ o.m_time →
      ((self.run orders).1.CheckOrder o).2 = none := by
  have hrun := CNewOrderMoratorium.run_all_rejected orders self hrej
  refine ⟨?_, hrun, by rw [hrun], ?_⟩
  · intro o e h
    have hs := CNewOrderMoratorium.CheckOrder_reject_unchanged self o e h
    exact ⟨hs, by rw [hs]⟩
  · intro o last hkey hdl
    rw [hrun]
    exact CNewOrderMoratorium.CheckOrder_after_deadline self o last hkey hdl

/-- Witness for C37: every key recorded at time 0 with the default timeout of 1 s; two
orders of `U` on `X` at time 5 ns are both rejected, the order at 1 s is accepted. -/
theorem C37_moratorium_rejection_leaves_map_unchanged_witness :
    (∀ r ∈ (moratoriumAt0.run [orderUXAt5, orderUXAt5]).2, r.isSome = true) ∧
    (moratoriumAt0.run [orderUXAt5, orderUXAt5]).1 = moratoriumAt0 ∧
    ((moratoriumAt0.run [orderUXAt5, orderUXAt5]).1.CheckOrder orderUXAt1s).2 = none :=
  have h : ∀ r ∈ (moratoriumAt0.run [orderUXAt5, orderUXAt5]).2, r.isSome = true := by
    simp [CNewOrderMoratorium.run, CNewOrderMoratorium.CheckOrder, moratoriumAt0, orderUXAt5,
      nsPerMs]
  ⟨h, (C37_moratorium_rejection_leaves_map_unchanged moratoriumAt0 [orderUXAt5, orderUXAt5]
      h).2.1,
    (C37_moratorium_rejection_leaves_map_unchanged moratoriumAt0 [orderUXAt5, orderUXAt5]
      h).2.2.2 orderUXAt1s 0 rfl (by decide)⟩

/-! ## Theorems: the bad-trades rule never rejects -/

theorem CSeqBadTrades.CheckOrder_keeps_noBad (s : CSeqBadTrades) (o : SOrder)
    (h : s.NoBad) : (s.CheckOrder o).1.NoBad := by
  unfold CSeqBadTrades.CheckOrder
  cases hq : s.m_trades (o.m_symbol, o.m_user_id) with
  | none => exact h
  | some p =>
    have h0 := h _ p hq
    have hst : ∀ (s1 : CSeqBadTrades),
        s1.m_trades = Function.update s.m_trades (o.m_symbol, o.m_user_id)
          (some (p.GetBadTrades o.m_time).1) → s1.NoBad := by
      intro s1 hs1 id q hq2
      rw [hs1] at hq2
      by_cases hid : id = (o.m_symbol, o.m_user_id)
      · rw [hid] at hq2
        simp only [Function.update_same, Option.some.injEq] at hq2
        rw [← hq2]
        simp [CTradesPair.GetBadTrades, CFramedQueue.GetSize, CFramedQueue._EraseExpired,
          h0.1, h0.2]
      · simp only [Function.update_noteq hid] at hq2
        exact h id q hq2
    simp only []
    split_ifs
    · exact hst _ rfl
    · exact hst _ rfl

theorem CSeqBadTrades.runEvents_noBad (events : List TSeqBadTradesEvent) :
    ∀ s : CSeqBadTrades, s.NoBad → (s.runEvents events).NoBad := by
  induction events with
  | nil => intro s h; exact h
  | cons ev rest ih =>
    intro s h
    cases ev with
    | trade t => exact ih _ (CSeqBadTrades.ProcessTrade_noBad s t h)
    | order o => exact ih _ (CSeqBadTrades.CheckOrder_keeps_noBad s o h)

/-- C36: from a fresh SeqBadTrades rule (any configuration), after every sequence of trades
and order checks, every record has `m_price2 = 0` (the average of the previous opposite
run), so `_IsBadTrade` is false for every price and the window of bad flags is empty; and
`CheckOrder` accepts every order. -/
theorem C36_seq_bad_trades_never_rejects (b : COrderCheckRule) (cfg : SeqBadTrades.CConfig)
    (events : List TSeqBadTradesEvent) (o : SOrder) :
    ((CSeqBadTrades.runEvents { base := b, m_cfg := cfg } events).CheckOrder o).2 = none ∧
    ∀ id p, (CSeqBadTrades.runEvents { base := b, m_cfg := cfg } events).m_trades id = some p →
      p.m_price2 = 0 ∧ (∀ price, p._IsBadTrade price = false) ∧ p.m_bads.m_items = [] := by
  have hfresh : CSeqBadTrades.NoBad { base := b, m_cfg := cfg } := by
    intro id p hp
    simp at hp
  have hinv := CSeqBadTrades.runEvents_noBad events _ hfresh
  refine ⟨CSeqBadTrades.CheckOrder_noBad _ _ hinv, ?_⟩
  intro id p hp
  have h0 := hinv id p hp
  exact ⟨h0.1, fun price => CTradesPair._IsBadTrade_price2_zero p price h0.1, h0.2⟩

/-! ## Theorems: the per-user moratorium field of the engine -/

theorem mainRiskManagerWith_GetInvestor (a : CNewOrderMoratorium) (b : CPriceCheck)
    (c : CSeqBadTrades) (d : CDrawDown) (inv : TUserID → Option TDateTime) (id : TUserID) :
    ∃ inv1, (mainRiskManagerWith a b c d inv).GetInvestor id =
      mainRiskManagerWith a b c d inv1 := by
  unfold CRiskManager.GetInvestor
  cases h : (mainRiskManagerWith a b c d inv).m_investors id with
  | none => exact ⟨_, rfl⟩
  | some t => exact ⟨inv, rfl⟩

theorem invokeOrder_investors (o : SOrder) (cb : TCallback) (s : CRiskManager)
    (inv : TUserID → Option TDateTime) :
    CRiskManager.invokeOrder o cb { s with m_investors := inv } =
      ({ (CRiskManager.invokeOrder o cb s).1 with m_investors := inv },
        (CRiskManager.invokeOrder o cb s).2) := by
  unfold CRiskManager.invokeOrder
  simp only []
  split <;> rfl

theorem forEachLoop_investors (o : SOrder) (inv : TUserID → Option TDateTime) :
    ∀ (items : List (CWeakRef TCallback)) (s : CRiskManager) (calls : List TCallback),
      CCallbackManager.forEachLoop (CRiskManager.invokeOrder o) items
          { s with m_investors := inv } calls =
        ({ (CCallbackManager.forEachLoop (CRiskManager.invokeOrder o) items s calls).1 with
            m_investors := inv },
          (CCallbackManager.forEachLoop (CRiskManager.invokeOrder o) items s calls).2) := by
  intro items
  induction items with
  | nil => intro s calls; rfl
  | cons item rest ih =>
    intro s calls
    cases hsp : item.m_sp with
    | none =>
      simp only [CCallbackManager.forEachLoop, hsp]
      exact ih s calls
    | some sp =>
      rcases hc : CRiskManager.invokeOrder o sp s with ⟨s1, r⟩
      have hc2 := invokeOrder_investors o sp s inv
      rw [hc] at hc2
      cases r with
      | none =>
        simp only [CCallbackManager.forEachLoop, hsp, hc, hc2]
        exact ih s1 _
      | some e =>
        simp only [CCallbackManager.forEachLoop, hsp, hc, hc2]

theorem PutObject_investors (o : SOrder) (s : CRiskManager)
    (inv : TUserID → Option TDateTime) :
    CRiskManager.PutObject_SOrder { s with m_investors := inv } o =
      ({ (s.PutObject_SOrder o).1 with m_investors := inv }, (s.PutObject_SOrder o).2) := by
  unfold CRiskManager.PutObject_SOrder
  exact forEachLoop_investors o inv _ { s with m_orders := s.m_orders._GetCallbacks.1 } []

theorem GetInvestor_investors (s : CRiskManager) (id : TUserID) :
    ∃ inv1, s.GetInvestor id = { s with m_investors := inv1 } := by
  unfold CRiskManager.GetInvestor
  cases h : s.m_investors id with
  | none => exact ⟨_, rfl⟩
  | some t => exact ⟨s.m_investors, rfl⟩

/-- C35: the response of `ProcessMessage<SOrder>` does not depend on the per-user records
`m_investors` (the field `CInvestor::m_moratorium`), nor on the clock reading that is only
used to write that field: two engines that differ only in those records send the same
response to the same order message, and end with the same rule objects and registries. -/
theorem C35_response_independent_of_moratorium_field (Parse : CMessage → SOrder)
    (now1 now2 : TDateTime) (fmt : TFormatArg → String) (rm : CRiskManager)
    (inv : TUserID → Option TDateTime) (trans : CTransport) (msg : CMessage) :
    (CRiskManager.ProcessMessage_SOrder Parse now1 fmt { rm with m_investors := inv } trans
        msg).2 = (rm.ProcessMessage_SOrder Parse now2 fmt trans msg).2 ∧
    (CRiskManager.ProcessMessage_SOrder Parse now1 fmt { rm with m_investors := inv } trans
        msg).1.m_rules = (rm.ProcessMessage_SOrder Parse now2 fmt trans msg).1.m_rules ∧
    (CRiskManager.ProcessMessage_SOrder Parse now1 fmt { rm with m_investors := inv } trans
        msg).1.m_orders = (rm.ProcessMessage_SOrder Parse now2 fmt trans msg).1.m_orders := by
  obtain ⟨i1, h1⟩ := GetInvestor_investors { rm with m_investors := inv } (Parse msg).m_user_id
  obtain ⟨i2, h2⟩ := GetInvestor_investors rm (Parse msg).m_user_id
  have e1 : CRiskManager.PutObject_SOrder
      (CRiskManager.GetInvestor { rm with m_investors := inv } (Parse msg).m_user_id)
      (Parse msg) =
      ({ (rm.PutObject_SOrder (Parse msg)).1 with m_investors := i1 },
        (rm.PutObject_SOrder (Parse msg)).2) := by
    rw [h1]
    exact PutObject_investors (Parse msg) rm i1
  have e2 : CRiskManager.PutObject_SOrder (rm.GetInvestor (Parse msg).m_user_id) (Parse msg) =
      ({ (rm.PutObject_SOrder (Parse msg)).1 with m_investors := i2 },
        (rm.PutObject_SOrder (Parse msg)).2) := by
    rw [h2]
    exact PutObject_investors (Parse msg) rm i2
  rcases hp : rm.PutObject_SOrder (Parse msg) with ⟨rm2, thrown, calls⟩
  rw [hp] at e1 e2
  cases thrown with
  | none => simp [CRiskManager.ProcessMessage_SOrder, e1, e2]
  | some e => simp [CRiskManager.ProcessMessage_SOrder, e1, e2]

/-! ## Theorems: the moratorium record and rejections by later rules -/

/-- C38: on the engine of `main`, when the moratorium rule accepts an in-order order `o`
(no record for its key, or a record `last <= o.time` whose deadline has passed) and one of
the later rules (PriceCheck, SeqBadTrades, DrawDown) rejects it with `e`, the message is
answered with the reject of `e`, and the moratorium rule object afterwards is the one
`CheckOrder` left: its record of `(o.user_id, o.symbol)` is `o.time`. So a next order `o2` of
the same key with `o.time <= o2.time < o.time + timeout` is rejected by the moratorium
rule. -/
theorem C38_moratorium_records_time_when_later_rule_rejects
    (Parse : CMessage → SOrder) (now : TDateTime) (fmt : TFormatArg → String)
    (a : CNewOrderMoratorium) (b : CPriceCheck) (c : CSeqBadTrades) (d : CDrawDown)
    (inv : TUserID → Option TDateTime) (trans : CTransport) (msg : CMessage)
    (e : CCheckOrderError)
    (hin : a.m_investors ((Parse msg).m_user_id, (Parse msg).m_symbol) = none ∨
      ∃ last, a.m_investors ((Parse msg).m_user_id, (Parse msg).m_symbol) = some last ∧
        last ≤ (Parse msg).m_time ∧ last + a.m_cfg.timeout * nsPerMs ≤ (Parse msg).m_time)
    (hlater : (b.CheckOrder (Parse msg)).2 = some e ∨
      ((b.CheckOrder (Parse msg)).2 = none ∧ (c.CheckOrder (Parse msg)).2 = some e) ∨
      ((b.CheckOrder (Parse msg)).2 = none ∧ (c.CheckOrder (Parse msg)).2 = none ∧
        (d.CheckOrder (Parse msg)).2 = some e)) :
    ((mainRiskManagerWith a b c d inv).ProcessMessage_SOrder Parse now fmt trans msg).2.sent =
      trans.sent ++ [msg.m_attrs ++ [("reject", e.what fmt)]] ∧
    ((mainRiskManagerWith a b c d inv).ProcessMessage_SOrder Parse now fmt trans
        msg).1.m_rules.head? =
      some (some (CRule.NewOrderMoratorium (a.CheckOrder (Parse msg)).1)) ∧
    (a.CheckOrder (Parse msg)).1.m_investors ((Parse msg).m_user_id, (Parse msg).m_symbol) =
      some (Parse msg).m_time ∧
    ∀ o2 : SOrder, o2.m_user_id = (Parse msg).m_user_id → o2.m_symbol = (Parse msg).m_symbol →
      (Parse msg).m_time ≤ o2.m_time →
      o2.m_time < (Parse msg).m_time + a.m_cfg.timeout * nsPerMs →
      (((a.CheckOrder (Parse msg)).1.CheckOrder o2).2).isSome = true := by
  have hacc : (a.CheckOrder (Parse msg)).2 = none ∧
      (a.CheckOrder (Parse msg)).1.m_investors ((Parse msg).m_user_id, (Parse msg).m_symbol) =
        some (Parse msg).m_time ∧
      (a.CheckOrder (Parse msg)).1.m_cfg = a.m_cfg := by
    rcases hin with hnone | ⟨last, hkey, hle, hdl⟩
    · simp [CNewOrderMoratorium.CheckOrder, hnone]
    · have hng : ¬ last > (Parse msg).m_time := not_lt.mpr hle
      have hnd : ¬ last + a.m_cfg.timeout * nsPerMs > (Parse msg).m_time := not_lt.mpr hdl
      simp [CNewOrderMoratorium.CheckOrder, hkey, hng, hnd]
  obtain ⟨inv1, hg⟩ := mainRiskManagerWith_GetInvestor a b c d inv (Parse msg).m_user_id
  have hput : ∃ b1 c1 d1 calls,
      (mainRiskManagerWith a b c d inv1).PutObject_SOrder (Parse msg) =
        (mainRiskManagerWith (a.CheckOrder (Parse msg)).1 b1 c1 d1 inv1, some e, calls) := by
    have hall := PutObject_main_first_reject a b c d inv1 (Parse msg)
    rcases hlater with hb | ⟨hb, hc⟩ | ⟨hb, hc, hd⟩
    · exact ⟨_, _, _, _, hall.2.1 hacc.1 e hb⟩
    · exact ⟨_, _, _, _, hall.2.2.1 hacc.1 hb e hc⟩
    · exact ⟨_, _, _, _, hall.2.2.2.1 hacc.1 hb hc e hd⟩
  obtain ⟨b1, c1, d1, calls, hput⟩ := hput
  refine ⟨?_, ?_, hacc.2.1, ?_⟩
  · unfold CRiskManager.ProcessMessage_SOrder
    simp only []
    rw [hg, hput]
    simp [SendReject, CTransport.SendMessage]
  · unfold CRiskManager.ProcessMessage_SOrder
    simp only []
    rw [hg, hput]
    rfl
  · intro o2 hu hs hle hlt
    have hkey : (a.CheckOrder (Parse msg)).1.m_investors (o2.m_user_id, o2.m_symbol) =
        some (Parse msg).m_time := by rw [hu, hs]; exact hacc.2.1
    have hng : ¬ (Parse msg).m_time > o2.m_time := not_lt.mpr hle
    have hd : (Parse msg).m_time + (a.CheckOrder (Parse msg)).1.m_cfg.timeout * nsPerMs >
        o2.m_time := by rw [hacc.2.2]; exact hlt
    exact CNewOrderMoratorium.CheckOrder_inside_deadline _ o2 _ hkey hle hd

/-- Witness for C38: the fresh engine of `main` and a limit order on `Y`, a symbol without
quotes: the moratorium rule accepts it and PriceCheck rejects it. -/
theorem C38_moratorium_records_time_when_later_rule_rejects_witness :
    ((mainRiskManagerWith {} {} {} {} (fun _ => none)).ProcessMessage_SOrder
        (fun _ => orderLimitUY) 0 (fun _ => "") {}
        { m_attrs := [("Order", "")] }).1.m_rules.head? =
      some (some (CRule.NewOrderMoratorium
        (({} : CNewOrderMoratorium).CheckOrder orderLimitUY).1)) ∧
    (({} : CNewOrderMoratorium).CheckOrder orderLimitUY).1.m_investors ("U", "Y") = some 5 :=
  have h := C38_moratorium_records_time_when_later_rule_rejects (fun _ => orderLimitUY) 0
    (fun _ => "") {} {} {} {} (fun _ => none) {} { m_attrs := [("Order", "")] }
    { m_moratorium := 60, m_reason := "InstrumentNotFound", m_args := [TFormatArg.text "Y"] }
    (Or.inl rfl) (Or.inl CheckOrder_examples.2.2.2.2.2.1)
  ⟨h.2.1, h.2.2.1⟩

/-! ## Theorems: the deque stays in time order -/

theorem CFramedQueue.step_queue_timeSorted {V : Type} (s : CFramedQueue V) (op : TQueueOp V)
    (h : CFramedQueue.TimeSorted s.m_items) : CFramedQueue.TimeSorted (s.step op).m_items := by
  cases op with
  | PutValue tm val => exact _PutValue_timeSorted _ s () tm val h
  | EraseExpired tm => exact _EraseExpired_timeSorted _ s () tm h
  | GetSize tm => exact _EraseExpired_timeSorted _ s () tm h
  | Clear => exact List.Pairwise.nil

theorem CFramedQueue.run_queue_timeSorted {V : Type} (ops : List (TQueueOp V)) :
    ∀ s : CFramedQueue V, CFramedQueue.TimeSorted s.m_items →
      CFramedQueue.TimeSorted (s.run ops).m_items := by
  induction ops with
  | nil => intro s h; exact h
  | cons op rest ih => intro s h; exact ih _ (CFramedQueue.step_queue_timeSorted s op h)

theorem CMovingSum.step_sum_timeSorted (s : CMovingSum TPrice TPrice) (op : TMovingSumOp)
    (h : CFramedQueue.TimeSorted s.m_items) : CFramedQueue.TimeSorted (s.step op).m_items := by
  cases op with
  | PutValue tm val =>
    have hk := _PutValue_timeSorted CMovingSum.EraseItem s.toCFramedQueue s.m_sum tm val h
    simp only [CMovingSum.step, CMovingSum.PutValue]
    split_ifs <;> exact hk
  | EraseExpired tm => exact _EraseExpired_timeSorted _ s.toCFramedQueue s.m_sum tm h
  | GetAverage tm => exact _EraseExpired_timeSorted _ s.toCFramedQueue s.m_sum tm h
  | GetSum tm => exact _EraseExpired_timeSorted _ s.toCFramedQueue s.m_sum tm h
  | Clear => exact List.Pairwise.nil

theorem CMovingSum.run_sum_timeSorted (ops : List TMovingSumOp) :
    ∀ s : CMovingSum TPrice TPrice, CFramedQueue.TimeSorted s.m_items →
      CFramedQueue.TimeSorted (s.run ops).m_items := by
  induction ops with
  | nil => intro s h; exact h
  | cons op rest ih => intro s h; exact ih _ (CMovingSum.step_sum_timeSorted s op h)

theorem CMovingMinMax.step_minmax_timeSorted (s : CMovingMinMax TPrice) (op : TMinMaxOp)
    (h : CFramedQueue.TimeSorted s.m_items) : CFramedQueue.TimeSorted (s.step op).m_items := by
  cases op with
  | PutValue tm val =>
    have hk := _PutValue_timeSorted CMovingMinMax.EraseItem s.toCFramedQueue s.m_items2 tm val h
    simp only [CMovingMinMax.step, CMovingMinMax.PutValue]
    split_ifs <;> exact hk
  | EraseExpired tm => exact _EraseExpired_timeSorted _ s.toCFramedQueue s.m_items2 tm h
  | GetMin tm => exact _EraseExpired_timeSorted _ s.toCFramedQueue s.m_items2 tm h
  | GetMax tm => exact _EraseExpired_timeSorted _ s.toCFramedQueue s.m_items2 tm h
  | Clear => exact List.Pairwise.nil

theorem CMovingMinMax.run_minmax_timeSorted (ops : List TMinMaxOp) :
    ∀ s : CMovingMinMax TPrice, CFramedQueue.TimeSorted s.m_items →
      CFramedQueue.TimeSorted (s.run ops).m_items := by
  induction ops with
  | nil => intro s h; exact h
  | cons op rest ih => intro s h; exact ih _ (CMovingMinMax.step_minmax_timeSorted s op h)

/-- C39: from the empty state, after every sequence of `PutValue`, `EraseExpired`,
`GetSize` and `Clear` on a `CFramedQueue` (any value type, frame and `m_rem`), the
timestamps of the deque are in non-decreasing order, front to back; the same holds for the
deque of the derived classes `CMovingSum` and `CMovingMinMax` under their operations. As
the sequence is arbitrary, this is the state after each single operation. -/
theorem C39_deque_timestamps_non_decreasing :
    (∀ (V : Type) (frame : Int) (rem : Nat) (ops : List (TQueueOp V)),
      CFramedQueue.TimeSorted
        (CFramedQueue.run { m_frame := frame, m_rem := rem, m_items := [] } ops).m_items) ∧
    (∀ (frame : Int) (rem : Nat) (ops : List TMovingSumOp),
      CFramedQueue.TimeSorted ((CMovingSum.new frame rem).run ops).m_items) ∧
    (∀ (frame : Int) (rem : Nat) (ops : List TMinMaxOp),
      CFramedQueue.TimeSorted ((CMovingMinMax.new frame rem).run ops).m_items) :=
  ⟨fun _ _ _ ops => CFramedQueue.run_queue_timeSorted ops _ List.Pairwise.nil,
   fun _ _ ops => CMovingSum.run_sum_timeSorted ops _ List.Pairwise.nil,
   fun _ _ ops => CMovingMinMax.run_minmax_timeSorted ops _ List.Pairwise.nil⟩

/-! ## Lemmas: the positions of reachable states of the drawdown rule -/

theorem CPosition.Ok_mono (pos : CPosition) (t1 t2 : TDateTime) (h : pos.Ok t1)
    (h12 : max t1 0 ≤ max t2 0) : pos.Ok t2 :=
  ⟨h.1, le_trans h.2 h12⟩

theorem CPosition.new_ok (lp : TPrice × TDateTime) (dt : Int) : (CPosition.new lp dt).Ok lp.2 :=
  ⟨rfl, le_max_left _ _⟩

theorem CPosition.UpdateYield_ok (pos : CPosition) (t : TDateTime) (h : pos.Ok t) :
    pos.UpdateYield.Ok t :=
  ⟨CMovingSum.stepTrades_yield pos.m_trades (TTradeSumOp.GetSum pos.m_price.2) h.1, h.2⟩

theorem CPosition.PutTrade_ok (pos : CPosition) (trade : STrade) (t : TDateTime)
    (h : pos.Ok t) : (pos.PutTrade trade).Ok t :=
  ⟨CMovingSum.stepTrades_yield pos.m_trades
    (TTradeSumOp.PutValue trade.m_time (CTrade.ofSTrade trade)) h.1, h.2⟩

theorem CPosition.PutQuote_ok (pos : CPosition) (q : SQuote) (t : TDateTime)
    (h : pos.Ok t) (hq : q.m_time ≤ max t 0) : (pos.PutQuote q).Ok t := by
  unfold CPosition.PutQuote
  split_ifs
  · exact h
  · exact ⟨h.1, hq⟩

theorem CInvestor.UpdatePnL_positions_same (self : CInvestor) (id : TSymbol)
    (pos : CPosition) : (self.UpdatePnL id pos).m_positions id = some pos.UpdateYield := by
  simp [CInvestor.UpdatePnL]

theorem CInvestor.PutQuote_positions_same (self : CInvestor) (q : SQuote) (pos : CPosition)
    (h : self.m_positions q.m_symbol = some pos) :
    (self.PutQuote q).m_positions q.m_symbol = some (pos.PutQuote q).UpdateYield := by
  unfold CInvestor.PutQuote
  rw [h]
  exact CInvestor.UpdatePnL_positions_same _ _ _

theorem CInvestor.PutQuote_none (self : CInvestor) (q : SQuote)
    (h : self.m_positions q.m_symbol = none) : self.PutQuote q = self := by
  unfold CInvestor.PutQuote
  rw [h]

theorem CInvestor.PutTrade_positions_same (self : CInvestor) (lp : TPrice × TDateTime)
    (trade : STrade) :
    (self.PutTrade lp trade).m_positions trade.m_symbol =
      some (if (self.GetPosition lp trade.m_symbol).2.m_price.1 = 0
        then (self.GetPosition lp trade.m_symbol).2
        else ((self.GetPosition lp trade.m_symbol).2.PutTrade trade).UpdateYield) := by
  have hg : (self.GetPosition lp trade.m_symbol).1.m_positions trade.m_symbol
      = some (self.GetPosition lp trade.m_symbol).2 := by
    unfold CInvestor.GetPosition
    cases hp : self.m_positions trade.m_symbol with
    | none => simp
    | some pos => simp [hp]
  unfold CInvestor.PutTrade
  simp only []
  split_ifs
  · exact hg
  · exact CInvestor.UpdatePnL_positions_same _ _ _

theorem CInvestor.GetPosition_ok (self : CInvestor) (lp : TPrice × TDateTime) (sym : TSymbol)
    (h : ∀ pos, self.m_positions sym = some pos → pos.Ok lp.2) :
    (self.GetPosition lp sym).2.Ok lp.2 := by
  unfold CInvestor.GetPosition
  cases hp : self.m_positions sym with
  | none => exact CPosition.new_ok lp _
  | some pos => exact h pos hp

theorem CDrawDown.putQuoteAt_posOk (q : SQuote) (s : CDrawDown)
    (e : (TSymbol × TUserID) × TUserID) (hs : s.PosOk)
    (hq : q.m_time ≤ max (s.GetLastPrice q.m_symbol).2 0) :
    (CDrawDown.putQuoteAt q s e).PosOk := by
  unfold CDrawDown.putQuoteAt
  cases he : s.m_investors e.2 with
  | none => exact hs
  | some inv0 =>
    intro uid inv sym pos h1 h2
    have hlp : ∀ sy, CDrawDown.GetLastPrice
        { s with m_investors := Function.update s.m_investors e.2 (some (inv0.PutQuote q)) } sy
        = s.GetLastPrice sy := fun _ => rfl
    rw [hlp]
    simp only [] at h1
    by_cases hu : uid = e.2
    · subst hu
      rw [Function.update_same] at h1
      have h3 : inv = inv0.PutQuote q := (Option.some.inj h1).symm
      by_cases hsym : sym = q.m_symbol
      · subst hsym
        cases hp : inv0.m_positions q.m_symbol with
        | none =>
          rw [h3, CInvestor.PutQuote_none _ _ hp, hp] at h2
          exact Option.noConfusion h2
        | some pos0 =>
          rw [h3, CInvestor.PutQuote_positions_same _ _ _ hp] at h2
          rw [← Option.some.inj h2]
          exact CPosition.UpdateYield_ok _ _
            (CPosition.PutQuote_ok _ _ _ (hs _ inv0 _ pos0 he hp) hq)
      · rw [h3, CInvestor.PutQuote_positions_ne _ _ _ hsym] at h2
        exact hs _ inv0 sym pos he h2
    · rw [Function.update_noteq hu] at h1
      exact hs uid inv sym pos h1 h2

theorem CDrawDown.foldl_putQuoteAt_posOk (q : SQuote)
    (hits : List ((TSymbol × TUserID) × TUserID)) :
    ∀ s : CDrawDown, s.PosOk → q.m_time ≤ max (s.GetLastPrice q.m_symbol).2 0 →
      (hits.foldl (CDrawDown.putQuoteAt q) s).PosOk := by
  induction hits with
  | nil => intro s hs _; exact hs
  | cons e rest ih =>
    intro s hs hq
    rw [List.foldl_cons]
    apply ih _ (CDrawDown.putQuoteAt_posOk q s e hs hq)
    have hp : (CDrawDown.putQuoteAt q s e).GetLastPrice q.m_symbol
        = s.GetLastPrice q.m_symbol := by
      unfold CDrawDown.putQuoteAt
      cases s.m_investors e.2 <;> rfl
    rw [hp]
    exact hq

theorem CDrawDown.UpdateLastPrice_posOk (s : CDrawDown) (q : SQuote) (hs : s.PosOk) :
    (s.UpdateLastPrice q).1.PosOk ∧
    ((s.UpdateLastPrice q).2 = true →
      ((s.UpdateLastPrice q).1.GetLastPrice q.m_symbol).2 = q.m_time) := by
  have hset : ∀ (hmono : max (s.GetLastPrice q.m_symbol).2 0 ≤ max q.m_time 0),
      CDrawDown.PosOk
        { s with
          m_prices := Function.update s.m_prices q.m_symbol (some (q.m_price, q.m_time)) } := by
    intro hmono uid inv sym pos h1 h2
    have h0 := hs uid inv sym pos h1 h2
    by_cases hsym : sym = q.m_symbol
    · subst hsym
      have hl : (CDrawDown.GetLastPrice
          { s with
            m_prices := Function.update s.m_prices q.m_symbol (some (q.m_price, q.m_time)) }
          q.m_symbol).2 = q.m_time := by
        simp [CDrawDown.GetLastPrice]
      rw [hl]
      exact CPosition.Ok_mono _ _ _ h0 hmono
    · have hl : CDrawDown.GetLastPrice
          { s with
            m_prices := Function.update s.m_prices q.m_symbol (some (q.m_price, q.m_time)) }
          sym = s.GetLastPrice sym := by
        simp [CDrawDown.GetLastPrice, Function.update_noteq hsym]
      rw [hl]
      exact h0
  unfold CDrawDown.UpdateLastPrice
  cases hp : s.m_prices q.m_symbol with
  | none =>
    refine ⟨hset ?_, fun _ => by simp [CDrawDown.GetLastPrice]⟩
    simp [CDrawDown.GetLastPrice, hp]
  | some p =>
    simp only []
    split_ifs with hlt
    · exact ⟨hs, fun h => absurd h (by simp)⟩
    · refine ⟨hset ?_, fun _ => by simp [CDrawDown.GetLastPrice]⟩
      have : (s.GetLastPrice q.m_symbol).2 = p.2 := by simp [CDrawDown.GetLastPrice, hp]
      rw [this]
      exact max_le_max (not_lt.mp hlt) (le_refl _)

theorem CDrawDown.ProcessQuote_posOk (s : CDrawDown) (q : SQuote) (hs : s.PosOk) :
    (s.ProcessQuote q).PosOk := by
  have hu := CDrawDown.UpdateLastPrice_posOk s q hs
  unfold CDrawDown.ProcessQuote
  simp only []
  split_ifs with hr
  · exact hu.1
  · apply CDrawDown.foldl_putQuoteAt_posOk q _ _ hu.1
    have ht : (s.UpdateLastPrice q).2 = true := by
      cases hb : (s.UpdateLastPrice q).2 with
      | true => rfl
      | false => exact absurd hb hr
    rw [hu.2 ht]
    exact le_max_left _ _

theorem CDrawDown.ProcessTrade_posOk (s : CDrawDown) (trade : STrade) (hs : s.PosOk) :
    (s.ProcessTrade trade).PosOk := by
  intro uid inv sym pos h1 h2
  have hlp : ∀ sy, (s.ProcessTrade trade).GetLastPrice sy = s.GetLastPrice sy := fun _ => rfl
  have hlp2 : ∀ sy, (s.GetInvestor trade.m_user_id trade.m_symbol).1.GetLastPrice sy
      = s.GetLastPrice sy := fun _ => rfl
  rw [hlp]
  have hinv0 : ∀ sy p, (s.GetInvestor trade.m_user_id trade.m_symbol).2.m_positions sy = some p →
      p.Ok (s.GetLastPrice sy).2 := by
    intro sy p hp
    unfold CDrawDown.GetInvestor at hp
    cases hi : s.m_investors trade.m_user_id with
    | none => rw [hi] at hp; simp [CInvestor.new] at hp
    | some inv0 => rw [hi] at hp; exact hs _ inv0 sy p hi hp
  unfold CDrawDown.ProcessTrade at h1
  simp only [] at h1
  by_cases hu : uid = trade.m_user_id
  · subst hu
    rw [Function.update_same] at h1
    have h3 := (Option.some.inj h1).symm
    rw [hlp2] at h3
    by_cases hsym : sym = trade.m_symbol
    · subst hsym
      rw [h3, CInvestor.PutTrade_positions_same] at h2
      have hg := CInvestor.GetPosition_ok (s.GetInvestor trade.m_user_id trade.m_symbol).2
        (s.GetLastPrice trade.m_symbol) trade.m_symbol (hinv0 _)
      rw [← Option.some.inj h2]
      split_ifs
      · exact hg
      · exact CPosition.UpdateYield_ok _ _ (CPosition.PutTrade_ok _ _ _ hg)
    · rw [h3, CInvestor.PutTrade_positions_ne _ _ _ _ hsym] at h2
      exact hinv0 sym pos h2
  · rw [Function.update_noteq hu] at h1
    have h4 : (s.GetInvestor trade.m_user_id trade.m_symbol).1.m_investors uid
        = s.m_investors uid := by
      unfold CDrawDown.GetInvestor
      simp only []
      rw [Function.update_noteq hu]
    rw [h4] at h1
    exact hs uid inv sym pos h1 h2

theorem CDrawDown.run_posOk (events : List TDrawDownEvent) :
    ∀ s : CDrawDown, s.PosOk → (s.run events).PosOk := by
  induction events with
  | nil => intro s hs; exact hs
  | cons ev rest ih =>
    intro s hs
    unfold CDrawDown.run
    rw [List.foldl_cons]
    apply ih
    cases ev with
    | quote q => exact CDrawDown.ProcessQuote_posOk s q hs
    | trade t => exact CDrawDown.ProcessTrade_posOk s t hs

theorem CDrawDown.fresh_posOk (b : COrderCheckRule) (cfg : DrawDownRule.CConfig) :
    CDrawDown.PosOk { base := b, m_cfg := cfg } :=
  fun _ _ _ _ h _ => Option.noConfusion h

/-- The yield `UpdateYield` stores, for a position whose accumulator is the sum over its
window: `yield_at` the time of the position's own last price. -/
theorem CPosition.UpdateYield_yield (pos : CPosition)
    (h : pos.m_trades.m_sum = yieldOfTrades pos.m_trades.m_items) :
    pos.UpdateYield.m_yield = pos.yield_at pos.m_price.2 ∧
    pos.UpdateYield.m_trades.m_items = (pos.m_trades.EraseExpired pos.m_price.2).1.m_items ∧
    pos.UpdateYield.m_price = pos.m_price := by
  have hk := CMovingSum.stepTrades_yield pos.m_trades (TTradeSumOp.GetSum pos.m_price.2) h
  have hk2 : (pos.m_trades.GetSum pos.m_price.2).2
      = yieldOfTrades (pos.m_trades.EraseExpired pos.m_price.2).1.m_items := hk
  refine ⟨?_, rfl, rfl⟩
  show ((pos.m_trades.GetSum pos.m_price.2).2).GetYield pos.m_price.1 = _
  rw [hk2]
  rfl

/-! ## Lemmas: example histories of the drawdown rule -/

theorem run_eventsTradeNoQuote :
    CDrawDown.run {} eventsTradeNoQuote =
      { m_investors := Function.update (fun _ => none) "U"
          (some { m_pnl_max := { m_frame := 86400 * nsPerSec, m_rem := 1 },
                  m_positions := Function.update (fun _ => none) "X"
                    (some (CPosition.new (0, 0) (86400 * nsPerSec))) }),
        m_positions := [(("X", "U"), "U")] } := by
  simp [CDrawDown.run, eventsTradeNoQuote, tradeBuyUX, CDrawDown.step, CDrawDown.ProcessTrade,
    CDrawDown.GetInvestor, CDrawDown.GetLastPrice, CDrawDown.emplacePosition, CInvestor.new,
    CInvestor.PutTrade, CInvestor.GetPosition, CPosition.new]

theorem run_eventsTwoSymbols_2 :
    CDrawDown.ProcessTrade
        { m_prices := Function.update (fun _ => none) "X" (some (100, 1)) }
        { m_trade_id := "T1", m_user_id := "U", m_symbol := "X", m_side := TSide.Buy,
          m_price := 90, m_qty := 1, m_time := 2 } =
      { m_investors := Function.update (fun _ => none) "U"
          (some { m_pnl := 10,
                  m_pnl_max := { m_frame := 86400 * nsPerSec, m_rem := 1, m_items := [(0, 10)],
                                 m_items2 := [(10, 1)] },
                  m_drawdown := -10,
                  m_time := 0,
                  m_positions := Function.update (fun _ => none) "X"
                    (some { m_price := (100, 1), m_yield := 10,
                            m_trades := { m_frame := 86400 * nsPerSec, m_rem := 1,
                                          m_items := [(2, { m_price := 90, m_qty := 1 })],
                                          m_sum := { m_sum := 90, m_qty := 1 } } }) }),
        m_positions := [(("X", "U"), "U")],
        m_prices := Function.update (fun _ => none) "X" (some (100, 1)) } := by
  have hside : ¬ ((TSide.Buy : TSide) = TSide.Sell) := by decide
  simp [CDrawDown.ProcessTrade, CDrawDown.GetInvestor, CDrawDown.GetLastPrice,
    CDrawDown.emplacePosition, CInvestor.new, CInvestor.PutTrade, CInvestor.GetPosition,
    CPosition.new, CPosition.PutTrade, CTrade.ofSTrade, hside, CMovingSum.PutValue,
    CFramedQueue._PutValue, CInvestor.UpdatePnL, CPosition.UpdateYield, CMovingSum.GetSum,
    _EraseExpired_of_length_le, CMovingMinMax.GetMax, CMovingMinMax.PutValue,
    CMovingMinMax.countUp, CPositionYield.GetYield, CPositionYield.hAdd_def]
  norm_num

theorem keyLess_XU_Y : CDrawDown.keyLess (("X", "U") : TSymbol × TUserID) ("Y", "") = true := by
  simp [CDrawDown.keyLess]
  decide

theorem keyLess_YU : CDrawDown.keyLess (("Y", "U") : TSymbol × TUserID) ("Y", "") = false := by
  simp [CDrawDown.keyLess]

theorem keyLess_YU_XU :
    CDrawDown.keyLess (("Y", "U") : TSymbol × TUserID) ("X", "U") = false ∧
    CDrawDown.keyLess (("X", "U") : TSymbol × TUserID) ("Y", "U") = true := by
  simp [CDrawDown.keyLess]
  decide

theorem run_eventsTwoSymbols :
    CDrawDown.run {} eventsTwoSymbols =
      { m_investors := Function.update (fun _ => none) "U"
          (some { m_pnl := 10,
                  m_pnl_max := { m_frame := 86400 * nsPerSec, m_rem := 1,
                                 m_items := [(0, 10), (threeDays, 10)],
                                 m_items2 := [(10, 2)] },
                  m_drawdown := 0,
                  m_time := threeDays,
                  m_positions := Function.update (Function.update (fun _ => none) "X"
                    (some { m_price := (100, 1), m_yield := 10,
                            m_trades := { m_frame := 86400 * nsPerSec, m_rem := 1,
                                          m_items := [(2, { m_price := 90, m_qty := 1 })],
                                          m_sum := { m_sum := 90, m_qty := 1 } } })) "Y"
                    (some { m_price := (50, threeDays), m_yield := 0,
                            m_trades := { m_frame := 86400 * nsPerSec, m_rem := 1,
                                          m_items := [], m_sum := {} } }) }),
        m_positions := [(("X", "U"), "U"), (("Y", "U"), "U")],
        m_prices := Function.update (Function.update (fun _ => none) "X" (some (100, 1))) "Y"
          (some (50, threeDays)) } := by
  have hXY : ("X" : String) ≠ "Y" := by decide
  have hYX : ("Y" : String) ≠ "X" := by decide
  have h3 : (0 : Int) < threeDays := by decide
  have h3b : ¬ (threeDays ≤ (0 : Int)) := by decide
  have h3c : ¬ (threeDays < (0 : Int)) := by decide
  have h3d : ¬ (threeDays = (0 : Int)) := by decide
  simp only [CDrawDown.run, eventsTwoSymbols, List.foldl, CDrawDown.step, run_drawDownEvents1,
    run_eventsTwoSymbols_2]
  simp [CDrawDown.ProcessTrade, CDrawDown.GetInvestor, CDrawDown.GetLastPrice,
    CDrawDown.emplacePosition, keyLess_YU_XU.1, keyLess_YU_XU.2, CInvestor.PutTrade,
    CInvestor.GetPosition, CPosition.new, hXY, hYX, Function.update_noteq,
    CDrawDown.ProcessQuote, CDrawDown.UpdateLastPrice, keyLess_XU_Y, keyLess_YU,
    CDrawDown.putQuoteAt, CInvestor.PutQuote, h3, h3b, h3c, h3d, CPosition.PutQuote, CInvestor.UpdatePnL,
    CPosition.UpdateYield, CMovingSum.GetSum,
    _EraseExpired_of_length_le, CMovingMinMax.GetMax, CMovingMinMax.PutValue,
    CFramedQueue._PutValue, CMovingMinMax.countUp, CPositionYield.GetYield]

theorem CDrawDown.GetInvestor_posOk (s : CDrawDown) (uid : TUserID) (tsym : TSymbol)
    (hs : s.PosOk) :
    ∀ sy p, (s.GetInvestor uid tsym).2.m_positions sy = some p →
      p.Ok (s.GetLastPrice sy).2 := by
  intro sy p hp
  unfold CDrawDown.GetInvestor at hp
  cases hi : s.m_investors uid with
  | none => rw [hi] at hp; simp [CInvestor.new] at hp
  | some inv0 => rw [hi] at hp; exact hs _ inv0 sy p hi hp

theorem CPosition.PutQuote_trades (pos : CPosition) (q : SQuote) :
    (pos.PutQuote q).m_trades = pos.m_trades ∧ (pos.PutQuote q).m_yield = pos.m_yield := by
  unfold CPosition.PutQuote
  split_ifs <;> exact ⟨rfl, rfl⟩

theorem CInvestor.PutQuote_pnl (self : CInvestor) (q : SQuote) (pos : CPosition)
    (h : self.m_positions q.m_symbol = some pos) :
    (self.PutQuote q).m_pnl = self.m_pnl + ((pos.PutQuote q).UpdateYield.m_yield - pos.m_yield) := by
  unfold CInvestor.PutQuote
  rw [h]
  simp only [CInvestor.UpdatePnL]
  rw [(CPosition.PutQuote_trades pos q).2]
  split_ifs <;> rfl

theorem CInvestor.PutTrade_pnl (self : CInvestor) (lp : TPrice × TDateTime) (trade : STrade)
    (h : (self.GetPosition lp trade.m_symbol).2.m_price.1 ≠ 0) :
    (self.PutTrade lp trade).m_pnl = self.m_pnl +
      ((((self.GetPosition lp trade.m_symbol).2.PutTrade trade).UpdateYield).m_yield
        - (self.GetPosition lp trade.m_symbol).2.m_yield) := by
  have hg : (self.GetPosition lp trade.m_symbol).1.m_pnl = self.m_pnl := by
    unfold CInvestor.GetPosition
    cases self.m_positions trade.m_symbol <;> rfl
  unfold CInvestor.PutTrade
  simp only []
  rw [if_neg h]
  simp only [CInvestor.UpdatePnL, hg]
  rfl

/-! ## Theorems: trailing drawdown, the recomputed yield and stale quotes -/

/-- C33 (counterexample): after Quote `X` at 100 (time 1), Buy 1 `X` at 90 (time 2), Buy 1
`Y` (time 3) and Quote `Y` three days later, the investor's `m_time` is three days. The next
trade, Buy 1 `X` at 90 one nanosecond later, makes `UpdatePnL` recompute the yield of `X`:
over the trades that remain after eviction at the investor's `m_time` the value would be
`100 * 1 - 90 = 10`, but the code stores `100 * 2 - 180 = 20`, because it evicts at the time
of the position's own last price (time 1), which removes nothing. -/
theorem C33_yield_eviction_time_counterexample :
    ((CDrawDown.run {} eventsTwoSymbols).m_investors "U").bind
        (fun inv => (inv.m_positions "X").map
          (fun pos => (inv.m_time, (pos.PutTrade tradeBuyUXLate).yield_at inv.m_time)))
      = some (threeDays, 10) ∧
    (((CDrawDown.run {} eventsTwoSymbols).ProcessTrade tradeBuyUXLate).m_investors "U").bind
        (fun inv => (inv.m_positions "X").map (fun pos => (inv.m_time, pos.m_yield)))
      = some (threeDays, 20) := by
  have hXY : ("X" : String) ≠ "Y" := by decide
  have hYX : ("Y" : String) ≠ "X" := by decide
  have hside : ¬ ((TSide.Buy : TSide) = TSide.Sell) := by decide
  have hput : CMovingSum.PutValue
      ({ m_frame := 86400 * nsPerSec, m_rem := 1,
         m_items := [(2, { m_price := 90, m_qty := 1 })],
         m_sum := { m_sum := 90, m_qty := 1 } } : CMovingSum CTrade CPositionYield)
      (threeDays + 1) { m_price := 90, m_qty := 1 } =
      ({ m_frame := 86400 * nsPerSec, m_rem := 1,
         m_items := [(2, { m_price := 90, m_qty := 1 }), (threeDays + 1, { m_price := 90, m_qty := 1 })],
         m_sum := { m_sum := 180, m_qty := 2 } }, true) := by
    have h1 : (2 : Int) < threeDays + 1 := by decide
    have h2 : (2 : Int) + 86400 * nsPerSec < threeDays + 1 := by decide
    simp [CMovingSum.PutValue, CFramedQueue._PutValue, h1, h2, _EraseExpired_of_length_le,
      CPositionYield.hAdd_def]
    norm_num
  rw [run_eventsTwoSymbols]
  constructor
  · have h1 : ¬ (threeDays ≤ (2 : Int)) := by decide
    have h2 : (2 : Int) + 86400 * nsPerSec < threeDays := by decide
    simp [hXY, hYX, Function.update_noteq, CPosition.PutTrade, tradeBuyUXLate, CTrade.ofSTrade,
      hside, hput, CPosition.yield_at, CMovingSum.EraseExpired, CFramedQueue._EraseExpired,
      CFramedQueue.eraseLoop, h1, h2]
    norm_num
  · have h1 : (1 : Int) ≤ 2 := by decide
    simp [CDrawDown.ProcessTrade, tradeBuyUXLate, CDrawDown.GetInvestor, CDrawDown.GetLastPrice,
      CDrawDown.emplacePosition, CDrawDown.keyLess, CInvestor.PutTrade, CInvestor.GetPosition,
      hXY, hYX, Function.update_noteq, CPosition.PutTrade, CTrade.ofSTrade, hside, hput,
      CInvestor.UpdatePnL, CPosition.UpdateYield, CMovingSum.GetSum,
      CFramedQueue._EraseExpired, h1, CPositionYield.GetYield]
    norm_num

/-- C33 (amended): in every state reached from a fresh drawdown rule, whenever `UpdatePnL`
recomputes the yield of a position (for a quote met by an investor holding a position in
its symbol, and for a trade met by a position whose last price is not 0), the window of the
position is evicted at the time of the position's own last price, and the new yield is
`last_price * (sum of signed qty) - (sum of price * signed qty)` over the trades that
remain after that eviction; the investor's pnl moves by the change of the yield. The signed
quantity of a trade is `-qty` for a sale and `qty` otherwise. -/
theorem C33_yield_recomputed_after_eviction_at_position_price_time
    (b : COrderCheckRule) (cfg : DrawDownRule.CConfig) (events : List TDrawDownEvent) :
    (∀ (q : SQuote) (uid : TUserID) (inv : CInvestor) (pos : CPosition),
      (CDrawDown.run { base := b, m_cfg := cfg } events).m_investors uid = some inv →
      inv.m_positions q.m_symbol = some pos →
        (inv.PutQuote q).m_positions q.m_symbol = some (pos.PutQuote q).UpdateYield ∧
        (pos.PutQuote q).UpdateYield.m_trades.m_items =
          ((pos.PutQuote q).m_trades.EraseExpired (pos.PutQuote q).m_price.2).1.m_items ∧
        (pos.PutQuote q).UpdateYield.m_yield =
          (pos.PutQuote q).yield_at (pos.PutQuote q).m_price.2 ∧
        (inv.PutQuote q).m_pnl =
          inv.m_pnl + ((pos.PutQuote q).yield_at (pos.PutQuote q).m_price.2 - pos.m_yield)) ∧
    (∀ (t : STrade) (inv : CInvestor) (pos : CPosition),
      inv = ((CDrawDown.run { base := b, m_cfg := cfg } events).GetInvestor
              t.m_user_id t.m_symbol).2 →
      pos = (inv.GetPosition
              ((CDrawDown.run { base := b, m_cfg := cfg } events).GetLastPrice t.m_symbol)
              t.m_symbol).2 →
      pos.m_price.1 ≠ 0 →
        (((CDrawDown.run { base := b, m_cfg := cfg } events).ProcessTrade t).m_investors
            t.m_user_id).bind (fun i => i.m_positions t.m_symbol) =
          some (pos.PutTrade t).UpdateYield ∧
        (pos.PutTrade t).UpdateYield.m_trades.m_items =
          ((pos.PutTrade t).m_trades.EraseExpired (pos.PutTrade t).m_price.2).1.m_items ∧
        (pos.PutTrade t).UpdateYield.m_yield =
          (pos.PutTrade t).yield_at (pos.PutTrade t).m_price.2 ∧
        (((CDrawDown.run { base := b, m_cfg := cfg } events).ProcessTrade t).m_investors
            t.m_user_id).map (fun i => i.m_pnl) =
          some (inv.m_pnl + ((pos.PutTrade t).yield_at (pos.PutTrade t).m_price.2
            - pos.m_yield))) ∧
    (∀ t : STrade, (CTrade.ofSTrade t).m_price = t.m_price ∧
      (CTrade.ofSTrade t).m_qty = if t.m_side = TSide.Sell then -t.m_qty else t.m_qty) := by
  have hok := CDrawDown.run_posOk events _ (CDrawDown.fresh_posOk b cfg)
  refine ⟨?_, ?_, fun t => ⟨rfl, rfl⟩⟩
  · intro q uid inv pos hinv hpos
    have h0 := hok uid inv _ pos hinv hpos
    have hq : (pos.PutQuote q).m_trades.m_sum = yieldOfTrades (pos.PutQuote q).m_trades.m_items := by
      rw [(CPosition.PutQuote_trades pos q).1]; exact h0.1
    have hy := CPosition.UpdateYield_yield (pos.PutQuote q) hq
    refine ⟨CInvestor.PutQuote_positions_same inv q pos hpos, hy.2.1, hy.1, ?_⟩
    rw [CInvestor.PutQuote_pnl inv q pos hpos, hy.1]
  · intro t inv pos hinv hpos hne
    have hg0 := CInvestor.GetPosition_ok inv
      ((CDrawDown.run { base := b, m_cfg := cfg } events).GetLastPrice t.m_symbol) t.m_symbol
      (by rw [hinv]; exact CDrawDown.GetInvestor_posOk _ _ _ hok _)
    rw [← hpos] at hg0
    have hy := CPosition.UpdateYield_yield (pos.PutTrade t) (CPosition.PutTrade_ok _ t _ hg0).1
    have hst : ((CDrawDown.run { base := b, m_cfg := cfg } events).ProcessTrade t).m_investors
        t.m_user_id = some (inv.PutTrade
          ((CDrawDown.run { base := b, m_cfg := cfg } events).GetLastPrice t.m_symbol) t) := by
      rw [hinv]
      simp [CDrawDown.ProcessTrade]
      rfl
    rw [hst]
    refine ⟨?_, hy.2.1, hy.1, ?_⟩
    · simp only [Option.some_bind]
      rw [CInvestor.PutTrade_positions_same, ← hpos, if_neg hne]
    · simp only [Option.map_some']
      rw [CInvestor.PutTrade_pnl inv _ t (by rw [← hpos]; exact hne), ← hpos, hy.1]

/-- Witness for C33: after `drawDownEvents3` at the times 1, 2, 3 the investor `U` holds a
position in `X`; the quote `X` at 105 at time 2 makes `UpdatePnL` recompute its yield. -/
theorem C33_yield_recomputed_after_eviction_at_position_price_time_witness :
    (CDrawDown.run {} (drawDownEvents3 1 2 3)).m_investors "U" = some investorAfterEvents3 ∧
    investorAfterEvents3.m_positions "X" = some positionAfterEvents3 ∧
    (investorAfterEvents3.PutQuote quoteX105At2).m_positions "X" =
      some (positionAfterEvents3.PutQuote quoteX105At2).UpdateYield ∧
    (positionAfterEvents3.PutQuote quoteX105At2).UpdateYield.m_yield =
      (positionAfterEvents3.PutQuote quoteX105At2).yield_at
        (positionAfterEvents3.PutQuote quoteX105At2).m_price.2 :=
  have hinv : (CDrawDown.run {} (drawDownEvents3 1 2 3)).m_investors "U"
      = some investorAfterEvents3 := by
    rw [run_drawDownEvents3 1 2 3 (by decide) (by decide)]
    simp [investorAfterEvents3, positionAfterEvents3]
  have hpos : investorAfterEvents3.m_positions "X" = some positionAfterEvents3 := by
    simp [investorAfterEvents3]
  have hc := (C33_yield_recomputed_after_eviction_at_position_price_time {} {}
    (drawDownEvents3 1 2 3)).1 quoteX105At2 "U" investorAfterEvents3 positionAfterEvents3
    hinv hpos
  ⟨hinv, hpos, hc.1, hc.2.2.1⟩

/-- C34 (counterexample): user `U` buys `X` before any quote for `X`: the position of `U` in
`X` carries the last price `(0, epoch)` and the window of pnl highs of `U` is empty. The
first quote for `X` then arrives with a time 5 ns before the epoch, earlier than the time
of the position's last price: it passes `UpdateLastPrice` (no price is stored for `X`), the
position ignores it, and `UpdatePnL` still puts the entry `(0, 0)` into the pnl highs of
the investor. -/
theorem C34_stale_quote_counterexample :
    ((CDrawDown.run {} eventsTradeNoQuote).m_investors "U").map
        (fun inv => ((inv.m_positions "X").map (fun p => p.m_price.2), inv.m_pnl_max.m_items))
      = some (some 0, []) ∧
    quoteXBeforeEpoch.m_time < 0 ∧
    (((CDrawDown.run {} eventsTradeNoQuote).ProcessQuote quoteXBeforeEpoch).m_investors "U").map
        (fun inv => inv.m_pnl_max.m_items) = some [(0, 0)] := by
  refine ⟨rfl, by decide, ?_⟩
  rw [run_eventsTradeNoQuote]
  simp [quoteXBeforeEpoch, CDrawDown.ProcessQuote, CDrawDown.UpdateLastPrice, keyLess_XU,
    CDrawDown.putQuoteAt, CInvestor.PutQuote, CPosition.PutQuote, CPosition.new,
    CInvestor.UpdatePnL, CPosition.UpdateYield, CMovingSum.GetSum, CFramedQueue._EraseExpired,
    CMovingMinMax.GetMax, CMovingMinMax.PutValue, CFramedQueue._PutValue,
    CMovingMinMax.countUp, CPositionYield.GetYield]

/-- C34 (amended): in every state reached from a fresh drawdown rule by sequential
processing, for every investor with a position in `q.symbol`: if `q.time` is earlier than
the time of the position's last price and not before the epoch, the quote `q` is dropped by
`UpdateLastPrice` and leaves the whole rule object, hence that investor's state (positions,
pnl, drawdown, pnl highs and `m_time`), unchanged. -/
theorem C34_stale_quote_not_before_epoch_is_dropped
    (b : COrderCheckRule) (cfg : DrawDownRule.CConfig) (events : List TDrawDownEvent)
    (q : SQuote) (uid : TUserID) (inv : CInvestor) (pos : CPosition)
    (hinv : (CDrawDown.run { base := b, m_cfg := cfg } events).m_investors uid = some inv)
    (hpos : inv.m_positions q.m_symbol = some pos)
    (hstale : q.m_time < pos.m_price.2) (hepoch : 0 ≤ q.m_time) :
    (CDrawDown.run { base := b, m_cfg := cfg } events).ProcessQuote q =
      CDrawDown.run { base := b, m_cfg := cfg } events ∧
    ((CDrawDown.run { base := b, m_cfg := cfg } events).ProcessQuote q).m_investors uid =
      some inv := by
  have hok := CDrawDown.run_posOk events _ (CDrawDown.fresh_posOk b cfg)
  have h0 := (hok uid inv _ pos hinv hpos).2
  have hlt : q.m_time <
      max ((CDrawDown.run { base := b, m_cfg := cfg } events).GetLastPrice q.m_symbol).2 0 :=
    lt_of_lt_of_le hstale h0
  have hT : q.m_time <
      ((CDrawDown.run { base := b, m_cfg := cfg } events).GetLastPrice q.m_symbol).2 := by
    rcases lt_max_iff.mp hlt with h | h
    · exact h
    · exact absurd hepoch (not_le.mpr h)
  have hsame : (CDrawDown.run { base := b, m_cfg := cfg } events).ProcessQuote q =
      CDrawDown.run { base := b, m_cfg := cfg } events := by
    unfold CDrawDown.GetLastPrice at hT
    unfold CDrawDown.ProcessQuote CDrawDown.UpdateLastPrice
    cases hp : (CDrawDown.run { base := b, m_cfg := cfg } events).m_prices q.m_symbol with
    | none =>
      rw [hp] at hT
      exact absurd hepoch (not_le.mpr hT)
    | some p =>
      rw [hp] at hT
      simp only [] at hT
      simp [hT]
  exact ⟨hsame, by rw [hsame]; exact hinv⟩

/-- Witness for C34: after `drawDownEvents3` at the times 1, 2, 3 the position of `U` in `X`
has the last price `(110, 3)`; the quote `X` at 105 at time 2 is dropped. -/
theorem C34_stale_quote_not_before_epoch_is_dropped_witness :
    (CDrawDown.run {} (drawDownEvents3 1 2 3)).m_investors "U" = some investorAfterEvents3 ∧
    investorAfterEvents3.m_positions "X" = some positionAfterEvents3 ∧
    quoteX105At2.m_time < positionAfterEvents3.m_price.2 ∧
    (CDrawDown.run {} (drawDownEvents3 1 2 3)).ProcessQuote quoteX105At2 =
      CDrawDown.run {} (drawDownEvents3 1 2 3) :=
  have hinv : (CDrawDown.run {} (drawDownEvents3 1 2 3)).m_investors "U"
      = some investorAfterEvents3 := by
    rw [run_drawDownEvents3 1 2 3 (by decide) (by decide)]
    simp [investorAfterEvents3, positionAfterEvents3]
  have hpos : investorAfterEvents3.m_positions "X" = some positionAfterEvents3 := by
    simp [investorAfterEvents3]
  have hst : quoteX105At2.m_time < positionAfterEvents3.m_price.2 := by decide
  ⟨hinv, hpos, hst,
    (C34_stale_quote_not_before_epoch_is_dropped {} {} (drawDownEvents3 1 2 3)
      quoteX105At2 "U" investorAfterEvents3 positionAfterEvents3 hinv hpos hst
      (by decide)).1⟩

/-! ## Theorems: exceptions other than rejections -/

theorem forEachLoopEx_lift {α σ : Type} (call : α → σ → σ × Option CCheckOrderError) :
    ∀ (items : List (CWeakRef α)) (s : σ) (calls : List α),
      CCallbackManager.forEachLoopEx
          (fun a s => ((call a s).1, (call a s).2.map TException.CCheckOrderError))
          items s calls =
        ((CCallbackManager.forEachLoop call items s calls).1,
          (CCallbackManager.forEachLoop call items s calls).2.1.map TException.CCheckOrderError,
          (CCallbackManager.forEachLoop call items s calls).2.2) := by
  intro items
  induction items with
  | nil => intro s calls; rfl
  | cons item rest ih =>
    intro s calls
    cases hsp : item.m_sp with
    | none =>
      simp only [CCallbackManager.forEachLoopEx, CCallbackManager.forEachLoop, hsp]
      exact ih s calls
    | some sp =>
      rcases hc : call sp s with ⟨s1, r⟩
      cases r with
      | none =>
        simp only [CCallbackManager.forEachLoopEx, CCallbackManager.forEachLoop, hsp, hc,
          Option.map_none']
        exact ih s1 _
      | some e =>
        simp only [CCallbackManager.forEachLoopEx, CCallbackManager.forEachLoop, hsp, hc,
          Option.map_some']

/-- With the order checks of the rules as handlers, the model with general exceptions is
the model of `ProcessMessage<SOrder>`: no exception leaves the function. -/
theorem ProcessMessageWith_invokeOrder (Parse : CMessage → SOrder) (now : TDateTime)
    (fmt : TFormatArg → String) (rm : CRiskManager) (trans : CTransport) (msg : CMessage) :
    rm.ProcessMessageWith Parse now fmt CRiskManager.invokeOrderEx trans msg =
      ((rm.ProcessMessage_SOrder Parse now fmt trans msg).1,
        (rm.ProcessMessage_SOrder Parse now fmt trans msg).2, none) := by
  have hp : (rm.GetInvestor (Parse msg).m_user_id).PutObjectWith
      (CRiskManager.invokeOrderEx (Parse msg)) =
      (((rm.GetInvestor (Parse msg).m_user_id).PutObject_SOrder (Parse msg)).1,
        ((rm.GetInvestor (Parse msg).m_user_id).PutObject_SOrder (Parse msg)).2.1.map
          TException.CCheckOrderError,
        ((rm.GetInvestor (Parse msg).m_user_id).PutObject_SOrder (Parse msg)).2.2) :=
    forEachLoopEx_lift (CRiskManager.invokeOrder (Parse msg)) _ _ _
  unfold CRiskManager.ProcessMessageWith CRiskManager.ProcessMessage_SOrder
  simp only []
  rw [hp]
  rcases (rm.GetInvestor (Parse msg).m_user_id).PutObject_SOrder (Parse msg) with
    ⟨rm2, thrown, calls⟩
  cases thrown <;> rfl

theorem PutObjectWith_badAlloc (o : SOrder) (inv : TUserID → Option TDateTime) :
    (mainRiskManagerWith {} {} {} {} inv).PutObjectWith (invokeOrderBadAlloc o) =
      (mainRiskManagerWith (({} : CNewOrderMoratorium).CheckOrder o).1 {} {} {} inv,
        some (TException.other "std::bad_alloc"), [{ rule := 0 }, { rule := 1 }]) := by
  have h1 : (mainRiskManagerWith {} {} {} {} inv).m_orders._GetCallbacks =
      ((mainRiskManagerWith {} {} {} {} inv).m_orders,
        [{ m_sp := some { rule := 0 } }, { m_sp := some { rule := 1 } },
         { m_sp := some { rule := 2 } }, { m_sp := some { rule := 3 } }]) := by
    have h : (mainRiskManagerWith {} {} {} {} inv).m_orders.m_items =
        [some { m_sp := some { rule := 0 } }, some { m_sp := some { rule := 1 } },
         some { m_sp := some { rule := 2 } }, some { m_sp := some { rule := 3 } }] :=
      mainRiskManager_orders
    rcases hm : (mainRiskManagerWith {} {} {} {} inv).m_orders with ⟨items⟩
    rw [hm] at h
    simp only [] at h
    subst h
    simp [CCallbackManager._GetCallbacks]
  have h0 : invokeOrderBadAlloc o { rule := 0 } (mainRiskManagerWith {} {} {} {} inv) =
      (mainRiskManagerWith (({} : CNewOrderMoratorium).CheckOrder o).1 {} {} {} inv, none) := by
    have hacc : (({} : CNewOrderMoratorium).CheckOrder o).2 = none := by
      simp [CNewOrderMoratorium.CheckOrder]
    simp only [invokeOrderBadAlloc, CRiskManager.invokeOrderEx,
      (invokeOrder_main {} {} {} {} inv o).1, hacc]
    rfl
  simp only [CRiskManager.PutObjectWith, h1, CCallbackManager.forEachLoopEx, h0]
  rfl

/-- C32 (counterexample): on the engine of `main`, when the order handler of the second rule
raises `std::bad_alloc` (not a `CCheckOrderError`), `ProcessMessage<SOrder>` sends nothing,
neither the original attributes nor a reject: the exception leaves the function, after the
first handler has run and before the third and fourth are invoked. -/
theorem C32_other_exception_counterexample :
    (mainRiskManager.ProcessMessageWith (fun _ => orderMarketUX) 0 (fun _ => "")
        invokeOrderBadAlloc {} { m_attrs := attrsOrderUX }).2.1.sent = [] ∧
    (mainRiskManager.ProcessMessageWith (fun _ => orderMarketUX) 0 (fun _ => "")
        invokeOrderBadAlloc {} { m_attrs := attrsOrderUX }).2.2 =
      some (TException.other "std::bad_alloc") ∧
    ((mainRiskManager.GetInvestor "U").PutObjectWith (invokeOrderBadAlloc orderMarketUX)).2.2 =
      [{ rule := 0 }, { rule := 1 }] := by
  have hg : mainRiskManager.GetInvestor orderMarketUX.m_user_id =
      mainRiskManagerWith {} {} {} {}
        (Function.update (fun _ => none) "U" (some TDateTime.min)) :=
    mainRiskManager_GetInvestor "U"
  have hg2 : mainRiskManager.GetInvestor "U" =
      mainRiskManagerWith {} {} {} {}
        (Function.update (fun _ => none) "U" (some TDateTime.min)) :=
    mainRiskManager_GetInvestor "U"
  refine ⟨?_, ?_, ?_⟩
  · unfold CRiskManager.ProcessMessageWith
    simp only []
    rw [hg, PutObjectWith_badAlloc]
  · unfold CRiskManager.ProcessMessageWith
    simp only []
    rw [hg, PutObjectWith_badAlloc]
  · rw [hg2, PutObjectWith_badAlloc]

/-- A part of the loop of `ForEachCallback2` that ends without an exception: the loop over
the whole list goes on from where that part ended. -/
theorem forEachLoopEx_append {α σ : Type} (call : α → σ → σ × Option TException)
    (rest : List (CWeakRef α)) :
    ∀ (pre : List (CWeakRef α)) (s : σ) (calls : List α) (s1 : σ) (calls1 : List α),
      CCallbackManager.forEachLoopEx call pre s calls = (s1, none, calls1) →
      CCallbackManager.forEachLoopEx call (pre ++ rest) s calls =
        CCallbackManager.forEachLoopEx call rest s1 calls1 := by
  intro pre
  induction pre with
  | nil =>
    intro s calls s1 calls1 h
    simp only [CCallbackManager.forEachLoopEx, Prod.mk.injEq, true_and] at h
    obtain ⟨h1, h2⟩ := h
    subst h1
    subst h2
    rfl
  | cons item pre ih =>
    intro s calls s1 calls1 h
    cases hsp : item.m_sp with
    | none =>
      simp only [CCallbackManager.forEachLoopEx, hsp, List.cons_append] at h ⊢
      exact ih s calls s1 calls1 h
    | some sp =>
      rcases hc : call sp s with ⟨s2, r⟩
      cases r with
      | some ex =>
        simp only [CCallbackManager.forEachLoopEx, hsp, hc, Prod.mk.injEq] at h
        exact absurd h.2.1 (by simp)
      | none =>
        simp only [CCallbackManager.forEachLoopEx, hsp, hc, List.cons_append] at h ⊢
        exact ih s2 _ s1 calls1 h

/-- A part of the loop that ends without an exception has invoked every handler of that
part that is alive, once each and in order. -/
theorem forEachLoopEx_calls {α σ : Type} (call : α → σ → σ × Option TException) :
    ∀ (pre : List (CWeakRef α)) (s : σ) (calls : List α) (s1 : σ) (calls1 : List α),
      CCallbackManager.forEachLoopEx call pre s calls = (s1, none, calls1) →
      calls1 = calls ++ pre.filterMap (fun item => item.m_sp) := by
  intro pre
  induction pre with
  | nil =>
    intro s calls s1 calls1 h
    simp only [CCallbackManager.forEachLoopEx, Prod.mk.injEq, true_and] at h
    simp [h.2]
  | cons item pre ih =>
    intro s calls s1 calls1 h
    cases hsp : item.m_sp with
    | none =>
      simp only [CCallbackManager.forEachLoopEx, hsp] at h
      rw [ih s calls s1 calls1 h]
      simp [hsp]
    | some sp =>
      rcases hc : call sp s with ⟨s2, r⟩
      cases r with
      | some ex =>
        simp only [CCallbackManager.forEachLoopEx, hsp, hc, Prod.mk.injEq] at h
        exact absurd h.2.1 (by simp)
      | none =>
        simp only [CCallbackManager.forEachLoopEx, hsp, hc] at h
        rw [ih s2 _ s1 calls1 h]
        simp [hsp]

/-- The handler that raises ends the loop: the handlers after it are not invoked. -/
theorem forEachLoopEx_raise {α σ : Type} (call : α → σ → σ × Option TException)
    (item : CWeakRef α) (post : List (CWeakRef α)) (s s2 : σ) (calls : List α) (sp : α)
    (ex : TException) (hsp : item.m_sp = some sp) (hc : call sp s = (s2, some ex)) :
    CCallbackManager.forEachLoopEx call (item :: post) s calls = (s2, some ex, calls ++ [sp]) := by
  simp only [CCallbackManager.forEachLoopEx, hsp, hc]

/-- The loop of `PutObject<SOrder>` in which the handlers of `pre` raise nothing and the
handler of `item`, the next in the snapshot, raises `ex`: the exception leaves the loop with
the engine as the raising handler left it, and exactly the live handlers of `pre` and the
raising one were invoked; no handler of `post` was. -/
theorem PutObjectWith_raise (call : TCallback → CRiskManager → CRiskManager × Option TException)
    (rm1 : CRiskManager) (pre post : List (CWeakRef TCallback)) (item : CWeakRef TCallback)
    (sp : TCallback) (s1 s2 : CRiskManager) (calls1 : List TCallback) (ex : TException)
    (hsnap : rm1.m_orders._GetCallbacks.2 = pre ++ item :: post)
    (hpre : CCallbackManager.forEachLoopEx call pre
      { rm1 with m_orders := rm1.m_orders._GetCallbacks.1 } [] = (s1, none, calls1))
    (hsp : item.m_sp = some sp) (hraise : call sp s1 = (s2, some ex)) :
    rm1.PutObjectWith call =
      (s2, some ex, pre.filterMap (fun item => item.m_sp) ++ [sp]) := by
  unfold CRiskManager.PutObjectWith
  simp only []
  rw [hsnap, forEachLoopEx_append call (item :: post) pre _ [] s1 calls1 hpre,
    forEachLoopEx_raise call item post s1 s2 calls1 sp ex hsp hraise,
    forEachLoopEx_calls call pre _ [] s1 calls1 hpre]
  simp

theorem mainRiskManagerWith_GetCallbacks (a : CNewOrderMoratorium) (b : CPriceCheck)
    (c : CSeqBadTrades) (d : CDrawDown) (inv : TUserID → Option TDateTime) :
    (mainRiskManagerWith a b c d inv).m_orders._GetCallbacks =
      ((mainRiskManagerWith a b c d inv).m_orders,
        [{ m_sp := some { rule := 0 } }, { m_sp := some { rule := 1 } },
         { m_sp := some { rule := 2 } }, { m_sp := some { rule := 3 } }]) := by
  have h : (mainRiskManagerWith a b c d inv).m_orders.m_items =
      [some { m_sp := some { rule := 0 } }, some { m_sp := some { rule := 1 } },
       some { m_sp := some { rule := 2 } }, some { m_sp := some { rule := 3 } }] :=
    mainRiskManager_orders
  rcases hm : (mainRiskManagerWith a b c d inv).m_orders with ⟨items⟩
  rw [hm] at h
  simp only [] at h
  subst h
  simp [CCallbackManager._GetCallbacks]

/-- C32 (amended): if an order check raises an exception that is not a `CCheckOrderError`,
`ProcessMessage<SOrder>` sends no response for the order. For every engine, every handlers
and every snapshot `pre ++ item :: post` of the registered order handlers: when the
handlers of `pre` raise nothing and the handler of `item` then raises an exception other
than a rejection, the transport is left as it was (neither the original attributes nor a
reject is sent), the exception leaves the function, the engine is as the raising handler
left it (the per-user record is not written), and the handlers invoked are exactly the live
ones of `pre`, in order, and the raising one: the checks registered after it are not
invoked. -/
theorem C32_other_exception_leaves_without_response (Parse : CMessage → SOrder)
    (now : TDateTime) (fmt : TFormatArg → String)
    (call : SOrder → TCallback → CRiskManager → CRiskManager × Option TException)
    (rm : CRiskManager) (trans : CTransport) (msg : CMessage)
    (pre post : List (CWeakRef TCallback)) (item : CWeakRef TCallback) (sp : TCallback)
    (s1 s2 : CRiskManager) (calls1 : List TCallback) (what : String)
    (hsnap : (rm.GetInvestor (Parse msg).m_user_id).m_orders._GetCallbacks.2 =
      pre ++ item :: post)
    (hpre : CCallbackManager.forEachLoopEx (call (Parse msg)) pre
      { rm.GetInvestor (Parse msg).m_user_id with
        m_orders := (rm.GetInvestor (Parse msg).m_user_id).m_orders._GetCallbacks.1 } [] =
      (s1, none, calls1))
    (hsp : item.m_sp = some sp)
    (hraise : call (Parse msg) sp s1 = (s2, some (TException.other what))) :
    (rm.ProcessMessageWith Parse now fmt call trans msg).2.1 = trans ∧
    (rm.ProcessMessageWith Parse now fmt call trans msg).2.2 = some (TException.other what) ∧
    (rm.ProcessMessageWith Parse now fmt call trans msg).1 = s2 ∧
    ((rm.GetInvestor (Parse msg).m_user_id).PutObjectWith (call (Parse msg))).2.2 =
      pre.filterMap (fun item => item.m_sp) ++ [sp] ∧
    ((rm.GetInvestor (Parse msg).m_user_id).PutObjectWith (call (Parse msg))).2.2.length =
      (pre.filterMap (fun item => item.m_sp)).length + 1 := by
  have hp := PutObjectWith_raise (call (Parse msg)) (rm.GetInvestor (Parse msg).m_user_id)
    pre post item sp s1 s2 calls1 (TException.other what) hsnap hpre hsp hraise
  refine ⟨?_, ?_, ?_, by rw [hp], by rw [hp]; simp⟩
  · simp [CRiskManager.ProcessMessageWith, hp]
  · simp [CRiskManager.ProcessMessageWith, hp]
  · simp [CRiskManager.ProcessMessageWith, hp]

/-- Witness for C32: the engine of `main` with the second order handler raising
`std::bad_alloc`: the first handler (the moratorium check) accepts, the third and fourth
follow the raising one in the snapshot and are not invoked. -/
theorem C32_other_exception_leaves_without_response_witness :
    (mainRiskManager.ProcessMessageWith (fun _ => orderMarketUX) 0 (fun _ => "")
        invokeOrderBadAlloc {} { m_attrs := attrsOrderUX }).2.1 = {} ∧
    (mainRiskManager.ProcessMessageWith (fun _ => orderMarketUX) 0 (fun _ => "")
        invokeOrderBadAlloc {} { m_attrs := attrsOrderUX }).2.2 =
      some (TException.other "std::bad_alloc") ∧
    ((mainRiskManager.GetInvestor "U").PutObjectWith (invokeOrderBadAlloc orderMarketUX)).2.2 =
      [{ rule := 0 }, { rule := 1 }] :=
  have hg : mainRiskManager.GetInvestor "U" =
      mainRiskManagerWith {} {} {} {}
        (Function.update (fun _ => none) "U" (some TDateTime.min)) :=
    mainRiskManager_GetInvestor "U"
  have h0 : invokeOrderBadAlloc orderMarketUX { rule := 0 }
      (mainRiskManagerWith {} {} {} {}
        (Function.update (fun _ => none) "U" (some TDateTime.min))) =
      (mainRiskManagerWith (({} : CNewOrderMoratorium).CheckOrder orderMarketUX).1 {} {} {}
        (Function.update (fun _ => none) "U" (some TDateTime.min)), none) := rfl
  have h := C32_other_exception_leaves_without_response (fun _ => orderMarketUX) 0
    (fun _ => "") invokeOrderBadAlloc mainRiskManager {} { m_attrs := attrsOrderUX }
    [{ m_sp := some { rule := 0 } }]
    [{ m_sp := some { rule := 2 } }, { m_sp := some { rule := 3 } }]
    { m_sp := some { rule := 1 } } { rule := 1 }
    (mainRiskManagerWith (({} : CNewOrderMoratorium).CheckOrder orderMarketUX).1 {} {} {}
      (Function.update (fun _ => none) "U" (some TDateTime.min)))
    (mainRiskManagerWith (({} : CNewOrderMoratorium).CheckOrder orderMarketUX).1 {} {} {}
      (Function.update (fun _ => none) "U" (some TDateTime.min)))
    [{ rule := 0 }] "std::bad_alloc"
    (by
      show (mainRiskManager.GetInvestor "U").m_orders._GetCallbacks.2 = _
      rw [hg, mainRiskManagerWith_GetCallbacks]
      rfl)
    (by
      show CCallbackManager.forEachLoopEx (invokeOrderBadAlloc orderMarketUX) _
        { mainRiskManager.GetInvestor "U" with
          m_orders := (mainRiskManager.GetInvestor "U").m_orders._GetCallbacks.1 } [] = _
      rw [hg, mainRiskManagerWith_GetCallbacks]
      simp only [CCallbackManager.forEachLoopEx]
      have h0' : invokeOrderBadAlloc orderMarketUX { rule := 0 }
          { mainRiskManagerWith {} {} {} {}
              (Function.update (fun _ => none) "U" (some TDateTime.min)) with
            m_orders := (mainRiskManagerWith {} {} {} {}
              (Function.update (fun _ => none) "U" (some TDateTime.min))).m_orders } =
          (mainRiskManagerWith (({} : CNewOrderMoratorium).CheckOrder orderMarketUX).1 {} {} {}
            (Function.update (fun _ => none) "U" (some TDateTime.min)), none) := h0
      rw [h0']
      rfl)
    rfl rfl
  ⟨h.1, h.2.1, h.2.2.2.1⟩

/-! ## Theorems: the callback registry -/

theorem filter_isSome_filterMap {γ : Type} (l : List (Option γ)) :
    (l.filter Option.isSome).filterMap id = l.filterMap id ∧
    l.filter Option.isSome = (l.filterMap id).map some := by
  induction l with
  | nil => exact ⟨rfl, rfl⟩
  | cons e rest ih =>
    cases e with
    | none => simpa using ih
    | some x => simpa using ih

theorem resetCallback_filterMap {β : Type} (rid : Nat) :
    ∀ (items : List (Option (CWeakRef (CCallback β)))) (live : List (CCallback β)),
      items.filterMap id = live.map (fun h => ({ m_sp := some h } : CWeakRef (CCallback β))) →
      (CCallbackManager.resetCallback { m_items := items } rid).m_items.filterMap id =
        (live.filter (fun h => !decide (h.id = rid))).map
          (fun h => ({ m_sp := some h } : CWeakRef (CCallback β))) := by
  intro items
  induction items with
  | nil =>
    intro live h
    cases live with
    | nil => rfl
    | cons x xs => simp at h
  | cons e rest ih =>
    intro live h
    cases e with
    | none =>
      have h1 : rest.filterMap id
          = live.map (fun h => ({ m_sp := some h } : CWeakRef (CCallback β))) := by
        simpa using h
      have := ih live h1
      simpa [CCallbackManager.resetCallback] using this
    | some w =>
      cases live with
      | nil => simp at h
      | cons x xs =>
        simp only [List.filterMap_cons, id, List.map_cons, List.cons.injEq] at h
        obtain ⟨hw, hrest⟩ := h
        have hk := ih xs hrest
        simp only [CCallbackManager.resetCallback] at hk ⊢
        subst hw
        by_cases hid : x.id = rid
        · simp [hid, hk]
        · simp [hid, hk]

/-- The registry `st` holds, as its entries that are not expired, exactly the handles `lv`,
in order; both count the same number of registrations, every handle was created by one of
them and the identities increase along the list. -/
theorem CCallbackManager.step_live {β : Type} (st : CCallbackManager (CCallback β) × Nat)
    (lv : List (CCallback β) × Nat) (op : TCallbackOp β)
    (h : st.2 = lv.2 ∧
      st.1.m_items.filterMap id =
        lv.1.map (fun h => ({ m_sp := some h } : CWeakRef (CCallback β))) ∧
      (∀ x ∈ lv.1, x.id < lv.2) ∧ (lv.1.map (fun x => x.id)).Pairwise (fun a b => a < b)) :
    (CCallbackManager.step st op).2 = (liveStep lv op).2 ∧
    (CCallbackManager.step st op).1.m_items.filterMap id =
      (liveStep lv op).1.map (fun h => ({ m_sp := some h } : CWeakRef (CCallback β))) ∧
    (∀ x ∈ (liveStep lv op).1, x.id < (liveStep lv op).2) ∧
    ((liveStep lv op).1.map (fun x => x.id)).Pairwise (fun a b => a < b) := by
  obtain ⟨h1, h2, h3, h4⟩ := h
  cases op with
  | Register body =>
    refine ⟨by simp [CCallbackManager.step, liveStep, h1], ?_, ?_, ?_⟩
    · simp [CCallbackManager.step, liveStep, CCallbackManager.RegisterCallback, h1, h2]
    · intro x hx
      simp only [liveStep, List.mem_append, List.mem_singleton] at hx ⊢
      rcases hx with hx | hx
      · exact Nat.lt_succ_of_lt (h3 x hx)
      · rw [hx]; exact Nat.lt_succ_self _
    · simp only [liveStep, List.map_append, List.map_cons, List.map_nil]
      refine List.pairwise_append.mpr ⟨h4, List.pairwise_singleton _ _, ?_⟩
      intro a ha b hb
      rw [List.mem_singleton.mp hb]
      obtain ⟨x, hx, hxa⟩ := List.mem_map.mp ha
      rw [← hxa]
      exact h3 x hx
  | Reset rid =>
    refine ⟨h1, ?_, ?_, ?_⟩
    · exact resetCallback_filterMap rid st.1.m_items lv.1 h2
    · intro x hx
      exact h3 x (List.mem_of_mem_filter hx)
    · exact List.Pairwise.sublist ((List.filter_sublist _).map _) h4
  | ForEach =>
    refine ⟨h1, ?_, h3, h4⟩
    simp only [CCallbackManager.step, CCallbackManager._GetCallbacks, liveStep]
    rw [(filter_isSome_filterMap st.1.m_items).1]
    exact h2

theorem CCallbackManager.foldl_live {β : Type} (ops : List (TCallbackOp β)) :
    ∀ (st : CCallbackManager (CCallback β) × Nat) (lv : List (CCallback β) × Nat),
      (st.2 = lv.2 ∧
        st.1.m_items.filterMap id =
          lv.1.map (fun h => ({ m_sp := some h } : CWeakRef (CCallback β))) ∧
        (∀ x ∈ lv.1, x.id < lv.2) ∧
        (lv.1.map (fun x => x.id)).Pairwise (fun a b => a < b)) →
      (ops.foldl CCallbackManager.step st).2 = (ops.foldl liveStep lv).2 ∧
      (ops.foldl CCallbackManager.step st).1.m_items.filterMap id =
        (ops.foldl liveStep lv).1.map
          (fun h => ({ m_sp := some h } : CWeakRef (CCallback β))) ∧
      ((ops.foldl liveStep lv).1.map (fun x => x.id)).Pairwise (fun a b => a < b) := by
  induction ops with
  | nil => intro st lv h; exact ⟨h.1, h.2.1, h.2.2.2⟩
  | cons op rest ih =>
    intro st lv h
    exact ih _ _ (CCallbackManager.step_live st lv op h)

/-- A handle that was dropped stays out of the live handles: later registrations create
handles with greater identities. -/
theorem foldl_liveStep_dropped {β : Type} (rid : Nat) (ops : List (TCallbackOp β)) :
    ∀ st : List (CCallback β) × Nat, ((∀ x ∈ st.1, x.id ≠ rid) ∧ rid < st.2) →
      ∀ x ∈ (ops.foldl liveStep st).1, x.id ≠ rid := by
  induction ops with
  | nil => intro st h; exact h.1
  | cons op rest ih =>
    intro st h
    apply ih
    cases op with
    | Register body =>
      refine ⟨?_, Nat.lt_succ_of_lt h.2⟩
      intro x hx
      simp only [liveStep, List.mem_append, List.mem_singleton] at hx
      rcases hx with hx | hx
      · exact h.1 x hx
      · rw [hx]; exact Nat.ne_of_gt h.2
    | Reset id2 => exact ⟨fun x hx => h.1 x (List.mem_of_mem_filter hx), h.2⟩
    | ForEach => exact h

theorem forEachLoop_live {β σ : Type} (call : CCallback β → σ → σ × Option CCheckOrderError) :
    ∀ (l : List (CCallback β)) (s : σ) (calls : List (CCallback β)),
      (∃ pre, pre <+: l ∧
        (CCallbackManager.forEachLoop call
          (l.map (fun h => ({ m_sp := some h } : CWeakRef (CCallback β)))) s calls).2.2
          = calls ++ pre) ∧
      ((CCallbackManager.forEachLoop call
          (l.map (fun h => ({ m_sp := some h } : CWeakRef (CCallback β)))) s calls).2.1 = none →
        (CCallbackManager.forEachLoop call
          (l.map (fun h => ({ m_sp := some h } : CWeakRef (CCallback β)))) s calls).2.2
          = calls ++ l) := by
  intro l
  induction l with
  | nil =>
    intro s calls
    exact ⟨⟨[], List.prefix_refl _, by simp [CCallbackManager.forEachLoop]⟩,
      fun _ => by simp [CCallbackManager.forEachLoop]⟩
  | cons x xs ih =>
    intro s calls
    rcases hc : call x s with ⟨s1, r⟩
    cases r with
    | some e =>
      simp only [List.map_cons, CCallbackManager.forEachLoop, hc]
      exact ⟨⟨[x], by simp, rfl⟩, fun h => by simp at h⟩
    | none =>
      simp only [List.map_cons, CCallbackManager.forEachLoop, hc]
      obtain ⟨⟨pre, hpre, he⟩, hall⟩ := ih s1 (calls ++ [x])
      refine ⟨⟨x :: pre, ?_, by rw [he]; simp⟩, fun h => by rw [hall h]; simp⟩
      exact (List.prefix_cons_inj x).mpr hpre

/-- C31: for every sequence of registrations, handle drops and fan-outs on a new registry,
the next fan-out (`ForEachCallback2`) snapshots exactly the handles that are still alive, in
registration order and each once (their identities increase strictly), and leaves in the
registry list exactly their entries, none expired. The handlers it invokes are a prefix of
the live handles, in that order; when no handler raises an exception every live handler is
invoked exactly once. A handle that was dropped or reset at some point of the sequence is
not among the live handles, so it is never invoked. -/
theorem C31_fanout_invokes_live_handlers_in_order {β σ : Type} (ops : List (TCallbackOp β))
    (call : CCallback β → σ → σ × Option CCheckOrderError) (s : σ) :
    (CCallbackManager.run ops).1._GetCallbacks.2 =
      (liveHandles ops).map (fun h => ({ m_sp := some h } : CWeakRef (CCallback β))) ∧
    (CCallbackManager.run ops).1._GetCallbacks.1.m_items =
      (liveHandles ops).map (fun h => some ({ m_sp := some h } : CWeakRef (CCallback β))) ∧
    ((liveHandles ops).map (fun x => x.id)).Pairwise (fun a b => a < b) ∧
    (CCallbackManager.forEachLoop call (CCallbackManager.run ops).1._GetCallbacks.2 s []).2.2
      <+: liveHandles ops ∧
    ((CCallbackManager.forEachLoop call (CCallbackManager.run ops).1._GetCallbacks.2 s []).2.1
        = none →
      (CCallbackManager.forEachLoop call (CCallbackManager.run ops).1._GetCallbacks.2
        s []).2.2 = liveHandles ops) ∧
    (∀ (ops1 ops2 : List (TCallbackOp β)) (rid : Nat),
      ops = ops1 ++ TCallbackOp.Reset rid :: ops2 → rid < (CCallbackManager.run ops1).2 →
      ∀ h ∈ (CCallbackManager.forEachLoop call (CCallbackManager.run ops).1._GetCallbacks.2
        s []).2.2, h.id ≠ rid) := by
  have hinv := CCallbackManager.foldl_live ops (({} : CCallbackManager (CCallback β)), 0)
    (([] : List (CCallback β)), 0)
    ⟨rfl, rfl, fun x hx => absurd hx (List.not_mem_nil _), List.Pairwise.nil⟩
  have hsnap : (CCallbackManager.run ops).1._GetCallbacks.2 =
      (liveHandles ops).map (fun h => ({ m_sp := some h } : CWeakRef (CCallback β))) :=
    hinv.2.1
  have hloop := forEachLoop_live call (liveHandles ops) s []
  have hpre : (CCallbackManager.forEachLoop call (CCallbackManager.run ops).1._GetCallbacks.2
      s []).2.2 <+: liveHandles ops := by
    rw [hsnap]
    obtain ⟨pre, hpre, he⟩ := hloop.1
    rw [he]
    simpa using hpre
  refine ⟨hsnap, ?_, hinv.2.2, hpre, ?_, ?_⟩
  · show (CCallbackManager.run ops).1.m_items.filter Option.isSome = _
    rw [(filter_isSome_filterMap _).2]
    have h1 : (CCallbackManager.run ops).1.m_items.filterMap id =
        (liveHandles ops).map (fun h => ({ m_sp := some h } : CWeakRef (CCallback β))) :=
      hinv.2.1
    rw [h1, List.map_map]
    rfl
  · intro h
    rw [hsnap] at h ⊢
    have := hloop.2 h
    simpa using this
  · intro ops1 ops2 rid hops hrid h hh
    have hmem : h ∈ liveHandles ops := hpre.subset hh
    have hinv1 := CCallbackManager.foldl_live ops1 (({} : CCallbackManager (CCallback β)), 0)
      (([] : List (CCallback β)), 0)
      ⟨rfl, rfl, fun x hx => absurd hx (List.not_mem_nil _), List.Pairwise.nil⟩
    have hcount : rid < (ops1.foldl liveStep ([], 0)).2 := by
      rw [← hinv1.1]; exact hrid
    rw [hops] at hmem
    unfold liveHandles at hmem
    rw [List.foldl_append, List.foldl_cons] at hmem
    refine foldl_liveStep_dropped rid ops2
      (liveStep (ops1.foldl liveStep ([], 0)) (TCallbackOp.Reset rid)) ⟨?_, hcount⟩ h hmem
    intro x hx
    simp only [liveStep, List.mem_filter, Bool.not_eq_true', decide_eq_false_iff_not] at hx
    exact hx.2

/-- Witness for C31: three registrations, the drop of the second handle, a fan-out and a
fourth registration; the handlers append their bodies to a log and raise nothing. The
fan-out invokes `a`, `c`, `d`, in that order. -/
theorem C31_fanout_invokes_live_handlers_in_order_witness :
    (CCallbackManager.forEachLoop
        (fun (h : CCallback String) (log : List String) => (log ++ [h.body], none))
        (CCallbackManager.run callbackOpsExample).1._GetCallbacks.2 [] []).2.1 = none ∧
    (CCallbackManager.forEachLoop
        (fun (h : CCallback String) (log : List String) => (log ++ [h.body], none))
        (CCallbackManager.run callbackOpsExample).1._GetCallbacks.2 [] []).2.2
      = liveHandles callbackOpsExample ∧
    (liveHandles callbackOpsExample).map (fun h => h.body) = ["a", "c", "d"] ∧
    (CCallbackManager.forEachLoop
        (fun (h : CCallback String) (log : List String) => (log ++ [h.body], none))
        (CCallbackManager.run callbackOpsExample).1._GetCallbacks.2 [] []).1
      = ["a", "c", "d"] :=
  have h : (CCallbackManager.forEachLoop
      (fun (h : CCallback String) (log : List String) => (log ++ [h.body], none))
      (CCallbackManager.run callbackOpsExample).1._GetCallbacks.2 [] []).2.1 = none := rfl
  ⟨h, (C31_fanout_invokes_live_handlers_in_order callbackOpsExample
      (fun (h : CCallback String) (log : List String) => (log ++ [h.body], none)) []).2.2.2.2.1
      h,
    rfl, rfl⟩

/-! ## Lemmas: the key=value parser on input that arrives in chunks -/

/-- One iteration of the loop of `DoParse`, written with `callFn`. -/
theorem parseLoop_succ (delim fin : Char) (n : Nat) (S : CKeyValueParser) (c : Char)
    (cs : List Char) (out : List TAttrs) :
    CKeyValueParser.parseLoop delim fin (n + 1) S (c :: cs) out =
      match (CKeyValueParser.callFn delim fin S (c :: cs)).2 with
      | [] => ((CKeyValueParser.callFn delim fin S (c :: cs)).1, c :: cs, out)
      | ch :: rest =>
        if ch = fin then
          CKeyValueParser.parseLoop delim fin n
            { (CKeyValueParser.callFn delim fin S (c :: cs)).1 with
              m_res := [], m_ln := 0, m_fn := TParseFn._ParseKey } rest
            (out ++ [(CKeyValueParser.callFn delim fin S (c :: cs)).1.m_res])
        else
          CKeyValueParser.parseLoop delim fin n (CKeyValueParser.callFn delim fin S (c :: cs)).1
            rest out := rfl

theorem scanTo_nostop (stop : Char → Bool) :
    ∀ d : List Char, (CKeyValueParser.scanTo stop d).2 = [] ↔ ∀ c ∈ d, stop c = false := by
  intro d
  induction d with
  | nil => simp [CKeyValueParser.scanTo]
  | cons c cs ih =>
    unfold CKeyValueParser.scanTo
    by_cases hc : stop c = true
    · simp [hc]
    · have hc2 : stop c = false := by simpa using hc
      simp [hc2, ih]

theorem scanTo_split (stop : Char → Bool) :
    ∀ (d : List Char) (ch : Char) (rest : List Char),
      (CKeyValueParser.scanTo stop d).2 = ch :: rest →
      d = (CKeyValueParser.scanTo stop d).1 ++ ch :: rest ∧ stop ch = true ∧
      ∀ c ∈ (CKeyValueParser.scanTo stop d).1, stop c = false := by
  intro d
  induction d with
  | nil => intro ch rest h; simp [CKeyValueParser.scanTo] at h
  | cons c cs ih =>
    intro ch rest h
    unfold CKeyValueParser.scanTo at h ⊢
    by_cases hc : stop c = true
    · simp only [hc, if_true] at h ⊢
      obtain ⟨h1, h2⟩ := List.cons.inj h
      subst h1
      subst h2
      exact ⟨rfl, hc, fun x hx => absurd hx (List.not_mem_nil _)⟩
    · have hc2 : stop c = false := by simpa using hc
      simp only [hc2] at h ⊢
      obtain ⟨e1, e2, e3⟩ := ih ch rest h
      refine ⟨?_, e2, ?_⟩
      · show c :: cs = (c :: (CKeyValueParser.scanTo stop cs).1) ++ ch :: rest
        rw [List.cons_append, ← e1]
      · intro x hx
        rcases List.mem_cons.mp hx with hx | hx
        · rw [hx]; exact hc2
        · exact e3 x hx

/-- A scan that stops at a byte of `d` is not changed by bytes that follow `d`. -/
theorem scanTo_append_right (stop : Char → Bool) (d e : List Char) (ch : Char)
    (rest : List Char) (h : (CKeyValueParser.scanTo stop d).2 = ch :: rest) :
    CKeyValueParser.scanTo stop (d ++ e) =
      ((CKeyValueParser.scanTo stop d).1, ch :: (rest ++ e)) := by
  obtain ⟨e1, e2, e3⟩ := scanTo_split stop d ch rest h
  have := scanTo_append stop ch (rest ++ e) e2 (CKeyValueParser.scanTo stop d).1 e3
  rw [← this]
  congr 1
  conv_lhs => rw [e1]
  simp

/-- A scan over bytes `l` without a stop byte, followed by `d`, is the scan of `d` with `l`
put before the bytes passed over. -/
theorem scanTo_append_left (stop : Char → Bool) (l d : List Char)
    (hl : ∀ c ∈ l, stop c = false) :
    CKeyValueParser.scanTo stop (l ++ d) =
      (l ++ (CKeyValueParser.scanTo stop d).1, (CKeyValueParser.scanTo stop d).2) := by
  induction l with
  | nil => rfl
  | cons c cs ih =>
    have hc : stop c = false := hl c (List.mem_cons_self _ _)
    have hcs := ih (fun x hx => hl x (List.mem_cons_of_mem _ hx))
    simp [CKeyValueParser.scanTo, hc, hcs]

theorem callFn_nostop (delim fin : Char) (S : CKeyValueParser) (d : List Char)
    (h : (CKeyValueParser.callFn delim fin S d).2 = []) :
    (CKeyValueParser.callFn delim fin S d).1 = S := by
  unfold CKeyValueParser.callFn at h ⊢
  cases hfn : S.m_fn with
  | _ParseKey =>
    simp only [hfn] at h ⊢
    unfold CKeyValueParser._ParseKey at h ⊢
    rcases hs : CKeyValueParser.scanTo (fun ch => ch = '=' || ch = delim || ch = fin) d with
      ⟨item, r⟩
    rw [hs] at h
    cases r with
    | nil => rfl
    | cons ch rest =>
      simp only [] at h
      split_ifs at h
  | _ParseValue =>
    simp only [hfn] at h ⊢
    unfold CKeyValueParser._ParseValue at h ⊢
    rcases hs : CKeyValueParser.scanTo (fun ch => ch = delim || ch = fin) d with ⟨item, r⟩
    rw [hs] at h
    cases r with
    | nil => rfl
    | cons ch rest => simp at h

/-- The stop bytes of the scan that `m_fn` runs. -/
theorem callFn_snd (delim fin : Char) (S : CKeyValueParser) (d : List Char) :
    (CKeyValueParser.callFn delim fin S d).2 =
      (CKeyValueParser.scanTo
        (match S.m_fn with
         | TParseFn._ParseKey => fun ch => ch = '=' || ch = delim || ch = fin
         | TParseFn._ParseValue => fun ch => ch = delim || ch = fin) d).2 := by
  unfold CKeyValueParser.callFn
  cases hfn : S.m_fn with
  | _ParseKey =>
    simp only []
    unfold CKeyValueParser._ParseKey
    rcases hs : CKeyValueParser.scanTo (fun ch => ch = '=' || ch = delim || ch = fin) d with
      ⟨item, r⟩
    cases r with
    | nil => rfl
    | cons ch rest =>
      simp only []
      split_ifs <;> rfl
  | _ParseValue =>
    simp only []
    unfold CKeyValueParser._ParseValue
    rcases hs : CKeyValueParser.scanTo (fun ch => ch = delim || ch = fin) d with ⟨item, r⟩
    cases r with
    | nil => rfl
    | cons ch rest => rfl

theorem callFn_append_right (delim fin : Char) (S : CKeyValueParser) (d e : List Char)
    (ch : Char) (rest : List Char)
    (h : (CKeyValueParser.callFn delim fin S d).2 = ch :: rest) :
    CKeyValueParser.callFn delim fin S (d ++ e) =
      ((CKeyValueParser.callFn delim fin S d).1, ch :: (rest ++ e)) := by
  have hsnd := callFn_snd delim fin S d
  rw [h] at hsnd
  unfold CKeyValueParser.callFn
  cases hfn : S.m_fn with
  | _ParseKey =>
    rw [hfn] at hsnd
    simp only [] at hsnd ⊢
    have hs := scanTo_append_right _ d e ch rest hsnd.symm
    have hs0 : CKeyValueParser.scanTo (fun ch => ch = '=' || ch = delim || ch = fin) d =
        ((CKeyValueParser.scanTo (fun ch => ch = '=' || ch = delim || ch = fin) d).1,
          ch :: rest) := by rw [hsnd]
    unfold CKeyValueParser._ParseKey
    rw [hs]
    conv_rhs => rw [hs0]
    simp only []
    split_ifs <;> rfl
  | _ParseValue =>
    rw [hfn] at hsnd
    simp only [] at hsnd ⊢
    have hs := scanTo_append_right _ d e ch rest hsnd.symm
    have hs0 : CKeyValueParser.scanTo (fun ch => ch = delim || ch = fin) d =
        ((CKeyValueParser.scanTo (fun ch => ch = delim || ch = fin) d).1, ch :: rest) := by
      rw [hsnd]
    unfold CKeyValueParser._ParseValue
    rw [hs]
    conv_rhs => rw [hs0]

/-- Bytes `l` without a stop byte that are handed over in `m_data` give the same call as
the same bytes at the head of the input, when the rest of the input holds a stop byte. -/
theorem callFn_merge (delim fin : Char) (S : CKeyValueParser) (l d : List Char)
    (hl : (CKeyValueParser.callFn delim fin S l).2 = []) :
    ((CKeyValueParser.callFn delim fin { S with m_data := S.m_data ++ l } d).2 = [] →
      (CKeyValueParser.callFn delim fin S (l ++ d)).2 = []) ∧
    ((CKeyValueParser.callFn delim fin { S with m_data := S.m_data ++ l } d).2 ≠ [] →
      CKeyValueParser.callFn delim fin S (l ++ d) =
        CKeyValueParser.callFn delim fin { S with m_data := S.m_data ++ l } d) := by
  rw [callFn_snd] at hl
  rw [callFn_snd, callFn_snd]
  unfold CKeyValueParser.callFn
  obtain ⟨res, ki, key, ln, dat, fn⟩ := S
  cases fn with
  | _ParseKey =>
    simp only [] at hl ⊢
    have hno := (scanTo_nostop _ l).mp hl
    have hs := scanTo_append_left _ l d hno
    refine ⟨fun h => by rw [hs]; exact h, fun h => ?_⟩
    unfold CKeyValueParser._ParseKey
    rw [hs]
    rcases hd : CKeyValueParser.scanTo (fun ch => ch = '=' || ch = delim || ch = fin) d with
      ⟨item, r⟩
    rw [hd] at h
    cases r with
    | nil => exact absurd rfl h
    | cons ch rest =>
      simp only [List.append_assoc]
  | _ParseValue =>
    simp only [] at hl ⊢
    have hno := (scanTo_nostop _ l).mp hl
    have hs := scanTo_append_left _ l d hno
    refine ⟨fun h => by rw [hs]; exact h, fun h => ?_⟩
    unfold CKeyValueParser._ParseValue
    rw [hs]
    rcases hd : CKeyValueParser.scanTo (fun ch => ch = delim || ch = fin) d with ⟨item, r⟩
    rw [hd] at h
    cases r with
    | nil => exact absurd rfl h
    | cons ch rest =>
      simp only [List.append_assoc]

/-- The parse functions neither read nor write `m_ln`. -/
theorem callFn_ln (delim fin : Char) (S : CKeyValueParser) (k : Nat) (d : List Char) :
    CKeyValueParser.callFn delim fin { S with m_ln := k } d =
      ({ (CKeyValueParser.callFn delim fin S d).1 with m_ln := k },
        (CKeyValueParser.callFn delim fin S d).2) := by
  unfold CKeyValueParser.callFn
  obtain ⟨res, ki, key, ln, dat, fn⟩ := S
  cases fn with
  | _ParseKey =>
    simp only []
    unfold CKeyValueParser._ParseKey
    rcases hd : CKeyValueParser.scanTo (fun ch => ch = '=' || ch = delim || ch = fin) d with
      ⟨item, r⟩
    cases r with
    | nil => rfl
    | cons ch rest =>
      simp only []
      by_cases h1 : ch = '='
      · simp [h1]
      · by_cases h2 : ch = chNUL
        · have hne : ¬ chNUL = '=' := by decide
          simp [h2, hne, CKeyValueParser.StoreAttr]
        · simp [h1, h2, CKeyValueParser.StoreAttr]
  | _ParseValue =>
    simp only []
    unfold CKeyValueParser._ParseValue
    rcases hd : CKeyValueParser.scanTo (fun ch => ch = delim || ch = fin) d with ⟨item, r⟩
    cases r with
    | nil => rfl
    | cons ch rest =>
      cases ki <;> simp [CKeyValueParser.StoreAttr]

theorem callFn_ln_le (delim fin : Char) (S : CKeyValueParser) (d : List Char) :
    (CKeyValueParser.callFn delim fin S d).1.m_ln = S.m_ln := by
  have h := callFn_ln delim fin S S.m_ln d
  have h2 : ({ S with m_ln := S.m_ln } : CKeyValueParser) = S := rfl
  rw [h2] at h
  have h3 := congrArg (fun x => x.1.m_ln) h
  simp only [] at h3
  exact h3

theorem callFn_length (delim fin : Char) (S : CKeyValueParser) (d : List Char) :
    (CKeyValueParser.callFn delim fin S d).2.length ≤ d.length :=
  parseFn_length delim fin S d

theorem callFn_nil (delim fin : Char) (S : CKeyValueParser) :
    (CKeyValueParser.callFn delim fin S []).2 = [] := by
  rw [callFn_snd]
  cases S.m_fn <;> rfl

theorem parseLoop_zero (delim fin : Char) (S : CKeyValueParser) (d : List Char)
    (out : List TAttrs) : CKeyValueParser.parseLoop delim fin 0 S d out = (S, d, out) := rfl

/-- The loop of `DoParse` only appends to the attribute lists it has passed on. -/
theorem parseLoop_out (delim fin : Char) (o : List TAttrs) :
    ∀ (n : Nat) (S : CKeyValueParser) (d : List Char) (out : List TAttrs),
      CKeyValueParser.parseLoop delim fin n S d (o ++ out) =
        ((CKeyValueParser.parseLoop delim fin n S d out).1,
          (CKeyValueParser.parseLoop delim fin n S d out).2.1,
          o ++ (CKeyValueParser.parseLoop delim fin n S d out).2.2) := by
  intro n
  induction n with
  | zero => intro S d out; rfl
  | succ n ih =>
    intro S d out
    cases d with
    | nil => rfl
    | cons c cs =>
      rw [parseLoop_succ, parseLoop_succ]
      cases h : (CKeyValueParser.callFn delim fin S (c :: cs)).2 with
      | nil => rfl
      | cons ch rest =>
        simp only []
        split_ifs
        · rw [List.append_assoc]; exact ih _ _ _
        · exact ih _ _ _

/-- The loop of `DoParse` reads `m_ln` nowhere: started with another value of `m_ln` it
gives the same leftover and attribute lists and the same parser but for `m_ln`. -/
theorem parseLoop_ln (delim fin : Char) (k : Nat) :
    ∀ (n : Nat) (S : CKeyValueParser) (d : List Char) (out : List TAttrs),
      ({ (CKeyValueParser.parseLoop delim fin n { S with m_ln := k } d out).1 with m_ln := 0 }
          : CKeyValueParser) =
        { (CKeyValueParser.parseLoop delim fin n S d out).1 with m_ln := 0 } ∧
      (CKeyValueParser.parseLoop delim fin n { S with m_ln := k } d out).2 =
        (CKeyValueParser.parseLoop delim fin n S d out).2 := by
  intro n
  induction n with
  | zero => intro S d out; exact ⟨rfl, rfl⟩
  | succ n ih =>
    intro S d out
    cases d with
    | nil => exact ⟨rfl, rfl⟩
    | cons c cs =>
      rw [parseLoop_succ, parseLoop_succ, callFn_ln]
      cases h : (CKeyValueParser.callFn delim fin S (c :: cs)).2 with
      | nil => exact ⟨rfl, rfl⟩
      | cons ch rest =>
        simp only []
        split_ifs
        · exact ⟨rfl, rfl⟩
        · exact ih _ _ _

theorem parseLoop_ln_le (delim fin : Char) :
    ∀ (n : Nat) (S : CKeyValueParser) (d : List Char) (out : List TAttrs),
      (CKeyValueParser.parseLoop delim fin n S d out).1.m_ln ≤ S.m_ln := by
  intro n
  induction n with
  | zero => intro S d out; exact le_refl _
  | succ n ih =>
    intro S d out
    cases d with
    | nil => exact le_refl _
    | cons c cs =>
      rw [parseLoop_succ]
      have hln := callFn_ln_le delim fin S (c :: cs)
      cases h : (CKeyValueParser.callFn delim fin S (c :: cs)).2 with
      | nil => exact le_of_eq hln
      | cons ch rest =>
        simp only []
        split_ifs
        · exact le_trans (ih _ _ _) (Nat.zero_le _)
        · exact le_trans (ih _ _ _) (le_of_eq hln)

theorem parseLoop_leftover_le (delim fin : Char) :
    ∀ (n : Nat) (S : CKeyValueParser) (d : List Char) (out : List TAttrs),
      (CKeyValueParser.parseLoop delim fin n S d out).2.1.length ≤ d.length := by
  intro n
  induction n with
  | zero => intro S d out; exact le_refl _
  | succ n ih =>
    intro S d out
    cases d with
    | nil => exact le_refl _
    | cons c cs =>
      rw [parseLoop_succ]
      have hlen := callFn_length delim fin S (c :: cs)
      cases h : (CKeyValueParser.callFn delim fin S (c :: cs)).2 with
      | nil => exact le_refl _
      | cons ch rest =>
        rw [h] at hlen
        simp only [List.length_cons] at hlen ⊢
        split_ifs
        · exact le_trans (ih _ _ _) (by omega)
        · exact le_trans (ih _ _ _) (by omega)

/-- A call on input without a stop byte leaves the loop at once. -/
theorem parseLoop_nostop (delim fin : Char) (n : Nat) (S : CKeyValueParser) (d : List Char)
    (out : List TAttrs) (h : (CKeyValueParser.callFn delim fin S d).2 = [])
    (hn : d.length ≤ n) :
    CKeyValueParser.parseLoop delim fin n S d out = (S, d, out) := by
  cases n with
  | zero => rfl
  | succ n =>
    cases d with
    | nil => rfl
    | cons c cs =>
      rw [parseLoop_succ, h]
      simp only []
      rw [callFn_nostop delim fin S (c :: cs) h]

/-- The bytes the loop of `DoParse` leaves over hold no stop byte of the scan that comes
next. -/
theorem parseLoop_leftover_nostop (delim fin : Char) :
    ∀ (n : Nat) (S : CKeyValueParser) (d : List Char) (out : List TAttrs), d.length ≤ n →
      (CKeyValueParser.callFn delim fin (CKeyValueParser.parseLoop delim fin n S d out).1
        (CKeyValueParser.parseLoop delim fin n S d out).2.1).2 = [] := by
  intro n
  induction n with
  | zero =>
    intro S d out hn
    have hd : d = [] := List.length_eq_zero.mp (Nat.le_zero.mp hn)
    subst hd
    exact callFn_nil delim fin S
  | succ n ih =>
    intro S d out hn
    cases d with
    | nil => exact callFn_nil delim fin S
    | cons c cs =>
      rw [parseLoop_succ]
      have hlen := callFn_length delim fin S (c :: cs)
      cases h : (CKeyValueParser.callFn delim fin S (c :: cs)).2 with
      | nil =>
        simp only []
        rw [callFn_nostop delim fin S (c :: cs) h]
        exact h
      | cons ch rest =>
        rw [h] at hlen
        simp only [List.length_cons] at hlen hn
        simp only []
        split_ifs
        · exact ih _ _ _ (by omega)
        · exact ih _ _ _ (by omega)

/-- The loop of `DoParse` on `c1 ++ c2` goes through `c1` as the loop on `c1` alone does, and
goes on from the parser that loop ends with, on its leftover followed by `c2`. -/
theorem parseLoop_prefix (delim fin : Char) (c2 : List Char) :
    ∀ (n1 : Nat) (S : CKeyValueParser) (c1 : List Char) (out : List TAttrs) (n n2 : Nat),
      c1.length ≤ n1 → (c1 ++ c2).length ≤ n →
      ((CKeyValueParser.parseLoop delim fin n1 S c1 out).2.1 ++ c2).length ≤ n2 →
      CKeyValueParser.parseLoop delim fin n S (c1 ++ c2) out =
        CKeyValueParser.parseLoop delim fin n2
          (CKeyValueParser.parseLoop delim fin n1 S c1 out).1
          ((CKeyValueParser.parseLoop delim fin n1 S c1 out).2.1 ++ c2)
          (CKeyValueParser.parseLoop delim fin n1 S c1 out).2.2 := by
  intro n1
  induction n1 with
  | zero =>
    intro S c1 out n n2 h1 hn hn2
    have hd : c1 = [] := List.length_eq_zero.mp (Nat.le_zero.mp h1)
    subst hd
    rw [parseLoop_zero] at hn2 ⊢
    simp only [List.nil_append] at hn hn2 ⊢
    rw [parseLoop_fuel delim fin n c2 hn, parseLoop_fuel delim fin n2 c2 hn2]
  | succ n1 ih =>
    intro S c1 out n n2 h1 hn hn2
    cases c1 with
    | nil =>
      rw [parseLoop_nil] at hn2 ⊢
      simp only [List.nil_append] at hn hn2 ⊢
      rw [parseLoop_fuel delim fin n c2 hn, parseLoop_fuel delim fin n2 c2 hn2]
    | cons c cs =>
      have hlen := callFn_length delim fin S (c :: cs)
      rw [parseLoop_succ] at hn2 ⊢
      cases h : (CKeyValueParser.callFn delim fin S (c :: cs)).2 with
      | nil =>
        rw [h] at hn2
        simp only [] at hn2 ⊢
        rw [callFn_nostop delim fin S (c :: cs) h]
        rw [parseLoop_fuel delim fin n _ hn, parseLoop_fuel delim fin n2 _ hn2]
      | cons ch rest =>
        rw [h] at hn2 hlen
        simp only [] at hn2 ⊢
        have happ := callFn_append_right delim fin S (c :: cs) c2 ch rest h
        simp only [List.length_cons, List.length_append] at hlen hn h1
        cases n with
        | zero => omega
        | succ m =>
          have hcons : (c :: cs) ++ c2 = c :: (cs ++ c2) := rfl
          rw [hcons, parseLoop_succ, ← hcons, happ]
          simp only []
          by_cases hfin : ch = fin
          · simp only [if_pos hfin] at hn2 ⊢
            exact ih _ rest _ m n2 (by omega) (by simp only [List.length_append]; omega) hn2
          · simp only [if_neg hfin] at hn2 ⊢
            exact ih _ rest _ m n2 (by omega) (by simp only [List.length_append]; omega) hn2

/-- Bytes `l` without a stop byte that were handed over in `m_data` give the same loop as
the same bytes at the head of the input, when the input holds a stop byte. -/
theorem parseLoop_merge (delim fin : Char) (S : CKeyValueParser) (l c2 : List Char)
    (out : List TAttrs) (n n2 : Nat)
    (hl : (CKeyValueParser.callFn delim fin S l).2 = [])
    (hc : (CKeyValueParser.callFn delim fin { S with m_data := S.m_data ++ l } c2).2 ≠ [])
    (hn : (l ++ c2).length ≤ n) (hn2 : c2.length ≤ n2) :
    CKeyValueParser.parseLoop delim fin n S (l ++ c2) out =
      CKeyValueParser.parseLoop delim fin n2 { S with m_data := S.m_data ++ l } c2 out := by
  have hm := (callFn_merge delim fin S l c2 hl).2 hc
  have hlen := callFn_length delim fin { S with m_data := S.m_data ++ l } c2
  cases c2 with
  | nil => exact absurd (callFn_nil delim fin _) hc
  | cons c cs =>
    cases hlc : l ++ c :: cs with
    | nil => simp at hlc
    | cons x xs =>
      have hlen2 : (x :: xs).length = l.length + (cs.length + 1) := by
        rw [← hlc]; simp
      rw [hlc] at hn hm
      cases n with
      | zero => simp at hn
      | succ m =>
        cases n2 with
        | zero => simp at hn2
        | succ m2 =>
          rw [parseLoop_succ, parseLoop_succ, hm]
          cases h : (CKeyValueParser.callFn delim fin { S with m_data := S.m_data ++ l }
              (c :: cs)).2 with
          | nil => exact absurd h hc
          | cons ch rest =>
            rw [h] at hlen
            simp only [List.length_cons] at hlen hn hn2 hlen2
            simp only []
            have h1 : rest.length ≤ m := by omega
            have h2 : rest.length ≤ m2 := by omega
            split_ifs
            · rw [parseLoop_fuel delim fin m rest h1, parseLoop_fuel delim fin m2 rest h2]
            · rw [parseLoop_fuel delim fin m rest h1, parseLoop_fuel delim fin m2 rest h2]

/-- `DoParse` when the size check passes: the leftover of the loop is added to `m_data` and
its length to `m_ln`. -/
theorem DoParse_eq (delim fin : Char) (S : CKeyValueParser) (d : List Char)
    (hb : (CKeyValueParser.parseLoop delim fin d.length S d []).1.m_ln +
      (CKeyValueParser.parseLoop delim fin d.length S d []).2.1.length
        ≤ CKeyValueParser.MaxDataLen) :
    CKeyValueParser.DoParse delim fin S d =
      ({ (CKeyValueParser.parseLoop delim fin d.length S d []).1 with
          m_ln := (CKeyValueParser.parseLoop delim fin d.length S d []).1.m_ln +
            (CKeyValueParser.parseLoop delim fin d.length S d []).2.1.length
          m_data := (CKeyValueParser.parseLoop delim fin d.length S d []).1.m_data ++
            (CKeyValueParser.parseLoop delim fin d.length S d []).2.1 },
        (CKeyValueParser.parseLoop delim fin d.length S d []).2.2, none) := by
  unfold CKeyValueParser.DoParse
  simp only []
  rcases hr : CKeyValueParser.parseLoop delim fin d.length S d [] with ⟨T, lo, o⟩
  rw [hr] at hb
  simp only [] at hb ⊢
  cases lo with
  | nil => simp
  | cons b bs =>
    simp only []
    rw [if_neg (not_lt.mpr hb)]

/-- Two successive calls of `DoParse` against one call on the concatenation, below the size
limit: no call raises the size error, the attribute lists passed on are the same, and the
parsers agree but for `m_ln`. -/
theorem DoParse_two_chunks (delim fin : Char) (S : CKeyValueParser) (c1 c2 : List Char)
    (hb : S.m_ln + (c1.length + c2.length) ≤ CKeyValueParser.MaxDataLen) :
    (CKeyValueParser.DoParse delim fin S c1).2.2 = none ∧
    (CKeyValueParser.DoParse delim fin (CKeyValueParser.DoParse delim fin S c1).1 c2).2.2
      = none ∧
    (CKeyValueParser.DoParse delim fin S (c1 ++ c2)).2.2 = none ∧
    (CKeyValueParser.DoParse delim fin S c1).2.1 ++
      (CKeyValueParser.DoParse delim fin (CKeyValueParser.DoParse delim fin S c1).1 c2).2.1
      = (CKeyValueParser.DoParse delim fin S (c1 ++ c2)).2.1 ∧
    ({ (CKeyValueParser.DoParse delim fin (CKeyValueParser.DoParse delim fin S c1).1 c2).1 with
        m_ln := 0 } : CKeyValueParser) =
      { (CKeyValueParser.DoParse delim fin S (c1 ++ c2)).1 with m_ln := 0 } ∧
    (CKeyValueParser.DoParse delim fin S c1).1.m_ln ≤ S.m_ln + c1.length := by
  -- the first call
  have h1ln := parseLoop_ln_le delim fin c1.length S c1 []
  have h1lo := parseLoop_leftover_le delim fin c1.length S c1 []
  have hno := parseLoop_leftover_nostop delim fin c1.length S c1 [] (le_refl _)
  have hA := DoParse_eq delim fin S c1 (by omega)
  have hpre := parseLoop_prefix delim fin c2 c1.length S c1 [] (c1 ++ c2).length
    ((CKeyValueParser.parseLoop delim fin c1.length S c1 []).2.1 ++ c2).length
    (le_refl _) (le_refl _) (le_refl _)
  -- the one call on the whole input
  have hWln := parseLoop_ln_le delim fin (c1 ++ c2).length S (c1 ++ c2) []
  have hWlo := parseLoop_leftover_le delim fin (c1 ++ c2).length S (c1 ++ c2) []
  have hW := DoParse_eq delim fin S (c1 ++ c2)
    (by have := List.length_append c1 c2; omega)
  rcases hr1 : CKeyValueParser.parseLoop delim fin c1.length S c1 [] with ⟨S1, l1, o1⟩
  rw [hr1] at h1ln h1lo hno hA hpre
  simp only [] at h1ln h1lo hno hA hpre
  -- the second call
  have hBln := parseLoop_ln_le delim fin c2.length
    { S1 with m_ln := S1.m_ln + l1.length, m_data := S1.m_data ++ l1 } c2 []
  have hBlo := parseLoop_leftover_le delim fin c2.length
    { S1 with m_ln := S1.m_ln + l1.length, m_data := S1.m_data ++ l1 } c2 []
  have hB := DoParse_eq delim fin
    { S1 with m_ln := S1.m_ln + l1.length, m_data := S1.m_data ++ l1 } c2
    (by simp only [] at hBln; omega)
  refine ⟨by rw [hA], by rw [hA]; simp only []; rw [hB], by rw [hW], ?_, ?_,
    by rw [hA]; simp only []; omega⟩
  · -- the attribute lists
    rw [hA]
    simp only []
    rw [hB, hW, hpre]
    simp only []
    by_cases hc : (CKeyValueParser.callFn delim fin { S1 with m_data := S1.m_data ++ l1 } c2).2
        = []
    · have hcB : (CKeyValueParser.callFn delim fin
          { S1 with m_ln := S1.m_ln + l1.length, m_data := S1.m_data ++ l1 } c2).2 = [] := by
        have := callFn_ln delim fin { S1 with m_data := S1.m_data ++ l1 }
          (S1.m_ln + l1.length) c2
        rw [this]
        exact hc
      rw [parseLoop_nostop delim fin _ _ c2 [] hcB (le_refl _),
        parseLoop_nostop delim fin _ S1 (l1 ++ c2) o1
          ((callFn_merge delim fin S1 l1 c2 hno).1 hc) (le_refl _)]
      simp
    · rw [parseLoop_merge delim fin S1 l1 c2 o1 _ c2.length hno hc (le_refl _) (le_refl _)]
      have ho := parseLoop_out delim fin o1 c2.length { S1 with m_data := S1.m_data ++ l1 } c2 []
      rw [List.append_nil] at ho
      rw [ho]
      simp only []
      have hl := (parseLoop_ln delim fin (S1.m_ln + l1.length) c2.length
        { S1 with m_data := S1.m_data ++ l1 } c2 []).2
      have hl2 := congrArg (fun x => x.2) hl
      simp only [] at hl2
      exact congrArg (fun x => o1 ++ x) hl2
  · -- the parsers
    rw [hA]
    simp only []
    rw [hB, hW, hpre]
    simp only []
    by_cases hc : (CKeyValueParser.callFn delim fin { S1 with m_data := S1.m_data ++ l1 } c2).2
        = []
    · have hcB : (CKeyValueParser.callFn delim fin
          { S1 with m_ln := S1.m_ln + l1.length, m_data := S1.m_data ++ l1 } c2).2 = [] := by
        have := callFn_ln delim fin { S1 with m_data := S1.m_data ++ l1 }
          (S1.m_ln + l1.length) c2
        rw [this]
        exact hc
      rw [parseLoop_nostop delim fin _ _ c2 [] hcB (le_refl _),
        parseLoop_nostop delim fin _ S1 (l1 ++ c2) o1
          ((callFn_merge delim fin S1 l1 c2 hno).1 hc) (le_refl _)]
      simp
    · rw [parseLoop_merge delim fin S1 l1 c2 o1 _ c2.length hno hc (le_refl _) (le_refl _)]
      have ho := parseLoop_out delim fin o1 c2.length { S1 with m_data := S1.m_data ++ l1 } c2 []
      rw [List.append_nil] at ho
      rw [ho]
      simp only []
      have hl := parseLoop_ln delim fin (S1.m_ln + l1.length) c2.length
        { S1 with m_data := S1.m_data ++ l1 } c2 []
      have hl1 := hl.1
      have hl2 := congrArg (fun x => x.1) hl.2
      simp only [] at hl2
      rcases hx : CKeyValueParser.parseLoop delim fin c2.length
        { S1 with m_ln := S1.m_ln + l1.length, m_data := S1.m_data ++ l1 } c2 [] with
        ⟨TB, lB, oB⟩
      rcases hy : CKeyValueParser.parseLoop delim fin c2.length
        { S1 with m_data := S1.m_data ++ l1 } c2 [] with ⟨T, lT, oT⟩
      have hx' : CKeyValueParser.parseLoop delim fin c2.length
          { m_res := S1.m_res, m_key_init := S1.m_key_init, m_key := S1.m_key,
            m_ln := S1.m_ln + l1.length, m_data := S1.m_data ++ l1, m_fn := S1.m_fn } c2 []
          = (TB, lB, oB) := hx
      have hy' : CKeyValueParser.parseLoop delim fin c2.length
          { m_res := S1.m_res, m_key_init := S1.m_key_init, m_key := S1.m_key,
            m_ln := S1.m_ln, m_data := S1.m_data ++ l1, m_fn := S1.m_fn } c2 []
          = (T, lT, oT) := hy
      rw [hx', hy'] at hl1 hl2
      simp only [] at hl1 hl2
      subst hl2
      obtain ⟨r1, k1, y1, n1, d1, f1⟩ := TB
      obtain ⟨r2, k2, y2, n2, d2, f2⟩ := T
      simp only [CKeyValueParser.mk.injEq] at hl1 ⊢
      obtain ⟨e1, e2, e3, _, e5, e6⟩ := hl1
      exact ⟨e1, e2, e3, trivial, by rw [e5], e6⟩

theorem DoParse_nil (delim fin : Char) (S : CKeyValueParser) :
    CKeyValueParser.DoParse delim fin S [] = (S, [], none) := rfl

theorem DoParseChunks_flatten (delim fin : Char) :
    ∀ (chunks : List (List Char)) (S : CKeyValueParser),
      S.m_ln + chunks.flatten.length ≤ CKeyValueParser.MaxDataLen →
      (CKeyValueParser.DoParseChunks delim fin S chunks).2 =
        (CKeyValueParser.DoParse delim fin S chunks.flatten).2 ∧
      (CKeyValueParser.DoParse delim fin S chunks.flatten).2.2 = none ∧
      ({ (CKeyValueParser.DoParseChunks delim fin S chunks).1 with m_ln := 0 }
          : CKeyValueParser) =
        { (CKeyValueParser.DoParse delim fin S chunks.flatten).1 with m_ln := 0 } := by
  intro chunks
  induction chunks with
  | nil => intro S _; exact ⟨rfl, rfl, rfl⟩
  | cons c cs ih =>
    intro S hb
    simp only [List.flatten_cons, List.length_append] at hb ⊢
    obtain ⟨t1, t2, t3, t4, t5, t6⟩ := DoParse_two_chunks delim fin S c cs.flatten hb
    obtain ⟨i1, i2, i3⟩ := ih (CKeyValueParser.DoParse delim fin S c).1 (by omega)
    rcases hA : CKeyValueParser.DoParse delim fin S c with ⟨A, oA, eA⟩
    rw [hA] at t1 t2 t4 t5 i1 i3
    simp only [] at t1 t2 t4 t5 i1 i3
    subst t1
    simp only [CKeyValueParser.DoParseChunks, hA]
    refine ⟨?_, t3, by rw [i3]; exact t5⟩
    have j1 := congrArg (fun x => x.1) i1
    have j2 := congrArg (fun x => x.2) i1
    simp only [] at j1 j2
    rw [Prod.ext_iff]
    simp only []
    exact ⟨by rw [j1]; exact t4, by rw [j2, t2, t3]⟩

/-! ## Theorems: the key=value codec on input that arrives in chunks -/

/-- C40 (counterexample): the four bytes `ab=c` fed to a new parser in the two chunks `a` and
`b=c` leave `m_ln = 2` (the byte `a` left pending by the first call and the byte `c` left
pending by the second), while the single call on `ab=c` leaves `m_ln = 1`: the parser
states differ. -/
theorem C40_chunked_parser_state_counterexample :
    (CKeyValueParser.DoParseChunks chSOH chNUL {} [['a'], ['b', '=', 'c']]).1.m_ln = 2 ∧
    (CKeyValueParser.DoParse chSOH chNUL {} ([['a'], ['b', '=', 'c']].flatten)).1.m_ln = 1 ∧
    (CKeyValueParser.DoParseChunks chSOH chNUL {} [['a'], ['b', '=', 'c']]).1 ≠
      (CKeyValueParser.DoParse chSOH chNUL {} ([['a'], ['b', '=', 'c']].flatten)).1 := by
  refine ⟨rfl, rfl, ?_⟩
  intro h
  have h2 := congrArg (fun x => x.m_ln) h
  exact absurd h2 (by decide)

/-- C40 (amended): for every parser state and every byte string such that `m_ln` plus the
length of the string stays within `MaxDataLen`, and every way of splitting the string into
consecutive chunks, feeding the chunks one by one to `DoParse` raises no error, delivers
the same sequence of attribute lists as the single call on the whole string, and leaves the
same parser state but for the byte counter `m_ln` (result, pending key, pending bytes and
parse function are the same). -/
theorem C40_chunked_parse_same_output_and_state_but_ln (delim fin : Char)
    (S : CKeyValueParser) (chunks : List (List Char))
    (hb : S.m_ln + chunks.flatten.length ≤ CKeyValueParser.MaxDataLen) :
    (CKeyValueParser.DoParseChunks delim fin S chunks).2.1 =
      (CKeyValueParser.DoParse delim fin S chunks.flatten).2.1 ∧
    (CKeyValueParser.DoParseChunks delim fin S chunks).2.2 = none ∧
    (CKeyValueParser.DoParse delim fin S chunks.flatten).2.2 = none ∧
    (CKeyValueParser.DoParseChunks delim fin S chunks).1.m_res =
      (CKeyValueParser.DoParse delim fin S chunks.flatten).1.m_res ∧
    (CKeyValueParser.DoParseChunks delim fin S chunks).1.m_key_init =
      (CKeyValueParser.DoParse delim fin S chunks.flatten).1.m_key_init ∧
    (CKeyValueParser.DoParseChunks delim fin S chunks).1.m_key =
      (CKeyValueParser.DoParse delim fin S chunks.flatten).1.m_key ∧
    (CKeyValueParser.DoParseChunks delim fin S chunks).1.m_data =
      (CKeyValueParser.DoParse delim fin S chunks.flatten).1.m_data ∧
    (CKeyValueParser.DoParseChunks delim fin S chunks).1.m_fn =
      (CKeyValueParser.DoParse delim fin S chunks.flatten).1.m_fn := by
  obtain ⟨h1, h2, h3⟩ := DoParseChunks_flatten delim fin chunks S hb
  have j1 := congrArg (fun x => x.1) h1
  have j2 := congrArg (fun x => x.2) h1
  simp only [] at j1 j2
  have e1 := congrArg CKeyValueParser.m_res h3
  have e2 := congrArg CKeyValueParser.m_key_init h3
  have e3 := congrArg CKeyValueParser.m_key h3
  have e4 := congrArg CKeyValueParser.m_data h3
  have e5 := congrArg CKeyValueParser.m_fn h3
  exact ⟨j1, by rw [j2]; exact h2, h2, e1, e2, e3, e4, e5⟩

/-- Witness for C40: the wire bytes of the message `Order` with `user_id=U` and `symbol=X`,
cut after `Order`, `\1`, `user_` and `id=U\1sym`, fed to a new parser. -/
theorem C40_chunked_parse_same_output_and_state_but_ln_witness :
    (CKeyValueParser.DoParseChunks chSOH chNUL {}
        ["Order".data, [chSOH], "user_".data, "id=U".data ++ [chSOH] ++ "sym".data,
         "bol=X".data ++ [chSOH, chNUL]]).2.1 =
      (CKeyValueParser.DoParse chSOH chNUL {}
        (["Order".data, [chSOH], "user_".data, "id=U".data ++ [chSOH] ++ "sym".data,
          "bol=X".data ++ [chSOH, chNUL]].flatten)).2.1 ∧
    (CKeyValueParser.DoParse chSOH chNUL {}
        (["Order".data, [chSOH], "user_".data, "id=U".data ++ [chSOH] ++ "sym".data,
          "bol=X".data ++ [chSOH, chNUL]].flatten)).2.1 = [attrsOrderUX] :=
  ⟨(C40_chunked_parse_same_output_and_state_but_ln chSOH chNUL {}
      ["Order".data, [chSOH], "user_".data, "id=U".data ++ [chSOH] ++ "sym".data,
       "bol=X".data ++ [chSOH, chNUL]] (by decide)).1, by decide⟩

end RM
